import Mathlib

/-!
# Shortest-path engines over a growable multigraph

A shallow embedding of the graph store (`graph.hpp`), the frontier solver
(`sosp_engine.hpp`), the serial baseline (`sosp2.hpp`), the relaxation solver
(`hybrid_engine.cpp`), the path enumeration (`mosp_engine.hpp`), the Pareto
utilities (`pareto_utils.hpp`) and the distribution of a graph over ranks
(`metis_utils.cpp`, `mpi_distributor.cpp`).

Modelling conventions.

* Weights are integers.  There are two layers of arithmetic.  In the exact layer a
  `double` is an exact integer, the sentinel `numeric_limits<double>::max()` is
  `none` and a finite value `d` is `some d`; a property that no rounding can break
  (a fault of the control flow, a bound on the work, a value that is never
  written) is stated there.  In the binary64 layer (`Double`, namespace
  `Binary64`) a `double` is an integer that binary64 represents, an infinity or
  NaN, sums are rounded to nearest, ties to even, and the sentinel is the value
  `DBL_MAX`; what a solver returns as a distance is stated there, and the two
  layers are proved to agree while `node_count * W` stays below `2 ^ 53`, `W`
  bounding the weights.
* A `std::vector` is a `List`.  Reads use `List.getD`, writes use `List.set`;
  every theorem carries the size conditions under which the source's accesses
  are in range.
* Parallel regions run with one worker: loop bodies are executed one after the
  other, in index order.  The rounds of `hybrid_engine.cpp` are also run by a team
  of workers (`round_team`): every access to shared memory is one step, a
  schedule names the worker that takes the next step, and the run of one worker
  is proved to be one of the runs of the team.
* A `while` loop over a queue takes a bound on its iterations and returns `none`
  when the bound is reached; termination is proved as the existence of a bound
  for which it returns.
* A loop whose body may throw is a `fold_opt`: `none` as soon as one iteration
  throws (or divides by zero).
* The external partitioning routine (`metis_utils.cpp`) is a parameter: a function
  from its inputs and output buffer to a status and the buffer it leaves.
* `mpi_distributor.cpp` is run as one rank of `size` ranks sees it.  Every rank
  holds a copy of the same graph; the broadcast hands every rank the buffer rank 0
  computes.  `unordered_set` and `unordered_map` are visited in a fixed order
  (increasing ids, keys in order of first use).
-/

namespace PDC

/-! ## Distances -/

/-- Strict comparison `a < b` of two stored distances, `none` being the sentinel. -/
def Dist.lt : Option Int → Option Int → Bool
  | some x, some y => decide (x < y)
  | some _, none => true
  | none, _ => false

/-- Comparison `a <= b` of two stored distances, `none` being the sentinel. -/
def Dist.le (a b : Option Int) : Prop := Dist.lt b a = false

instance (a b : Option Int) : Decidable (Dist.le a b) := by
  unfold Dist.le; infer_instance

/-! ## graph.hpp -/

/-- Errors thrown by the graph store. -/
inductive GraphError where
  | invalid_argument
  | out_of_range
deriving DecidableEq

/-- The record `DynamicGraph::NodeData`. -/
structure NodeData where
  weights : List Int := []
  predecessor : Int := -1
  distance : Option Int := none
  visited : Bool := false
deriving DecidableEq

/-- The record `DynamicGraph::Edge`.  A stored target is never negative
(`add_edge` rejects negative ids), so it is a natural number. -/
structure Edge where
  target : Nat
  weights : List Int
deriving DecidableEq

/-- The private fields `adj`, `node_data` and `partitions` of `DynamicGraph`. -/
structure DynamicGraph where
  adj : List (List Edge) := []
  node_data : List NodeData := []
  partitions : List Int := []
deriving DecidableEq

namespace DynamicGraph

/-- The method `node_count()`. -/
def node_count (g : DynamicGraph) : Nat := g.node_data.length

/-- The method `edge_count()`. -/
def edge_count (g : DynamicGraph) : Nat := (g.adj.map List.length).sum

/-- The call `v.resize(max_node + 1, fill)` guarded by `max_node >= v.size()`. -/
def grow {α : Type} (v : List α) (max_node : Nat) (fill : α) : List α :=
  if v.length ≤ max_node then v ++ List.replicate (max_node + 1 - v.length) fill else v

/-- The private method `resize_if_needed(max_node)`. -/
def resize_if_needed (g : DynamicGraph) (max_node : Nat) : DynamicGraph :=
  { adj := grow g.adj max_node [],
    node_data := grow g.node_data max_node {},
    partitions := grow g.partitions max_node (-1) }

/-- The method `add_edge(src, tgt, weights)`. -/
def add_edge (g : DynamicGraph) (src tgt : Int) (weights : List Int) :
    Except GraphError DynamicGraph :=
  if src < 0 ∨ tgt < 0 then .error .invalid_argument
  else if weights.isEmpty then .error .invalid_argument
  else
    let g1 := g.resize_if_needed (max src tgt).toNat
    .ok { g1 with adj := g1.adj.set src.toNat (g1.adj.getD src.toNat [] ++ [⟨tgt.toNat, weights⟩]) }

/-- The method `get_edges(node)`: the comparison `node >= adj.size()` is unsigned,
so a negative id is out of range as well. -/
def get_edges (g : DynamicGraph) (node : Int) : Except GraphError (List Edge) :=
  if node < 0 ∨ (g.adj.length : Int) ≤ node then .error .out_of_range
  else .ok (g.adj.getD node.toNat [])

/-- Adds the edges of `es` one after the other with `add_edge`, starting from `g`;
`none` if one of the calls throws. -/
def add_edges (g : DynamicGraph) : List (Int × Int × List Int) → Option DynamicGraph
  | [] => some g
  | (s, t, w) :: rest =>
    match g.add_edge s t w with
    | .ok g1 => add_edges g1 rest
    | .error _ => none

/-- The class invariant the solvers rely on: `adj` has one entry per node, and
every stored edge has a target below `node_count` and a first weight. -/
def WellFormed (g : DynamicGraph) : Prop :=
  g.adj.length = g.node_count ∧
  ∀ es ∈ g.adj, ∀ e ∈ es, e.target < g.node_count ∧ e.weights ≠ []

instance (g : DynamicGraph) : Decidable g.WellFormed := by
  unfold WellFormed; infer_instance

/-- Every stored edge has a non-negative first weight. -/
def NonNegWeights (g : DynamicGraph) : Prop :=
  ∀ es ∈ g.adj, ∀ e ∈ es, 0 ≤ e.weights.headD 0

instance (g : DynamicGraph) : Decidable g.NonNegWeights := by
  unfold NonNegWeights; infer_instance

end DynamicGraph

/-! ## Walks and shortest distances (specification side) -/

/-- `Walk g s v d`: the graph has a walk from `s` to `v` whose first weights sum to `d`. -/
inductive Walk (g : DynamicGraph) (s : Nat) : Nat → Int → Prop where
  | nil : Walk g s s 0
  | snoc {u : Nat} {d : Int} (e : Edge) :
      Walk g s u d → e ∈ g.adj.getD u [] → Walk g s e.target (d + e.weights.headD 0)

/-- Node `v` can be reached from `s`. -/
def Reachable (g : DynamicGraph) (s v : Nat) : Prop := ∃ d, Walk g s v d

/-- `d` is the least weight of a walk from `s` to `v`. -/
def IsShortest (g : DynamicGraph) (s v : Nat) (d : Int) : Prop :=
  Walk g s v d ∧ ∀ d', Walk g s v d' → d ≤ d'

/-- The distance a correct solver stores for `v`: the least walk weight, or the
sentinel when there is no walk. -/
def IsTrueDistance (g : DynamicGraph) (s v : Nat) (x : Option Int) : Prop :=
  match x with
  | some d => IsShortest g s v d
  | none => ¬ Reachable g s v

/-! ## sosp_engine.hpp -/

/-- The fields `distances`, `predecessors` and `in_queue` of `SOSPEngine`. -/
structure SOSPEngine where
  distances : List (Option Int)
  predecessors : List Int
  in_queue : List Bool
deriving DecidableEq

/-- The frontier `global_queue`: a min-priority queue of `(distance, node)` pairs,
kept as a list sorted by the pair order, smallest first. -/
abbrev Frontier := List (Int × Nat)

/-- The order `std::greater<>` pops by: pairs compared by distance, then by node. -/
def Frontier.key_le (a b : Int × Nat) : Bool :=
  decide (a.1 < b.1) || (decide (a.1 = b.1) && decide (a.2 ≤ b.2))

/-- The call `global_queue.emplace(d, v)`. -/
def Frontier.push (k : Int × Nat) : Frontier → Frontier
  | [] => [k]
  | x :: xs => if Frontier.key_le k x then k :: x :: xs else x :: Frontier.push k xs

namespace SOSPEngine

/-- The constructor: `in_queue` gets one flag per node of the graph. -/
def new (g : DynamicGraph) : SOSPEngine :=
  { distances := [], predecessors := [], in_queue := List.replicate g.node_count false }

/-- The body of the loop over `graph.get_edges(u)` in `compute`, for one edge;
`cur` is `current.first`. -/
def relax_edge (u : Nat) (cur : Int) (st : SOSPEngine × Frontier) (edge : Edge) :
    SOSPEngine × Frontier :=
  let new_dist := cur + edge.weights.headD 0
  if Dist.lt (some new_dist) (st.1.distances.getD edge.target none) then
    let e1 : SOSPEngine :=
      { st.1 with
        distances := st.1.distances.set edge.target (some new_dist),
        predecessors := st.1.predecessors.set edge.target (u : Int) }
    if e1.in_queue.getD edge.target false = false then
      ({ e1 with in_queue := e1.in_queue.set edge.target true },
        Frontier.push (new_dist, edge.target) st.2)
    else (e1, st.2)
  else st

/-- The `while (global_active)` loop of `compute` run by one worker; `fuel` bounds
the number of iterations.  With one worker the termination protocol ends the loop
the first time the frontier is found empty.  `none`: no state is produced (the
fuel ran out, or `get_edges` threw inside the parallel region). -/
def compute_loop (g : DynamicGraph) : Nat → SOSPEngine → Frontier → Option SOSPEngine
  | 0, _, _ => none
  | _ + 1, e, [] => some e
  | fuel + 1, e, (d, u) :: rest =>
    let e1 : SOSPEngine := { e with in_queue := e.in_queue.set u false }
    if Dist.lt (e1.distances.getD u none) (some d) then compute_loop g fuel e1 rest
    else
      match g.get_edges (u : Int) with
      | .error _ => none
      | .ok edges =>
        let st := edges.foldl (relax_edge u d) (e1, rest)
        compute_loop g fuel st.1 st.2

/-- The method `compute(source)`. -/
def compute (g : DynamicGraph) (e : SOSPEngine) (source : Nat) (fuel : Nat) :
    Option SOSPEngine :=
  let e0 : SOSPEngine :=
    { distances := (List.replicate g.node_count (none : Option Int)).set source (some 0),
      predecessors := List.replicate g.node_count (-1),
      in_queue := (e.in_queue.map fun _ => false).set source true }
  compute_loop g fuel e0 [(0, source)]

/-- The inner loop of `update` for one edge of node `u`: `distances[u]` is read
again for every edge. -/
def update_edge (u : Nat) (e : SOSPEngine) (edge : Edge) : SOSPEngine :=
  match e.distances.getD u none with
  | none => e
  | some du =>
    let new_dist := du + edge.weights.headD 0
    if Dist.lt (some new_dist) (e.distances.getD edge.target none) then
      { e with
        distances := e.distances.set edge.target (some new_dist),
        predecessors := e.predecessors.set edge.target (u : Int) }
    else e

/-- The loop `for (u = 0; u < node_count; ++u)` of `update`, over the ids `us`. -/
def update_loop (g : DynamicGraph) (affected : List Bool) :
    List Nat → SOSPEngine → Option SOSPEngine
  | [], e => some e
  | u :: us, e =>
    if affected.getD u false then
      match g.get_edges (u : Int) with
      | .error _ => none
      | .ok edges => update_loop g affected us (edges.foldl (update_edge u) e)
    else update_loop g affected us e

/-- The method `update(changed_edges)`; `none` if `get_edges` threw. -/
def update (g : DynamicGraph) (e : SOSPEngine) (changed_edges : List Nat) :
    Option SOSPEngine :=
  let affected := changed_edges.foldl (fun a c => a.set c true)
    (List.replicate g.node_count false)
  update_loop g affected (List.range g.node_count) e

/-- The method `get_distance(node)`. -/
def get_distance (e : SOSPEngine) (node : Int) : Except GraphError (Option Int) :=
  if node < 0 ∨ (e.distances.length : Int) ≤ node then .error .out_of_range
  else .ok (e.distances.getD node.toNat none)

end SOSPEngine

/-! ## hybrid_engine.cpp -/

/-- The fields `atomic_distances` and `predecessors` of `HybridEngine`. -/
structure HybridEngine where
  atomic_distances : List (Option Int)
  predecessors : List Int
deriving DecidableEq

namespace HybridEngine

/-- The constructor. -/
def new (g : DynamicGraph) : HybridEngine :=
  { atomic_distances := List.replicate g.node_count none,
    predecessors := List.replicate g.node_count (-1) }

/-- The body of the loop over `graph.get_edges(u)` for one edge, in the exact
layer; `dist_u` was loaded before the loop.  With one worker the compare-and-swap
succeeds at its first attempt and the predecessor is written before anything else
runs.  The flag is `changed`.  `Binary64.HybridEngine.relax_edge` rounds the sum;
`Binary64.HybridEngine.step` takes the compare-and-swap and the write of the
predecessor as the two steps they are. -/
def relax_edge (u : Nat) (dist_u : Int) (st : HybridEngine × Bool) (edge : Edge) :
    HybridEngine × Bool :=
  if st.1.atomic_distances.length ≤ edge.target then st
  else
    match edge.weights with
    | [] => st
    | w :: _ =>
      let new_dist := dist_u + w
      if Dist.lt (some new_dist) (st.1.atomic_distances.getD edge.target none) then
        ({ atomic_distances := st.1.atomic_distances.set edge.target (some new_dist),
           predecessors := st.1.predecessors.set edge.target (u : Int) }, true)
      else st

/-- The body of the parallel `for` over `u`: one node of one round. -/
def relax_node (g : DynamicGraph) (st : HybridEngine × Bool) (u : Nat) :
    HybridEngine × Bool :=
  match st.1.atomic_distances.getD u none with
  | none => st
  | some dist_u =>
    match g.get_edges (u : Int) with
    | .error _ => st
    | .ok edges => edges.foldl (relax_edge u dist_u) st

/-- One round: the `for` over all nodes, starting with `changed = false`. -/
def round (g : DynamicGraph) (e : HybridEngine) : HybridEngine × Bool :=
  (List.range g.node_count).foldl (relax_node g) (e, false)

/-- The `do ... while (changed && iterations < MAX_ITERATIONS)` loop; the first
argument is `MAX_ITERATIONS - iterations - 1`, the number of rounds that may
still follow the one about to run. -/
def rounds (g : DynamicGraph) : Nat → HybridEngine → HybridEngine
  | 0, e => (round g e).1
  | k + 1, e =>
    let r := round g e
    if r.2 then rounds g k r.1 else r.1

/-- The method `compute_parallel(source)`. -/
def compute_parallel (g : DynamicGraph) (e : HybridEngine) (source : Int) : HybridEngine :=
  if source < 0 ∨ (g.node_count : Int) ≤ source then e
  else
    let e0 : HybridEngine :=
      { e with atomic_distances :=
          (e.atomic_distances.map fun _ => (none : Option Int)).set source.toNat (some 0) }
    let max_iterations := max 100 (g.node_count - 1)
    rounds g (max_iterations - 1) e0

/-- The method `get_distances()`. -/
def get_distances (e : HybridEngine) : List (Option Int) := e.atomic_distances

end HybridEngine

/-! ## path_result.hpp and pareto_utils.hpp -/

/-- The record `PathResult`. -/
structure PathResult where
  nodes : List Nat
  objectives : List Int
deriving DecidableEq

namespace Pareto

/-- The loop of `dominates` from index `i` on, `better` being `at_least_one_better`;
the lists are the remaining entries of `a` and `b`.  Reading `b` past its end is
undefined in the source; the model reads `0` there. -/
def dominates_from : List Int → List Int → Bool → Bool
  | [], _, better => better
  | x :: xs, ys, better =>
    if x > ys.headD 0 then false
    else dominates_from xs ys.tail (better || decide (x < ys.headD 0))

/-- The function `Pareto::dominates(a, b)`. -/
def dominates (a b : List Int) : Bool := dominates_from a b false

/-- The `while (it != paths.end())` loop of `DominanceFilter<PathResult>::filter`.
The vector is `kept ++ rest` and `it` points at the head of `rest`; the inner loop
compares `*it` with every other element of the vector as it is at that moment. -/
def filter_loop (kept : List PathResult) : List PathResult → List PathResult
  | [] => kept
  | p :: rest =>
    if (kept ++ rest).any (fun other => dominates other.objectives p.objectives) then
      filter_loop kept rest
    else filter_loop (kept ++ [p]) rest

/-- The function `Pareto::filter_dominated` at `PathResult`. -/
def filter_dominated (paths : List PathResult) : List PathResult := filter_loop [] paths

end Pareto

end PDC

/-! ## Invariants and measures used by the proofs -/

namespace PDC

/-- A property of `(node, distance)` pairs that every edge carries from its source
to its target. -/
def EdgeClosed (g : DynamicGraph) (P : Nat → Int → Prop) : Prop :=
  ∀ u d, P u d → ∀ e ∈ g.adj.getD u [], P e.target (d + e.weights.headD 0)

/-- Invariant of the frontier loop: one distance per node, every frontier entry
names a node of the graph, and `P` holds of every frontier entry and of every
finite distance. -/
def SOSPEngine.Inv (g : DynamicGraph) (P : Nat → Int → Prop) (e : SOSPEngine)
    (q : Frontier) : Prop :=
  e.distances.length = g.node_count ∧
  (∀ p ∈ q, p.2 < g.node_count ∧ P p.2 p.1) ∧
  (∀ v d, e.distances.getD v none = some d → P v d)

/-- Number of cells holding the sentinel. -/
def infCount : List (Option Int) → Nat
  | [] => 0
  | none :: l => infCount l + 1
  | some _ :: l => infCount l

/-- Sum of the finite cells. -/
def finSum : List (Option Int) → Nat
  | [] => 0
  | none :: l => finSum l
  | some d :: l => d.toNat + finSum l

/-- Lexicographic "not larger" on pairs of naturals. -/
def LexLe (x y : Nat × Nat) : Prop := x.1 < y.1 ∨ (x.1 = y.1 ∧ x.2 ≤ y.2)

/-- Termination measure of the frontier loop. -/
def SOSPEngine.measure (st : SOSPEngine × Frontier) : Nat × Nat :=
  (infCount st.1.distances, 2 * finSum st.1.distances + st.2.length)

end PDC

namespace PDC

/-- Invariant of the relaxation rounds: one cell per node, and `P` holds of every
finite cell. -/
def HybridEngine.Inv (g : DynamicGraph) (P : Nat → Int → Prop) (e : HybridEngine) : Prop :=
  e.atomic_distances.length = g.node_count ∧
  ∀ v d, e.atomic_distances.getD v none = some d → P v d

/-- `WalkV g s v d vs`: a walk from `s` to `v` of weight `d` visiting the nodes `vs`,
the last one first. -/
inductive WalkV (g : DynamicGraph) (s : Nat) : Nat → Int → List Nat → Prop where
  | nil : WalkV g s s 0 [s]
  | snoc {u : Nat} {d : Int} {vs : List Nat} (e : Edge) :
      WalkV g s u d vs → e ∈ g.adj.getD u [] →
        WalkV g s e.target (d + e.weights.headD 0) (e.target :: vs)

/-- The cells are at most the weight of every walk with at most `k` edges. -/
def HybridEngine.Bounded (g : DynamicGraph) (s : Nat) (k : Nat) (e : HybridEngine) : Prop :=
  ∀ v d vs, WalkV g s v d vs → vs.length ≤ k + 1 →
    Dist.le (e.atomic_distances.getD v none) (some d)

end PDC

/-! ## Concrete inputs -/

namespace PDC

/-- The graph of `test_small_graph_shortest_path` (test_sosp.cpp). -/
def small_graph : DynamicGraph :=
  { adj := [[⟨1, [2]⟩, ⟨3, [4]⟩], [⟨2, [3]⟩, ⟨3, [1]⟩, ⟨4, [4]⟩], [⟨5, [1]⟩], [⟨4, [2]⟩],
      [⟨5, [5]⟩], []],
    node_data := List.replicate 6 {},
    partitions := List.replicate 6 (-1) }

/-- What `compute(0)` leaves in the engine on `small_graph`. -/
def small_graph_result : SOSPEngine :=
  { distances := [some 0, some 2, some 5, some 3, some 6, some 6],
    predecessors := [-1, 0, 1, 1, 1, 2],
    in_queue := [false, false, false, false, false, false] }

/-- The bidirectional 4-cycle of `main_hybrid.cpp`. -/
def cycle_graph : DynamicGraph :=
  { adj := [[⟨1, [4]⟩, ⟨2, [2]⟩], [⟨0, [4]⟩, ⟨3, [5]⟩], [⟨0, [2]⟩, ⟨3, [1]⟩],
      [⟨1, [5]⟩, ⟨2, [1]⟩]],
    node_data := List.replicate 4 {},
    partitions := List.replicate 4 (-1) }

/-- The chain of `test_dynamic_update` (test_sosp.cpp) before the edge `0 -> 2` is added. -/
def chain_graph : DynamicGraph :=
  { adj := [[⟨1, [5]⟩], [⟨2, [3]⟩], []],
    node_data := List.replicate 3 {},
    partitions := List.replicate 3 (-1) }

/-- The chain of `test_dynamic_update` after `add_edge(0, 2, {6.0})`. -/
def chain_graph_edited : DynamicGraph :=
  { adj := [[⟨1, [5]⟩, ⟨2, [6]⟩], [⟨2, [3]⟩], []],
    node_data := List.replicate 3 {},
    partitions := List.replicate 3 (-1) }

/-- What `compute(0)` leaves in the engine on `chain_graph`. -/
def chain_result : SOSPEngine :=
  { distances := [some 0, some 5, some 8],
    predecessors := [-1, 0, 1],
    in_queue := [false, false, false] }

/-- The graph of `test_disconnected_components` (test_sosp.cpp). -/
def disconnected_graph : DynamicGraph :=
  { adj := [[⟨1, [2]⟩], [⟨2, [3]⟩], [], [⟨4, [1]⟩], []],
    node_data := List.replicate 5 {},
    partitions := List.replicate 5 (-1) }

/-- What `compute(0)` leaves in the engine on `disconnected_graph`. -/
def disconnected_result : SOSPEngine :=
  { distances := [some 0, some 2, some 5, none, none],
    predecessors := [-1, 0, 1, -1, -1],
    in_queue := [false, false, false, false, false] }

/-- Three results with two objectives each. -/
def sample_paths : List PathResult :=
  [⟨[0, 1, 3], [3, 3]⟩, ⟨[0, 2, 3], [1, 5]⟩, ⟨[0, 3], [2, 2]⟩]

end PDC

/-! ## graph.hpp: the other methods of the store -/

namespace PDC
namespace DynamicGraph

/-- The constructor `DynamicGraph(initial_size)`. -/
def create (initial_size : Nat) : DynamicGraph :=
  if 0 < initial_size then resize_if_needed {} (initial_size - 1) else {}

/-- The statements of `add_node(node_id, data)` in order: the error thrown, if any,
and the object as the call leaves it. -/
def add_node_exec (g : DynamicGraph) (node_id : Int) (data : NodeData) :
    Option GraphError × DynamicGraph :=
  if node_id < 0 then (some .invalid_argument, g)
  else
    let g1 := g.resize_if_needed node_id.toNat
    (none, { g1 with node_data := g1.node_data.set node_id.toNat data })

/-- The statements of `add_edge(src, tgt, weights)` in order: the error thrown, if
any, and the object as the call leaves it. -/
def add_edge_exec (g : DynamicGraph) (src tgt : Int) (weights : List Int) :
    Option GraphError × DynamicGraph :=
  if src < 0 ∨ tgt < 0 then (some .invalid_argument, g)
  else if weights.isEmpty then (some .invalid_argument, g)
  else
    let g1 := g.resize_if_needed (max src tgt).toNat
    (none, { g1 with
      adj := g1.adj.set src.toNat (g1.adj.getD src.toNat [] ++ [⟨tgt.toNat, weights⟩]) })

/-- The method `remove_edge(src, tgt)`: the comparisons with `adj.size()` are
unsigned, so a negative id is out of range as well. -/
def remove_edge (g : DynamicGraph) (src tgt : Int) : DynamicGraph :=
  if src < 0 ∨ (g.adj.length : Int) ≤ src ∨ tgt < 0 ∨ (g.adj.length : Int) ≤ tgt then g
  else
    let kept := (g.adj.getD src.toNat []).filter fun e => decide ((e.target : Int) ≠ tgt)
    { g with adj := g.adj.set src.toNat kept }

/-- The method `get_neighbors(node)`. -/
def get_neighbors (g : DynamicGraph) (node : Int) : List Nat :=
  if node < 0 ∨ (g.adj.length : Int) ≤ node then []
  else (g.adj.getD node.toNat []).map fun e => e.target

/-- The statements of `set_partition(node_id, partition_id)` in order: the error
thrown, if any, and the object as the call leaves it. -/
def set_partition_exec (g : DynamicGraph) (node_id partition_id : Int) :
    Option GraphError × DynamicGraph :=
  if node_id < 0 then (some .invalid_argument, g)
  else
    let g1 := g.resize_if_needed node_id.toNat
    (none, { g1 with partitions := g1.partitions.set node_id.toNat partition_id })

/-- The method `get_partition(node_id)`. -/
def get_partition (g : DynamicGraph) (node_id : Int) : Except GraphError Int :=
  if node_id < 0 ∨ (g.partitions.length : Int) ≤ node_id then .error .out_of_range
  else .ok (g.partitions.getD node_id.toNat (-1))

/-- The method `get_partitions()`. -/
def get_partitions (g : DynamicGraph) : List Int := g.partitions

/-- The method `clear()`, on the three fields modelled here. -/
def clear (_g : DynamicGraph) : DynamicGraph := {}

/-- A call of one of the mutating methods. -/
inductive Op where
  | add_node (node_id : Int) (data : NodeData)
  | add_edge (src tgt : Int) (weights : List Int)
  | remove_edge (src tgt : Int)
  | set_partition (node_id partition_id : Int)
  | clear
deriving DecidableEq

/-- The object after the call `op`, whether or not the call threw. -/
def apply (g : DynamicGraph) : Op → DynamicGraph
  | .add_node n d => (g.add_node_exec n d).2
  | .add_edge s t w => (g.add_edge_exec s t w).2
  | .remove_edge s t => g.remove_edge s t
  | .set_partition n p => (g.set_partition_exec n p).2
  | .clear => g.clear

/-- The object built by `DynamicGraph(initial_size)` followed by the calls `ops`. -/
def run (initial_size : Nat) (ops : List Op) : DynamicGraph :=
  ops.foldl apply (create initial_size)

/-- The size condition of the class invariant: the three arrays have the same length. -/
def SameSizes (g : DynamicGraph) : Prop :=
  g.adj.length = g.node_data.length ∧ g.partitions.length = g.node_data.length

/-- The buffers `xadj_metis`, `adjncy_metis` and `weights_metis` of `DynamicGraph`,
kept apart from the three fields of the store. -/
structure MetisBuffers where
  xadj : List Int := []
  adjncy : List Int := []
  weights : List Int := []
deriving DecidableEq

/-- The call `v.resize(n)` of a vector of `idx_t`. -/
def resize_idx (v : List Int) (n : Nat) : List Int :=
  v.take n ++ List.replicate (n - v.length) 0

/-- The inner loop of `get_metis_xadj` for one edge.  The conversion of the first
weight to `idx_t` is the identity on the integers of the model. -/
def metis_edge (b : MetisBuffers) (edge : Edge) : MetisBuffers :=
  let b1 := { b with adjncy := b.adjncy ++ [(edge.target : Int)] }
  match edge.weights with
  | [] => b1
  | w :: _ => { b1 with weights := b1.weights ++ [w] }

/-- The body of the outer loop of `get_metis_xadj` for node `i`. -/
def metis_node (g : DynamicGraph) (b : MetisBuffers) (i : Nat) : MetisBuffers :=
  let b1 := { b with xadj := b.xadj.set (i + 1) (b.xadj.getD i 0 + ((g.adj.getD i []).length : Int)) }
  (g.adj.getD i []).foldl metis_edge b1

/-- The method `get_metis_xadj()`: the buffers as the call leaves them. -/
def get_metis_xadj (g : DynamicGraph) (b : MetisBuffers) : MetisBuffers :=
  let b0 : MetisBuffers :=
    { xadj := (resize_idx b.xadj (g.adj.length + 1)).set 0 0, adjncy := [], weights := [] }
  (List.range g.adj.length).foldl (metis_node g) b0

end DynamicGraph

/-! ### Histories of calls (specification side) -/

/-- One call read by `history_edges`: an accepted `add_edge(node, t, w)` appends
`(t, w)`, a `remove_edge(node, t)` removes the edges to `t`, a `clear()` removes
everything. -/
def history_step (node : Nat) (acc : List Edge) : DynamicGraph.Op → List Edge
  | .add_edge s t w =>
    if 0 ≤ s ∧ 0 ≤ t ∧ w ≠ [] ∧ s.toNat = node then acc ++ [⟨t.toNat, w⟩] else acc
  | .remove_edge s t =>
    if s = (node : Int) then acc.filter fun e => decide ((e.target : Int) ≠ t) else acc
  | .clear => []
  | _ => acc

/-- Modelled on the words "the edges added with source `node` and not removed
since, in insertion order": the history `ops` read from the left. -/
def history_edges (node : Nat) (ops : List DynamicGraph.Op) : List Edge :=
  ops.foldl (history_step node) []

/-- One call read by `last_written_ever`. -/
def written_step (i : Nat) (acc : Int) : DynamicGraph.Op → Int
  | .set_partition n p => if n = (i : Int) then p else acc
  | _ => acc

/-- Modelled on the words "the value last written by `set_partition` for node `i`
or the unassigned sentinel -1 if none was written", over the whole history. -/
def last_written_ever (i : Nat) (ops : List DynamicGraph.Op) : Int :=
  ops.foldl (written_step i) (-1)

/-- One call read by `last_written`: a `clear()` forgets the writes before it. -/
def written_since_clear_step (i : Nat) (acc : Int) : DynamicGraph.Op → Int
  | .set_partition n p => if n = (i : Int) then p else acc
  | .clear => -1
  | _ => acc

/-- The value last written by `set_partition` for node `i` since the last `clear()`,
or -1 if none was written since. -/
def last_written (i : Nat) (ops : List DynamicGraph.Op) : Int :=
  ops.foldl (written_since_clear_step i) (-1)

end PDC

namespace PDC

/-- The triangle of `test_metis_partitioning` (test_graph.cpp). -/
def triangle_graph : DynamicGraph :=
  { adj := [[⟨1, [1, 1]⟩], [⟨2, [1, 1]⟩], [⟨0, [1, 1]⟩]],
    node_data := List.replicate 3 {},
    partitions := List.replicate 3 (-1) }

/-- The graph of `test_add_remove_edges` (test_graph.cpp) after its two `add_edge` calls. -/
def two_edge_graph : DynamicGraph :=
  { adj := [[⟨1, [4, 10]⟩, ⟨2, [2, 15]⟩], [], []],
    node_data := List.replicate 3 {},
    partitions := List.replicate 3 (-1) }

end PDC

namespace PDC

/-- Number of edges leaving the nodes `0 .. j-1`. -/
def DynamicGraph.degree_sum (g : DynamicGraph) (j : Nat) : Nat :=
  ((g.adj.take j).map List.length).sum

/-- The targets of the edges leaving the nodes `0 .. k-1`, node after node. -/
def DynamicGraph.targets_upto (g : DynamicGraph) (k : Nat) : List Int :=
  ((g.adj.take k).map fun es => es.map fun e => (e.target : Int)).flatten

end PDC

namespace PDC

/-- Modelled on the words "no path of the original input dominates it": `p` is not
dominated by any result of `paths`. -/
def Pareto.nondominated (paths : List PathResult) (p : PathResult) : Bool :=
  !paths.any fun q => Pareto.dominates q.objectives p.objectives

/-- Modelled on the words "the objective equals the minimum objective over the
input", for results with a single objective. -/
def Pareto.is_minimal (paths : List PathResult) (p : PathResult) : Bool :=
  paths.all fun q => decide (p.objectives.getD 0 0 ≤ q.objectives.getD 0 0)

/-- Four results with one objective each, two of them minimal. -/
def single_objective_paths : List PathResult :=
  [⟨[0, 1, 3], [5]⟩, ⟨[0, 2, 3], [3]⟩, ⟨[0, 3], [7]⟩, ⟨[0, 4, 3], [3]⟩]

end PDC

/-! ## mosp_engine.hpp -/

namespace PDC

/-- The fields `sosp_engines` and `weight_indices` of `MOSPEngine`. -/
structure MOSPEngine where
  sosp_engines : List SOSPEngine
  weight_indices : List Nat
deriving DecidableEq

namespace MOSPEngine

/-- The constructor: one `SOSPEngine` per index. -/
def new (g : DynamicGraph) (indices : List Nat) : MOSPEngine :=
  { sosp_engines := indices.map fun _ => SOSPEngine.new g, weight_indices := indices }

/-- The loop `new_objs[i] += edge.weights[weight_indices[i]]` over the indices;
`current_objs` has one entry per index.  Reading a weight past the end of
`edge.weights` is undefined in the source; the model reads `0` there. -/
def add_weights (objs : List Int) (weight_indices : List Nat) (edge : Edge) : List Int :=
  List.zipWith (fun o j => o + edge.weights.getD j 0) objs weight_indices

/-- The loop over `graph.get_edges(u)` in `extract_paths`, `f` being the recursive
call for one edge; `none` as soon as one call gives no result. -/
def fold_edges (f : Edge → List PathResult → Option (List PathResult)) :
    List Edge → List PathResult → Option (List PathResult)
  | [], paths => some paths
  | edge :: rest, paths =>
    match f edge paths with
    | none => none
    | some paths1 => fold_edges f rest paths1

/-- The method `extract_paths(u, target, current_nodes, current_objs, paths)`;
`fuel` bounds the depth of the recursion.  `none`: no result (the fuel ran out, or
`get_edges` threw). -/
def extract_paths (g : DynamicGraph) (weight_indices : List Nat) (target : Nat) :
    Nat → Nat → List Nat → List Int → List PathResult → Option (List PathResult)
  | 0, _, _, _, _ => none
  | fuel + 1, u, current_nodes, current_objs, paths =>
    if u = target then some (paths ++ [⟨current_nodes, current_objs⟩])
    else
      match g.get_edges (u : Int) with
      | .error _ => none
      | .ok edges =>
        fold_edges (fun edge acc =>
          extract_paths g weight_indices target fuel edge.target
            (current_nodes ++ [edge.target]) (add_weights current_objs weight_indices edge) acc)
          edges paths

/-- The vector `all_paths` of `compute_pareto` before `filter_dominated` is applied. -/
def all_paths (g : DynamicGraph) (m : MOSPEngine) (source target fuel : Nat) :
    Option (List PathResult) :=
  extract_paths g m.weight_indices target fuel source [source]
    (List.replicate m.weight_indices.length 0) []

/-- The loop `sosp_engines[i].compute(source)` of `compute_pareto`, one worker. -/
def compute_all (g : DynamicGraph) (source fuel : Nat) :
    List SOSPEngine → Option (List SOSPEngine)
  | [] => some []
  | e :: rest =>
    match SOSPEngine.compute g e source fuel with
    | none => none
    | some e1 =>
      match compute_all g source fuel rest with
      | none => none
      | some rest1 => some (e1 :: rest1)

/-- The method `compute_pareto(source, target)`: the engine as the call leaves it
and the vector returned. -/
def compute_pareto (g : DynamicGraph) (m : MOSPEngine) (source target fuel : Nat) :
    Option (MOSPEngine × List PathResult) :=
  match compute_all g source fuel m.sosp_engines with
  | none => none
  | some engines =>
    match all_paths g m source target fuel with
    | none => none
    | some paths =>
      some ({ m with sosp_engines := engines }, Pareto.filter_dominated paths)

end MOSPEngine

/-! ### Walks as sequences of edge choices (specification side) -/

end PDC

/-! ## graph.hpp: node data and partition extraction -/

namespace PDC
namespace DynamicGraph

/-- The method `get_node_data(node)`: the comparison with `node_data.size()` is
unsigned, so a negative id is out of range as well. -/
def get_node_data (g : DynamicGraph) (node : Int) : Except GraphError NodeData :=
  if node < 0 ∨ (g.node_data.length : Int) ≤ node then .error .out_of_range
  else .ok (g.node_data.getD node.toNat {})

/-- A loop whose body may throw: `none` as soon as one iteration gives no result. -/
def fold_opt {σ α : Type} (f : σ → α → Option σ) : List α → σ → Option σ
  | [], s => some s
  | x :: xs, s =>
    match f s x with
    | none => none
    | some s1 => fold_opt f xs s1

/-- The call `sub.add_node(i, data)` for an id that is an index; `none` if it throws. -/
def try_add_node (sub : DynamicGraph) (i : Nat) (data : NodeData) : Option DynamicGraph :=
  match sub.add_node_exec (i : Int) data with
  | (none, sub1) => some sub1
  | (some _, _) => none

/-- The call `sub.set_partition(i, p)` for an id that is an index; `none` if it throws. -/
def try_set_partition (sub : DynamicGraph) (i : Nat) (p : Int) : Option DynamicGraph :=
  match sub.set_partition_exec (i : Int) p with
  | (none, sub1) => some sub1
  | (some _, _) => none

/-- The call `sub.add_edge(u, edge.target, edge.weights)`; `none` if it throws. -/
def try_add_edge (sub : DynamicGraph) (u : Nat) (edge : Edge) : Option DynamicGraph :=
  match sub.add_edge (u : Int) (edge.target : Int) edge.weights with
  | .ok sub1 => some sub1
  | .error _ => none

/-- The body of the first loop of `extract_partition` for index `i`. -/
def extract_node (g : DynamicGraph) (partitions : List Int) (my_partition : Int)
    (sub : DynamicGraph) (i : Nat) : Option DynamicGraph :=
  if partitions.getD i (-1) = my_partition then
    try_add_node sub i (g.node_data.getD i {})
  else some sub

/-- The body of the innermost loop of `extract_partition` for one edge of node `i`. -/
def extract_edge (partitions : List Int) (my_partition : Int) (i : Nat)
    (sub : DynamicGraph) (edge : Edge) : Option DynamicGraph :=
  if partitions.getD i (-1) = my_partition ∨
      partitions.getD edge.target (-1) = my_partition then
    try_add_edge sub i edge
  else some sub

/-- The body of the second loop of `extract_partition` for index `i`. -/
def extract_edges_of (g : DynamicGraph) (partitions : List Int) (my_partition : Int)
    (sub : DynamicGraph) (i : Nat) : Option DynamicGraph :=
  if partitions.getD i (-1) = my_partition then
    fold_opt (extract_edge partitions my_partition i) (g.adj.getD i []) sub
  else some sub

/-- The method `extract_partition(partitions, my_partition)`; `none` if a call it
makes throws.  Reading `partitions` or `node_data` past the end is undefined in the
source; the model reads `-1` and the default node data there. -/
def extract_partition (g : DynamicGraph) (partitions : List Int) (my_partition : Int) :
    Option DynamicGraph :=
  match fold_opt (extract_node g partitions my_partition) (List.range partitions.length) {} with
  | none => none
  | some sub1 =>
    fold_opt (extract_edges_of g partitions my_partition) (List.range g.adj.length) sub1

end DynamicGraph

/-- The graph `0 -> 1` with one weight. -/
def one_edge_graph : DynamicGraph :=
  { adj := [[⟨1, [1]⟩], []],
    node_data := List.replicate 2 {},
    partitions := List.replicate 2 (-1) }

end PDC

namespace PDC

/-- Node `j` is present in `sub` with the data `d`. -/
def DynamicGraph.HasNode (sub : DynamicGraph) (j : Nat) (d : NodeData) : Prop :=
  j < sub.node_data.length ∧ j < sub.adj.length ∧ sub.node_data.getD j {} = d

end PDC

namespace PDC

/-- The engine after the calls `update(changed)` of `calls`, in order, each paired
with the graph as it is at the time of the call; `none` if one of them throws. -/
def SOSPEngine.updates : List (DynamicGraph × List Nat) → SOSPEngine → Option SOSPEngine
  | [], e => some e
  | (g, changed) :: rest, e =>
    match SOSPEngine.update g e changed with
    | none => none
    | some e1 => SOSPEngine.updates rest e1

end PDC

/-! ## metis_utils.cpp -/

namespace PDC

/-- The external routine `METIS_PartGraphKway` as `partition_graph` calls it: from
the number of nodes, the arrays `xadj` and `adjncy`, the number of parts and the
output buffer `part`, the status it returns and the buffer as it leaves it. -/
abbrev PartGraphKway := Nat → List Int → List Int → Int → List Int → Int × List Int

/-- The status `METIS_OK` of `metis.h`. -/
def METIS_OK : Int := 1

/-- The status `METIS_ERROR` of `metis.h`. -/
def METIS_ERROR : Int := -4

namespace MetisUtils

/-- The body of the loop of `partition_graph` for index `i`. -/
def write_part (part : List Int) (g : DynamicGraph) (i : Nat) : Option DynamicGraph :=
  g.try_set_partition i (part.getD i 0)

/-- The function `partition_graph(graph, nparts)`: the graph and the export buffers
as the call leaves them; `none` if it throws.  The buffer `part` is allocated with
`n` zeros; the status the external routine returns is discarded, as in the source. -/
def partition_graph (metis : PartGraphKway) (g : DynamicGraph)
    (b : DynamicGraph.MetisBuffers) (nparts : Int) :
    Option (DynamicGraph × DynamicGraph.MetisBuffers) :=
  let n := g.node_count
  let part := List.replicate n (0 : Int)
  let b1 := g.get_metis_xadj b
  let out := metis n b1.xadj b1.adjncy nparts part
  match DynamicGraph.fold_opt (write_part out.2) (List.range n) g with
  | none => none
  | some g1 => some (g1, b1)

end MetisUtils

/-- An external routine that fails: it reports `METIS_ERROR` and leaves the output
buffer as it found it. -/
def failing_metis : PartGraphKway := fun _ _ _ _ part => (METIS_ERROR, part)

/-- An external routine that succeeds and puts node `i` in part `i mod nparts`. -/
def round_robin_metis : PartGraphKway := fun n _ _ nparts _ =>
  (METIS_OK, List.map (fun i : Nat => (i : Int) % nparts) (List.range n))

end PDC

/-! ## mpi_distributor.cpp -/

namespace PDC

/-- The map `boundary_nodes`: a list of `(partition id, nodes)` with distinct keys,
in the order the keys were first used. -/
abbrev Boundary := List (Int × List Nat)

/-- The fields `local_partition`, `node_partitions` and `boundary_nodes` of
`MPIDistributor`.  The field `original_graph` is a reference to a graph the caller
owns; the methods take the graph as an argument. -/
structure MPIDistributor where
  local_partition : DynamicGraph := {}
  node_partitions : List Int := []
  boundary_nodes : Boundary := []
deriving DecidableEq

namespace MPIDistributor

/-- The constructor: `node_partitions.resize(graph.node_count(), -1)`. -/
def new (g : DynamicGraph) : MPIDistributor :=
  { node_partitions := List.replicate g.node_count (-1) }

/-- The body of the loop rank 0 runs in `partition_and_distribute`, for index `i`;
`none` when `i / nodes_per_rank` divides by zero. -/
def split_node (nodes_per_rank size : Nat) (np : List Int) (i : Nat) : Option (List Int) :=
  if nodes_per_rank = 0 then none
  else some (np.set i ((min (i / nodes_per_rank) (min (size - 1) 3) : Nat) : Int))

/-- The block `if (rank == 0) { ... }` of `partition_and_distribute`, on the buffer
`np`, for `size` ranks (`size` is at least 1 in a running job). -/
def reference_split (node_count size : Nat) (np : List Int) : Option (List Int) :=
  let nodes_per_rank := node_count / max 1 (min size 4)
  DynamicGraph.fold_opt (split_node nodes_per_rank size) (List.range node_count) np

/-- The body of the loop that writes the assignment back onto the original graph. -/
def write_back (np : List Int) (g : DynamicGraph) (i : Nat) : Option DynamicGraph :=
  g.try_set_partition i (np.getD i (-1))

/-- The statement `boundary_nodes[part].push_back(node)`. -/
def boundary_push (part : Int) (node : Nat) : Boundary → Boundary
  | [] => [(part, [node])]
  | (k, nodes) :: rest =>
    if k = part then (k, nodes ++ [node]) :: rest
    else (k, nodes) :: boundary_push part node rest

/-- The call `std::unique` followed by `erase`: one element of every run of equal
neighbours is kept. -/
def unique : List Nat → List Nat
  | [] => []
  | [x] => [x]
  | x :: y :: rest => if x = y then unique (y :: rest) else x :: unique (y :: rest)

/-- The body of the first loop of `gather_partition_info` for index `i`. -/
def gather_owned (g : DynamicGraph) (np : List Int) (rank : Int) (l : DynamicGraph) (i : Nat) :
    Option DynamicGraph :=
  if np.getD i (-1) = rank then
    match g.get_node_data (i : Int) with
    | .error _ => none
    | .ok data =>
      match l.try_add_node i data with
      | none => none
      | some l1 => l1.try_set_partition i rank
  else some l

/-- The statements that make `target` a ghost node of the local subgraph. -/
def add_ghost (g : DynamicGraph) (np : List Int) (l : DynamicGraph) (target : Nat) :
    Option DynamicGraph :=
  match g.get_node_data (target : Int) with
  | .error _ => none
  | .ok data =>
    match l.try_add_node target data with
    | none => none
    | some l1 => l1.try_set_partition target (np.getD target (-1))

/-- The body of the loop over the edges of the owned node `node` in
`gather_partition_info`.  Reading `node_partitions` past its end is undefined in
the source; the model reads `-1` there. -/
def gather_edge (g : DynamicGraph) (np : List Int) (rank : Int) (my_nodes : List Nat)
    (node : Nat) (st : DynamicGraph × Boundary) (edge : Edge) :
    Option (DynamicGraph × Boundary) :=
  match st.1.try_add_edge node edge with
  | none => none
  | some l1 =>
    if np.getD edge.target (-1) ≠ rank ∧ 0 ≤ np.getD edge.target (-1) then
      let b1 := boundary_push (np.getD edge.target (-1)) edge.target st.2
      if edge.target ∈ my_nodes then some (l1, b1)
      else
        match add_ghost g np l1 edge.target with
        | none => none
        | some l2 => some (l2, b1)
    else some (l1, st.2)

/-- The body of the loop over `my_nodes` in `gather_partition_info`. -/
def gather_node (g : DynamicGraph) (np : List Int) (rank : Int) (my_nodes : List Nat)
    (st : DynamicGraph × Boundary) (node : Nat) : Option (DynamicGraph × Boundary) :=
  match g.get_edges (node : Int) with
  | .error _ => none
  | .ok edges => DynamicGraph.fold_opt (gather_edge g np rank my_nodes node) edges st

/-- The loop that sorts every list of `boundary_nodes` and removes its duplicates. -/
def sort_unique (b : Boundary) : Boundary :=
  b.map fun entry => (entry.1, unique (entry.2.insertionSort (fun x y => x ≤ y)))

/-- The method `gather_partition_info()` on rank `rank`, without the console
output.  The set `my_nodes` is visited in increasing order of id. -/
def gather_partition_info (rank : Int) (g : DynamicGraph) (d : MPIDistributor) :
    Option MPIDistributor :=
  let np := d.node_partitions
  let my_nodes := (List.range np.length).filter fun i => decide (np.getD i (-1) = rank)
  match DynamicGraph.fold_opt (gather_owned g np rank) (List.range np.length)
      (DynamicGraph.create g.node_count) with
  | none => none
  | some l1 =>
    match DynamicGraph.fold_opt (gather_node g np rank my_nodes) my_nodes
        (l1, d.boundary_nodes) with
    | none => none
    | some st =>
      some { local_partition := st.1, node_partitions := np, boundary_nodes := sort_unique st.2 }

/-- The body of the loop "include all nodes" of `exchange_boundary_data`. -/
def exchange_node (g : DynamicGraph) (np : List Int) (l : DynamicGraph) (i : Nat) :
    Option DynamicGraph :=
  if l.node_count ≤ i ∨ (l.node_data.getD i {}).distance = none then add_ghost g np l i
  else some l

/-- The body of the loop "include all edges" of `exchange_boundary_data`. -/
def exchange_edges_of (g : DynamicGraph) (l : DynamicGraph) (i : Nat) : Option DynamicGraph :=
  match g.get_edges (i : Int) with
  | .error _ => none
  | .ok edges => DynamicGraph.fold_opt (fun l1 edge => l1.try_add_edge i edge) edges l

/-- The innermost loop body of the branch for larger graphs. -/
def exchange_boundary_edge (np : List Int) (rank : Int) (node : Nat) (l : DynamicGraph)
    (edge : Edge) : Option DynamicGraph :=
  match l.get_node_data (edge.target : Int) with
  | .error _ => none
  | .ok data =>
    if data.distance ≠ none ∨ np.getD edge.target (-1) = rank then l.try_add_edge node edge
    else some l

/-- The loop over the edges of one boundary node, in the branch for larger graphs. -/
def exchange_boundary_node (g : DynamicGraph) (np : List Int) (rank : Int) (l : DynamicGraph)
    (node : Nat) : Option DynamicGraph :=
  match g.get_edges (node : Int) with
  | .error _ => none
  | .ok edges => DynamicGraph.fold_opt (exchange_boundary_edge np rank node) edges l

/-- The loop over one entry of `boundary_nodes`, in the branch for larger graphs. -/
def exchange_boundary_list (g : DynamicGraph) (np : List Int) (rank : Int) (l : DynamicGraph)
    (entry : Int × List Nat) : Option DynamicGraph :=
  DynamicGraph.fold_opt (exchange_boundary_node g np rank) entry.2 l

/-- The method `exchange_boundary_data()` on rank `rank`; the barrier at its end
changes no data. -/
def exchange_boundary_data (rank : Int) (g : DynamicGraph) (d : MPIDistributor) :
    Option MPIDistributor :=
  let np := d.node_partitions
  if g.node_count ≤ 100 then
    match DynamicGraph.fold_opt (exchange_node g np) (List.range g.node_count)
        d.local_partition with
    | none => none
    | some l1 =>
      match DynamicGraph.fold_opt (exchange_edges_of g) (List.range g.node_count) l1 with
      | none => none
      | some l2 => some { d with local_partition := l2 }
  else
    match DynamicGraph.fold_opt (exchange_boundary_list g np rank) d.boundary_nodes
        d.local_partition with
    | none => none
    | some l1 => some { d with local_partition := l1 }

/-- The method `partition_and_distribute()` as rank `rank` of `size` ranks runs it:
the original graph and the distributor as the call leaves them, `none` if the call
does not return (a statement throws, or the split divides by zero).  The split runs
on rank 0 and `MPI_Bcast` copies its buffer to every rank; every rank is constructed
on a copy of the same graph, so the buffer received is the one this loop computes.
When the split fails on rank 0 the job is aborted, so the call returns on no rank. -/
def partition_and_distribute (rank size : Nat) (g : DynamicGraph) (d : MPIDistributor) :
    Option (DynamicGraph × MPIDistributor) :=
  match reference_split g.node_count size d.node_partitions with
  | none => none
  | some np =>
    match DynamicGraph.fold_opt (write_back np) (List.range np.length) g with
    | none => none
    | some g1 =>
      match gather_partition_info (rank : Int) g1 { d with node_partitions := np } with
      | none => none
      | some d1 =>
        match exchange_boundary_data (rank : Int) g1 d1 with
        | none => none
        | some d2 => some (g1, d2)

/-- The accessor `get_local_partition()`. -/
def get_local_partition (d : MPIDistributor) : DynamicGraph := d.local_partition

/-- The accessor `get_boundary_nodes()`. -/
def get_boundary_nodes (d : MPIDistributor) : Boundary := d.boundary_nodes

end MPIDistributor

end PDC

/-! ### Invariants of the local subgraph (used by the proofs) -/

namespace PDC
namespace MPIDistributor

/-- The three arrays of `l` have `n` entries each. -/
def Sized (n : Nat) (l : DynamicGraph) : Prop :=
  l.node_data.length = n ∧ l.adj.length = n ∧ l.partitions.length = n

/-- Node `j` of `l` carries the partition id the assignment `np` gives it. -/
def Tagged (np : List Int) (j : Nat) (l : DynamicGraph) : Prop :=
  l.partitions.getD j (-1) = np.getD j (-1)

/-- Node `j` of `l` carries the node data it has in `g`. -/
def Dat (g : DynamicGraph) (j : Nat) (l : DynamicGraph) : Prop :=
  l.node_data.getD j {} = g.node_data.getD j {}

/-- What a later state `l1` of the local subgraph keeps of an earlier state `l`:
the tags and node data that were already right, and every edge. -/
def Ext (g : DynamicGraph) (np : List Int) (l l1 : DynamicGraph) : Prop :=
  (∀ j, Tagged np j l → Tagged np j l1) ∧ (∀ j, Dat g j l → Dat g j l1) ∧
  ∀ u e, e ∈ l.adj.getD u [] → e ∈ l1.adj.getD u []

/-- Node `t` is recorded under partition `p` in the map `b`. -/
def BMem (b : Boundary) (p : Int) (t : Nat) : Prop :=
  ∃ nodes, (p, nodes) ∈ b ∧ t ∈ nodes

/-- Every node recorded in `b` is below `n`. -/
def BoundaryOk (n : Nat) (b : Boundary) : Prop :=
  ∀ p t, BMem b p t → t < n

/-- Node `t` belongs to partition `p`, another partition than `rank`, and is the
target of an edge of `g` that leaves a node owned by `rank`. -/
def Crossing (g : DynamicGraph) (np : List Int) (rank p : Int) (t : Nat) : Prop :=
  np.getD t (-1) = p ∧ p ≠ rank ∧ 0 ≤ p ∧
  ∃ u, u < np.length ∧ np.getD u (-1) = rank ∧ ∃ e ∈ g.adj.getD u [], e.target = t

/-- The value the reference split gives node `i` of `n` nodes on `size` ranks. -/
def split_value (n size i : Nat) : Nat :=
  min (i / (n / max 1 (min size 4))) (min (size - 1) 3)

end MPIDistributor
end PDC

/-! ## hybrid_engine.cpp: the round counter -/

namespace PDC
namespace HybridEngine

/-- The statements of `compute_parallel` before the loop, for a valid source: every
cell is reset to the sentinel and the cell of the source is set to `0`. -/
def reset (e : HybridEngine) (source : Nat) : HybridEngine :=
  { e with atomic_distances :=
      (e.atomic_distances.map fun _ => (none : Option Int)).set source (some 0) }

/-- The `do ... while` loop of `compute_parallel` together with its counter: the
engine it leaves and the final value of `iterations`.  The first argument is the
number of rounds that may still follow the one about to run, the last one the
value of `iterations` on entry. -/
def rounds_count (g : DynamicGraph) : Nat → HybridEngine → Nat → HybridEngine × Nat
  | 0, e, iterations => ((round g e).1, iterations + 1)
  | k + 1, e, iterations =>
    let r := round g e
    if r.2 then rounds_count g k r.1 (iterations + 1) else (r.1, iterations + 1)

/-- The value of `iterations` at the end of `compute_parallel(source)`: the number
of rounds it ran (none for an invalid source). -/
def iterations (g : DynamicGraph) (e : HybridEngine) (source : Int) : Nat :=
  if source < 0 ∨ (g.node_count : Int) ≤ source then 0
  else (rounds_count g (max 100 (g.node_count - 1) - 1) (e.reset source.toNat) 0).2

/-- The engine after `k` rounds (specification side). -/
def after_rounds (g : DynamicGraph) : Nat → HybridEngine → HybridEngine
  | 0, e => e
  | k + 1, e => after_rounds g k (round g e).1

/-- The accessor `get_predecessors()`. -/
def get_predecessors (e : HybridEngine) : List Int := e.predecessors

end HybridEngine
end PDC

namespace PDC

/-- Two engines that went through the same writes since the states `i1` and `i2`:
their cells are equal, and every predecessor entry is either equal in both or still
what it was in `i1` and in `i2`. -/
def HybridEngine.SameRun (i1 i2 e1 e2 : HybridEngine) : Prop :=
  e1.atomic_distances = e2.atomic_distances ∧
  e1.predecessors.length = e2.predecessors.length ∧
  ∀ v, e1.predecessors.getD v (-1) = e2.predecessors.getD v (-1) ∨
    (e1.predecessors.getD v (-1) = i1.predecessors.getD v (-1) ∧
      e2.predecessors.getD v (-1) = i2.predecessors.getD v (-1))

end PDC

namespace PDC

/-- Invariant of the rounds on a fresh engine, for non-negative weights: the two
arrays have one entry per node, the finite cells are not negative, the source is at
`0` without a predecessor, and every other node either was never written (sentinel,
no predecessor) or was last written through an edge `p -> v` from a value `dp` that
the cell of `p` has not exceeded since. -/
def HybridEngine.TreeInv (g : DynamicGraph) (s : Nat) (e : HybridEngine) : Prop :=
  e.atomic_distances.length = g.node_count ∧ e.predecessors.length = g.node_count ∧
  (∀ v d, e.atomic_distances.getD v none = some d → 0 ≤ d) ∧
  e.atomic_distances.getD s none = some 0 ∧ e.predecessors.getD s (-1) = -1 ∧
  ∀ v, v ≠ s →
    (e.predecessors.getD v (-1) = -1 ∧ e.atomic_distances.getD v none = none) ∨
    ∃ (p : Nat) (edge : Edge) (dp : Int),
      e.predecessors.getD v (-1) = (p : Int) ∧ edge ∈ g.adj.getD p [] ∧ edge.target = v ∧
      e.atomic_distances.getD v none = some (dp + edge.weights.headD 0) ∧
      Dist.le (e.atomic_distances.getD p none) (some dp)

end PDC

/-! ## sosp2.hpp -/

namespace PDC
namespace SOSPEngine

/-- The body of the loop over `graph.get_edges(u)` in `compute_shortest_paths` of
`sosp2.hpp`, for one edge, in the exact layer; `cur` is `current_dist`.  The state
is the vector `distances` and the queue `pq`.  `Binary64.SOSPEngine.serial_edge`
rounds the sum. -/
def serial_edge (cur : Int) (st : List (Option Int) × Frontier) (edge : Edge) :
    List (Option Int) × Frontier :=
  let new_dist := cur + edge.weights.headD 0
  if Dist.lt (some new_dist) (st.1.getD edge.target none) then
    (st.1.set edge.target (some new_dist), Frontier.push (new_dist, edge.target) st.2)
  else st

/-- The `while (!pq.empty())` loop of `compute_shortest_paths`; `fuel` bounds the
number of iterations.  `none`: no vector is returned (the fuel ran out, or
`get_edges` threw). -/
def serial_loop (g : DynamicGraph) :
    Nat → List (Option Int) → Frontier → Option (List (Option Int))
  | 0, _, _ => none
  | _ + 1, distances, [] => some distances
  | fuel + 1, distances, (d, u) :: rest =>
    if Dist.lt (distances.getD u none) (some d) then serial_loop g fuel distances rest
    else
      match g.get_edges (u : Int) with
      | .error _ => none
      | .ok edges =>
        let st := edges.foldl (serial_edge d) (distances, rest)
        serial_loop g fuel st.1 st.2

/-- The method `compute_shortest_paths(source)` of the class `SOSPEngine` of
`sosp2.hpp`. -/
def compute_shortest_paths (g : DynamicGraph) (source : Nat) (fuel : Nat) :
    Option (List (Option Int)) :=
  serial_loop g fuel ((List.replicate g.node_count (none : Option Int)).set source (some 0))
    [(0, source)]

/-- Every edge leaving `x` is relaxed with respect to the value `dx` of `x`. -/
def Relaxed (g : DynamicGraph) (distances : List (Option Int)) (x : Nat) (dx : Int) : Prop :=
  ∀ e ∈ g.adj.getD x [], Dist.le (distances.getD e.target none) (some (dx + e.weights.headD 0))

/-- Invariant of the loop of `compute_shortest_paths`, without the part on node `u`
that is being expanded: one distance per node; every queue entry names a node, its
key is the weight of a walk and not below the distance of the node; every finite
distance is the weight of a walk; the source is at most at `0`; and every node but
`skip` with a finite distance either has an entry with that distance in the queue
or has all its edges relaxed. -/
def SerialInv (g : DynamicGraph) (s : Nat) (skip : Option Nat) (distances : List (Option Int))
    (q : Frontier) : Prop :=
  distances.length = g.node_count ∧
  (∀ p ∈ q, p.2 < g.node_count ∧ Walk g s p.2 p.1 ∧
    Dist.le (distances.getD p.2 none) (some p.1)) ∧
  (∀ v d, distances.getD v none = some d → Walk g s v d) ∧
  Dist.le (distances.getD s none) (some 0) ∧
  ∀ x dx, some x ≠ skip → distances.getD x none = some dx →
    (dx, x) ∈ q ∨ Relaxed g distances x dx

/-- Termination measure of the loop of `compute_shortest_paths`. -/
def serial_measure (st : List (Option Int) × Frontier) : Nat × Nat :=
  (infCount st.1, 2 * finSum st.1 + st.2.length)

end SOSPEngine
end PDC

/-! ## sosp_engine.hpp: what `compute` does, step by step -/

namespace PDC
namespace SOSPEngine

/-- A record of the single-worker run of `compute`, kept beside its state: the nodes
expanded (popped with an entry that is not stale, their edges relaxed), in order,
and the number of `emplace` calls on the frontier. -/
structure Trace where
  expanded : List Nat := []
  pushes : Nat := 0
deriving DecidableEq

/-- The loop of `compute` (`compute_loop`) with the record of what it did.  The
number of entries pushed while a node is expanded is the growth of the frontier
during the loop over its edges. -/
def compute_loop_trace (g : DynamicGraph) :
    Nat → SOSPEngine → Frontier → Trace → Option (SOSPEngine × Trace)
  | 0, _, _, _ => none
  | _ + 1, e, [], t => some (e, t)
  | fuel + 1, e, (d, u) :: rest, t =>
    let e1 : SOSPEngine := { e with in_queue := e.in_queue.set u false }
    if Dist.lt (e1.distances.getD u none) (some d) then compute_loop_trace g fuel e1 rest t
    else
      match g.get_edges (u : Int) with
      | .error _ => none
      | .ok edges =>
        let st := edges.foldl (relax_edge u d) (e1, rest)
        compute_loop_trace g fuel st.1 st.2
          { expanded := t.expanded ++ [u], pushes := t.pushes + (st.2.length - rest.length) }

/-- The method `compute(source)` with the record of what it did; the source is
pushed before the loop. -/
def compute_trace (g : DynamicGraph) (e : SOSPEngine) (source : Nat) (fuel : Nat) :
    Option (SOSPEngine × Trace) :=
  let e0 : SOSPEngine :=
    { distances := (List.replicate g.node_count (none : Option Int)).set source (some 0),
      predecessors := List.replicate g.node_count (-1),
      in_queue := (e.in_queue.map fun _ => false).set source true }
  compute_loop_trace g fuel e0 [(0, source)] { expanded := [], pushes := 1 }

/-- The number of edges that leave the nodes of `l` not expanded yet. -/
def remaining_degree (g : DynamicGraph) (l expanded : List Nat) : Nat :=
  ((l.filter fun x => decide (x ∉ expanded)).map fun x => (g.adj.getD x []).length).sum

/-- Invariant of the loop of `compute` for non-negative weights, `m` being the key
popped last: the frontier is sorted, its keys are not below `m`, it has at most one
entry per node, the node of every entry is flagged `in_queue` and its distance is
not above the key; every expanded node has a distance not above `m` and no entry
in the frontier, and no node is expanded twice. -/
def OnceInv (g : DynamicGraph) (m : Int) (expanded : List Nat) (e : SOSPEngine)
    (q : Frontier) : Prop :=
  e.distances.length = g.node_count ∧ e.in_queue.length = g.node_count ∧
  (q.Pairwise fun a b => Frontier.key_le a b = true) ∧
  (∀ p ∈ q, m ≤ p.1) ∧
  (∀ x ∈ expanded, x < g.node_count ∧ Dist.le (e.distances.getD x none) (some m) ∧
    x ∉ q.map Prod.snd) ∧
  (q.map Prod.snd).Nodup ∧
  (∀ p ∈ q, p.2 < g.node_count ∧ e.in_queue.getD p.2 false = true ∧
    Dist.le (e.distances.getD p.2 none) (some p.1)) ∧
  expanded.Nodup

end SOSPEngine
end PDC

/-! ## Binary64 arithmetic -/

namespace PDC

/-- A value of type `double`, restricted to the values a run on integer weights
holds: a finite integer that binary64 represents, the two infinities and NaN. -/
inductive Double where
  | fin (x : Int)
  | pinf
  | ninf
  | nan
deriving DecidableEq, Repr

namespace Double

/-- The number of bits of `a` beyond the 53 bits of a significand; the first
argument bounds the search. -/
def excess_bits : Nat → Nat → Nat
  | 0, _ => 0
  | fuel + 1, a => if a < 2 ^ 53 then 0 else excess_bits fuel (a / 2) + 1

/-- Rounding of a natural number to 53 significant bits: to nearest, ties to even. -/
def round_nat (a : Nat) : Nat :=
  if a < 2 ^ 53 then a
  else
    let e := excess_bits a a
    let q := a / 2 ^ e
    let r := a % 2 ^ e
    let half := 2 ^ (e - 1)
    if r < half then q * 2 ^ e
    else if half < r then (q + 1) * 2 ^ e
    else if q % 2 = 0 then q * 2 ^ e
    else (q + 1) * 2 ^ e

/-- The binary64 value nearest to the integer `x`: the value of `double(x)` and of
an exact integer result after rounding.  At `2 ^ 1024` and beyond it is an
infinity. -/
def of_int (x : Int) : Double :=
  let m := round_nat x.natAbs
  if 2 ^ 1024 ≤ m then (if 0 ≤ x then pinf else ninf)
  else fin (if 0 ≤ x then (m : Int) else -(m : Int))

/-- The constant `std::numeric_limits<double>::max()`, the sentinel of the solvers. -/
def DBL_MAX : Double := fin (((2 ^ 53 - 1) * 2 ^ 971 : Nat) : Int)

/-- The operator `+` on `double`. -/
def add : Double → Double → Double
  | fin x, fin y => of_int (x + y)
  | nan, _ => nan
  | _, nan => nan
  | pinf, ninf => nan
  | ninf, pinf => nan
  | pinf, _ => pinf
  | _, pinf => pinf
  | ninf, _ => ninf
  | _, ninf => ninf

/-- The operator `<` on `double`: false as soon as one side is NaN. -/
def lt : Double → Double → Bool
  | fin x, fin y => decide (x < y)
  | nan, _ => false
  | _, nan => false
  | ninf, ninf => false
  | ninf, _ => true
  | _, ninf => false
  | pinf, _ => false
  | fin _, pinf => true

/-- The stored distance as a `double`: the sentinel of the exact layer is
`DBL_MAX`. -/
def of_dist : Option Int → Double
  | none => DBL_MAX
  | some x => fin x

end Double

/-! ## hybrid_engine.cpp and sosp2.hpp with binary64 sums -/

namespace Binary64

/-- The fields `atomic_distances` and `predecessors` of `HybridEngine`, the cells
holding `double` values. -/
structure HybridEngine where
  atomic_distances : List Double
  predecessors : List Int
deriving DecidableEq

namespace HybridEngine

/-- The constructor. -/
def new (g : DynamicGraph) : HybridEngine :=
  { atomic_distances := List.replicate g.node_count Double.DBL_MAX,
    predecessors := List.replicate g.node_count (-1) }

/-- The body of the loop over `graph.get_edges(u)` for one edge, run by one worker;
`dist_u` was loaded before the loop, the weight of the edge is the `double` of its
integer, and the sum is rounded. -/
def relax_edge (u : Nat) (dist_u : Double) (st : HybridEngine × Bool) (edge : Edge) :
    HybridEngine × Bool :=
  if st.1.atomic_distances.length ≤ edge.target then st
  else
    match edge.weights with
    | [] => st
    | w :: _ =>
      let new_dist := Double.add dist_u (Double.of_int w)
      if Double.lt new_dist (st.1.atomic_distances.getD edge.target Double.DBL_MAX) then
        ({ atomic_distances := st.1.atomic_distances.set edge.target new_dist,
           predecessors := st.1.predecessors.set edge.target (u : Int) }, true)
      else st

/-- The body of the parallel `for` over `u`: one node of one round.  The test
`dist_u == max` skips the node. -/
def relax_node (g : DynamicGraph) (st : HybridEngine × Bool) (u : Nat) :
    HybridEngine × Bool :=
  let dist_u := st.1.atomic_distances.getD u Double.DBL_MAX
  if dist_u = Double.DBL_MAX then st
  else
    match g.get_edges (u : Int) with
    | .error _ => st
    | .ok edges => edges.foldl (relax_edge u dist_u) st

/-- One round: the `for` over all nodes, starting with `changed = false`. -/
def round (g : DynamicGraph) (e : HybridEngine) : HybridEngine × Bool :=
  (List.range g.node_count).foldl (relax_node g) (e, false)

/-- The `do ... while (changed && iterations < MAX_ITERATIONS)` loop; the first
argument is the number of rounds that may still follow the one about to run. -/
def rounds (g : DynamicGraph) : Nat → HybridEngine → HybridEngine
  | 0, e => (round g e).1
  | k + 1, e =>
    let r := round g e
    if r.2 then rounds g k r.1 else r.1

/-- The method `compute_parallel(source)`. -/
def compute_parallel (g : DynamicGraph) (e : HybridEngine) (source : Int) : HybridEngine :=
  if source < 0 ∨ (g.node_count : Int) ≤ source then e
  else
    let e0 : HybridEngine :=
      { e with atomic_distances :=
          (e.atomic_distances.map fun _ => Double.DBL_MAX).set source.toNat (Double.fin 0) }
    let max_iterations := max 100 (g.node_count - 1)
    rounds g (max_iterations - 1) e0

/-- The method `get_distances()`. -/
def get_distances (e : HybridEngine) : List Double := e.atomic_distances

end HybridEngine

/-- The queue `pq` of `sosp2.hpp`: `(distance, node)` pairs kept as a list sorted by
the pair order, smallest first. -/
abbrev Frontier := List (Double × Nat)

/-- The operator `<` on `std::pair<double, int>`. -/
def Frontier.pair_lt (a b : Double × Nat) : Bool :=
  Double.lt a.1 b.1 || (!Double.lt b.1 a.1 && decide (a.2 < b.2))

/-- The entry `a` is popped no later than `b`: `b` is not below `a`. -/
def Frontier.key_le (a b : Double × Nat) : Bool := !Frontier.pair_lt b a

/-- The call `pq.push({d, v})`. -/
def Frontier.push (k : Double × Nat) : Frontier → Frontier
  | [] => [k]
  | x :: xs => if Frontier.key_le k x then k :: x :: xs else x :: Frontier.push k xs

namespace SOSPEngine

/-- The body of the loop over `graph.get_edges(u)` in `compute_shortest_paths` of
`sosp2.hpp`, for one edge; `cur` is `current_dist` and the sum is rounded. -/
def serial_edge (cur : Double) (st : List Double × Frontier) (edge : Edge) :
    List Double × Frontier :=
  let new_dist := Double.add cur (Double.of_int (edge.weights.headD 0))
  if Double.lt new_dist (st.1.getD edge.target Double.DBL_MAX) then
    (st.1.set edge.target new_dist, Frontier.push (new_dist, edge.target) st.2)
  else st

/-- The `while (!pq.empty())` loop of `compute_shortest_paths`; `fuel` bounds the
number of iterations.  `none`: no vector is returned (the fuel ran out, or
`get_edges` threw). -/
def serial_loop (g : DynamicGraph) : Nat → List Double → Frontier → Option (List Double)
  | 0, _, _ => none
  | _ + 1, distances, [] => some distances
  | fuel + 1, distances, (d, u) :: rest =>
    if Double.lt (distances.getD u Double.DBL_MAX) d then serial_loop g fuel distances rest
    else
      match g.get_edges (u : Int) with
      | .error _ => none
      | .ok edges =>
        let st := edges.foldl (serial_edge d) (distances, rest)
        serial_loop g fuel st.1 st.2

/-- The method `compute_shortest_paths(source)` of the class `SOSPEngine` of
`sosp2.hpp`. -/
def compute_shortest_paths (g : DynamicGraph) (source : Nat) (fuel : Nat) :
    Option (List Double) :=
  serial_loop g fuel ((List.replicate g.node_count Double.DBL_MAX).set source (Double.fin 0))
    [(Double.fin 0, source)]

end SOSPEngine
end Binary64

/-- A chain `0 -> 1 -> 2` whose second sum is not a binary64 value:
`2 ^ 53 + 1`. -/
def rounding_graph : DynamicGraph :=
  { adj := [[⟨1, [9007199254740992]⟩], [⟨2, [1]⟩], []],
    node_data := List.replicate 3 {},
    partitions := List.replicate 3 (-1) }

/-- A chain `0 -> 1 -> 2` with two edges of weight `2 ^ 1023`: the second sum is
beyond the largest finite `double`. -/
def overflow_graph : DynamicGraph :=
  { adj := [[⟨1, [((2 ^ 1023 : Nat) : Int)]⟩], [⟨2, [((2 ^ 1023 : Nat) : Int)]⟩], []],
    node_data := List.replicate 3 {},
    partitions := List.replicate 3 (-1) }

end PDC

/-! ## hybrid_engine.cpp: a team of workers -/

namespace PDC
namespace Binary64
namespace HybridEngine

/-- The accessor `get_predecessors()`. -/
def get_predecessors (e : HybridEngine) : List Int := e.predecessors

/-- Where a worker stands in the body of the parallel `for` of `compute_parallel`:
before an iteration; in the loop over the edges of `u` with `edges` still to
visit; at the test of the `while` around the compare-and-swap, holding `new_dist`
and `old_dist`; after a successful compare-and-swap, before the critical section
that writes the predecessor. -/
inductive Pc where
  | next_node
  | next_edge (u : Nat) (dist_u : Double) (edges : List Edge)
  | cas (u : Nat) (dist_u : Double) (target : Nat) (new_dist old_dist : Double)
      (edges : List Edge)
  | write_pred (u : Nat) (dist_u : Double) (target : Nat) (edges : List Edge)
deriving DecidableEq

/-- A worker of the team: the iterations of the `for` it still has to run, where it
stands, and its private copy of the reduction variable `changed`. -/
structure Worker where
  nodes : List Nat
  pc : Pc
  changed : Bool
deriving DecidableEq

/-- The worker has run all its iterations. -/
def Worker.finished (w : Worker) : Bool := decide (w.nodes = [] ∧ w.pc = Pc.next_node)

/-- One step of one worker on the shared cells: up to and including its next access
to shared memory (a load of a cell, a compare-and-swap, the critical section). -/
def step (g : DynamicGraph) (e : HybridEngine) (w : Worker) : HybridEngine × Worker :=
  match w.pc with
  | .next_node =>
    match w.nodes with
    | [] => (e, w)
    | u :: rest =>
      let dist_u := e.atomic_distances.getD u Double.DBL_MAX
      if dist_u = Double.DBL_MAX then (e, { w with nodes := rest })
      else
        match g.get_edges (u : Int) with
        | .error _ => (e, { w with nodes := rest })
        | .ok edges => (e, { w with nodes := rest, pc := .next_edge u dist_u edges })
  | .next_edge _ _ [] => (e, { w with pc := .next_node })
  | .next_edge u dist_u (edge :: edges) =>
    if e.atomic_distances.length ≤ edge.target then
      (e, { w with pc := .next_edge u dist_u edges })
    else
      match edge.weights with
      | [] => (e, { w with pc := .next_edge u dist_u edges })
      | wt :: _ =>
        let new_dist := Double.add dist_u (Double.of_int wt)
        let old_dist := e.atomic_distances.getD edge.target Double.DBL_MAX
        (e, { w with pc := .cas u dist_u edge.target new_dist old_dist edges })
  | .cas u dist_u target new_dist old_dist edges =>
    if Double.lt new_dist old_dist then
      let cell := e.atomic_distances.getD target Double.DBL_MAX
      if cell = old_dist then
        ({ e with atomic_distances := e.atomic_distances.set target new_dist },
          { w with pc := .write_pred u dist_u target edges })
      else (e, { w with pc := .cas u dist_u target new_dist cell edges })
    else (e, { w with pc := .next_edge u dist_u edges })
  | .write_pred u dist_u target edges =>
    ({ e with predecessors := e.predecessors.set target (u : Int) },
      { w with pc := .next_edge u dist_u edges, changed := true })

/-- The team runs as `schedule` says: each entry names the worker that takes the
next step.  A worker that has finished, or an index outside the team, does
nothing. -/
def run_schedule (g : DynamicGraph) :
    List Nat → HybridEngine × List Worker → HybridEngine × List Worker
  | [], st => st
  | i :: rest, st =>
    match st.2[i]? with
    | none => run_schedule g rest st
    | some w =>
      let r := step g st.1 w
      run_schedule g rest (r.1, st.2.set i r.2)

/-- One round run by a team: worker `i` runs the iterations `chunks[i]` of the
`for`, in order.  The result is the cells and the reduction of the `changed` flags;
`none` if the schedule ends before every worker has finished. -/
def round_team (g : DynamicGraph) (chunks : List (List Nat)) (schedule : List Nat)
    (e : HybridEngine) : Option (HybridEngine × Bool) :=
  let r := run_schedule g schedule
    (e, chunks.map fun c => { nodes := c, pc := Pc.next_node, changed := false })
  if r.2.all Worker.finished then some (r.1, r.2.any fun w => w.changed) else none

/-- The `do ... while` loop run by a team, one schedule per round; the first
argument is the number of rounds that may still follow the one about to run. -/
def rounds_team (g : DynamicGraph) (chunks : List (List Nat)) :
    Nat → List (List Nat) → HybridEngine → Option HybridEngine
  | _, [], _ => none
  | 0, schedule :: _, e => (round_team g chunks schedule e).map Prod.fst
  | k + 1, schedule :: rest, e =>
    match round_team g chunks schedule e with
    | none => none
    | some r => if r.2 then rounds_team g chunks k rest r.1 else some r.1

/-- The method `compute_parallel(source)` run by a team of workers. -/
def compute_parallel_team (g : DynamicGraph) (chunks : List (List Nat))
    (schedules : List (List Nat)) (e : HybridEngine) (source : Int) : Option HybridEngine :=
  if source < 0 ∨ (g.node_count : Int) ≤ source then some e
  else
    let e0 : HybridEngine :=
      { e with atomic_distances :=
          (e.atomic_distances.map fun _ => Double.DBL_MAX).set source.toNat (Double.fin 0) }
    let max_iterations := max 100 (g.node_count - 1)
    rounds_team g chunks (max_iterations - 1) schedules e0

end HybridEngine
end Binary64

/-- Four nodes with the edges `0 -> 2` (1), `0 -> 3` (5) and `2 -> 3` (1). -/
def race_graph : DynamicGraph :=
  { adj := [[⟨2, [1]⟩, ⟨3, [5]⟩], [], [⟨3, [1]⟩], []],
    node_data := List.replicate 4 {},
    partitions := List.replicate 4 (-1) }

/-- A schedule of the first round on `race_graph` for two workers: worker 0 goes
as far as its compare-and-swap on the cell of node 3, worker 1 then runs all its
iterations, worker 0 then finishes. -/
def race_schedule : List Nat :=
  List.replicate 6 0 ++ List.replicate 7 1 ++ List.replicate 3 0

/-- A schedule that lets worker 0 run all its iterations, then worker 1. -/
def calm_schedule : List Nat := List.replicate 9 0 ++ List.replicate 7 1

end PDC

/-! ## Binary64 and exact sums -/

namespace PDC

/-- No first weight is above `W`. -/
def DynamicGraph.WeightsBelow (g : DynamicGraph) (W : Int) : Prop :=
  ∀ es ∈ g.adj, ∀ e ∈ es, e.weights.headD 0 ≤ W

instance (g : DynamicGraph) (W : Int) : Decidable (g.WeightsBelow W) := by
  unfold DynamicGraph.WeightsBelow; infer_instance

/-- The `double` a correct solver stores for `v`: the least weight of a walk from
`s` to `v`, or `DBL_MAX` when there is no walk (specification side). -/
def IsTrueDouble (g : DynamicGraph) (s v : Nat) (x : Double) : Prop :=
  (∃ d, IsShortest g s v d ∧ x = Double.fin d) ∨ (¬ Reachable g s v ∧ x = Double.DBL_MAX)

/-- Every finite entry `D` of `d` ends a trail of distinct nodes, each with an entry
not above the value it has on the trail and no value on the trail above `D`; with
weights of at most `W`, `D` is at most `W` times the number of steps of the
trail. -/
def Hops (n : Nat) (W : Int) (d : List (Option Int)) : Prop :=
  ∀ v D, d.getD v none = some D →
    0 ≤ D ∧ ∃ tr : List (Nat × Int), (tr.map Prod.fst).Nodup ∧
      (∀ p ∈ tr, p.1 < n ∧ Dist.le (d.getD p.1 none) (some p.2) ∧ p.2 ≤ D) ∧
      D + W ≤ (tr.length : Int) * W

/-- The engine of the exact layer with its cells as `double` values. -/
def HybridEngine.to64 (e : HybridEngine) : Binary64.HybridEngine :=
  { atomic_distances := e.atomic_distances.map Double.of_dist,
    predecessors := e.predecessors }

/-- The frontier of the exact layer with its keys as `double` values. -/
def Frontier.to64 (q : Frontier) : Binary64.Frontier :=
  q.map fun p => (Double.fin p.1, p.2)

end PDC

namespace PDC

/-- A team of one worker can take some number of steps from the cells and worker
`a` to the cells and worker `b`. -/
def Binary64.HybridEngine.Steps (g : DynamicGraph)
    (a b : Binary64.HybridEngine × Binary64.HybridEngine.Worker) : Prop :=
  ∃ k, Binary64.HybridEngine.run_schedule g (List.replicate k 0) (a.1, [a.2]) = (b.1, [b.2])

end PDC

/-! ## Vector reads and writes -/

namespace PDC

theorem getD_set_self {α : Type} (l : List α) (i : Nat) (a d : α) (h : i < l.length) :
    (l.set i a).getD i d = a := by
  simp [List.getD_eq_getElem?_getD, h]

theorem getD_set_other {α : Type} (l : List α) (i j : Nat) (a d : α) (h : i ≠ j) :
    (l.set i a).getD j d = l.getD j d := by
  simp [List.getD_eq_getElem?_getD, List.getElem?_set_ne h]

theorem getD_beyond {α : Type} (l : List α) (i : Nat) (d : α) (h : l.length ≤ i) :
    l.getD i d = d := by
  simp [List.getD_eq_getElem?_getD, List.getElem?_eq_none h]

theorem foldl_preserves {σ α : Type} (P : σ → Prop) (f : σ → α → σ) (l : List α)
    (step : ∀ s x, x ∈ l → P s → P (f s x)) (init : σ) (h0 : P init) :
    P (l.foldl f init) := by
  induction l generalizing init with
  | nil => simpa using h0
  | cons x xs ih =>
    simp only [List.foldl_cons]
    exact ih (fun s y hy hs => step s y (List.mem_cons_of_mem _ hy) hs) _
      (step init x (List.mem_cons_self _ _) h0)

/-! ## Distances -/

theorem Dist.le_refl (a : Option Int) : Dist.le a a := by
  cases a <;> simp [Dist.le, Dist.lt]

theorem Dist.le_trans {a b c : Option Int} (h1 : Dist.le a b) (h2 : Dist.le b c) :
    Dist.le a c := by
  cases a <;> cases b <;> cases c <;> simp_all [Dist.le, Dist.lt]
  omega

theorem Dist.le_some_iff (a : Option Int) (y : Int) :
    Dist.le a (some y) ↔ ∃ x, a = some x ∧ x ≤ y := by
  cases a <;> simp [Dist.le, Dist.lt]

theorem Dist.lt_some_iff (x : Int) (b : Option Int) :
    Dist.lt (some x) b = true ↔ ∀ y, b = some y → x < y := by
  cases b <;> simp [Dist.lt]

theorem Dist.le_of_lt {a b : Option Int} (h : Dist.lt a b = true) : Dist.le a b := by
  cases a <;> cases b <;> simp_all [Dist.le, Dist.lt]
  omega

/-! ## Graph store -/

theorem mem_getD_nil {α : Type} (l : List (List α)) (u : Nat) (x : α)
    (h : x ∈ l.getD u []) : ∃ es ∈ l, x ∈ es := by
  by_cases hu : u < l.length
  · refine ⟨l[u], List.getElem_mem _, ?_⟩
    simpa [List.getD_eq_getElem?_getD, List.getElem?_eq_getElem hu] using h
  · rw [getD_beyond _ _ _ (Nat.le_of_not_lt hu)] at h
    simp at h

theorem DynamicGraph.WellFormed.edge_ok {g : DynamicGraph} (h : g.WellFormed) (u : Nat)
    (e : Edge) (he : e ∈ g.adj.getD u []) : e.target < g.node_count ∧ e.weights ≠ [] := by
  obtain ⟨es, hes, hmem⟩ := mem_getD_nil _ _ _ he
  exact h.2 es hes e hmem

theorem DynamicGraph.NonNegWeights.edge_nonneg {g : DynamicGraph} (h : g.NonNegWeights) (u : Nat)
    (e : Edge) (he : e ∈ g.adj.getD u []) : 0 ≤ e.weights.headD 0 := by
  obtain ⟨es, hes, hmem⟩ := mem_getD_nil _ _ _ he
  exact h es hes e hmem

namespace DynamicGraph

theorem grow_length {α : Type} (v : List α) (m : Nat) (a : α) :
    (grow v m a).length = max v.length (m + 1) := by
  unfold grow
  split
  · simp only [List.length_append, List.length_replicate]; omega
  · omega

theorem mem_grow {α : Type} (v : List α) (m : Nat) (a x : α) (h : x ∈ grow v m a) :
    x ∈ v ∨ x = a := by
  unfold grow at h
  split at h
  · rcases List.mem_append.1 h with h | h
    · exact Or.inl h
    · exact Or.inr (List.eq_of_mem_replicate h)
  · exact Or.inl h

/-- The graph without nodes satisfies the class invariant. -/
theorem empty_well_formed : WellFormed {} := by decide

/-- The method `add_edge` keeps the class invariant. -/
theorem add_edge_well_formed (g g' : DynamicGraph) (src tgt : Int) (w : List Int)
    (h : g.WellFormed) (hok : g.add_edge src tgt w = .ok g') : g'.WellFormed := by
  unfold add_edge at hok
  split at hok
  · cases hok
  · rename_i hneg
    split at hok
    · cases hok
    · rename_i hw
      simp only [Except.ok.injEq] at hok
      subst hok
      have hs : src.toNat ≤ (max src tgt).toNat := by omega
      have ht : tgt.toNat ≤ (max src tgt).toNat := by omega
      have hcount : ((g.resize_if_needed (max src tgt).toNat).node_data).length
          = max g.node_count ((max src tgt).toNat + 1) := by
        simp only [resize_if_needed, grow_length, node_count]
      refine ⟨?_, ?_⟩
      · simp only [node_count, List.length_set, resize_if_needed, grow_length]
        rw [h.1, node_count]
      · intro es hes e he
        simp only [node_count]
        rw [hcount]
        have hold : ∀ es ∈ (g.resize_if_needed (max src tgt).toNat).adj, ∀ e ∈ es,
            e.target < max g.node_count ((max src tgt).toNat + 1) ∧ e.weights ≠ [] := by
          intro es hes e he
          rcases mem_grow _ _ _ _ hes with hin | hnil
          · have := h.2 es hin e he
            exact ⟨by omega, this.2⟩
          · rw [hnil] at he
            simp at he
        rcases List.mem_or_eq_of_mem_set hes with hin | hnew
        · exact hold es hin e he
        · rw [hnew] at he
          rcases List.mem_append.1 he with hin | hlast
          · obtain ⟨es', hes', hmem⟩ := mem_getD_nil _ _ _ hin
            exact hold es' hes' e hmem
          · simp only [List.mem_singleton] at hlast
            subst hlast
            refine ⟨by dsimp only; omega, ?_⟩
            intro hnil
            dsimp only at hnil
            rw [hnil] at hw
            simp at hw

end DynamicGraph

theorem get_edges_natCast (g : DynamicGraph) (u : Nat) (h : u < g.adj.length) :
    g.get_edges (u : Int) = .ok (g.adj.getD u []) := by
  unfold DynamicGraph.get_edges
  have h1 : ¬ ((u : Int) < 0 ∨ (g.adj.length : Int) ≤ (u : Int)) := by omega
  rw [if_neg h1, Int.toNat_ofNat]

theorem nonneg_closed (g : DynamicGraph) (hnn : g.NonNegWeights) :
    EdgeClosed g (fun _ d => 0 ≤ d) := by
  intro u d hd e he
  have := hnn.edge_nonneg u e he
  omega

theorem walk_closed (g : DynamicGraph) (s : Nat) : EdgeClosed g (Walk g s) :=
  fun _ _ hw e he => Walk.snoc e hw he

/-! ## pareto_utils.hpp -/

namespace Pareto

theorem dominates_from_iff (xs ys : List Int) (better : Bool) (h : xs.length = ys.length) :
    dominates_from xs ys better = true ↔
      (∀ i, i < xs.length → xs.getD i 0 ≤ ys.getD i 0) ∧
        (better = true ∨ ∃ i, i < xs.length ∧ xs.getD i 0 < ys.getD i 0) := by
  induction xs generalizing ys better with
  | nil => simp [dominates_from]
  | cons x xs ih =>
    cases ys with
    | nil => simp at h
    | cons y ys =>
      have hlen : xs.length = ys.length := by simpa using h
      simp only [dominates_from, List.headD_cons, List.tail_cons]
      by_cases hxy : x > y
      · simp only [hxy, if_true]
        constructor
        · intro hf; simp at hf
        · rintro ⟨hall, _⟩
          have := hall 0 (by simp)
          simp at this
          omega
      · simp only [hxy, if_false]
        rw [ih ys _ hlen]
        constructor
        · rintro ⟨hall, hex⟩
          refine ⟨?_, ?_⟩
          · intro i hi
            cases i with
            | zero => simp; omega
            | succ i => simpa using hall i (by simpa using hi)
          · simp only [Bool.or_eq_true, decide_eq_true_eq] at hex
            rcases hex with (hb | hlt) | ⟨i, hi, hlt⟩
            · exact Or.inl hb
            · exact Or.inr ⟨0, by simp, by simpa using hlt⟩
            · exact Or.inr ⟨i + 1, by simpa using hi, by simpa using hlt⟩
        · rintro ⟨hall, hex⟩
          refine ⟨?_, ?_⟩
          · intro i hi
            simpa using hall (i + 1) (by simpa using hi)
          · simp only [Bool.or_eq_true, decide_eq_true_eq]
            rcases hex with hb | ⟨i, hi, hlt⟩
            · exact Or.inl (Or.inl hb)
            · cases i with
              | zero => exact Or.inl (Or.inr (by simpa using hlt))
              | succ i => exact Or.inr ⟨i, by simpa using hi, by simpa using hlt⟩

theorem dominates_from_self (xs : List Int) (better : Bool) :
    dominates_from xs xs better = better := by
  induction xs generalizing better with
  | nil => simp [dominates_from]
  | cons x xs ih => simp [dominates_from, ih]

theorem dominates_irrefl (xs : List Int) : dominates xs xs = false :=
  dominates_from_self xs false

theorem filter_loop_sublist (kept rest : List PathResult) :
    (filter_loop kept rest).Sublist (kept ++ rest) := by
  induction rest generalizing kept with
  | nil => simp [filter_loop]
  | cons p rest ih =>
    simp only [filter_loop]
    split
    · exact (ih kept).trans (List.Sublist.append_left (List.sublist_cons_self p rest) kept)
    · simpa using ih (kept ++ [p])

theorem filter_loop_free (kept rest : List PathResult)
    (hk : ∀ p ∈ kept, ∀ q ∈ kept ++ rest, dominates q.objectives p.objectives = false) :
    ∀ p ∈ filter_loop kept rest, ∀ q ∈ filter_loop kept rest,
      dominates q.objectives p.objectives = false := by
  induction rest generalizing kept with
  | nil => simpa [filter_loop] using hk
  | cons x rest ih =>
    simp only [filter_loop]
    split
    · apply ih
      intro p hp q hq
      apply hk p hp q
      simp only [List.mem_append, List.mem_cons] at hq ⊢
      tauto
    · rename_i hany
      apply ih
      intro p hp q hq
      simp only [List.mem_append, List.mem_singleton] at hp
      rcases hp with hp | rfl
      · apply hk p hp q
        simp only [List.mem_append, List.mem_cons, List.mem_singleton] at hq ⊢
        tauto
      · simp only [List.any_eq_true, not_exists, not_and, Bool.not_eq_true] at hany
        simp only [List.mem_append, List.mem_singleton] at hq
        rcases hq with (hq | rfl) | hq
        · exact hany q (by simp [hq])
        · exact dominates_irrefl _
        · exact hany q (by simp [hq])

end Pareto

/-- C9: for objective vectors `a` and `b` of equal length, `Pareto::dominates(a, b)`
is true exactly when `a[i] <= b[i]` at every index and `a[i] < b[i]` at some index. -/
theorem dominates_iff (a b : List Int) (h : a.length = b.length) :
    Pareto.dominates a b = true ↔
      (∀ i, i < a.length → a.getD i 0 ≤ b.getD i 0) ∧
        ∃ i, i < a.length ∧ a.getD i 0 < b.getD i 0 := by
  unfold Pareto.dominates
  rw [Pareto.dominates_from_iff a b false h]
  simp

theorem dominates_iff_witness :
    Pareto.dominates [1, 2] [1, 3] = true ↔
      (∀ i, i < [(1 : Int), 2].length → [(1 : Int), 2].getD i 0 ≤ [(1 : Int), 3].getD i 0) ∧
        ∃ i, i < [(1 : Int), 2].length ∧ [(1 : Int), 2].getD i 0 < [(1 : Int), 3].getD i 0 :=
  dominates_iff [1, 2] [1, 3] rfl

/-- C10: for results whose objective vectors have equal length, nothing that
`Pareto::filter_dominated` leaves in the vector is dominated by a result that it
leaves in the vector; what is left is a subsequence of the input. -/
theorem filter_dominated_dominance_free (paths : List PathResult)
    (_hlen : ∀ p ∈ paths, ∀ q ∈ paths, p.objectives.length = q.objectives.length) :
    (Pareto.filter_dominated paths).Sublist paths ∧
      ∀ p ∈ Pareto.filter_dominated paths, ∀ q ∈ Pareto.filter_dominated paths,
        Pareto.dominates q.objectives p.objectives = false := by
  refine ⟨by simpa using Pareto.filter_loop_sublist [] paths, ?_⟩
  exact Pareto.filter_loop_free [] paths (by simp)

end PDC
namespace PDC
namespace SOSPEngine

theorem update_edge_length (u : Nat) (e : SOSPEngine) (edge : Edge) :
    (update_edge u e edge).distances.length = e.distances.length := by
  unfold update_edge
  split
  · rfl
  · dsimp only
    split <;> simp

theorem update_edge_le (u : Nat) (e : SOSPEngine) (edge : Edge) (v : Nat) :
    Dist.le ((update_edge u e edge).distances.getD v none) (e.distances.getD v none) := by
  unfold update_edge
  split
  · exact Dist.le_refl _
  · dsimp only
    split
    · rename_i hlt
      by_cases hv : edge.target = v
      · subst hv
        by_cases hin : edge.target < e.distances.length
        · simp only [getD_set_self _ _ _ _ hin]
          exact Dist.le_of_lt hlt
        · simp only [List.set_eq_of_length_le (Nat.le_of_not_lt hin)]
          exact Dist.le_refl _
      · simp only [getD_set_other _ _ _ _ _ hv]
        exact Dist.le_refl _
    · exact Dist.le_refl _

theorem update_fold_le (u : Nat) (edges : List Edge) (e : SOSPEngine) (v : Nat) :
    Dist.le ((edges.foldl (update_edge u) e).distances.getD v none)
      (e.distances.getD v none) := by
  induction edges generalizing e with
  | nil => exact Dist.le_refl _
  | cons x xs ih =>
    simp only [List.foldl_cons]
    exact Dist.le_trans (ih _) (update_edge_le u e x v)

theorem update_fold_length (u : Nat) (edges : List Edge) (e : SOSPEngine) :
    (edges.foldl (update_edge u) e).distances.length = e.distances.length := by
  induction edges generalizing e with
  | nil => rfl
  | cons x xs ih =>
    simp only [List.foldl_cons]
    rw [ih, update_edge_length]

theorem update_loop_le (g : DynamicGraph) (affected : List Bool) (us : List Nat)
    (e : SOSPEngine) (hus : ∀ u ∈ us, u < g.adj.length) :
    ∃ e', update_loop g affected us e = some e' ∧
      e'.distances.length = e.distances.length ∧
      ∀ v, Dist.le (e'.distances.getD v none) (e.distances.getD v none) := by
  induction us generalizing e with
  | nil => exact ⟨e, rfl, rfl, fun v => Dist.le_refl _⟩
  | cons u us ih =>
    have hu : u < g.adj.length := hus u (List.mem_cons_self _ _)
    have hrest : ∀ x ∈ us, x < g.adj.length := fun x hx => hus x (List.mem_cons_of_mem _ hx)
    simp only [update_loop, get_edges_natCast g u hu]
    split
    · obtain ⟨e', h1, h2, h3⟩ := ih ((g.adj.getD u []).foldl (update_edge u) e) hrest
      refine ⟨e', h1, ?_, fun v => ?_⟩
      · rw [h2, update_fold_length]
      · exact Dist.le_trans (h3 v) (update_fold_le u _ e v)
    · exact ih e hrest

end SOSPEngine
end PDC
namespace PDC

theorem infCount_set_none (l : List (Option Int)) (t : Nat) (x : Int)
    (h : l.getD t none = none) (ht : t < l.length) :
    infCount (l.set t (some x)) + 1 = infCount l := by
  induction l generalizing t with
  | nil => simp at ht
  | cons a l ih =>
    cases t with
    | zero =>
      simp only [List.getD_cons_zero] at h
      subst h
      simp [infCount]
    | succ t =>
      simp only [List.getD_cons_succ] at h
      have := ih t h (by simpa using ht)
      cases a <;> simp only [List.set_cons_succ, infCount] <;> omega

theorem infCount_set_some (l : List (Option Int)) (t : Nat) (x old : Int)
    (h : l.getD t none = some old) :
    infCount (l.set t (some x)) = infCount l := by
  induction l generalizing t with
  | nil => simp
  | cons a l ih =>
    cases t with
    | zero =>
      simp only [List.getD_cons_zero] at h
      subst h
      simp [infCount]
    | succ t =>
      simp only [List.getD_cons_succ] at h
      have := ih t h
      cases a <;> simp only [List.set_cons_succ, infCount] <;> omega

theorem finSum_set_some (l : List (Option Int)) (t : Nat) (x old : Int)
    (h : l.getD t none = some old) :
    finSum (l.set t (some x)) + old.toNat = finSum l + x.toNat := by
  induction l generalizing t with
  | nil => simp at h
  | cons a l ih =>
    cases t with
    | zero =>
      simp only [List.getD_cons_zero] at h
      subst h
      simp only [List.set_cons_zero, finSum]
      omega
    | succ t =>
      simp only [List.getD_cons_succ] at h
      have := ih t h
      cases a <;> simp only [List.set_cons_succ, finSum] <;> omega

theorem LexLe.refl (x : Nat × Nat) : LexLe x x := Or.inr ⟨rfl, Nat.le_refl _⟩

theorem LexLe.trans {x y z : Nat × Nat} (h1 : LexLe x y) (h2 : LexLe y z) : LexLe x z := by
  unfold LexLe at *
  omega

theorem Frontier.mem_push (k p : Int × Nat) (q : Frontier) :
    p ∈ Frontier.push k q ↔ p = k ∨ p ∈ q := by
  induction q with
  | nil => simp [Frontier.push]
  | cons x xs ih =>
    simp only [Frontier.push]
    split
    · simp
    · simp only [List.mem_cons, ih]
      tauto

theorem Frontier.length_push (k : Int × Nat) (q : Frontier) :
    (Frontier.push k q).length = q.length + 1 := by
  induction q with
  | nil => simp [Frontier.push]
  | cons x xs ih =>
    simp only [Frontier.push]
    split <;> simp [ih]

end PDC
namespace PDC
namespace SOSPEngine

theorem relax_edge_inv (g : DynamicGraph) (P : Nat → Int → Prop) (hP : EdgeClosed g P)
    (hwf : g.WellFormed) (u : Nat) (cur : Int) (hu : P u cur) (st : SOSPEngine × Frontier)
    (edge : Edge) (hedge : edge ∈ g.adj.getD u []) (h : Inv g P st.1 st.2) :
    Inv g P (relax_edge u cur st edge).1 (relax_edge u cur st edge).2 := by
  obtain ⟨hlen, hq, hd⟩ := h
  have hnew : P edge.target (cur + edge.weights.headD 0) := hP u cur hu edge hedge
  have ht : edge.target < g.node_count := (hwf.edge_ok u edge hedge).1
  have hdist : ∀ v d, (st.1.distances.set edge.target
      (some (cur + edge.weights.headD 0))).getD v none = some d → P v d := by
    intro v d hv
    by_cases hvt : edge.target = v
    · subst hvt
      rw [getD_set_self _ _ _ _ (by omega)] at hv
      cases hv
      exact hnew
    · rw [getD_set_other _ _ _ _ _ hvt] at hv
      exact hd v d hv
  unfold relax_edge
  dsimp only
  split
  · split
    · refine ⟨by simpa using hlen, ?_, hdist⟩
      intro p hp
      rcases (Frontier.mem_push _ _ _).1 hp with rfl | hp
      · exact ⟨ht, hnew⟩
      · exact hq p hp
    · exact ⟨by simpa using hlen, hq, hdist⟩
  · exact ⟨hlen, hq, hd⟩

theorem relax_edge_source (s u : Nat) (cur : Int) (st : SOSPEngine × Frontier) (edge : Edge)
    (hnn : 0 ≤ cur + edge.weights.headD 0) (h : st.1.distances.getD s none = some 0) :
    (relax_edge u cur st edge).1.distances.getD s none = some 0 := by
  unfold relax_edge
  dsimp only
  split
  · rename_i hlt
    have hne : edge.target ≠ s := by
      intro heq
      rw [heq, h] at hlt
      simp only [Dist.lt, decide_eq_true_eq] at hlt
      omega
    split <;> (dsimp only; rw [getD_set_other _ _ _ _ _ hne]; exact h)
  · exact h

theorem relax_edge_measure (g : DynamicGraph) (u : Nat) (cur : Int)
    (st : SOSPEngine × Frontier) (edge : Edge) (hnn : 0 ≤ cur + edge.weights.headD 0)
    (ht : edge.target < g.node_count) (h : Inv g (fun _ d => 0 ≤ d) st.1 st.2) :
    LexLe (measure (relax_edge u cur st edge)) (measure st) := by
  obtain ⟨hlen, _, hd⟩ := h
  unfold relax_edge
  dsimp only
  split
  · rename_i hlt
    have key : LexLe
        (infCount (st.1.distances.set edge.target (some (cur + edge.weights.headD 0))),
          2 * finSum (st.1.distances.set edge.target (some (cur + edge.weights.headD 0)))
            + (st.2.length + 1))
        (measure st) := by
      cases hold : st.1.distances.getD edge.target none with
      | none =>
        left
        have := infCount_set_none st.1.distances edge.target (cur + edge.weights.headD 0)
          hold (by omega)
        simp only [measure]
        omega
      | some old =>
        right
        have h1 := infCount_set_some st.1.distances edge.target
          (cur + edge.weights.headD 0) old hold
        have h2 := finSum_set_some st.1.distances edge.target
          (cur + edge.weights.headD 0) old hold
        have h3 : 0 ≤ old := hd _ _ hold
        rw [hold] at hlt
        simp only [Dist.lt, decide_eq_true_eq] at hlt
        simp only [measure]
        refine ⟨h1, ?_⟩
        omega
    split
    · simpa [measure, Frontier.length_push] using key
    · refine LexLe.trans (y := (infCount (st.1.distances.set edge.target
          (some (cur + edge.weights.headD 0))),
          2 * finSum (st.1.distances.set edge.target (some (cur + edge.weights.headD 0)))
            + (st.2.length + 1))) (Or.inr ⟨rfl, ?_⟩) key
      simp only [measure]
      omega
  · exact LexLe.refl _

/-- A property of the loop state that the pop and every relaxation preserve holds
of the state the loop returns. -/
theorem compute_loop_preserves (g : DynamicGraph) (I : SOSPEngine → Frontier → Prop)
    (hpop : ∀ e d u rest, I e ((d, u) :: rest) →
      I { e with in_queue := e.in_queue.set u false } rest)
    (hrelax : ∀ e d u rest, I e ((d, u) :: rest) → ∀ (st : SOSPEngine × Frontier) edge,
      edge ∈ g.adj.getD u [] → I st.1 st.2 →
        I (relax_edge u d st edge).1 (relax_edge u d st edge).2)
    (hnode : ∀ e d u rest, I e ((d, u) :: rest) → u < g.adj.length) :
    ∀ fuel e q e', I e q → compute_loop g fuel e q = some e' → I e' [] := by
  intro fuel
  induction fuel with
  | zero => intro e q e' _ h; simp [compute_loop] at h
  | succ fuel ih =>
    intro e q e' hI h
    cases q with
    | nil =>
      simp only [compute_loop, Option.some.injEq] at h
      subst h
      exact hI
    | cons p rest =>
      obtain ⟨d, u⟩ := p
      simp only [compute_loop, get_edges_natCast g u (hnode e d u rest hI)] at h
      split at h
      · exact ih _ _ _ (hpop e d u rest hI) h
      · refine ih _ _ _ ?_ h
        exact foldl_preserves (fun st => I st.1 st.2) _ _
          (fun st edge hedge hst => hrelax e d u rest hI st edge hedge hst)
          ({ e with in_queue := e.in_queue.set u false }, rest) (hpop e d u rest hI)

theorem inv_pop (g : DynamicGraph) (P : Nat → Int → Prop) (e : SOSPEngine) (d : Int)
    (u : Nat) (rest : Frontier) (h : Inv g P e ((d, u) :: rest)) :
    Inv g P { e with in_queue := e.in_queue.set u false } rest :=
  ⟨h.1, fun p hp => h.2.1 p (List.mem_cons_of_mem _ hp), h.2.2⟩

/-- Partial correctness for an edge-closed property: it holds of every finite
distance of the state the loop returns. -/
theorem compute_loop_inv (g : DynamicGraph) (P : Nat → Int → Prop) (hP : EdgeClosed g P)
    (hwf : g.WellFormed) (fuel : Nat) (e : SOSPEngine) (q : Frontier) (e' : SOSPEngine)
    (hI : Inv g P e q) (h : compute_loop g fuel e q = some e') : Inv g P e' [] := by
  refine compute_loop_preserves g (Inv g P) (inv_pop g P) ?_ ?_ fuel e q e' hI h
  · intro e d u rest hI st edge hedge hst
    exact relax_edge_inv g P hP hwf u d (hI.2.1 _ (List.mem_cons_self _ _)).2 st edge hedge hst
  · intro e d u rest hI
    rw [hwf.1]
    exact (hI.2.1 _ (List.mem_cons_self _ _)).1

/-- With non-negative weights the source keeps distance `0` through the loop. -/
theorem compute_loop_source (g : DynamicGraph) (hwf : g.WellFormed) (hnn : g.NonNegWeights)
    (s : Nat) (fuel : Nat) (e : SOSPEngine) (q : Frontier) (e' : SOSPEngine)
    (hI : Inv g (fun _ d => 0 ≤ d) e q) (hs : e.distances.getD s none = some 0)
    (h : compute_loop g fuel e q = some e') : e'.distances.getD s none = some 0 := by
  have := compute_loop_preserves g
    (fun e q => Inv g (fun _ d => 0 ≤ d) e q ∧ e.distances.getD s none = some 0)
    (fun e d u rest hI => ⟨inv_pop g _ e d u rest hI.1, hI.2⟩) ?_ ?_ fuel e q e' ⟨hI, hs⟩ h
  · exact this.2
  · intro e d u rest hI st edge hedge hst
    have hd : 0 ≤ d := (hI.1.2.1 _ (List.mem_cons_self _ _)).2
    refine ⟨relax_edge_inv g _ (nonneg_closed g hnn) hwf u d hd st edge hedge hst.1, ?_⟩
    exact relax_edge_source s u d st edge (nonneg_closed g hnn u d hd edge hedge) hst.2
  · intro e d u rest hI
    rw [hwf.1]
    exact (hI.1.2.1 _ (List.mem_cons_self _ _)).1

/-- With non-negative weights the loop reaches an empty frontier. -/
theorem compute_loop_terminates (g : DynamicGraph) (hwf : g.WellFormed)
    (hnn : g.NonNegWeights) :
    ∀ a b e q, Inv g (fun _ d => 0 ≤ d) e q → measure (e, q) = (a, b) →
      ∃ fuel e', compute_loop g fuel e q = some e' := by
  intro a
  induction a using Nat.strong_induction_on with
  | _ a iha =>
    intro b
    induction b using Nat.strong_induction_on with
    | _ b ihb =>
      intro e q hI hm
      cases q with
      | nil => exact ⟨1, e, rfl⟩
      | cons p rest =>
        obtain ⟨d, u⟩ := p
        have hu : u < g.adj.length := by
          rw [hwf.1]; exact (hI.2.1 _ (List.mem_cons_self _ _)).1
        have hd : 0 ≤ d := (hI.2.1 _ (List.mem_cons_self _ _)).2
        have hpop := inv_pop g _ e d u rest hI
        simp only [measure, List.length_cons, Prod.mk.injEq] at hm
        by_cases hstale : Dist.lt (e.distances.getD u none) (some d) = true
        · obtain ⟨fuel, e', h⟩ := ihb (b - 1) (by omega) _ rest hpop
            (by simp only [measure, Prod.mk.injEq]; omega)
          exact ⟨fuel + 1, e', by simp only [compute_loop, hstale, if_true]; exact h⟩
        · have hfold := foldl_preserves
            (fun st : SOSPEngine × Frontier => Inv g (fun _ d => 0 ≤ d) st.1 st.2 ∧
              LexLe (measure st) (a, b - 1)) (relax_edge u d) (g.adj.getD u [])
            (fun st edge hedge hst =>
              ⟨relax_edge_inv g _ (nonneg_closed g hnn) hwf u d hd st edge hedge hst.1,
                LexLe.trans (relax_edge_measure g u d st edge
                  (nonneg_closed g hnn u d hd edge hedge) (hwf.edge_ok u edge hedge).1 hst.1) hst.2⟩)
            ({ e with in_queue := e.in_queue.set u false }, rest)
            ⟨hpop, by simp only [measure, LexLe]; right; constructor <;> omega⟩
          obtain ⟨hI2, hlex⟩ := hfold
          have hrec : ∃ fuel e', compute_loop g fuel
              ((g.adj.getD u []).foldl (relax_edge u d)
                ({ e with in_queue := e.in_queue.set u false }, rest)).1
              ((g.adj.getD u []).foldl (relax_edge u d)
                ({ e with in_queue := e.in_queue.set u false }, rest)).2 = some e' := by
            rcases hlex with hlt | ⟨heq, hle⟩
            · exact iha _ hlt _ _ _ hI2 rfl
            · simp only at heq hle
              rcases Nat.lt_or_ge (measure ((g.adj.getD u []).foldl (relax_edge u d)
                ({ e with in_queue := e.in_queue.set u false }, rest))).2 b with hlt | hge
              · exact ihb _ hlt _ _ hI2 (Prod.ext heq rfl)
              · omega
          obtain ⟨fuel, e', h⟩ := hrec
          refine ⟨fuel + 1, e', ?_⟩
          simp only [compute_loop, hstale, get_edges_natCast g u hu]
          exact h

end SOSPEngine
end PDC
namespace PDC
namespace HybridEngine

theorem cas_edge_length (u : Nat) (du : Int) (st : HybridEngine × Bool) (edge : Edge) :
    (relax_edge u du st edge).1.atomic_distances.length = st.1.atomic_distances.length := by
  unfold relax_edge
  split
  · rfl
  · split
    · rfl
    · dsimp only
      split <;> simp

theorem relax_edge_le (u : Nat) (du : Int) (st : HybridEngine × Bool) (edge : Edge) (v : Nat) :
    Dist.le ((relax_edge u du st edge).1.atomic_distances.getD v none)
      (st.1.atomic_distances.getD v none) := by
  unfold relax_edge
  split
  · exact Dist.le_refl _
  · rename_i hin
    split
    · exact Dist.le_refl _
    · dsimp only
      split
      · rename_i hlt
        by_cases hv : edge.target = v
        · subst hv
          simp only [getD_set_self _ _ _ _ (Nat.lt_of_not_le hin)]
          exact Dist.le_of_lt hlt
        · simp only [getD_set_other _ _ _ _ _ hv]
          exact Dist.le_refl _
      · exact Dist.le_refl _

theorem cas_edge_inv (g : DynamicGraph) (P : Nat → Int → Prop) (hP : EdgeClosed g P)
    (u : Nat) (du : Int) (hu : P u du) (st : HybridEngine × Bool)
    (edge : Edge) (hedge : edge ∈ g.adj.getD u []) (h : Inv g P st.1) :
    Inv g P (relax_edge u du st edge).1 := by
  refine ⟨by rw [cas_edge_length]; exact h.1, ?_⟩
  have hnew := hP u du hu edge hedge
  unfold relax_edge
  split
  · exact h.2
  · rename_i hin
    split
    · exact h.2
    · rename_i w ws hw
      rw [hw] at hnew
      dsimp only
      split
      · intro v d hv
        by_cases hvt : edge.target = v
        · subst hvt
          simp only [getD_set_self _ _ _ _ (Nat.lt_of_not_le hin)] at hv
          cases hv
          exact hnew
        · simp only [getD_set_other _ _ _ _ _ hvt] at hv
          exact h.2 v d hv
      · exact h.2

theorem relax_edge_unchanged (u : Nat) (du : Int) (st : HybridEngine × Bool) (edge : Edge)
    (h : (relax_edge u du st edge).2 = false) :
    (relax_edge u du st edge).1 = st.1 ∧ st.2 = false := by
  unfold relax_edge at h ⊢
  split
  · rename_i h1; simp only [h1, if_true] at h; exact ⟨rfl, h⟩
  · rename_i h1
    simp only [h1, if_false] at h
    split
    · rename_i h2; simp only [h2] at h; exact ⟨rfl, h⟩
    · rename_i w ws h2
      simp only [h2] at h
      dsimp only at h ⊢
      split
      · rename_i h3
        rw [if_pos h3] at h
        exact absurd h (by simp)
      · rename_i h3
        rw [if_neg h3] at h
        exact ⟨rfl, h⟩

theorem relax_edge_after (g : DynamicGraph) (hwf : g.WellFormed) (u : Nat) (du : Int)
    (st : HybridEngine × Bool) (edge : Edge) (hedge : edge ∈ g.adj.getD u [])
    (hlen : st.1.atomic_distances.length = g.node_count) :
    Dist.le ((relax_edge u du st edge).1.atomic_distances.getD edge.target none)
      (some (du + edge.weights.headD 0)) := by
  obtain ⟨ht, hw⟩ := hwf.edge_ok u edge hedge
  unfold relax_edge
  rw [if_neg (by omega)]
  cases hws : edge.weights with
  | nil => exact absurd hws hw
  | cons w ws =>
    dsimp only [List.headD_cons]
    split
    · rw [getD_set_self _ _ _ _ (by omega)]
      exact Dist.le_refl _
    · rename_i hlt
      simpa [Dist.le] using hlt

end HybridEngine
end PDC
namespace PDC
namespace HybridEngine

theorem edges_fold_length (u : Nat) (du : Int) (edges : List Edge) (st : HybridEngine × Bool) :
    (edges.foldl (relax_edge u du) st).1.atomic_distances.length
      = st.1.atomic_distances.length := by
  induction edges generalizing st with
  | nil => rfl
  | cons x xs ih => simp only [List.foldl_cons]; rw [ih, cas_edge_length]

theorem edges_fold_le (u : Nat) (du : Int) (edges : List Edge) (st : HybridEngine × Bool)
    (v : Nat) :
    Dist.le ((edges.foldl (relax_edge u du) st).1.atomic_distances.getD v none)
      (st.1.atomic_distances.getD v none) := by
  induction edges generalizing st with
  | nil => exact Dist.le_refl _
  | cons x xs ih =>
    simp only [List.foldl_cons]
    exact Dist.le_trans (ih _) (relax_edge_le u du st x v)

theorem edges_fold_unchanged (u : Nat) (du : Int) (edges : List Edge)
    (st : HybridEngine × Bool) (h : (edges.foldl (relax_edge u du) st).2 = false) :
    (edges.foldl (relax_edge u du) st).1 = st.1 ∧ st.2 = false := by
  induction edges generalizing st with
  | nil => exact ⟨rfl, h⟩
  | cons x xs ih =>
    simp only [List.foldl_cons] at h ⊢
    obtain ⟨h1, h2⟩ := ih _ h
    obtain ⟨h3, h4⟩ := relax_edge_unchanged u du st x h2
    exact ⟨h1.trans h3, h4⟩

theorem edges_fold_after (g : DynamicGraph) (hwf : g.WellFormed) (u : Nat) (du : Int)
    (edges : List Edge) (hsub : ∀ x ∈ edges, x ∈ g.adj.getD u [])
    (st : HybridEngine × Bool) (hlen : st.1.atomic_distances.length = g.node_count)
    (edge : Edge) (hedge : edge ∈ edges) :
    Dist.le ((edges.foldl (relax_edge u du) st).1.atomic_distances.getD edge.target none)
      (some (du + edge.weights.headD 0)) := by
  induction edges generalizing st with
  | nil => simp at hedge
  | cons x xs ih =>
    simp only [List.foldl_cons]
    rcases List.mem_cons.1 hedge with rfl | hxs
    · exact Dist.le_trans (edges_fold_le u du xs _ _)
        (relax_edge_after g hwf u du st edge (hsub edge (List.mem_cons_self _ _)) hlen)
    · exact ih (fun y hy => hsub y (List.mem_cons_of_mem _ hy)) _
        (by rw [cas_edge_length]; exact hlen) hxs

theorem relax_node_length (g : DynamicGraph) (st : HybridEngine × Bool) (u : Nat) :
    (relax_node g st u).1.atomic_distances.length = st.1.atomic_distances.length := by
  unfold relax_node
  split
  · rfl
  · split
    · rfl
    · exact edges_fold_length _ _ _ _

theorem relax_node_le (g : DynamicGraph) (st : HybridEngine × Bool) (u v : Nat) :
    Dist.le ((relax_node g st u).1.atomic_distances.getD v none)
      (st.1.atomic_distances.getD v none) := by
  unfold relax_node
  split
  · exact Dist.le_refl _
  · split
    · exact Dist.le_refl _
    · exact edges_fold_le _ _ _ _ _

theorem relax_node_unchanged (g : DynamicGraph) (st : HybridEngine × Bool) (u : Nat)
    (h : (relax_node g st u).2 = false) : (relax_node g st u).1 = st.1 ∧ st.2 = false := by
  unfold relax_node at h ⊢
  split
  · rename_i h1; rw [h1] at h; exact ⟨rfl, h⟩
  · rename_i du h1
    rw [h1] at h
    dsimp only at h
    split
    · rename_i h2; rw [h2] at h; exact ⟨rfl, h⟩
    · rename_i edges h2
      rw [h2] at h
      exact edges_fold_unchanged u du edges st h

theorem relax_node_inv (g : DynamicGraph) (P : Nat → Int → Prop) (hP : EdgeClosed g P)
    (st : HybridEngine × Bool) (u : Nat) (hu : u < g.adj.length) (h : Inv g P st.1) :
    Inv g P (relax_node g st u).1 := by
  unfold relax_node
  split
  · exact h
  · rename_i du h1
    rw [get_edges_natCast g u hu]
    exact foldl_preserves (fun s : HybridEngine × Bool => Inv g P s.1) _ _
      (fun s edge hedge hs => cas_edge_inv g P hP u du (h.2 u du h1) s edge hedge hs) st h

theorem relax_node_after (g : DynamicGraph) (hwf : g.WellFormed) (st : HybridEngine × Bool)
    (u : Nat) (hu : u < g.node_count) (hlen : st.1.atomic_distances.length = g.node_count)
    (du : Int) (hdu : st.1.atomic_distances.getD u none = some du)
    (edge : Edge) (hedge : edge ∈ g.adj.getD u []) :
    Dist.le ((relax_node g st u).1.atomic_distances.getD edge.target none)
      (some (du + edge.weights.headD 0)) := by
  unfold relax_node
  rw [hdu]
  dsimp only
  rw [get_edges_natCast g u (by rw [hwf.1]; exact hu)]
  exact edges_fold_after g hwf u du _ (fun _ hx => hx) st hlen edge hedge

theorem nodes_fold_length (g : DynamicGraph) (us : List Nat) (st : HybridEngine × Bool) :
    (us.foldl (relax_node g) st).1.atomic_distances.length
      = st.1.atomic_distances.length := by
  induction us generalizing st with
  | nil => rfl
  | cons x xs ih => simp only [List.foldl_cons]; rw [ih, relax_node_length]

theorem nodes_fold_le (g : DynamicGraph) (us : List Nat) (st : HybridEngine × Bool) (v : Nat) :
    Dist.le ((us.foldl (relax_node g) st).1.atomic_distances.getD v none)
      (st.1.atomic_distances.getD v none) := by
  induction us generalizing st with
  | nil => exact Dist.le_refl _
  | cons x xs ih =>
    simp only [List.foldl_cons]
    exact Dist.le_trans (ih _) (relax_node_le g st x v)

theorem nodes_fold_unchanged (g : DynamicGraph) (us : List Nat) (st : HybridEngine × Bool)
    (h : (us.foldl (relax_node g) st).2 = false) :
    (us.foldl (relax_node g) st).1 = st.1 ∧ st.2 = false := by
  induction us generalizing st with
  | nil => exact ⟨rfl, h⟩
  | cons x xs ih =>
    simp only [List.foldl_cons] at h ⊢
    obtain ⟨h1, h2⟩ := ih _ h
    obtain ⟨h3, h4⟩ := relax_node_unchanged g st x h2
    exact ⟨h1.trans h3, h4⟩

theorem nodes_fold_inv (g : DynamicGraph) (P : Nat → Int → Prop) (hP : EdgeClosed g P)
    (us : List Nat) (hus : ∀ u ∈ us, u < g.adj.length) (st : HybridEngine × Bool)
    (h : Inv g P st.1) : Inv g P (us.foldl (relax_node g) st).1 :=
  foldl_preserves (fun s : HybridEngine × Bool => Inv g P s.1) _ _
    (fun s u hu hs => relax_node_inv g P hP s u (hus u hu) hs) st h

/-- After the nodes `0 .. k-1` of a round have been handled, every edge leaving one
of them is relaxed with respect to the distances the round started from. -/
theorem prefix_relaxes (g : DynamicGraph) (hwf : g.WellFormed) (e : HybridEngine)
    (hlen : e.atomic_distances.length = g.node_count) (k : Nat) (hk : k ≤ g.node_count) :
    ∀ u, u < k → ∀ du, Dist.le (e.atomic_distances.getD u none) (some du) →
      ∀ edge ∈ g.adj.getD u [],
        Dist.le (((List.range k).foldl (relax_node g) (e, false)).1.atomic_distances.getD
          edge.target none) (some (du + edge.weights.headD 0)) := by
  induction k with
  | zero => intro u hu; omega
  | succ k ih =>
    intro u hu du hdu edge hedge
    rw [List.range_succ, List.foldl_append]
    simp only [List.foldl_cons, List.foldl_nil]
    rcases Nat.lt_or_ge u k with hlt | hge
    · exact Dist.le_trans (relax_node_le g _ k _) (ih (by omega) u hlt du hdu edge hedge)
    · have huk : u = k := by omega
      subst huk
      have hcur := Dist.le_trans (nodes_fold_le g (List.range u) (e, false) u) hdu
      obtain ⟨x, hx, hxle⟩ := (Dist.le_some_iff _ _).1 hcur
      have := relax_node_after g hwf ((List.range u).foldl (relax_node g) (e, false)) u
        (by omega) (by rw [nodes_fold_length]; exact hlen) x hx edge hedge
      refine Dist.le_trans this ?_
      simp only [Dist.le, Dist.lt, decide_eq_false_iff_not]
      omega

theorem round_length (g : DynamicGraph) (e : HybridEngine) :
    (round g e).1.atomic_distances.length = e.atomic_distances.length :=
  nodes_fold_length g _ _

theorem round_le (g : DynamicGraph) (e : HybridEngine) (v : Nat) :
    Dist.le ((round g e).1.atomic_distances.getD v none) (e.atomic_distances.getD v none) :=
  nodes_fold_le g _ _ v

theorem round_unchanged (g : DynamicGraph) (e : HybridEngine) (h : (round g e).2 = false) :
    (round g e).1 = e :=
  (nodes_fold_unchanged g _ _ h).1

theorem round_inv (g : DynamicGraph) (hwf : g.WellFormed) (P : Nat → Int → Prop)
    (hP : EdgeClosed g P) (e : HybridEngine) (h : Inv g P e) : Inv g P (round g e).1 :=
  nodes_fold_inv g P hP _ (fun u hu => by rw [hwf.1]; exact List.mem_range.1 hu) _ h

theorem round_relaxes (g : DynamicGraph) (hwf : g.WellFormed) (e : HybridEngine)
    (hlen : e.atomic_distances.length = g.node_count) (u : Nat) (hu : u < g.node_count)
    (du : Int) (hdu : Dist.le (e.atomic_distances.getD u none) (some du))
    (edge : Edge) (hedge : edge ∈ g.adj.getD u []) :
    Dist.le ((round g e).1.atomic_distances.getD edge.target none)
      (some (du + edge.weights.headD 0)) :=
  prefix_relaxes g hwf e hlen g.node_count (Nat.le_refl _) u hu du hdu edge hedge

end HybridEngine
end PDC
namespace PDC

/-! ## Walks -/

theorem WalkV.head_mem {g : DynamicGraph} {s v : Nat} {d : Int} {vs : List Nat}
    (h : WalkV g s v d vs) : v ∈ vs := by
  cases h <;> simp

theorem WalkV.nodes_lt {g : DynamicGraph} {s v : Nat} {d : Int} {vs : List Nat}
    (hwf : g.WellFormed) (hs : s < g.node_count) (h : WalkV g s v d vs) :
    ∀ x ∈ vs, x < g.node_count := by
  induction h with
  | nil => intro x hx; simp at hx; omega
  | snoc e _ he ih =>
    intro x hx
    rcases List.mem_cons.1 hx with rfl | hx
    · exact (hwf.edge_ok _ e he).1
    · exact ih x hx

theorem WalkV.to_walk {g : DynamicGraph} {s v : Nat} {d : Int} {vs : List Nat}
    (h : WalkV g s v d vs) : Walk g s v d := by
  induction h with
  | nil => exact Walk.nil
  | snoc e _ he ih => exact Walk.snoc e ih he

/-- With non-negative weights, a walk can be cut at any node it visits without
gaining weight. -/
theorem WalkV.cut {g : DynamicGraph} {s v : Nat} {d : Int} {vs : List Nat}
    (hnn : g.NonNegWeights) (h : WalkV g s v d vs) :
    ∀ x ∈ vs, ∃ d' vs', WalkV g s x d' vs' ∧ d' ≤ d ∧ vs'.Sublist vs := by
  induction h with
  | nil =>
    intro x hx
    simp only [List.mem_singleton] at hx
    subst hx
    exact ⟨0, [x], WalkV.nil, le_refl _, List.Sublist.refl _⟩
  | @snoc u d vs e hw he ih =>
    intro x hx
    rcases List.mem_cons.1 hx with rfl | hx
    · exact ⟨_, _, WalkV.snoc e hw he, le_refl _, List.Sublist.refl _⟩
    · obtain ⟨d', vs', h1, h2, h3⟩ := ih x hx
      have := hnn.edge_nonneg u e he
      exact ⟨d', vs', h1, by omega, h3.trans (List.sublist_cons_self _ _)⟩

/-- With non-negative weights, below every walk there is one that visits no node twice. -/
theorem Walk.simple {g : DynamicGraph} {s v : Nat} {d : Int}
    (hnn : g.NonNegWeights) (h : Walk g s v d) :
    ∃ d' vs, WalkV g s v d' vs ∧ d' ≤ d ∧ vs.Nodup := by
  induction h with
  | nil => exact ⟨0, [s], WalkV.nil, le_refl _, List.nodup_singleton _⟩
  | @snoc u d e _ he ih =>
    obtain ⟨d1, vs, h1, h2, h3⟩ := ih
    have hw := hnn.edge_nonneg u e he
    by_cases hmem : e.target ∈ vs
    · obtain ⟨d', vs', h4, h5, h6⟩ := WalkV.cut hnn h1 e.target hmem
      exact ⟨d', vs', h4, by omega, h6.nodup h3⟩
    · exact ⟨d1 + e.weights.headD 0, e.target :: vs, WalkV.snoc e h1 he, by omega,
        List.nodup_cons.2 ⟨hmem, h3⟩⟩

theorem nodup_length_le (vs : List Nat) (n : Nat) (hnd : vs.Nodup)
    (hlt : ∀ x ∈ vs, x < n) : vs.length ≤ n := by
  have h1 : vs.toFinset ⊆ Finset.range n := by
    intro x hx
    exact Finset.mem_range.2 (hlt x (List.mem_toFinset.1 hx))
  have h2 := Finset.card_le_card h1
  rw [List.toFinset_card_of_nodup hnd, Finset.card_range] at h2
  exact h2

namespace HybridEngine

theorem bounded_mono (g : DynamicGraph) (s : Nat) (k k' : Nat) (e : HybridEngine)
    (hk : k' ≤ k) (h : Bounded g s k e) : Bounded g s k' e :=
  fun v d vs hw hl => h v d vs hw (by omega)

/-- One round extends the bound by one edge. -/
theorem bounded_round (g : DynamicGraph) (hwf : g.WellFormed) (s : Nat)
    (hs : s < g.node_count) (k : Nat) (e : HybridEngine)
    (hlen : e.atomic_distances.length = g.node_count) (h : Bounded g s k e) :
    Bounded g s (k + 1) (round g e).1 := by
  intro v d vs hw hl
  cases hw with
  | nil => exact Dist.le_trans (round_le g e s) (h s 0 [s] WalkV.nil (by simp))
  | @snoc u d vs e' hw' he =>
    have hu : u < g.node_count := WalkV.nodes_lt hwf hs hw' u hw'.head_mem
    have hb := h u d vs hw' (by simpa using hl)
    exact round_relaxes g hwf e hlen u hu d hb e' he

theorem rounds_length (g : DynamicGraph) (K : Nat) (e : HybridEngine) :
    (rounds g K e).atomic_distances.length = e.atomic_distances.length := by
  induction K generalizing e with
  | zero => exact round_length g e
  | succ K ih =>
    simp only [rounds]
    split
    · rw [ih, round_length]
    · exact round_length g e

theorem rounds_inv (g : DynamicGraph) (hwf : g.WellFormed) (P : Nat → Int → Prop)
    (hP : EdgeClosed g P) (K : Nat) (e : HybridEngine) (h : Inv g P e) :
    Inv g P (rounds g K e) := by
  induction K generalizing e with
  | zero => exact round_inv g hwf P hP e h
  | succ K ih =>
    simp only [rounds]
    split
    · exact ih _ (round_inv g hwf P hP e h)
    · exact round_inv g hwf P hP e h

/-- A round that changes nothing leaves a state bounded by walks of every length. -/
theorem bounded_fixpoint (g : DynamicGraph) (hwf : g.WellFormed) (s : Nat)
    (hs : s < g.node_count) (e : HybridEngine)
    (hlen : e.atomic_distances.length = g.node_count) (hfix : (round g e).1 = e)
    (k : Nat) (h : Bounded g s k e) : ∀ m, Bounded g s (k + m) e := by
  intro m
  induction m with
  | zero => exact h
  | succ m ih =>
    have := bounded_round g hwf s hs (k + m) e hlen ih
    rw [hfix] at this
    exact this

/-- The loop of rounds, started `K` rounds before the cap from a state bounded by the
walks of at most `k` edges, ends in a state bounded by the walks of at most
`k + K + 1` edges: the cap never cuts the relaxation short of that. -/
theorem bounded_rounds (g : DynamicGraph) (hwf : g.WellFormed) (s : Nat)
    (hs : s < g.node_count) (K : Nat) :
    ∀ (k : Nat) (e : HybridEngine), e.atomic_distances.length = g.node_count →
      Bounded g s k e → Bounded g s (k + K + 1) (rounds g K e) := by
  induction K with
  | zero => intro k e hlen h; exact bounded_round g hwf s hs k e hlen h
  | succ K ih =>
    intro k e hlen h
    simp only [rounds]
    split
    · have := ih (k + 1) (round g e).1 (by rw [round_length]; exact hlen)
        (bounded_round g hwf s hs k e hlen h)
      have heq : k + 1 + K + 1 = k + (K + 1) + 1 := by omega
      rw [heq] at this
      exact this
    · rename_i hch
      have hfix : (round g e).1 = e := round_unchanged g e (by simpa using hch)
      rw [hfix]
      have := bounded_fixpoint g hwf s hs e hlen hfix k h (K + 1 + 1)
      exact bounded_mono g s _ _ e (by omega) this

theorem compute_parallel_eq (g : DynamicGraph) (e : HybridEngine) (s : Nat)
    (hs : s < g.node_count) :
    compute_parallel g e (s : Int) = rounds g (max 100 (g.node_count - 1) - 1)
      { e with atomic_distances :=
          (e.atomic_distances.map fun _ => (none : Option Int)).set s (some 0) } := by
  unfold compute_parallel
  have h1 : ¬ ((s : Int) < 0 ∨ (g.node_count : Int) ≤ (s : Int)) := by omega
  rw [if_neg h1, Int.toNat_ofNat]

theorem reset_getD (l : List (Option Int)) (s v : Nat) (d : Int)
    (h : ((l.map fun _ => (none : Option Int)).set s (some 0)).getD v none = some d) :
    v = s ∧ d = 0 := by
  by_cases hsv : s = v
  · subst hsv
    by_cases hin : s < l.length
    · rw [getD_set_self _ _ _ _ (by simpa using hin)] at h
      cases h
      exact ⟨rfl, rfl⟩
    · rw [List.set_eq_of_length_le (by simpa using hin),
        getD_beyond _ _ _ (by simpa using hin)] at h
      cases h
  · rw [getD_set_other _ _ _ _ _ hsv] at h
    simp [List.getD_eq_getElem?_getD, List.getElem?_map] at h

theorem reset_inv (g : DynamicGraph) (P : Nat → Int → Prop) (e : HybridEngine) (s : Nat)
    (hlen : e.atomic_distances.length = g.node_count) (h0 : P s 0) :
    Inv g P { e with atomic_distances :=
      (e.atomic_distances.map fun _ => (none : Option Int)).set s (some 0) } := by
  refine ⟨by simpa using hlen, ?_⟩
  intro v d hv
  obtain ⟨rfl, rfl⟩ := reset_getD _ _ _ _ hv
  exact h0

theorem init_bounded (g : DynamicGraph) (e : HybridEngine) (s : Nat)
    (hs : s < g.node_count) (hlen : e.atomic_distances.length = g.node_count) :
    Bounded g s 0 { e with atomic_distances :=
      (e.atomic_distances.map fun _ => (none : Option Int)).set s (some 0) } := by
  intro v d vs hw hl
  cases hw with
  | nil =>
    dsimp only
    rw [getD_set_self _ _ _ _ (by simpa [hlen] using hs)]
    exact Dist.le_refl _
  | snoc e' hw' he =>
    have := hw'.head_mem
    have : 0 < List.length ‹List Nat› := List.length_pos_of_mem this
    simp only [List.length_cons] at hl
    omega

/-- Correctness of the relaxation solver: with non-negative weights the final cell
of every node holds its true shortest distance. -/
theorem compute_parallel_true (g : DynamicGraph) (e : HybridEngine) (s : Nat)
    (hwf : g.WellFormed) (hnn : g.NonNegWeights) (hs : s < g.node_count)
    (hlen : e.atomic_distances.length = g.node_count) (v : Nat) :
    IsTrueDistance g s v ((compute_parallel g e (s : Int)).atomic_distances.getD v none) := by
  rw [compute_parallel_eq g e s hs]
  have hsound := rounds_inv g hwf (Walk g s) (walk_closed g s) (max 100 (g.node_count - 1) - 1)
    _ (reset_inv g (Walk g s) e s hlen Walk.nil)
  have hb := bounded_rounds g hwf s hs (max 100 (g.node_count - 1) - 1) 0 _
    (by simpa using hlen) (init_bounded g e s hs hlen)
  have hle : ∀ d', Walk g s v d' → Dist.le
      ((rounds g (max 100 (g.node_count - 1) - 1)
        { e with atomic_distances :=
          (e.atomic_distances.map fun _ => (none : Option Int)).set s (some 0) }
        ).atomic_distances.getD v none) (some d') := by
    intro d' hw
    obtain ⟨d1, vs, h1, h2, h3⟩ := Walk.simple hnn hw
    have hl := nodup_length_le vs g.node_count h3 (WalkV.nodes_lt hwf hs h1)
    have := hb v d1 vs h1 (by omega)
    refine Dist.le_trans this ?_
    simp only [Dist.le, Dist.lt, decide_eq_false_iff_not]
    omega
  cases hres : (rounds g (max 100 (g.node_count - 1) - 1)
        { e with atomic_distances :=
          (e.atomic_distances.map fun _ => (none : Option Int)).set s (some 0) }
        ).atomic_distances.getD v none with
  | none =>
    rintro ⟨d', hw⟩
    have := hle d' hw
    rw [hres] at this
    simp [Dist.le, Dist.lt] at this
  | some d =>
    refine ⟨hsound.2 v d hres, ?_⟩
    intro d' hw
    have := hle d' hw
    rw [hres] at this
    simpa [Dist.le, Dist.lt] using this

end HybridEngine
end PDC
namespace PDC

theorem Walk.nonneg {g : DynamicGraph} {s v : Nat} {d : Int}
    (hnn : g.NonNegWeights) (h : Walk g s v d) : 0 ≤ d := by
  induction h with
  | nil => exact le_refl _
  | @snoc u d e _ he ih =>
    have := hnn.edge_nonneg u e he
    omega

namespace SOSPEngine

theorem relax_edge_length (u : Nat) (cur : Int) (st : SOSPEngine × Frontier) (edge : Edge) :
    (relax_edge u cur st edge).1.distances.length = st.1.distances.length := by
  unfold relax_edge
  dsimp only
  split
  · split <;> simp
  · rfl

theorem relax_fold_length (u : Nat) (cur : Int) (edges : List Edge)
    (st : SOSPEngine × Frontier) :
    (edges.foldl (relax_edge u cur) st).1.distances.length = st.1.distances.length := by
  induction edges generalizing st with
  | nil => rfl
  | cons x xs ih => simp only [List.foldl_cons]; rw [ih, relax_edge_length]

theorem compute_loop_length (g : DynamicGraph) :
    ∀ fuel e q e', compute_loop g fuel e q = some e' →
      e'.distances.length = e.distances.length := by
  intro fuel
  induction fuel with
  | zero => intro e q e' h; simp [compute_loop] at h
  | succ fuel ih =>
    intro e q e' h
    cases q with
    | nil =>
      simp only [compute_loop, Option.some.injEq] at h
      subst h
      rfl
    | cons p rest =>
      obtain ⟨d, u⟩ := p
      simp only [compute_loop] at h
      split at h
      · exact ih { e with in_queue := e.in_queue.set u false } _ _ h
      · split at h
        · cases h
        · rw [ih _ _ _ h, relax_fold_length]

theorem compute_length (g : DynamicGraph) (e : SOSPEngine) (s fuel : Nat) (e' : SOSPEngine)
    (h : compute g e s fuel = some e') : e'.distances.length = g.node_count := by
  unfold compute at h
  rw [compute_loop_length g _ _ _ _ h]
  simp

theorem init_getD (n s v : Nat) (d : Int)
    (h : ((List.replicate n (none : Option Int)).set s (some 0)).getD v none = some d) :
    v = s ∧ d = 0 := by
  by_cases hsv : s = v
  · subst hsv
    by_cases hin : s < n
    · rw [getD_set_self _ _ _ _ (by simpa using hin)] at h
      cases h
      exact ⟨rfl, rfl⟩
    · rw [List.set_eq_of_length_le (by simpa using hin),
        getD_beyond _ _ _ (by simpa using hin)] at h
      cases h
  · rw [getD_set_other _ _ _ _ _ hsv] at h
    simp only [List.getD_eq_getElem?_getD, List.getElem?_replicate] at h
    split at h <;> simp at h

theorem init_inv (g : DynamicGraph) (P : Nat → Int → Prop) (e : SOSPEngine) (s : Nat)
    (hs : s < g.node_count) (h0 : P s 0) :
    Inv g P
      { distances := (List.replicate g.node_count (none : Option Int)).set s (some 0),
        predecessors := List.replicate g.node_count (-1),
        in_queue := (e.in_queue.map fun _ => false).set s true } [(0, s)] := by
  refine ⟨by simp, ?_, ?_⟩
  · intro p hp
    simp only [List.mem_singleton] at hp
    subst hp
    exact ⟨hs, h0⟩
  · intro v d hv
    obtain ⟨rfl, rfl⟩ := init_getD _ _ _ _ hv
    exact h0

/-- Every finite distance `compute` leaves is the weight of a walk from the source. -/
theorem compute_sound (g : DynamicGraph) (hwf : g.WellFormed) (e : SOSPEngine) (s : Nat)
    (hs : s < g.node_count) (fuel : Nat) (e' : SOSPEngine)
    (h : compute g e s fuel = some e') :
    ∀ v d, e'.distances.getD v none = some d → Walk g s v d :=
  (compute_loop_inv g (Walk g s) (walk_closed g s) hwf fuel _ _ e'
    (init_inv g (Walk g s) e s hs Walk.nil) h).2.2

/-- With non-negative weights `compute` returns. -/
theorem compute_terminates (g : DynamicGraph) (hwf : g.WellFormed) (hnn : g.NonNegWeights)
    (e : SOSPEngine) (s : Nat) (hs : s < g.node_count) :
    ∃ fuel e', compute g e s fuel = some e' :=
  compute_loop_terminates g hwf hnn _ _ _ _
    (init_inv g (fun _ d => 0 ≤ d) e s hs (le_refl _)) rfl

/-- With non-negative weights `compute` leaves the source at distance `0`. -/
theorem compute_source (g : DynamicGraph) (hwf : g.WellFormed) (hnn : g.NonNegWeights)
    (e : SOSPEngine) (s : Nat) (hs : s < g.node_count) (fuel : Nat) (e' : SOSPEngine)
    (h : compute g e s fuel = some e') : e'.distances.getD s none = some 0 :=
  compute_loop_source g hwf hnn s fuel _ _ e'
    (init_inv g (fun _ d => 0 ≤ d) e s hs (le_refl _))
    (getD_set_self _ _ _ _ (by simpa using hs)) h

theorem get_distance_natCast (e : SOSPEngine) (v : Nat) (h : v < e.distances.length) :
    get_distance e (v : Int) = .ok (e.distances.getD v none) := by
  unfold get_distance
  have h1 : ¬ ((v : Int) < 0 ∨ (e.distances.length : Int) ≤ (v : Int)) := by omega
  rw [if_neg h1, Int.toNat_ofNat]

end SOSPEngine

/-- C5: with non-negative first weights and a source below `node_count`,
`SOSPEngine::compute(source)` returns and `get_distance(source)` is then exactly `0`,
and after `HybridEngine::compute_parallel(source)` the source's entry of
`get_distances()` is exactly `0`. -/
theorem source_distance_is_zero (g : DynamicGraph) (es : SOSPEngine) (eh : HybridEngine)
    (s : Nat) (hwf : g.WellFormed) (hnn : g.NonNegWeights) (hs : s < g.node_count)
    (_hq : es.in_queue.length = g.node_count)
    (hlen : eh.atomic_distances.length = g.node_count) :
    (∃ fuel e', SOSPEngine.compute g es s fuel = some e') ∧
    (∀ fuel e', SOSPEngine.compute g es s fuel = some e' →
      e'.get_distance (s : Int) = .ok (some 0)) ∧
    (HybridEngine.compute_parallel g eh (s : Int)).get_distances.getD s none = some 0 := by
  refine ⟨SOSPEngine.compute_terminates g hwf hnn es s hs, ?_, ?_⟩
  · intro fuel e' h
    rw [SOSPEngine.get_distance_natCast e' s
      (by rw [SOSPEngine.compute_length g es s fuel e' h]; exact hs),
      SOSPEngine.compute_source g hwf hnn es s hs fuel e' h]
  · have := HybridEngine.compute_parallel_true g eh s hwf hnn hs hlen s
    unfold HybridEngine.get_distances
    cases hres : (HybridEngine.compute_parallel g eh (s : Int)).atomic_distances.getD s none with
    | none =>
      rw [hres] at this
      exact absurd ⟨0, Walk.nil⟩ this
    | some d =>
      rw [hres] at this
      have h1 := this.2 0 Walk.nil
      have h2 := Walk.nonneg hnn this.1
      have : d = 0 := by omega
      rw [this]

/-- C6: after `SOSPEngine::compute(source)` and after
`HybridEngine::compute_parallel(source)` every node without a walk from the source
still holds the sentinel; `compute` returns when the first weights are non-negative. -/
theorem unreachable_keeps_sentinel (g : DynamicGraph) (es : SOSPEngine) (eh : HybridEngine)
    (s : Nat) (hwf : g.WellFormed) (hs : s < g.node_count)
    (_hq : es.in_queue.length = g.node_count)
    (hlen : eh.atomic_distances.length = g.node_count) :
    (∀ fuel e', SOSPEngine.compute g es s fuel = some e' →
      ∀ v, v < g.node_count → ¬ Reachable g s v → e'.get_distance (v : Int) = .ok none) ∧
    (g.NonNegWeights → ∃ fuel e', SOSPEngine.compute g es s fuel = some e') ∧
    (∀ v, v < g.node_count → ¬ Reachable g s v →
      (HybridEngine.compute_parallel g eh (s : Int)).get_distances.getD v none = none) := by
  refine ⟨?_, fun hnn => SOSPEngine.compute_terminates g hwf hnn es s hs, ?_⟩
  · intro fuel e' h v hv hnr
    rw [SOSPEngine.get_distance_natCast e' v
      (by rw [SOSPEngine.compute_length g es s fuel e' h]; exact hv)]
    cases hres : e'.distances.getD v none with
    | none => rfl
    | some d => exact absurd ⟨d, SOSPEngine.compute_sound g hwf es s hs fuel e' h v d hres⟩ hnr
  · intro v _ hnr
    unfold HybridEngine.get_distances
    rw [HybridEngine.compute_parallel_eq g eh s hs]
    have hsound := HybridEngine.rounds_inv g hwf (Walk g s) (walk_closed g s)
      (max 100 (g.node_count - 1) - 1) _ (HybridEngine.reset_inv g (Walk g s) eh s hlen Walk.nil)
    cases hres : (HybridEngine.rounds g (max 100 (g.node_count - 1) - 1)
        { eh with atomic_distances :=
          (eh.atomic_distances.map fun _ => (none : Option Int)).set s (some 0) }
        ).atomic_distances.getD v none with
    | none => rfl
    | some d => exact absurd ⟨d, hsound.2 v d hres⟩ hnr

/-- The exact layer: with non-negative first weights, a source below `node_count`
and an engine built for the current node count, `get_distances()` after
`HybridEngine::compute_parallel(source)` has one entry per node, and the entry of
every node `v` is the least weight of a walk from the source to `v`, or the
sentinel when there is no walk; the cap on the rounds does not prevent it. -/
theorem compute_parallel_shortest (g : DynamicGraph) (e : HybridEngine) (s : Nat)
    (hwf : g.WellFormed) (hnn : g.NonNegWeights) (hs : s < g.node_count)
    (hlen : e.atomic_distances.length = g.node_count) :
    (HybridEngine.compute_parallel g e (s : Int)).get_distances.length = g.node_count ∧
    ∀ v, v < g.node_count →
      IsTrueDistance g s v
        ((HybridEngine.compute_parallel g e (s : Int)).get_distances.getD v none) := by
  refine ⟨?_, fun v _ => HybridEngine.compute_parallel_true g e s hwf hnn hs hlen v⟩
  unfold HybridEngine.get_distances
  rw [HybridEngine.compute_parallel_eq g e s hs, HybridEngine.rounds_length]
  simpa using hlen

/-- C7: for an engine state produced by `compute` and changed ids below `node_count`
(the node count being the one at `compute`), `SOSPEngine::update` returns and no
node's distance is larger after it than before. -/
theorem update_never_increases (g0 g : DynamicGraph) (e0 e : SOSPEngine) (s fuel : Nat)
    (changed : List Nat) (_hrun : SOSPEngine.compute g0 e0 s fuel = some e)
    (_hn : g.node_count = g0.node_count) (hwf : g.WellFormed)
    (_hc : ∀ c ∈ changed, c < g.node_count) :
    ∃ e', SOSPEngine.update g e changed = some e' ∧
      ∀ v, Dist.le (e'.distances.getD v none) (e.distances.getD v none) := by
  obtain ⟨e', h1, _, h3⟩ := SOSPEngine.update_loop_le g
    (changed.foldl (fun a c => a.set c true) (List.replicate g.node_count false))
    (List.range g.node_count) e
    (fun u hu => by rw [hwf.1]; exact List.mem_range.1 hu)
  exact ⟨e', h1, h3⟩

end PDC
namespace PDC

theorem small_graph_built :
    DynamicGraph.add_edges {} [(0, 1, [2]), (0, 3, [4]), (1, 2, [3]), (1, 3, [1]),
      (1, 4, [4]), (2, 5, [1]), (3, 4, [2]), (4, 5, [5])] = some small_graph := by
  decide

theorem compute_small_graph :
    SOSPEngine.compute small_graph (SOSPEngine.new small_graph) 0 7
      = some small_graph_result := by
  decide

theorem compute_parallel_small_graph :
    (HybridEngine.compute_parallel small_graph (HybridEngine.new small_graph) 0).get_distances
      = [some 0, some 2, some 5, some 3, some 5, some 6] := by
  decide

end PDC
namespace PDC
namespace SOSPEngine

/-- More fuel does not change what the loop returns. -/
theorem compute_loop_fuel (g : DynamicGraph) :
    ∀ fuel e q e', compute_loop g fuel e q = some e' →
      ∀ k, compute_loop g (fuel + k) e q = some e' := by
  intro fuel
  induction fuel with
  | zero => intro e q e' h; simp [compute_loop] at h
  | succ fuel ih =>
    intro e q e' h k
    have hk : fuel + 1 + k = (fuel + k) + 1 := by omega
    rw [hk]
    cases q with
    | nil => simpa [compute_loop] using h
    | cons p rest =>
      obtain ⟨d, u⟩ := p
      simp only [compute_loop] at h ⊢
      split
      · rename_i hst
        rw [if_pos hst] at h
        exact ih _ _ _ h k
      · rename_i hst
        rw [if_neg hst] at h
        split
        · rename_i err herr
          rw [herr] at h
          cases h
        · rename_i edges hok
          rw [hok] at h
          exact ih _ _ _ h k

/-- The state `compute` returns does not depend on the fuel. -/
theorem compute_deterministic (g : DynamicGraph) (e : SOSPEngine) (s : Nat)
    (f1 f2 : Nat) (e1 e2 : SOSPEngine) (h1 : compute g e s f1 = some e1)
    (h2 : compute g e s f2 = some e2) : e1 = e2 := by
  unfold compute at h1 h2
  rcases Nat.le_total f1 f2 with hle | hle
  · have := compute_loop_fuel g f1 _ _ e1 h1 (f2 - f1)
    rw [show f1 + (f2 - f1) = f2 by omega, h2] at this
    exact (Option.some.inj this).symm
  · have := compute_loop_fuel g f2 _ _ e2 h2 (f1 - f2)
    rw [show f2 + (f1 - f2) = f1 by omega, h1] at this
    exact Option.some.inj this

end SOSPEngine

theorem small_graph_walk : Walk small_graph 0 4 5 := by
  have h1 : Walk small_graph 0 1 2 :=
    Walk.snoc (g := small_graph) (u := 0) ⟨1, [2]⟩ Walk.nil (by decide)
  have h2 : Walk small_graph 0 3 3 :=
    Walk.snoc (g := small_graph) (u := 1) ⟨3, [1]⟩ h1 (by decide)
  exact Walk.snoc (g := small_graph) (u := 3) ⟨4, [2]⟩ h2 (by decide)

/-- C1, the code at the failing input: on the graph of `test_small_graph_shortest_path`
`compute(0)` returns, and whatever the fuel `get_distance(4)` is then `6`, which is
not the least weight of a walk from `0` to `4`: the walk `0, 1, 3, 4` weighs `5`. -/
theorem compute_misses_shortest_distance :
    (∃ e', SOSPEngine.compute small_graph (SOSPEngine.new small_graph) 0 7 = some e') ∧
    (∀ fuel e', SOSPEngine.compute small_graph (SOSPEngine.new small_graph) 0 fuel = some e' →
      e'.get_distance 4 = .ok (some 6)) ∧
    Walk small_graph 0 4 5 ∧
    ¬ IsTrueDistance small_graph 0 4 (some 6) := by
  refine ⟨⟨_, compute_small_graph⟩, ?_, small_graph_walk, ?_⟩
  · intro fuel e' h
    have := SOSPEngine.compute_deterministic _ _ _ _ _ _ _ h compute_small_graph
    subst this
    rfl
  · intro h
    have := h.2 5 small_graph_walk
    omega

/-- C3, the code at the failing input: on the graph of `test_small_graph_shortest_path`
with source `0` the two engines store different distances for node `4`: `6` after
`SOSPEngine::compute`, `5` after `HybridEngine::compute_parallel`. -/
theorem engines_disagree :
    (∀ fuel e', SOSPEngine.compute small_graph (SOSPEngine.new small_graph) 0 fuel = some e' →
      e'.distances.getD 4 none = some 6) ∧
    (∃ e', SOSPEngine.compute small_graph (SOSPEngine.new small_graph) 0 7 = some e') ∧
    (HybridEngine.compute_parallel small_graph (HybridEngine.new small_graph)
      0).get_distances.getD 4 none = some 5 := by
  refine ⟨?_, ⟨_, compute_small_graph⟩, ?_⟩
  · intro fuel e' h
    have := SOSPEngine.compute_deterministic _ _ _ _ _ _ _ h compute_small_graph
    subst this
    decide
  · rw [compute_parallel_small_graph]
    decide

/-- C4, the code at the failing input: after `compute(0)` on the graph of
`test_small_graph_shortest_path` the edge `(3, 4, 2)` has a source at the finite
distance `3` and a target at distance `6 > 3 + 2`. -/
theorem compute_leaves_edge_unrelaxed :
    (∃ e', SOSPEngine.compute small_graph (SOSPEngine.new small_graph) 0 7 = some e') ∧
    (⟨4, [2]⟩ : Edge) ∈ small_graph.adj.getD 3 [] ∧
    ∀ fuel e', SOSPEngine.compute small_graph (SOSPEngine.new small_graph) 0 fuel = some e' →
      e'.distances.getD 3 none = some 3 ∧
      e'.distances.getD 4 none = some 6 ∧
      ¬ Dist.le (e'.distances.getD 4 none) (some (3 + 2)) := by
  refine ⟨⟨_, compute_small_graph⟩, by decide, ?_⟩
  intro fuel e' h
  have := SOSPEngine.compute_deterministic _ _ _ _ _ _ _ h compute_small_graph
  subst this
  decide

end PDC
namespace PDC
namespace SOSPEngine

/-- One edge of `update` from a node at the finite distance `du`, the weight being
non-negative: the node's own distance stays, the edge is relaxed afterwards, and a
cell either keeps its value or takes the edge's candidate. -/
theorem update_edge_spec (u : Nat) (du : Int) (e : SOSPEngine) (edge : Edge)
    (hw : 0 ≤ edge.weights.headD 0) (ht : edge.target < e.distances.length)
    (hdu : e.distances.getD u none = some du) :
    (update_edge u e edge).distances.getD u none = some du ∧
    Dist.le ((update_edge u e edge).distances.getD edge.target none)
      (some (du + edge.weights.headD 0)) ∧
    ∀ v, (update_edge u e edge).distances.getD v none = e.distances.getD v none ∨
      (edge.target = v ∧
        (update_edge u e edge).distances.getD v none = some (du + edge.weights.headD 0)) := by
  unfold update_edge
  rw [hdu]
  dsimp only
  split
  · rename_i hlt
    have hne : edge.target ≠ u := by
      intro heq
      rw [heq, hdu] at hlt
      simp only [Dist.lt, decide_eq_true_eq] at hlt
      omega
    refine ⟨by rw [getD_set_other _ _ _ _ _ hne]; exact hdu, ?_, ?_⟩
    · rw [getD_set_self _ _ _ _ ht]
      exact Dist.le_refl _
    · intro v
      by_cases hv : edge.target = v
      · right
        subst hv
        exact ⟨rfl, getD_set_self _ _ _ _ ht⟩
      · left
        exact getD_set_other _ _ _ _ _ hv
  · rename_i hlt
    exact ⟨hdu, by simpa [Dist.le] using hlt, fun v => Or.inl rfl⟩

theorem update_fold_spec (u : Nat) (du : Int) (edges : List Edge)
    (hw : ∀ x ∈ edges, 0 ≤ x.weights.headD 0) :
    ∀ e : SOSPEngine, (∀ x ∈ edges, x.target < e.distances.length) →
      e.distances.getD u none = some du →
      (edges.foldl (update_edge u) e).distances.getD u none = some du ∧
      (∀ x ∈ edges, Dist.le
        ((edges.foldl (update_edge u) e).distances.getD x.target none)
        (some (du + x.weights.headD 0))) ∧
      ∀ v, (edges.foldl (update_edge u) e).distances.getD v none = e.distances.getD v none ∨
        ∃ x ∈ edges, x.target = v ∧
          (edges.foldl (update_edge u) e).distances.getD v none
            = some (du + x.weights.headD 0) := by
  induction edges with
  | nil =>
    intro e _ hdu
    exact ⟨hdu, fun x hx => by simp at hx, fun v => Or.inl rfl⟩
  | cons x xs ih =>
    intro e ht hdu
    simp only [List.foldl_cons]
    obtain ⟨h1, h2, h3⟩ := update_edge_spec u du e x (hw x (List.mem_cons_self _ _))
      (ht x (List.mem_cons_self _ _)) hdu
    obtain ⟨k1, k2, k3⟩ := ih (fun y hy => hw y (List.mem_cons_of_mem _ hy))
      (update_edge u e x)
      (fun y hy => by rw [update_edge_length]; exact ht y (List.mem_cons_of_mem _ hy)) h1
    refine ⟨k1, ?_, ?_⟩
    · intro y hy
      rcases List.mem_cons.1 hy with rfl | hy
      · exact Dist.le_trans (update_fold_le u xs _ _) h2
      · exact k2 y hy
    · intro v
      rcases k3 v with hk | ⟨y, hy, hyv, hval⟩
      · rcases h3 v with hh | ⟨hxv, hval⟩
        · exact Or.inl (hk.trans hh)
        · exact Or.inr ⟨x, List.mem_cons_self _ _, hxv, hk.trans hval⟩
      · exact Or.inr ⟨y, List.mem_cons_of_mem _ hy, hyv, hval⟩

/-- With `u` the only flagged node, the loop of `update` relaxes the edges of `u`
once and nothing else. -/
theorem update_loop_single (g : DynamicGraph) (affected : List Bool) (u : Nat)
    (haff : ∀ x, affected.getD x false = true ↔ x = u) (us : List Nat) (hnd : us.Nodup)
    (hus : ∀ x ∈ us, x < g.adj.length) (e : SOSPEngine) :
    update_loop g affected us e
      = some (if u ∈ us then (g.adj.getD u []).foldl (update_edge u) e else e) := by
  induction us generalizing e with
  | nil => simp [update_loop]
  | cons x xs ih =>
    obtain ⟨hx, hnd'⟩ := List.nodup_cons.1 hnd
    have hrest : ∀ y ∈ xs, y < g.adj.length := fun y hy => hus y (List.mem_cons_of_mem _ hy)
    simp only [update_loop, get_edges_natCast g x (hus x (List.mem_cons_self _ _))]
    by_cases hxu : x = u
    · subst hxu
      rw [if_pos ((haff x).2 rfl), ih hnd' hrest, if_neg hx]
      simp
    · have : ¬ affected.getD x false = true := fun h => hxu ((haff x).1 h)
      rw [if_neg this, ih hnd' hrest e]
      have hiff : u ∈ x :: xs ↔ u ∈ xs := by
        simp only [List.mem_cons]
        constructor
        · rintro (h | h)
          · exact absurd h.symm hxu
          · exact h
        · exact Or.inr
      simp only [hiff]

theorem affected_single (n u : Nat) (hu : u < n) (x : Nat) :
    (([u] : List Nat).foldl (fun a c => a.set c true) (List.replicate n false)).getD x false
      = true ↔ x = u := by
  simp only [List.foldl_cons, List.foldl_nil]
  by_cases hxu : u = x
  · subst hxu
    rw [getD_set_self _ _ _ _ (by simpa using hu)]
    simp
  · rw [getD_set_other _ _ _ _ _ hxu]
    simp only [List.getD_eq_getElem?_getD, List.getElem?_replicate]
    constructor
    · intro h
      split at h <;> simp at h
    · intro h
      exact absurd h.symm hxu

end SOSPEngine

/-- C8: for one changed source `u` at the finite distance `du`, non-negative first
weights and the node count of `compute`, `update({u})` returns; afterwards `u` is
still at `du`, every edge `(u, v, w)` has `distance[v] <= du + w[0]`, no distance is
larger than before, and every distance is its previous value or `du + w[0]` for an
edge from `u` to that node: the distance of a node with an edge from `u` is the
minimum of its previous distance and the candidates of the edges from `u` to it. -/
theorem update_single_source (g0 g : DynamicGraph) (e0 e : SOSPEngine) (s fuel u : Nat)
    (du : Int) (hrun : SOSPEngine.compute g0 e0 s fuel = some e)
    (hn : g.node_count = g0.node_count) (hwf : g.WellFormed) (hnn : g.NonNegWeights)
    (hu : u < g.node_count) (hdu : e.distances.getD u none = some du) :
    ∃ e', SOSPEngine.update g e [u] = some e' ∧
      e'.distances.getD u none = some du ∧
      (∀ edge ∈ g.adj.getD u [],
        Dist.le (e'.distances.getD edge.target none) (some (du + edge.weights.headD 0))) ∧
      (∀ v, Dist.le (e'.distances.getD v none) (e.distances.getD v none)) ∧
      ∀ v, e'.distances.getD v none = e.distances.getD v none ∨
        ∃ edge ∈ g.adj.getD u [], edge.target = v ∧
          e'.distances.getD v none = some (du + edge.weights.headD 0) := by
  have hlen : e.distances.length = g.node_count := by
    rw [SOSPEngine.compute_length g0 e0 s fuel e hrun, hn]
  have hloop := SOSPEngine.update_loop_single g _ u (SOSPEngine.affected_single g.node_count u hu)
    (List.range g.node_count) (List.nodup_range _)
    (fun x hx => by rw [hwf.1]; exact List.mem_range.1 hx) e
  rw [if_pos (List.mem_range.2 hu)] at hloop
  obtain ⟨h1, h2, h3⟩ := SOSPEngine.update_fold_spec u du (g.adj.getD u [])
    (fun x hx => hnn.edge_nonneg u x hx) e
    (fun x hx => by rw [hlen]; exact (hwf.edge_ok u x hx).1) hdu
  exact ⟨_, hloop, h1, h2, fun v => SOSPEngine.update_fold_le u _ e v, h3⟩

theorem chain_compute :
    SOSPEngine.compute chain_graph (SOSPEngine.new chain_graph) 0 4 = some chain_result := by
  decide

/-- Scenario 2 of the specification: after `add_edge(0, 2, {6.0})` and `update({0})`
node `2` is at distance `6`. -/
theorem chain_update :
    (SOSPEngine.update chain_graph_edited chain_result [0]).map (fun e => e.distances)
      = some [some 0, some 5, some 6] := by
  decide

end PDC
namespace PDC

/-! ## Instances on the graphs of the tests and drivers -/

theorem cycle_graph_well_formed : cycle_graph.WellFormed :=
  by decide

theorem cycle_graph_non_neg : cycle_graph.NonNegWeights :=
  by decide

theorem chain_graph_edited_well_formed : chain_graph_edited.WellFormed :=
  by decide

theorem chain_graph_edited_non_neg : chain_graph_edited.NonNegWeights :=
  by decide

theorem disconnected_graph_well_formed : disconnected_graph.WellFormed :=
  by decide

theorem disconnected_compute :
    SOSPEngine.compute disconnected_graph (SOSPEngine.new disconnected_graph) 0 4
      = some disconnected_result := by
  decide

theorem disconnected_walk_stays {v : Nat} {d : Int} (h : Walk disconnected_graph 0 v d) :
    v ≤ 2 := by
  induction h with
  | nil => omega
  | @snoc u d e _ he ih =>
    have hu : u = 0 ∨ u = 1 ∨ u = 2 := by omega
    rcases hu with rfl | rfl | rfl
    · simp [disconnected_graph] at he
      subst he
      simp
    · simp [disconnected_graph] at he
      subst he
      simp
    · simp [disconnected_graph] at he

theorem disconnected_unreachable : ¬ Reachable disconnected_graph 0 3 := by
  rintro ⟨d, h⟩
  have := disconnected_walk_stays h
  omega

/-- Scenario 1 of the specification, on the relaxation solver: the 4-cycle of
`main_hybrid.cpp` gets the distances `[0, 4, 2, 3]`, and `3` is the least weight of
a walk from `0` to `3`. -/
theorem compute_parallel_shortest_witness :
    (HybridEngine.compute_parallel cycle_graph (HybridEngine.new cycle_graph) 0).get_distances
      = [some 0, some 4, some 2, some 3] ∧
    IsTrueDistance cycle_graph 0 3 (some 3) :=
  ⟨by decide,
    (compute_parallel_shortest cycle_graph (HybridEngine.new cycle_graph) 0
      cycle_graph_well_formed cycle_graph_non_neg (by decide) (by decide)).2 3 (by decide)⟩

theorem source_distance_is_zero_witness :
    (∃ fuel e', SOSPEngine.compute cycle_graph (SOSPEngine.new cycle_graph) 0 fuel = some e') ∧
    (∀ fuel e', SOSPEngine.compute cycle_graph (SOSPEngine.new cycle_graph) 0 fuel = some e' →
      e'.get_distance ((0 : Nat) : Int) = .ok (some 0)) ∧
    (HybridEngine.compute_parallel cycle_graph (HybridEngine.new cycle_graph)
      ((0 : Nat) : Int)).get_distances.getD 0 none = some 0 :=
  source_distance_is_zero cycle_graph (SOSPEngine.new cycle_graph)
    (HybridEngine.new cycle_graph) 0 cycle_graph_well_formed cycle_graph_non_neg
    (by decide) (by decide) (by decide)

/-- Scenario 3 of the specification: node `3` of the disconnected graph keeps the
sentinel in both engines. -/
theorem unreachable_keeps_sentinel_witness :
    disconnected_result.get_distance ((3 : Nat) : Int) = .ok none ∧
    (HybridEngine.compute_parallel disconnected_graph (HybridEngine.new disconnected_graph)
      ((0 : Nat) : Int)).get_distances.getD 3 none = none :=
  ⟨(unreachable_keeps_sentinel disconnected_graph (SOSPEngine.new disconnected_graph)
      (HybridEngine.new disconnected_graph) 0 disconnected_graph_well_formed (by decide)
      (by decide) (by decide)).1 4 disconnected_result disconnected_compute 3 (by decide)
      disconnected_unreachable,
    (unreachable_keeps_sentinel disconnected_graph (SOSPEngine.new disconnected_graph)
      (HybridEngine.new disconnected_graph) 0 disconnected_graph_well_formed (by decide)
      (by decide) (by decide)).2.2 3 (by decide) disconnected_unreachable⟩

theorem update_never_increases_witness :
    ∃ e', SOSPEngine.update chain_graph_edited chain_result [0] = some e' ∧
      ∀ v, Dist.le (e'.distances.getD v none) (chain_result.distances.getD v none) :=
  update_never_increases chain_graph chain_graph_edited (SOSPEngine.new chain_graph)
    chain_result 0 4 [0] chain_compute (by decide) chain_graph_edited_well_formed
    (by decide)

theorem update_single_source_witness :
    ∃ e', SOSPEngine.update chain_graph_edited chain_result [0] = some e' ∧
      e'.distances.getD 0 none = some 0 ∧
      (∀ edge ∈ chain_graph_edited.adj.getD 0 [],
        Dist.le (e'.distances.getD edge.target none) (some (0 + edge.weights.headD 0))) ∧
      (∀ v, Dist.le (e'.distances.getD v none) (chain_result.distances.getD v none)) ∧
      ∀ v, e'.distances.getD v none = chain_result.distances.getD v none ∨
        ∃ edge ∈ chain_graph_edited.adj.getD 0 [], edge.target = v ∧
          e'.distances.getD v none = some (0 + edge.weights.headD 0) :=
  update_single_source chain_graph chain_graph_edited (SOSPEngine.new chain_graph)
    chain_result 0 4 0 0 chain_compute (by decide) chain_graph_edited_well_formed
    chain_graph_edited_non_neg (by decide) (by decide)

theorem filter_dominated_dominance_free_witness :
    (Pareto.filter_dominated sample_paths).Sublist sample_paths ∧
      ∀ p ∈ Pareto.filter_dominated sample_paths, ∀ q ∈ Pareto.filter_dominated sample_paths,
        Pareto.dominates q.objectives p.objectives = false :=
  filter_dominated_dominance_free sample_paths (by decide)

/-- On `sample_paths` the filter drops the first result, which the third dominates. -/
theorem sample_paths_filtered :
    Pareto.filter_dominated sample_paths = [⟨[0, 2, 3], [1, 5]⟩, ⟨[0, 3], [2, 2]⟩] := by
  decide

end PDC
namespace PDC

/-! ## The frontier as a priority queue -/

theorem Frontier.key_le_total (a b : Int × Nat) (h : Frontier.key_le a b = false) :
    Frontier.key_le b a = true := by
  simp only [Frontier.key_le, Bool.or_eq_false_iff, Bool.and_eq_false_iff, Bool.or_eq_true,
    Bool.and_eq_true, decide_eq_true_eq, decide_eq_false_iff_not] at h ⊢
  omega

theorem Frontier.key_le_trans (a b c : Int × Nat) (h1 : Frontier.key_le a b = true)
    (h2 : Frontier.key_le b c = true) : Frontier.key_le a c = true := by
  simp only [Frontier.key_le, Bool.or_eq_true, Bool.and_eq_true, decide_eq_true_eq] at h1 h2 ⊢
  omega

/-- Pushing keeps the frontier sorted, so its head is an entry of least key: the
entry `top()` returns. -/
theorem Frontier.push_sorted (k : Int × Nat) (q : Frontier)
    (h : q.Pairwise fun a b => Frontier.key_le a b = true) :
    (Frontier.push k q).Pairwise fun a b => Frontier.key_le a b = true := by
  induction q with
  | nil => simp [Frontier.push]
  | cons x xs ih =>
    obtain ⟨hx, hxs⟩ := List.pairwise_cons.1 h
    simp only [Frontier.push]
    split
    · rename_i hk
      refine List.pairwise_cons.2 ⟨?_, h⟩
      intro y hy
      rcases List.mem_cons.1 hy with rfl | hy
      · exact hk
      · exact Frontier.key_le_trans _ _ _ hk (hx y hy)
    · rename_i hk
      refine List.pairwise_cons.2 ⟨?_, ih hxs⟩
      intro y hy
      rcases (Frontier.mem_push _ _ _).1 hy with rfl | hy
      · exact Frontier.key_le_total _ _ (by simpa using hk)
      · exact hx y hy

/-- The two assertions of `test_small_graph_shortest_path` hold of the state the
model computes. -/
theorem small_graph_test_asserts :
    small_graph_result.get_distance 3 = .ok (some 3) ∧
    small_graph_result.get_distance 5 = .ok (some 6) :=
  ⟨rfl, rfl⟩

/-- Soundness of the frontier solver: for a source below `node_count`, every finite
distance `SOSPEngine::compute` leaves is the weight of a walk from the source, so it
is never below the true shortest distance; with non-negative first weights
`compute` returns. -/
theorem compute_distances_are_walk_weights (g : DynamicGraph) (e : SOSPEngine) (s : Nat)
    (hwf : g.WellFormed) (hs : s < g.node_count) :
    (g.NonNegWeights → ∃ fuel e', SOSPEngine.compute g e s fuel = some e') ∧
    ∀ fuel e', SOSPEngine.compute g e s fuel = some e' →
      e'.distances.length = g.node_count ∧
      ∀ v d, e'.distances.getD v none = some d →
        Walk g s v d ∧ ∀ d', IsShortest g s v d' → d' ≤ d := by
  refine ⟨fun hnn => SOSPEngine.compute_terminates g hwf hnn e s hs, ?_⟩
  intro fuel e' h
  refine ⟨SOSPEngine.compute_length g e s fuel e' h, ?_⟩
  intro v d hv
  have hw := SOSPEngine.compute_sound g hwf e s hs fuel e' h v d hv
  exact ⟨hw, fun d' hd' => hd'.2 d hw⟩

theorem compute_distances_are_walk_weights_witness : Walk small_graph 0 4 6 :=
  (((compute_distances_are_walk_weights small_graph (SOSPEngine.new small_graph) 0
    (by decide) (by decide)).2 7 small_graph_result compute_small_graph).2 4 6 rfl).1

end PDC

/-! ## graph.hpp: adding and removing edges, partition tags -/

namespace PDC
namespace DynamicGraph

theorem grow_getD {α : Type} (v : List α) (m i : Nat) (fill : α) :
    (grow v m fill).getD i fill = v.getD i fill := by
  unfold grow
  split
  · by_cases hi : i < v.length
    · simp [List.getD_eq_getElem?_getD, List.getElem?_append_left hi]
    · have hi' : v.length ≤ i := Nat.le_of_not_lt hi
      rw [getD_beyond v i fill hi']
      simp only [List.getD_eq_getElem?_getD, List.getElem?_append_right hi',
        List.getElem?_replicate]
      split <;> rfl
  · rfl

theorem add_edge_exec_spec (g : DynamicGraph) (src tgt : Int) (w : List Int) :
    g.add_edge src tgt w =
      match (g.add_edge_exec src tgt w).1 with
      | none => .ok (g.add_edge_exec src tgt w).2
      | some err => .error err := by
  unfold add_edge add_edge_exec
  split
  · rfl
  · split <;> rfl

theorem sum_length_set_append {α : Type} (l : List (List α)) (i : Nat) (x : α)
    (h : i < l.length) :
    ((l.set i (l.getD i [] ++ [x])).map List.length).sum = (l.map List.length).sum + 1 := by
  induction l generalizing i with
  | nil => simp at h
  | cons a l ih =>
    cases i with
    | zero => simp; omega
    | succ i =>
      have := ih i (by simpa using h)
      simp only [List.set_cons_succ, List.map_cons, List.sum_cons, List.getD_cons_succ]
      omega

end DynamicGraph

/-- C14: for non-negative `src` and `tgt` and a non-empty weight vector,
`add_edge(src, tgt, weights)` succeeds; afterwards `node_count` is
`max(old node_count, max(src, tgt) + 1)`, `get_edges(src)` is its previous list
(empty for a new node) followed by the one edge `(tgt, weights)`, whether or not an
edge to `tgt` was there, the edge list of every other node is as before, and
`edge_count` has grown by exactly 1. -/
theorem add_edge_appends_one_edge (g : DynamicGraph) (src tgt : Int) (w : List Int)
    (hs : 0 ≤ src) (ht : 0 ≤ tgt) (hw : w ≠ []) :
    ∃ g', g.add_edge src tgt w = .ok g' ∧
      g'.node_count = max g.node_count ((max src tgt).toNat + 1) ∧
      g'.get_edges src = .ok (g.adj.getD src.toNat [] ++ [⟨tgt.toNat, w⟩]) ∧
      (∀ v : Nat, v ≠ src.toNat → g'.adj.getD v [] = g.adj.getD v []) ∧
      g'.edge_count = g.edge_count + 1 := by
  have h1 : ¬ (src < 0 ∨ tgt < 0) := by omega
  have h2 : w.isEmpty = false := by cases w <;> simp_all
  have hsrc : src.toNat < (DynamicGraph.grow g.adj (max src tgt).toNat []).length := by
    rw [DynamicGraph.grow_length]; omega
  refine ⟨_, by unfold DynamicGraph.add_edge; rw [if_neg h1, h2]; rfl, ?_, ?_, ?_, ?_⟩
  · simp only [DynamicGraph.node_count, DynamicGraph.resize_if_needed,
      DynamicGraph.grow_length]
  · unfold DynamicGraph.get_edges
    simp only [DynamicGraph.resize_if_needed, List.length_set]
    rw [if_neg (by omega), getD_set_self _ _ _ _ hsrc, DynamicGraph.grow_getD]
  · intro v hv
    simp only [DynamicGraph.resize_if_needed]
    rw [getD_set_other _ _ _ _ _ (Ne.symm hv), DynamicGraph.grow_getD]
  · simp only [DynamicGraph.edge_count, DynamicGraph.resize_if_needed]
    rw [DynamicGraph.grow_getD, ← DynamicGraph.grow_getD g.adj (max src tgt).toNat _ [],
      DynamicGraph.sum_length_set_append _ _ _ hsrc]
    congr 1
    unfold DynamicGraph.grow
    split
    · simp
    · rfl

theorem add_edge_appends_one_edge_witness :
    ∃ g', two_edge_graph.add_edge 0 1 [7] = .ok g' ∧
      g'.node_count = max two_edge_graph.node_count ((max (0 : Int) 1).toNat + 1) ∧
      g'.get_edges 0 = .ok (two_edge_graph.adj.getD (0 : Int).toNat [] ++ [⟨(1 : Int).toNat, [7]⟩]) ∧
      (∀ v : Nat, v ≠ (0 : Int).toNat → g'.adj.getD v [] = two_edge_graph.adj.getD v []) ∧
      g'.edge_count = two_edge_graph.edge_count + 1 :=
  add_edge_appends_one_edge two_edge_graph 0 1 [7] (by decide) (by decide) (by decide)

/-- C15: `add_edge(src, tgt, weights)` throws exactly when `src` is negative, `tgt`
is negative or `weights` is empty; what it throws is the invalid-argument error, and
the object is then as it was before the call. -/
theorem add_edge_fails_iff (g : DynamicGraph) (src tgt : Int) (w : List Int) :
    ((g.add_edge_exec src tgt w).1 = some .invalid_argument ↔ (src < 0 ∨ tgt < 0 ∨ w = [])) ∧
    ((g.add_edge_exec src tgt w).1 = none ↔ ¬ (src < 0 ∨ tgt < 0 ∨ w = [])) ∧
    ((g.add_edge_exec src tgt w).1 ≠ none → (g.add_edge_exec src tgt w).2 = g) ∧
    (g.add_edge src tgt w = .error .invalid_argument ↔ (src < 0 ∨ tgt < 0 ∨ w = [])) := by
  have key : (g.add_edge_exec src tgt w).1 = some .invalid_argument ∧
        (g.add_edge_exec src tgt w).2 = g ∧ (src < 0 ∨ tgt < 0 ∨ w = []) ∨
      (g.add_edge_exec src tgt w).1 = none ∧ ¬ (src < 0 ∨ tgt < 0 ∨ w = []) := by
    unfold DynamicGraph.add_edge_exec
    by_cases h1 : src < 0 ∨ tgt < 0
    · rw [if_pos h1]
      exact Or.inl ⟨rfl, rfl, by tauto⟩
    · rw [if_neg h1]
      cases w with
      | nil => exact Or.inl ⟨rfl, rfl, by simp⟩
      | cons x xs =>
        refine Or.inr ⟨rfl, ?_⟩
        simp only [reduceCtorEq, or_false]
        exact h1
  have hspec := DynamicGraph.add_edge_exec_spec g src tgt w
  rcases key with ⟨h1, h2, h3⟩ | ⟨h1, h3⟩
  · rw [h1] at hspec
    refine ⟨⟨fun _ => h3, fun _ => h1⟩, ⟨fun h => ?_, fun h => absurd h3 h⟩, fun _ => h2,
      ⟨fun _ => h3, fun _ => hspec⟩⟩
    rw [h1] at h
    cases h
  · rw [h1] at hspec
    refine ⟨⟨fun h => ?_, fun h => absurd h h3⟩, ⟨fun _ => h3, fun _ => h1⟩,
      fun h => absurd h1 h, ⟨fun h => ?_, fun h => absurd h h3⟩⟩
    · rw [h1] at h
      cases h
    · rw [hspec] at h
      cases h

end PDC

namespace PDC

/-- C16: in a store whose `adj` has one entry per node, for `src` and `tgt` both in
`[0, node_count)`, after `remove_edge(src, tgt)` the list `get_edges(src)` is the
previous list without the edges whose target is `tgt`, the others in their previous
order, and `node_count`, the node data, the partition tags and every other node's
edge list are as before; when `src` or `tgt` is negative or at least `node_count`
the store is unchanged. -/
theorem remove_edge_filters (g : DynamicGraph) (src tgt : Int)
    (h : g.adj.length = g.node_count) :
    (0 ≤ src → src < g.node_count → 0 ≤ tgt → tgt < g.node_count →
      (g.remove_edge src tgt).get_edges src
          = .ok ((g.adj.getD src.toNat []).filter fun e => decide ((e.target : Int) ≠ tgt)) ∧
        (g.remove_edge src tgt).node_count = g.node_count ∧
        (g.remove_edge src tgt).node_data = g.node_data ∧
        (g.remove_edge src tgt).partitions = g.partitions ∧
        ∀ v : Nat, v ≠ src.toNat → (g.remove_edge src tgt).adj.getD v [] = g.adj.getD v []) ∧
    ((src < 0 ∨ (g.node_count : Int) ≤ src ∨ tgt < 0 ∨ (g.node_count : Int) ≤ tgt) →
      g.remove_edge src tgt = g) := by
  constructor
  · intro h1 h2 h3 h4
    have hc : ¬ (src < 0 ∨ (g.adj.length : Int) ≤ src ∨ tgt < 0 ∨ (g.adj.length : Int) ≤ tgt) := by
      rw [h]; omega
    have hlt : src.toNat < g.adj.length := by rw [h]; omega
    unfold DynamicGraph.remove_edge
    rw [if_neg hc]
    refine ⟨?_, rfl, rfl, rfl, ?_⟩
    · unfold DynamicGraph.get_edges
      dsimp only
      rw [if_neg (by rw [List.length_set, h]; omega), getD_set_self _ _ _ _ hlt]
    · intro v hv
      dsimp only
      rw [getD_set_other _ _ _ _ _ (Ne.symm hv)]
  · intro hc
    unfold DynamicGraph.remove_edge
    rw [if_pos (by rw [h]; exact hc)]

theorem remove_edge_filters_witness :
    (two_edge_graph.remove_edge 0 1).get_edges 0 = .ok [⟨2, [2, 15]⟩] ∧
    two_edge_graph.remove_edge 0 7 = two_edge_graph :=
  ⟨((remove_edge_filters two_edge_graph 0 1 (by decide)).1 (by decide) (by decide)
      (by decide) (by decide)).1,
    (remove_edge_filters two_edge_graph 0 7 (by decide)).2 (by decide)⟩

/-- C18, the claim at a concrete input: on the triangle of `test_metis_partitioning`
(3 nodes) `set_partition(5, 1)` does not throw; it grows the store to 6 nodes and
tags node 5. -/
theorem set_partition_unknown_id_succeeds :
    (triangle_graph.set_partition_exec 5 1).1 = none ∧
    triangle_graph.node_count = 3 ∧
    (triangle_graph.set_partition_exec 5 1).2.node_count = 6 ∧
    (triangle_graph.set_partition_exec 5 1).2.get_partitions = [-1, -1, -1, -1, -1, 1] := by
  decide

/-- C18 as amended: in a store with one partition tag per node, `get_partition(node)`
throws (out of range) exactly when `node` is negative or at least `node_count`;
`set_partition(node, p)` throws (invalid argument) exactly when `node` is negative,
and the object is then as before the call; for every non-negative `node`, known or
not, it succeeds, `node_count` becomes `max(node_count, node + 1)` and
`get_partition(node)` then returns `p`. -/
theorem partition_accessors_fail_iff (g : DynamicGraph) (node p : Int)
    (h : g.partitions.length = g.node_count) :
    (g.get_partition node = .error .out_of_range ↔ (node < 0 ∨ (g.node_count : Int) ≤ node)) ∧
    ((g.set_partition_exec node p).1 = some .invalid_argument ↔ node < 0) ∧
    ((g.set_partition_exec node p).1 ≠ none →
      node < 0 ∧ (g.set_partition_exec node p).2 = g) ∧
    (0 ≤ node →
      (g.set_partition_exec node p).1 = none ∧
      (g.set_partition_exec node p).2.node_count = max g.node_count (node.toNat + 1) ∧
      (g.set_partition_exec node p).2.get_partition node = .ok p) := by
  refine ⟨?_, ?_, ?_, ?_⟩
  · unfold DynamicGraph.get_partition
    rw [h]
    by_cases hc : node < 0 ∨ (g.node_count : Int) ≤ node
    · rw [if_pos hc]; exact ⟨fun _ => hc, fun _ => rfl⟩
    · rw [if_neg hc]
      exact ⟨fun hh => (by cases hh), fun hh => absurd hh hc⟩
  · unfold DynamicGraph.set_partition_exec
    by_cases hc : node < 0
    · rw [if_pos hc]; exact ⟨fun _ => hc, fun _ => rfl⟩
    · rw [if_neg hc]
      exact ⟨fun hh => (by cases hh), fun hh => absurd hh hc⟩
  · unfold DynamicGraph.set_partition_exec
    by_cases hc : node < 0
    · rw [if_pos hc]; exact fun _ => ⟨hc, rfl⟩
    · rw [if_neg hc]
      exact fun hh => absurd rfl hh
  · intro hc
    have hlen : node.toNat < (DynamicGraph.grow g.partitions node.toNat (-1)).length := by
      rw [DynamicGraph.grow_length]; omega
    unfold DynamicGraph.set_partition_exec
    rw [if_neg (by omega)]
    refine ⟨rfl, ?_, ?_⟩
    · simp only [DynamicGraph.node_count, DynamicGraph.resize_if_needed,
        DynamicGraph.grow_length]
    · unfold DynamicGraph.get_partition
      simp only [DynamicGraph.resize_if_needed, List.length_set]
      rw [if_neg (by omega), getD_set_self _ _ _ _ hlen]

theorem partition_accessors_fail_iff_witness :
    triangle_graph.get_partition 3 = .error .out_of_range ∧
    (triangle_graph.set_partition_exec (-1) 0).2 = triangle_graph ∧
    (triangle_graph.set_partition_exec 1 0).2.get_partition 1 = .ok 0 :=
  ⟨(partition_accessors_fail_iff triangle_graph 3 0 (by decide)).1.2 (by decide),
    ((partition_accessors_fail_iff triangle_graph (-1) 0 (by decide)).2.2.1 (by decide)).2,
    ((partition_accessors_fail_iff triangle_graph 1 0 (by decide)).2.2.2 (by decide)).2.2⟩

end PDC

/-! ## graph.hpp: the class invariant along a history of calls -/

namespace PDC
namespace DynamicGraph

theorem resize_same_sizes (g : DynamicGraph) (m : Nat) (h : g.SameSizes) :
    (g.resize_if_needed m).SameSizes := by
  unfold SameSizes at *
  simp only [resize_if_needed, grow_length]
  omega

theorem resize_well_formed (g : DynamicGraph) (m : Nat) (h : g.WellFormed) :
    (g.resize_if_needed m).WellFormed := by
  refine ⟨?_, ?_⟩
  · simp only [node_count, resize_if_needed, grow_length]
    rw [h.1, node_count]
  · intro es hes e he
    simp only [node_count, resize_if_needed, grow_length]
    rcases mem_grow _ _ _ _ hes with hin | hnil
    · have := h.2 es hin e he
      simp only [node_count] at this
      exact ⟨by omega, this.2⟩
    · rw [hnil] at he
      simp at he

theorem create_valid (n : Nat) : (create n).SameSizes ∧ (create n).WellFormed := by
  unfold create
  split
  · exact ⟨resize_same_sizes _ _ ⟨rfl, rfl⟩, resize_well_formed _ _ (by decide)⟩
  · exact ⟨⟨rfl, rfl⟩, by decide⟩

theorem add_edge_exec_well_formed (g : DynamicGraph) (src tgt : Int) (w : List Int)
    (h : g.WellFormed) : (g.add_edge_exec src tgt w).2.WellFormed := by
  have hspec := add_edge_exec_spec g src tgt w
  cases hres : (g.add_edge_exec src tgt w).1 with
  | none =>
    rw [hres] at hspec
    exact add_edge_well_formed g _ src tgt w h hspec
  | some err =>
    have : (g.add_edge_exec src tgt w).2 = g := by
      unfold add_edge_exec at hres ⊢
      split
      · rfl
      · rename_i h1
        rw [if_neg h1] at hres
        split
        · rfl
        · rename_i h2
          rw [if_neg h2] at hres
          cases hres
    rw [this]
    exact h

theorem apply_same_sizes (g : DynamicGraph) (op : Op) (h : g.SameSizes) :
    (g.apply op).SameSizes := by
  cases op with
  | add_node n d =>
    simp only [apply, add_node_exec]
    split
    · exact h
    · have := resize_same_sizes g n.toNat h
      unfold SameSizes at *
      simpa using this
  | add_edge s t w =>
    simp only [apply, add_edge_exec]
    split
    · exact h
    · split
      · exact h
      · have := resize_same_sizes g (max s t).toNat h
        unfold SameSizes at *
        simpa using this
  | remove_edge s t =>
    simp only [apply, remove_edge]
    split
    · exact h
    · unfold SameSizes at *
      simpa using h
  | set_partition n p =>
    simp only [apply, set_partition_exec]
    split
    · exact h
    · have := resize_same_sizes g n.toNat h
      unfold SameSizes at *
      simpa using this
  | clear => exact ⟨rfl, rfl⟩

theorem apply_well_formed (g : DynamicGraph) (op : Op) (h : g.WellFormed) :
    (g.apply op).WellFormed := by
  cases op with
  | add_node n d =>
    simp only [apply, add_node_exec]
    split
    · exact h
    · have := resize_well_formed g n.toNat h
      refine ⟨?_, ?_⟩
      · simpa [node_count] using this.1
      · simpa [node_count] using this.2
  | add_edge s t w => exact add_edge_exec_well_formed g s t w h
  | remove_edge s t =>
    simp only [apply, remove_edge]
    split
    · exact h
    · refine ⟨by simpa [node_count] using h.1, ?_⟩
      intro es hes e he
      dsimp only at hes
      rcases List.mem_or_eq_of_mem_set hes with hin | hnew
      · exact h.2 es hin e he
      · rw [hnew] at he
        obtain ⟨es', hes', hmem⟩ := mem_getD_nil _ _ _ (List.mem_filter.1 he).1
        exact h.2 es' hes' e hmem
  | set_partition n p =>
    simp only [apply, set_partition_exec]
    split
    · exact h
    · have := resize_well_formed g n.toNat h
      exact ⟨this.1, this.2⟩
  | clear => exact (by decide : WellFormed {})

/-- Every store built by the constructor and the mutating methods satisfies the
class invariant. -/
theorem run_valid (n : Nat) (ops : List Op) :
    (run n ops).SameSizes ∧ (run n ops).WellFormed := by
  unfold run
  exact foldl_preserves (fun g : DynamicGraph => g.SameSizes ∧ g.WellFormed) apply ops
    (fun g op _ hg => ⟨apply_same_sizes g op hg.1, apply_well_formed g op hg.2⟩) _
    (create_valid n)

end DynamicGraph
end PDC

/-! ## graph.hpp: partition tags and edge lists along a history of calls -/

namespace PDC
namespace DynamicGraph

theorem apply_partition (g : DynamicGraph) (op : Op) (i : Nat) :
    (g.apply op).partitions.getD i (-1)
      = written_since_clear_step i (g.partitions.getD i (-1)) op := by
  cases op with
  | add_node n d =>
    simp only [apply, add_node_exec, written_since_clear_step]
    split
    · rfl
    · exact grow_getD _ _ _ _
  | add_edge s t w =>
    simp only [apply, add_edge_exec, written_since_clear_step]
    split
    · rfl
    · split
      · rfl
      · exact grow_getD _ _ _ _
  | remove_edge s t =>
    simp only [apply, remove_edge, written_since_clear_step]
    split <;> rfl
  | set_partition n p =>
    simp only [apply, set_partition_exec, written_since_clear_step]
    split
    · rename_i hneg
      rw [if_neg (by omega)]
    · rename_i hneg
      by_cases hni : n = (i : Int)
      · rw [if_pos hni]
        subst hni
        simp only [resize_if_needed, Int.toNat_ofNat]
        rw [getD_set_self _ _ _ _ (by rw [grow_length]; omega)]
      · rw [if_neg hni]
        simp only [resize_if_needed]
        rw [getD_set_other _ _ _ _ _ (by omega), grow_getD]
  | clear => rfl

theorem fold_partition (i : Nat) (ops : List Op) :
    ∀ g : DynamicGraph, (ops.foldl apply g).partitions.getD i (-1)
      = ops.foldl (written_since_clear_step i) (g.partitions.getD i (-1)) := by
  induction ops with
  | nil => intro g; rfl
  | cons op ops ih =>
    intro g
    simp only [List.foldl_cons]
    rw [ih, apply_partition]

theorem create_partition (n i : Nat) : (create n).partitions.getD i (-1) = -1 := by
  unfold create
  split
  · simp only [resize_if_needed]
    rw [grow_getD]
    rfl
  · rfl

theorem create_adj (n v : Nat) : (create n).adj.getD v [] = [] := by
  unfold create
  split
  · simp only [resize_if_needed]
    rw [grow_getD]
    rfl
  · rfl

theorem filter_target_ne_self (es : List Edge) (t : Int)
    (h : ∀ e ∈ es, (e.target : Int) ≠ t) :
    es.filter (fun e => decide ((e.target : Int) ≠ t)) = es := by
  rw [List.filter_eq_self]
  intro e he
  simpa using h e he

theorem apply_adj (g : DynamicGraph) (op : Op) (v : Nat) (hwf : g.WellFormed) :
    (g.apply op).adj.getD v [] = history_step v (g.adj.getD v []) op := by
  cases op with
  | add_node n d =>
    simp only [apply, add_node_exec, history_step]
    split
    · rfl
    · exact grow_getD _ _ _ _
  | add_edge s t w =>
    simp only [apply, add_edge_exec, history_step]
    split
    · rename_i hneg
      rw [if_neg (by omega)]
    · rename_i hneg
      split
      · rename_i hw
        rw [if_neg (by
          intro hc
          exact hc.2.2.1 (by simpa using hw))]
      · rename_i hw
        have hw' : w ≠ [] := by
          intro hnil
          rw [hnil] at hw
          exact hw rfl
        by_cases hsv : s.toNat = v
        · rw [if_pos ⟨by omega, by omega, hw', hsv⟩]
          subst hsv
          simp only [resize_if_needed]
          rw [getD_set_self _ _ _ _ (by rw [grow_length]; omega), grow_getD]
        · rw [if_neg (fun hc => hsv hc.2.2.2)]
          simp only [resize_if_needed]
          rw [getD_set_other _ _ _ _ _ hsv, grow_getD]
  | remove_edge s t =>
    simp only [apply, remove_edge, history_step]
    split
    · rename_i hout
      split
      · rename_i hsv
        subst hsv
        symm
        apply filter_target_ne_self
        intro e he
        have hb := (hwf.edge_ok v e he).1
        have hlen := hwf.1
        by_cases hv : v < g.adj.length
        · omega
        · rw [getD_beyond _ _ _ (Nat.le_of_not_lt hv)] at he
          simp at he
      · rfl
    · rename_i hin
      split
      · rename_i hsv
        subst hsv
        dsimp only
        rw [Int.toNat_ofNat, getD_set_self _ _ _ _ (by omega)]
      · rename_i hsv
        dsimp only
        rw [getD_set_other _ _ _ _ _ (by omega)]
  | set_partition n p =>
    simp only [apply, set_partition_exec, history_step]
    split
    · rfl
    · exact grow_getD _ _ _ _
  | clear => rfl

theorem fold_adj (v : Nat) (ops : List Op) :
    ∀ g : DynamicGraph, g.SameSizes → g.WellFormed →
      (ops.foldl apply g).adj.getD v [] = ops.foldl (history_step v) (g.adj.getD v []) := by
  induction ops with
  | nil => intro g _ _; rfl
  | cons op ops ih =>
    intro g hs hwf
    simp only [List.foldl_cons]
    rw [ih _ (apply_same_sizes g op hs) (apply_well_formed g op hwf), apply_adj g op v hwf]

end DynamicGraph

/-- C17: in every store built by the constructor and the mutating methods,
`get_edges(node)` throws (out of range) exactly when `node` is negative or at least
`node_count`; otherwise it returns the edges added with source `node` and not
removed since, in insertion order. -/
theorem get_edges_returns_history (n : Nat) (ops : List DynamicGraph.Op) (node : Int) :
    ((DynamicGraph.run n ops).get_edges node = .error .out_of_range ↔
      (node < 0 ∨ ((DynamicGraph.run n ops).node_count : Int) ≤ node)) ∧
    (0 ≤ node → node < (DynamicGraph.run n ops).node_count →
      (DynamicGraph.run n ops).get_edges node = .ok (history_edges node.toNat ops)) := by
  obtain ⟨hs, hwf⟩ := DynamicGraph.run_valid n ops
  have hadj : (DynamicGraph.run n ops).adj.getD node.toNat [] = history_edges node.toNat ops := by
    unfold DynamicGraph.run history_edges
    obtain ⟨hs0, hwf0⟩ := DynamicGraph.create_valid n
    rw [DynamicGraph.fold_adj _ _ _ hs0 hwf0, DynamicGraph.create_adj]
  unfold DynamicGraph.get_edges
  rw [hwf.1]
  constructor
  · by_cases hc : node < 0 ∨ ((DynamicGraph.run n ops).node_count : Int) ≤ node
    · rw [if_pos hc]; exact ⟨fun _ => hc, fun _ => rfl⟩
    · rw [if_neg hc]
      exact ⟨fun hh => (by cases hh), fun hh => absurd hh hc⟩
  · intro h1 h2
    rw [if_neg (by omega), hadj]

theorem get_edges_returns_history_witness :
    (DynamicGraph.run 0 [.add_edge 0 1 [4, 10], .add_edge 0 2 [2, 15],
      .remove_edge 0 1]).get_edges 0
      = .ok (history_edges (0 : Int).toNat [.add_edge 0 1 [4, 10], .add_edge 0 2 [2, 15],
          .remove_edge 0 1]) :=
  (get_edges_returns_history 0 [.add_edge 0 1 [4, 10], .add_edge 0 2 [2, 15],
    .remove_edge 0 1] 0).2 (by decide) (by decide)

/-- Scenario 4 of the specification, on the model: two `add_edge` calls give 3 nodes
and 2 edges at node 0, and `remove_edge(0, 1)` leaves 1. -/
theorem add_remove_scenario :
    DynamicGraph.run 0 [.add_edge 0 1 [4, 10], .add_edge 0 2 [2, 15]] = two_edge_graph ∧
    two_edge_graph.node_count = 3 ∧
    (two_edge_graph.adj.getD 0 []).length = 2 ∧
    ((two_edge_graph.remove_edge 0 1).adj.getD 0 []).length = 1 ∧
    history_edges 0 [.add_edge 0 1 [4, 10], .add_edge 0 2 [2, 15], .remove_edge 0 1]
      = [⟨2, [2, 15]⟩] := by
  decide

/-- C19, the claim at a concrete input: after `set_partition(0, 1)`, `clear()` and
`add_node(0)` the store has one node, whose tag is the sentinel -1, while the value
last written by `set_partition` for node 0 is 1. -/
theorem clear_forgets_partition_writes :
    (DynamicGraph.run 0 [.set_partition 0 1, .clear, .add_node 0 {}]).node_count = 1 ∧
    (DynamicGraph.run 0 [.set_partition 0 1, .clear, .add_node 0 {}]).get_partitions = [-1] ∧
    last_written_ever 0 [.set_partition 0 1, .clear, .add_node 0 {}] = 1 := by
  decide

/-- C19 as amended: in every store built by the constructor and `add_node`,
`add_edge`, `remove_edge`, `set_partition` and `clear`, `get_partitions()` has
exactly `node_count()` entries, and entry `i` is the value last written by
`set_partition` for node `i` since the last `clear()`, or -1 if none was written
since. -/
theorem partitions_follow_writes (n : Nat) (ops : List DynamicGraph.Op) :
    (DynamicGraph.run n ops).get_partitions.length = (DynamicGraph.run n ops).node_count ∧
    ∀ i, i < (DynamicGraph.run n ops).node_count →
      (DynamicGraph.run n ops).get_partitions.getD i (-1) = last_written i ops := by
  refine ⟨(DynamicGraph.run_valid n ops).1.2, ?_⟩
  intro i _
  unfold DynamicGraph.get_partitions DynamicGraph.run last_written
  rw [DynamicGraph.fold_partition, DynamicGraph.create_partition]

end PDC

/-! ## graph.hpp: the compressed-adjacency export -/

namespace PDC
namespace DynamicGraph

theorem take_succ_getD {α : Type} (l : List (List α)) (k : Nat) (h : k < l.length) :
    l.take (k + 1) = l.take k ++ [l.getD k []] := by
  rw [List.take_succ, List.getElem?_eq_getElem h, List.getD_eq_getElem _ _ h]
  rfl

theorem degree_sum_succ (g : DynamicGraph) (k : Nat) (h : k < g.adj.length) :
    g.degree_sum (k + 1) = g.degree_sum k + (g.adj.getD k []).length := by
  unfold degree_sum
  rw [take_succ_getD _ _ h]
  simp

theorem targets_upto_succ (g : DynamicGraph) (k : Nat) (h : k < g.adj.length) :
    g.targets_upto (k + 1)
      = g.targets_upto k ++ (g.adj.getD k []).map fun e => (e.target : Int) := by
  unfold targets_upto
  rw [take_succ_getD _ _ h]
  simp

theorem targets_upto_length (g : DynamicGraph) (k : Nat) :
    (g.targets_upto k).length = g.degree_sum k := by
  unfold targets_upto degree_sum
  rw [List.length_flatten, List.map_map]
  congr 1
  apply List.map_congr_left
  intro es _
  simp

theorem metis_edges_fold (es : List Edge) (hw : ∀ e ∈ es, e.weights ≠ []) :
    ∀ b : MetisBuffers,
      (es.foldl metis_edge b).xadj = b.xadj ∧
      (es.foldl metis_edge b).adjncy = b.adjncy ++ es.map (fun e => (e.target : Int)) ∧
      (es.foldl metis_edge b).weights.length = b.weights.length + es.length := by
  induction es with
  | nil => intro b; simp
  | cons e es ih =>
    intro b
    simp only [List.foldl_cons]
    obtain ⟨h1, h2, h3⟩ := ih (fun x hx => hw x (List.mem_cons_of_mem _ hx)) (metis_edge b e)
    have he := hw e (List.mem_cons_self _ _)
    have hstep : (metis_edge b e).xadj = b.xadj ∧
        (metis_edge b e).adjncy = b.adjncy ++ [(e.target : Int)] ∧
        (metis_edge b e).weights.length = b.weights.length + 1 := by
      unfold metis_edge
      cases hws : e.weights with
      | nil => exact absurd hws he
      | cons w ws => simp
    rw [h1, h2, h3, hstep.1, hstep.2.1, hstep.2.2]
    refine ⟨rfl, by simp, by simp; omega⟩

theorem metis_node_spec (g : DynamicGraph) (b : MetisBuffers) (k : Nat)
    (hw : ∀ e ∈ g.adj.getD k [], e.weights ≠ []) :
    (metis_node g b k).xadj
      = b.xadj.set (k + 1) (b.xadj.getD k 0 + ((g.adj.getD k []).length : Int)) ∧
    (metis_node g b k).adjncy
      = b.adjncy ++ (g.adj.getD k []).map (fun e => (e.target : Int)) ∧
    (metis_node g b k).weights.length = b.weights.length + (g.adj.getD k []).length := by
  unfold metis_node
  exact metis_edges_fold (g.adj.getD k []) hw _

/-- The state of the buffers after the nodes `0 .. k-1` have been handled. -/
theorem metis_prefix (g : DynamicGraph) (hwf : g.WellFormed) (b0 : MetisBuffers)
    (hlen : b0.xadj.length = g.adj.length + 1) (h0 : b0.xadj.getD 0 0 = 0)
    (hadj : b0.adjncy = []) (hwt : b0.weights = []) (k : Nat) (hk : k ≤ g.adj.length) :
    ((List.range k).foldl (metis_node g) b0).xadj.length = g.adj.length + 1 ∧
    (∀ j, j ≤ k → ((List.range k).foldl (metis_node g) b0).xadj.getD j 0
      = (g.degree_sum j : Int)) ∧
    ((List.range k).foldl (metis_node g) b0).adjncy = g.targets_upto k ∧
    ((List.range k).foldl (metis_node g) b0).weights.length
      = ((List.range k).foldl (metis_node g) b0).adjncy.length := by
  induction k with
  | zero =>
    refine ⟨hlen, ?_, ?_, ?_⟩
    · intro j hj
      have : j = 0 := by omega
      subst this
      simpa [degree_sum] using h0
    · simpa [targets_upto] using hadj
    · simp [hadj, hwt]
  | succ k ih =>
    obtain ⟨i1, i2, i3, i4⟩ := ih (by omega)
    have hklt : k < g.adj.length := by omega
    rw [List.range_succ, List.foldl_append]
    simp only [List.foldl_cons, List.foldl_nil]
    obtain ⟨f1, f2, f3⟩ := metis_node_spec g ((List.range k).foldl (metis_node g) b0) k
      (fun e he => (hwf.edge_ok k e he).2)
    rw [f1, f2, f3]
    refine ⟨by rw [List.length_set]; exact i1, ?_, ?_, ?_⟩
    · intro j hj
      by_cases hjk : j = k + 1
      · subst hjk
        rw [getD_set_self _ _ _ _ (by omega), i2 k (Nat.le_refl _), degree_sum_succ g k hklt]
        push_cast
        rfl
      · rw [getD_set_other _ _ _ _ _ (Ne.symm hjk)]
        exact i2 j (by omega)
    · rw [i3, targets_upto_succ g k hklt]
    · rw [i4]
      simp

theorem flatten_slice {α : Type} (L : List (List α)) (i : Nat) (h : i < L.length) :
    (L.flatten.drop ((L.take i).map List.length).sum).take (L.getD i []).length
      = L.getD i [] := by
  have hsplit : L.flatten
      = (L.take i).flatten ++ (L.getD i [] ++ (L.drop (i + 1)).flatten) := by
    conv_lhs => rw [← List.take_append_drop i L, List.drop_eq_getElem_cons h]
    rw [List.flatten_append, List.flatten_cons, List.getD_eq_getElem _ _ h]
  rw [hsplit, ← List.length_flatten, List.drop_left, List.take_left]

end DynamicGraph
end PDC

namespace PDC
namespace DynamicGraph

theorem resize_idx_length (v : List Int) (n : Nat) : (resize_idx v n).length = n := by
  unfold resize_idx
  simp only [List.length_append, List.length_take, List.length_replicate]
  omega

theorem targets_slice (g : DynamicGraph) (i : Nat) (h : i < g.adj.length) :
    ((g.targets_upto g.adj.length).drop (g.degree_sum i)).take (g.adj.getD i []).length
      = (g.adj.getD i []).map fun e => (e.target : Int) := by
  have h1 := flatten_slice (g.adj.map fun es => es.map fun e => (e.target : Int)) i
    (by simpa using h)
  have h2 : (((g.adj.map fun es => es.map fun e => (e.target : Int)).take i).map
      List.length).sum = g.degree_sum i := by
    unfold degree_sum
    rw [← List.map_take, List.map_map]
    congr 1
    apply List.map_congr_left
    intro es _
    simp
  have h3 : (g.adj.map fun es => es.map fun e => (e.target : Int)).getD i []
      = (g.adj.getD i []).map fun e => (e.target : Int) := by
    rw [List.getD_eq_getElem _ _ (by simpa using h), List.getD_eq_getElem _ _ h]
    simp
  rw [h2, h3] at h1
  unfold targets_upto
  rw [List.take_length]
  simpa using h1

end DynamicGraph

/-- C20: for a store with `n = node_count()` nodes that satisfies the class
invariant, the buffers `get_metis_xadj` builds are a compressed adjacency: the
offsets array has `n + 1` entries, starts with 0, grows from entry `i` to entry
`i + 1` by the number of edges leaving node `i` and ends at `edge_count()`; the slice
of the neighbour array between two consecutive offsets is `get_neighbors(i)` in
order; the weight array has as many entries as the neighbour array. -/
theorem metis_export_is_csr (g : DynamicGraph) (b : DynamicGraph.MetisBuffers)
    (hwf : g.WellFormed) :
    (g.get_metis_xadj b).xadj.length = g.node_count + 1 ∧
    (g.get_metis_xadj b).xadj.getD 0 0 = 0 ∧
    (∀ i, i < g.node_count →
      (g.get_metis_xadj b).xadj.getD (i + 1) 0 - (g.get_metis_xadj b).xadj.getD i 0
        = ((g.adj.getD i []).length : Int)) ∧
    (g.get_metis_xadj b).xadj.getD g.node_count 0 = (g.edge_count : Int) ∧
    (∀ i, i < g.node_count →
      ((g.get_metis_xadj b).adjncy.drop ((g.get_metis_xadj b).xadj.getD i 0).toNat).take
          (((g.get_metis_xadj b).xadj.getD (i + 1) 0).toNat
            - ((g.get_metis_xadj b).xadj.getD i 0).toNat)
        = List.map (fun t : Nat => (t : Int)) (g.get_neighbors (i : Int))) ∧
    (g.get_metis_xadj b).weights.length = (g.get_metis_xadj b).adjncy.length := by
  have hn : g.adj.length = g.node_count := hwf.1
  obtain ⟨p1, p2, p3, p4⟩ := DynamicGraph.metis_prefix g hwf
    { xadj := (DynamicGraph.resize_idx b.xadj (g.adj.length + 1)).set 0 0,
      adjncy := [], weights := [] }
    (by simp [DynamicGraph.resize_idx_length])
    (getD_set_self _ _ _ _ (by rw [DynamicGraph.resize_idx_length]; omega)) rfl rfl
    g.adj.length (Nat.le_refl _)
  have hres : g.get_metis_xadj b = (List.range g.adj.length).foldl (DynamicGraph.metis_node g)
      { xadj := (DynamicGraph.resize_idx b.xadj (g.adj.length + 1)).set 0 0,
        adjncy := [], weights := [] } := rfl
  rw [hres]
  refine ⟨by rw [p1, hn], ?_, ?_, ?_, ?_, p4⟩
  · rw [p2 0 (Nat.zero_le _)]
    simp [DynamicGraph.degree_sum]
  · intro i hi
    rw [p2 (i + 1) (by omega), p2 i (by omega), DynamicGraph.degree_sum_succ g i (by omega)]
    push_cast
    omega
  · rw [← hn, p2 g.adj.length (Nat.le_refl _)]
    simp [DynamicGraph.degree_sum, DynamicGraph.edge_count]
  · intro i hi
    rw [p2 (i + 1) (by omega), p2 i (by omega), p3,
      DynamicGraph.degree_sum_succ g i (by omega)]
    simp only [Int.toNat_ofNat]
    rw [show g.degree_sum i + (g.adj.getD i []).length - g.degree_sum i
        = (g.adj.getD i []).length by omega,
      DynamicGraph.targets_slice g i (by omega)]
    unfold DynamicGraph.get_neighbors
    rw [if_neg (by omega), Int.toNat_ofNat, List.map_map]
    rfl

theorem metis_export_is_csr_witness :
    (triangle_graph.get_metis_xadj {}).xadj = [0, 1, 2, 3] ∧
    (triangle_graph.get_metis_xadj {}).adjncy = [1, 2, 0] ∧
    (triangle_graph.get_metis_xadj {}).weights.length
      = (triangle_graph.get_metis_xadj {}).adjncy.length :=
  ⟨by decide, by decide,
    (metis_export_is_csr triangle_graph {} (by decide)).2.2.2.2.2⟩

theorem partitions_follow_writes_witness :
    (DynamicGraph.run 0 [.set_partition 0 1, .clear, .add_node 0 {},
      .set_partition 1 2]).get_partitions.getD 1 (-1)
      = last_written 1 [.set_partition 0 1, .clear, .add_node 0 {}, .set_partition 1 2] :=
  (partitions_follow_writes 0 [.set_partition 0 1, .clear, .add_node 0 {},
    .set_partition 1 2]).2 1 (by decide)

end PDC

/-! ## pareto_utils.hpp: what the filter keeps -/

namespace PDC
namespace Pareto

theorem dominates_trans (a b c : List Int) (hab : a.length = b.length)
    (hbc : b.length = c.length) (h1 : dominates a b = true) (h2 : dominates b c = true) :
    dominates a c = true := by
  unfold dominates at *
  rw [dominates_from_iff a b false hab] at h1
  rw [dominates_from_iff b c false hbc] at h2
  rw [dominates_from_iff a c false (hab.trans hbc)]
  obtain ⟨ha, hsa⟩ := h1
  obtain ⟨hb, _⟩ := h2
  refine ⟨fun i hi => le_trans (ha i hi) (hb i (by omega)), ?_⟩
  rcases hsa with hf | ⟨i, hi, hlt⟩
  · cases hf
  · exact Or.inr ⟨i, hi, lt_of_lt_of_le hlt (hb i (by omega))⟩

/-- Among results whose objective vectors have one length, a dominated result is
dominated by a result that nothing dominates. -/
theorem exists_top_dominator (n : Nat) (p : PathResult) (hp : p.objectives.length = n)
    (l : List PathResult) (hl : ∀ x ∈ l, x.objectives.length = n)
    (h : ∃ q ∈ l, dominates q.objectives p.objectives = true) :
    ∃ q ∈ l, dominates q.objectives p.objectives = true ∧
      ∀ r ∈ l, dominates r.objectives q.objectives = false := by
  induction l with
  | nil => obtain ⟨q, hq, _⟩ := h; simp at hq
  | cons x l ih =>
    have hx : x.objectives.length = n := hl x (List.mem_cons_self _ _)
    have hl' : ∀ y ∈ l, y.objectives.length = n := fun y hy => hl y (List.mem_cons_of_mem _ hy)
    by_cases hex : ∃ q ∈ l, dominates q.objectives p.objectives = true
    · obtain ⟨q, hq, hqp, hmax⟩ := ih hl' hex
      have hqn := hl' q hq
      by_cases hxq : dominates x.objectives q.objectives = true
      · refine ⟨x, List.mem_cons_self _ _,
          dominates_trans _ _ _ (hx.trans hqn.symm) (hqn.trans hp.symm) hxq hqp, ?_⟩
        intro r hr
        rcases List.mem_cons.1 hr with rfl | hr
        · exact dominates_irrefl _
        · by_contra hc
          have hrx : dominates r.objectives x.objectives = true := by simpa using hc
          have := dominates_trans _ _ _ ((hl' r hr).trans hx.symm) (hx.trans hqn.symm) hrx hxq
          rw [hmax r hr] at this
          cases this
      · refine ⟨q, List.mem_cons_of_mem _ hq, hqp, ?_⟩
        intro r hr
        rcases List.mem_cons.1 hr with rfl | hr
        · simpa using hxq
        · exact hmax r hr
    · obtain ⟨q, hq, hqp⟩ := h
      rcases List.mem_cons.1 hq with rfl | hq
      · refine ⟨q, List.mem_cons_self _ _, hqp, ?_⟩
        intro r hr
        rcases List.mem_cons.1 hr with rfl | hr
        · exact dominates_irrefl _
        · by_contra hc
          have hrq : dominates r.objectives q.objectives = true := by simpa using hc
          exact hex ⟨r, hr, dominates_trans _ _ _ ((hl' r hr).trans hx.symm)
            (hx.trans hp.symm) hrq hqp⟩
      · exact absurd ⟨q, hq, hqp⟩ hex

/-- The loop of the filter, started on a vector that still holds every result of
`orig` that nothing in `orig` dominates, keeps `kept` and exactly those results of
`rest`. -/
theorem filter_loop_eq (n : Nat) (orig : List PathResult)
    (hlen : ∀ x ∈ orig, x.objectives.length = n) (rest : List PathResult) :
    ∀ kept : List PathResult, (∀ x ∈ kept ++ rest, x ∈ orig) →
      (∀ x ∈ orig, nondominated orig x = true → x ∈ kept ++ rest) →
      filter_loop kept rest = kept ++ rest.filter (nondominated orig) := by
  induction rest with
  | nil => intro kept _ _; simp [filter_loop]
  | cons p rest ih =>
    intro kept hsub hall
    have hp : p ∈ orig := hsub p (by simp)
    simp only [filter_loop]
    split
    · rename_i hany
      obtain ⟨q, hq, hqp⟩ := List.any_eq_true.1 hany
      have hqo : q ∈ orig := hsub q (by
        simp only [List.mem_append, List.mem_cons] at hq ⊢
        tauto)
      have hnd : nondominated orig p = false := by
        simp only [nondominated, Bool.not_eq_false', List.any_eq_true]
        exact ⟨q, hqo, hqp⟩
      rw [List.filter_cons, hnd]
      simp only [Bool.false_eq_true, if_false]
      apply ih
      · intro x hx
        apply hsub
        simp only [List.mem_append, List.mem_cons] at hx ⊢
        tauto
      · intro x hx hndx
        have := hall x hx hndx
        simp only [List.mem_append, List.mem_cons] at this ⊢
        rcases this with h | h | h
        · exact Or.inl h
        · subst h
          rw [hnd] at hndx
          cases hndx
        · exact Or.inr h
    · rename_i hany
      have hnd : nondominated orig p = true := by
        by_contra hc
        have hdom : ∃ q ∈ orig, dominates q.objectives p.objectives = true := by
          simpa [nondominated] using hc
        obtain ⟨q, hq, hqp, hmax⟩ := exists_top_dominator n p (hlen p hp) orig hlen hdom
        have hqnd : nondominated orig q = true := by
          simp only [nondominated, Bool.not_eq_true', List.any_eq_false, Bool.not_eq_true]
          exact hmax
        have hmem := hall q hq hqnd
        have hne : q ≠ p := by
          intro heq
          rw [heq, dominates_irrefl] at hqp
          cases hqp
        apply hany
        apply List.any_eq_true.2
        refine ⟨q, ?_, hqp⟩
        simp only [List.mem_append, List.mem_cons] at hmem ⊢
        tauto
      rw [List.filter_cons, hnd]
      simp only [if_true]
      rw [ih (kept ++ [p])]
      · simp
      · intro x hx
        apply hsub
        simp only [List.mem_append, List.mem_cons, List.mem_singleton] at hx ⊢
        tauto
      · intro x hx hndx
        have := hall x hx hndx
        simp only [List.mem_append, List.mem_cons, List.mem_singleton] at this ⊢
        tauto

theorem filter_dominated_eq (n : Nat) (paths : List PathResult)
    (hlen : ∀ x ∈ paths, x.objectives.length = n) :
    filter_dominated paths = paths.filter (nondominated paths) := by
  unfold filter_dominated
  rw [filter_loop_eq n paths hlen paths [] (by simp) (fun x hx _ => by simpa using hx)]
  simp

theorem dominates_single (x y : Int) : dominates [x] [y] = decide (x < y) := by
  unfold dominates
  simp only [dominates_from, List.headD_cons, List.tail_cons, Bool.false_or]
  by_cases h : x > y
  · rw [if_pos h]
    simp
    omega
  · rw [if_neg h]

theorem exists_minimal (paths : List PathResult) (h : paths ≠ []) :
    ∃ p ∈ paths, is_minimal paths p = true := by
  induction paths with
  | nil => exact absurd rfl h
  | cons x l ih =>
    by_cases hl : l = []
    · subst hl
      exact ⟨x, List.mem_cons_self _ _, by simp [is_minimal]⟩
    · obtain ⟨p, hp, hmin⟩ := ih hl
      simp only [is_minimal, List.all_eq_true, decide_eq_true_eq] at hmin
      by_cases hxp : x.objectives.getD 0 0 ≤ p.objectives.getD 0 0
      · refine ⟨x, List.mem_cons_self _ _, ?_⟩
        simp only [is_minimal, List.all_eq_true, decide_eq_true_eq]
        intro q hq
        rcases List.mem_cons.1 hq with rfl | hq
        · exact le_refl _
        · exact le_trans hxp (hmin q hq)
      · refine ⟨p, List.mem_cons_of_mem _ hp, ?_⟩
        simp only [is_minimal, List.all_eq_true, decide_eq_true_eq]
        intro q hq
        rcases List.mem_cons.1 hq with rfl | hq
        · omega
        · exact hmin q hq

end Pareto

/-- C11: for results whose objective vectors have equal length,
`Pareto::filter_dominated` leaves exactly the results of the input that no result of
the input dominates, in their original order and with their multiplicity: every
dominated result is removed and no other. -/
theorem filter_dominated_keeps_nondominated (paths : List PathResult)
    (hlen : ∀ p ∈ paths, ∀ q ∈ paths, p.objectives.length = q.objectives.length) :
    Pareto.filter_dominated paths = paths.filter (Pareto.nondominated paths) := by
  cases paths with
  | nil => rfl
  | cons x l =>
    exact Pareto.filter_dominated_eq x.objectives.length (x :: l)
      (fun y hy => hlen y hy x (List.mem_cons_self _ _))

theorem filter_dominated_keeps_nondominated_witness :
    Pareto.filter_dominated sample_paths = sample_paths.filter (Pareto.nondominated sample_paths) :=
  filter_dominated_keeps_nondominated sample_paths (by decide)

/-- C12: when every objective vector has length 1, `Pareto::filter_dominated` leaves
exactly the results whose objective is the least objective of the input, ties
included and in their original order; it leaves at least one result of a non-empty
input. -/
theorem filter_dominated_single_objective (paths : List PathResult)
    (hone : ∀ p ∈ paths, p.objectives.length = 1) :
    Pareto.filter_dominated paths = paths.filter (Pareto.is_minimal paths) ∧
    (paths ≠ [] → Pareto.filter_dominated paths ≠ []) := by
  have heq : Pareto.filter_dominated paths = paths.filter (Pareto.is_minimal paths) := by
    rw [Pareto.filter_dominated_eq 1 paths hone]
    apply List.filter_congr
    intro p hp
    obtain ⟨x, hx⟩ := List.length_eq_one.1 (hone p hp)
    simp only [Pareto.nondominated, Pareto.is_minimal]
    rw [Bool.eq_iff_iff]
    simp only [Bool.not_eq_true', List.any_eq_false, Bool.not_eq_true, List.all_eq_true,
      decide_eq_true_eq]
    constructor
    · intro h q hq
      obtain ⟨y, hy⟩ := List.length_eq_one.1 (hone q hq)
      have := h q hq
      rw [hx, hy, Pareto.dominates_single] at this
      rw [hx, hy]
      simp only [List.getD_cons_zero]
      simpa using this
    · intro h q hq
      obtain ⟨y, hy⟩ := List.length_eq_one.1 (hone q hq)
      have := h q hq
      rw [hx, hy] at this ⊢
      rw [Pareto.dominates_single]
      simp only [List.getD_cons_zero] at this
      simpa using this
  refine ⟨heq, ?_⟩
  intro hne
  obtain ⟨p, hp, hmin⟩ := Pareto.exists_minimal paths hne
  rw [heq]
  intro hnil
  have : p ∈ paths.filter (Pareto.is_minimal paths) := List.mem_filter.2 ⟨hp, hmin⟩
  rw [hnil] at this
  simp at this

theorem filter_dominated_single_objective_witness :
    Pareto.filter_dominated single_objective_paths = [⟨[0, 2, 3], [3]⟩, ⟨[0, 4, 3], [3]⟩] ∧
    Pareto.filter_dominated single_objective_paths
      = single_objective_paths.filter (Pareto.is_minimal single_objective_paths) :=
  ⟨by decide, (filter_dominated_single_objective single_objective_paths (by decide)).1⟩

end PDC

/-! ## mosp_engine.hpp: the enumeration of walks -/

namespace PDC
namespace MOSPEngine

end MOSPEngine
end PDC

namespace PDC
namespace MOSPEngine

end MOSPEngine

end PDC

/-! ## Loops whose body may throw -/

namespace PDC
namespace DynamicGraph

theorem fold_opt_append {σ α : Type} (f : σ → α → Option σ) (l1 l2 : List α) (s : σ) :
    fold_opt f (l1 ++ l2) s = (fold_opt f l1 s).bind (fold_opt f l2) := by
  induction l1 generalizing s with
  | nil => rfl
  | cons x xs ih =>
    simp only [List.cons_append, fold_opt]
    cases f s x with
    | none => rfl
    | some s1 => exact ih s1

theorem fold_opt_suffix {σ α : Type} (f : σ → α → Option σ) (l : List α)
    (P : List α → σ → Prop)
    (step : ∀ pre x suf s, l = pre ++ x :: suf → P pre s →
      ∃ s1, f s x = some s1 ∧ P (pre ++ [x]) s1) :
    ∀ (suf pre : List α) (s : σ), l = pre ++ suf → P pre s →
      ∃ s1, fold_opt f suf s = some s1 ∧ P l s1 := by
  intro suf
  induction suf with
  | nil =>
    intro pre s hl hp
    rw [List.append_nil] at hl
    exact ⟨s, rfl, hl ▸ hp⟩
  | cons x xs ih =>
    intro pre s hl hp
    obtain ⟨s1, hs1, hp1⟩ := step pre x xs s hl hp
    obtain ⟨s2, hs2, hp2⟩ := ih (pre ++ [x]) s1 (by rw [hl]; simp) hp1
    exact ⟨s2, by simp only [fold_opt, hs1]; exact hs2, hp2⟩

/-- A loop over a list: an invariant indexed by the elements already visited. -/
theorem fold_opt_invariant {σ α : Type} (f : σ → α → Option σ) (l : List α)
    (P : List α → σ → Prop)
    (step : ∀ pre x suf s, l = pre ++ x :: suf → P pre s →
      ∃ s1, f s x = some s1 ∧ P (pre ++ [x]) s1)
    (s0 : σ) (h0 : P [] s0) : ∃ s1, fold_opt f l s0 = some s1 ∧ P l s1 :=
  fold_opt_suffix f l P step l [] s0 rfl h0

/-- A counting loop `for (i = 0; i < n; ++i)`: an invariant indexed by `i`. -/
theorem fold_opt_range {σ : Type} (f : σ → Nat → Option σ) (n : Nat) (P : Nat → σ → Prop)
    (step : ∀ k s, k < n → P k s → ∃ s1, f s k = some s1 ∧ P (k + 1) s1)
    (s0 : σ) (h0 : P 0 s0) : ∃ s1, fold_opt f (List.range n) s0 = some s1 ∧ P n s1 := by
  induction n with
  | zero => exact ⟨s0, rfl, h0⟩
  | succ n ih =>
    obtain ⟨s1, hs1, hp1⟩ := ih (fun k s hk hp => step k s (by omega) hp)
    obtain ⟨s2, hs2, hp2⟩ := step n s1 (by omega) hp1
    refine ⟨s2, ?_, hp2⟩
    rw [List.range_succ, fold_opt_append, hs1]
    simp only [Option.bind, fold_opt, hs2]

/-! ## graph.hpp: one call on a sub-store -/

/-- A node with its data: `get_node_data(j)` returns `d`. -/
theorem get_node_data_natCast (g : DynamicGraph) (j : Nat) (h : j < g.node_data.length) :
    g.get_node_data (j : Int) = .ok (g.node_data.getD j {}) := by
  unfold get_node_data
  have h1 : ¬ ((j : Int) < 0 ∨ (g.node_data.length : Int) ≤ (j : Int)) := by omega
  rw [if_neg h1, Int.toNat_ofNat]

theorem try_add_node_eq (sub : DynamicGraph) (i : Nat) (d : NodeData) :
    try_add_node sub i d = some
      { adj := grow sub.adj i [],
        node_data := (grow sub.node_data i {}).set i d,
        partitions := grow sub.partitions i (-1) } := by
  unfold try_add_node add_node_exec
  have h1 : ¬ ((i : Int) < 0) := by omega
  rw [if_neg h1]
  simp only [resize_if_needed, Int.toNat_ofNat]

theorem try_set_partition_eq (sub : DynamicGraph) (i : Nat) (p : Int) :
    try_set_partition sub i p = some
      { adj := grow sub.adj i [],
        node_data := grow sub.node_data i {},
        partitions := (grow sub.partitions i (-1)).set i p } := by
  unfold try_set_partition set_partition_exec
  have h1 : ¬ ((i : Int) < 0) := by omega
  rw [if_neg h1]
  simp only [resize_if_needed, Int.toNat_ofNat]

theorem try_add_edge_eq (sub : DynamicGraph) (u : Nat) (e : Edge) (hw : e.weights ≠ []) :
    try_add_edge sub u e = some
      { adj := (grow sub.adj (max u e.target) []).set u
          ((grow sub.adj (max u e.target) []).getD u [] ++ [e]),
        node_data := grow sub.node_data (max u e.target) {},
        partitions := grow sub.partitions (max u e.target) (-1) } := by
  unfold try_add_edge add_edge
  have h1 : ¬ ((u : Int) < 0 ∨ (e.target : Int) < 0) := by omega
  have h2 : e.weights.isEmpty = false := by
    cases hws : e.weights with
    | nil => exact absurd hws hw
    | cons a l => rfl
  have h3 : (max (u : Int) (e.target : Int)).toNat = max u e.target := by omega
  rw [if_neg h1, h2]
  simp only [resize_if_needed, Int.toNat_ofNat, h3, Bool.false_eq_true, if_false]

theorem grow_of_lt {α : Type} (v : List α) (m : Nat) (a : α) (h : m < v.length) :
    grow v m a = v := by
  unfold grow
  rw [if_neg (by omega)]

end DynamicGraph
end PDC

/-! ## graph.hpp: `extract_partition` -/

namespace PDC
namespace DynamicGraph

theorem HasNode.add_node {sub : DynamicGraph} {j : Nat} {d : NodeData} (h : HasNode sub j d)
    (i : Nat) (di : NodeData) (hi : i ≠ j) :
    HasNode { adj := grow sub.adj i [], node_data := (grow sub.node_data i {}).set i di,
              partitions := grow sub.partitions i (-1) } j d := by
  obtain ⟨h1, h2, h3⟩ := h
  refine ⟨?_, ?_, ?_⟩
  · simp only [List.length_set, grow_length]; omega
  · simp only [grow_length]; omega
  · dsimp only
    rw [getD_set_other _ _ _ _ _ hi, grow_getD, h3]

theorem HasNode.add_node_self (sub : DynamicGraph) (i : Nat) (di : NodeData) :
    HasNode { adj := grow sub.adj i [], node_data := (grow sub.node_data i {}).set i di,
              partitions := grow sub.partitions i (-1) } i di := by
  refine ⟨?_, ?_, ?_⟩
  · simp only [List.length_set, grow_length]; omega
  · simp only [grow_length]; omega
  · dsimp only
    rw [getD_set_self _ _ _ _ (by rw [grow_length]; omega)]

theorem HasNode.add_edge {sub : DynamicGraph} {j : Nat} {d : NodeData} (h : HasNode sub j d)
    (m u : Nat) (es : List Edge) :
    HasNode { adj := (grow sub.adj m []).set u es, node_data := grow sub.node_data m {},
              partitions := grow sub.partitions m (-1) } j d := by
  obtain ⟨h1, h2, h3⟩ := h
  refine ⟨?_, ?_, ?_⟩
  · simp only [grow_length]; omega
  · simp only [List.length_set, grow_length]; omega
  · dsimp only
    rw [grow_getD, h3]

/-- The first loop of `extract_partition` returns, and adds the owned nodes with
their data and no edge. -/
theorem extract_nodes_spec (g : DynamicGraph) (assignment : List Int) (p : Int) :
    ∃ sub, fold_opt (extract_node g assignment p) (List.range assignment.length) {} = some sub ∧
      (∀ j, j < assignment.length → assignment.getD j (-1) = p →
        HasNode sub j (g.node_data.getD j {})) ∧
      ∀ v, sub.adj.getD v [] = [] := by
  refine fold_opt_range (extract_node g assignment p) assignment.length
    (fun k sub => (∀ j, j < k → assignment.getD j (-1) = p →
        HasNode sub j (g.node_data.getD j {})) ∧ ∀ v, sub.adj.getD v [] = []) ?_ {} ?_
  · intro k sub _ ⟨ha, hb⟩
    unfold extract_node
    by_cases hown : assignment.getD k (-1) = p
    · rw [if_pos hown, try_add_node_eq]
      refine ⟨_, rfl, ?_, ?_⟩
      · intro j hj hjo
        by_cases hjk : j = k
        · subst hjk
          exact HasNode.add_node_self _ _ _
        · exact (ha j (by omega) hjo).add_node _ _ (fun h => hjk h.symm)
      · intro v
        dsimp only
        rw [grow_getD, hb]
    · rw [if_neg hown]
      refine ⟨sub, rfl, ?_, hb⟩
      intro j hj hjo
      by_cases hjk : j = k
      · subst hjk
        exact absurd hjo hown
      · exact ha j (by omega) hjo
  · exact ⟨fun j hj => absurd hj (Nat.not_lt_zero _), fun v => by simp⟩

/-- The edge loop of `extract_partition` for an owned node `k` returns, and copies
the whole edge list of `k` in order. -/
theorem extract_edges_of_spec (g : DynamicGraph) (hwf : g.WellFormed) (assignment : List Int)
    (p : Int) (k : Nat) (hown : assignment.getD k (-1) = p) (sub : DynamicGraph)
    (hk : sub.adj.getD k [] = []) :
    ∃ sub1, fold_opt (extract_edge assignment p k) (g.adj.getD k []) sub = some sub1 ∧
      (∀ j d, HasNode sub j d → HasNode sub1 j d) ∧
      ∀ v, sub1.adj.getD v [] = if v = k then g.adj.getD k [] else sub.adj.getD v [] := by
  refine fold_opt_invariant (extract_edge assignment p k) (g.adj.getD k [])
    (fun pre s => (∀ j d, HasNode sub j d → HasNode s j d) ∧
      ∀ v, s.adj.getD v [] = if v = k then pre else sub.adj.getD v []) ?_ sub ?_
  · intro pre x suf s hl ⟨ha, hb⟩
    have hx : x ∈ g.adj.getD k [] := by rw [hl]; simp
    have hw := (hwf.edge_ok k x hx).2
    unfold extract_edge
    rw [if_pos (Or.inl hown), try_add_edge_eq _ _ _ hw]
    refine ⟨_, rfl, fun j d hj => (ha j d hj).add_edge _ _ _, ?_⟩
    intro v
    dsimp only
    by_cases hv : v = k
    · subst hv
      rw [if_pos rfl, getD_set_self _ _ _ _ (by rw [grow_length]; omega), grow_getD, hb,
        if_pos rfl]
    · rw [if_neg hv, getD_set_other _ _ _ _ _ (fun h => hv h.symm), grow_getD, hb, if_neg hv]
  · refine ⟨fun j d hj => hj, fun v => ?_⟩
    by_cases hv : v = k
    · subst hv
      rw [if_pos rfl, hk]
    · rw [if_neg hv]

/-- What `extract_partition` builds: it returns, every owned node is in the
sub-store with its data, and the edge list of node `v` in the sub-store is the
edge list of `v` in the graph if `v` is owned and empty otherwise. -/
theorem extract_partition_spec (g : DynamicGraph) (hwf : g.WellFormed) (assignment : List Int)
    (hlen : assignment.length = g.node_count) (p : Int) :
    ∃ sub, g.extract_partition assignment p = some sub ∧
      (∀ j, j < g.node_count → assignment.getD j (-1) = p →
        HasNode sub j (g.node_data.getD j {})) ∧
      ∀ v, sub.adj.getD v [] =
        if v < g.node_count ∧ assignment.getD v (-1) = p then g.adj.getD v [] else [] := by
  obtain ⟨sub1, h1, ha1, hb1⟩ := extract_nodes_spec g assignment p
  have h2 := fold_opt_range (extract_edges_of g assignment p) g.adj.length
    (fun k sub => (∀ j, j < g.node_count → assignment.getD j (-1) = p →
        HasNode sub j (g.node_data.getD j {})) ∧
      ∀ v, sub.adj.getD v [] =
        if v < k ∧ assignment.getD v (-1) = p then g.adj.getD v [] else []) ?_ sub1 ?_
  · obtain ⟨sub2, h2, ha2, hb2⟩ := h2
    refine ⟨sub2, ?_, ha2, ?_⟩
    · unfold extract_partition
      rw [h1]
      exact h2
    · intro v
      rw [hb2 v, hwf.1]
  · intro k sub _ ⟨ha, hb⟩
    unfold extract_edges_of
    by_cases hown : assignment.getD k (-1) = p
    · rw [if_pos hown]
      have hk : sub.adj.getD k [] = [] := by
        rw [hb k, if_neg (by omega)]
      obtain ⟨s1, hs1, hn1, he1⟩ := extract_edges_of_spec g hwf assignment p k hown sub hk
      refine ⟨s1, hs1, fun j hj hjo => hn1 _ _ (ha j hj hjo), ?_⟩
      intro v
      rw [he1 v]
      by_cases hv : v = k
      · subst hv
        rw [if_pos rfl, if_pos ⟨by omega, hown⟩]
      · rw [if_neg hv, hb v]
        by_cases hc : v < k ∧ assignment.getD v (-1) = p
        · rw [if_pos hc, if_pos ⟨by omega, hc.2⟩]
        · rw [if_neg hc, if_neg (fun h => hc ⟨by omega, h.2⟩)]
    · rw [if_neg hown]
      refine ⟨sub, rfl, ha, ?_⟩
      intro v
      rw [hb v]
      by_cases hc : v < k ∧ assignment.getD v (-1) = p
      · rw [if_pos hc, if_pos ⟨by omega, hc.2⟩]
      · rw [if_neg hc, if_neg]
        rintro ⟨h1, h2⟩
        by_cases hv : v = k
        · subst hv
          exact hown h2
        · exact hc ⟨by omega, h2⟩
  · refine ⟨fun j hj hjo => ha1 j (by omega) hjo, fun v => ?_⟩
    rw [hb1 v]
    simp

end DynamicGraph

/-- C21: for a graph satisfying the class invariant, an assignment vector of length
`node_count` and a partition id `p`, `extract_partition(assignment, p)` returns a
sub-store in which every node `i` with `assignment[i] == p` has an id below the
sub-store's `node_count`, the node data it has in the graph, and the edge list it
has in the graph, complete and in the same order. -/
theorem extract_partition_keeps_owned (g : DynamicGraph) (hwf : g.WellFormed)
    (assignment : List Int) (hlen : assignment.length = g.node_count) (p : Int) :
    ∃ sub, g.extract_partition assignment p = some sub ∧
      ∀ i : Nat, i < g.node_count → assignment.getD i (-1) = p →
        i < sub.node_count ∧
        sub.get_node_data (i : Int) = .ok (g.node_data.getD i {}) ∧
        sub.get_node_data (i : Int) = g.get_node_data (i : Int) ∧
        sub.get_edges (i : Int) = .ok (g.adj.getD i []) ∧
        sub.get_edges (i : Int) = g.get_edges (i : Int) := by
  obtain ⟨sub, hsub, hnodes, hedges⟩ := DynamicGraph.extract_partition_spec g hwf assignment hlen p
  refine ⟨sub, hsub, ?_⟩
  intro i hi hown
  obtain ⟨h1, h2, h3⟩ := hnodes i hi hown
  have hd : sub.get_node_data (i : Int) = .ok (g.node_data.getD i {}) := by
    rw [DynamicGraph.get_node_data_natCast sub i h1, h3]
  have he : sub.get_edges (i : Int) = .ok (g.adj.getD i []) := by
    rw [get_edges_natCast sub i h2, hedges i, if_pos ⟨hi, hown⟩]
  refine ⟨h1, hd, ?_, he, ?_⟩
  · rw [hd, DynamicGraph.get_node_data_natCast g i hi]
  · rw [he, get_edges_natCast g i (by rw [hwf.1]; exact hi)]

theorem extract_partition_keeps_owned_witness :
    ∃ sub, cycle_graph.extract_partition [0, 0, 1, 1] 1 = some sub ∧
      ∀ i : Nat, i < cycle_graph.node_count → [(0 : Int), 0, 1, 1].getD i (-1) = 1 →
        i < sub.node_count ∧
        sub.get_node_data (i : Int) = .ok (cycle_graph.node_data.getD i {}) ∧
        sub.get_node_data (i : Int) = cycle_graph.get_node_data (i : Int) ∧
        sub.get_edges (i : Int) = .ok (cycle_graph.adj.getD i []) ∧
        sub.get_edges (i : Int) = cycle_graph.get_edges (i : Int) :=
  extract_partition_keeps_owned cycle_graph (by decide) [0, 0, 1, 1] (by decide) 1

/-- C22: on the graph with the single edge `0 -> 1`, the assignment `[0, 1]` and
the partition id `1`, the edge is incident to the partition (its target is owned)
and is in the graph, but the sub-store `extract_partition` returns has no edge:
node 0 and node 1 both have an empty edge list. -/
theorem extract_partition_drops_incoming_edge :
    (⟨1, [1]⟩ : Edge) ∈ one_edge_graph.adj.getD 0 [] ∧
    [(0 : Int), 1].getD 1 (-1) = 1 ∧
    one_edge_graph.WellFormed ∧ [(0 : Int), 1].length = one_edge_graph.node_count ∧
    ∃ sub, one_edge_graph.extract_partition [0, 1] 1 = some sub ∧
      sub.node_count = 2 ∧
      sub.get_edges 0 = .ok [] ∧ sub.get_edges 1 = .ok [] ∧ sub.edge_count = 0 := by
  refine ⟨by decide, by decide, by decide, by decide, _, rfl, by decide, rfl, rfl, by decide⟩

/-- X2: for a graph satisfying the class invariant and an assignment vector of
length `node_count`, the sub-store returned by `extract_partition(assignment, p)`
contains exactly the edges whose source is owned: an edge `e` is in the edge list
of node `u` of the sub-store if and only if `assignment[u] == p` and `e` is in the
edge list of `u` in the graph; the partition of the target plays no part. -/
theorem extract_partition_edges_by_source (g : DynamicGraph) (hwf : g.WellFormed)
    (assignment : List Int) (hlen : assignment.length = g.node_count) (p : Int) :
    ∃ sub, g.extract_partition assignment p = some sub ∧
      ∀ (u : Nat) (e : Edge), e ∈ sub.adj.getD u [] ↔
        (u < g.node_count ∧ assignment.getD u (-1) = p ∧ e ∈ g.adj.getD u []) := by
  obtain ⟨sub, hsub, _, hedges⟩ := DynamicGraph.extract_partition_spec g hwf assignment hlen p
  refine ⟨sub, hsub, ?_⟩
  intro u e
  rw [hedges u]
  by_cases hc : u < g.node_count ∧ assignment.getD u (-1) = p
  · rw [if_pos hc]
    exact ⟨fun h => ⟨hc.1, hc.2, h⟩, fun h => h.2.2⟩
  · rw [if_neg hc]
    exact ⟨fun h => (by cases h), fun h => absurd ⟨h.1, h.2.1⟩ hc⟩

theorem extract_partition_edges_by_source_witness :
    ∃ sub, cycle_graph.extract_partition [0, 0, 1, 1] 0 = some sub ∧
      ∀ (u : Nat) (e : Edge), e ∈ sub.adj.getD u [] ↔
        (u < cycle_graph.node_count ∧ [(0 : Int), 0, 1, 1].getD u (-1) = 0 ∧
          e ∈ cycle_graph.adj.getD u []) :=
  extract_partition_edges_by_source cycle_graph (by decide) [0, 0, 1, 1] (by decide) 0

end PDC

/-! ## sosp_engine.hpp: the range check of `get_distance` -/

namespace PDC
namespace SOSPEngine

theorem update_loop_length (g : DynamicGraph) (affected : List Bool) (us : List Nat) :
    ∀ e e1 : SOSPEngine, update_loop g affected us e = some e1 →
      e1.distances.length = e.distances.length := by
  induction us with
  | nil =>
    intro e e1 h
    simp only [update_loop, Option.some.injEq] at h
    rw [← h]
  | cons u us ih =>
    intro e e1 h
    simp only [update_loop] at h
    split at h
    · split at h
      · cases h
      · rw [ih _ _ h, update_fold_length]
    · exact ih _ _ h

theorem update_length (g : DynamicGraph) (e : SOSPEngine) (changed : List Nat) (e1 : SOSPEngine)
    (h : update g e changed = some e1) : e1.distances.length = e.distances.length :=
  update_loop_length g _ _ e e1 h

theorem updates_length (calls : List (DynamicGraph × List Nat)) :
    ∀ e e1 : SOSPEngine, updates calls e = some e1 →
      e1.distances.length = e.distances.length := by
  induction calls with
  | nil =>
    intro e e1 h
    simp only [updates, Option.some.injEq] at h
    rw [← h]
  | cons c calls ih =>
    intro e e1 h
    obtain ⟨g, changed⟩ := c
    simp only [updates] at h
    split at h
    · cases h
    · rename_i e2 h2
      rw [ih _ _ h, update_length g e changed e2 h2]

end SOSPEngine

/-- C30: on an engine that has not computed yet `get_distance` fails with
`out_of_range` for every id.  After a `compute` on the graph `g`, followed by any
number of `update` calls (on whatever the graph has become), `get_distance(node)`
fails with `out_of_range` if and only if `node` is negative or at least the
`node_count` of `g`, and otherwise returns the stored distance of `node`. -/
theorem get_distance_fails_iff (g0 g : DynamicGraph) (e0 e1 e : SOSPEngine) (s fuel : Nat)
    (hc : SOSPEngine.compute g e0 s fuel = some e1)
    (calls : List (DynamicGraph × List Nat))
    (hu : SOSPEngine.updates calls e1 = some e) (node : Int) :
    (SOSPEngine.new g0).get_distance node = .error .out_of_range ∧
    (e.get_distance node = .error .out_of_range ↔ node < 0 ∨ (g.node_count : Int) ≤ node) ∧
    (¬ (node < 0 ∨ (g.node_count : Int) ≤ node) →
      e.get_distance node = .ok (e.distances.getD node.toNat none)) := by
  have hlen : e.distances.length = g.node_count := by
    rw [SOSPEngine.updates_length calls e1 e hu, SOSPEngine.compute_length g e0 s fuel e1 hc]
  refine ⟨?_, ?_, ?_⟩
  · unfold SOSPEngine.get_distance SOSPEngine.new
    rw [if_pos]
    dsimp only [List.length_nil]
    omega
  · unfold SOSPEngine.get_distance
    rw [hlen]
    by_cases h : node < 0 ∨ (g.node_count : Int) ≤ node
    · rw [if_pos h]
      exact ⟨fun _ => h, fun _ => rfl⟩
    · rw [if_neg h]
      exact ⟨fun hh => (by cases hh), fun hh => absurd hh h⟩
  · intro h
    unfold SOSPEngine.get_distance
    rw [hlen, if_neg h]

theorem get_distance_fails_iff_witness :
    (SOSPEngine.new chain_graph).get_distance 2 = .error .out_of_range ∧
    ((⟨[some 0, some 5, some 6], [-1, 0, 0], [false, false, false]⟩ : SOSPEngine).get_distance 2
        = .error .out_of_range ↔ (2 : Int) < 0 ∨ (chain_graph.node_count : Int) ≤ 2) ∧
    (¬ ((2 : Int) < 0 ∨ (chain_graph.node_count : Int) ≤ 2) →
      (⟨[some 0, some 5, some 6], [-1, 0, 0], [false, false, false]⟩ : SOSPEngine).get_distance 2
        = .ok ((⟨[some 0, some 5, some 6], [-1, 0, 0], [false, false, false]⟩ :
            SOSPEngine).distances.getD (2 : Int).toNat none)) :=
  get_distance_fails_iff chain_graph chain_graph (SOSPEngine.new chain_graph) chain_result
    ⟨[some 0, some 5, some 6], [-1, 0, 0], [false, false, false]⟩ 0 4 (by decide)
    [(chain_graph_edited, [0])] (by decide) 2

end PDC

/-! ## metis_utils.cpp: the status of the external routine -/

namespace PDC

theorem get_partition_natCast (g : DynamicGraph) (i : Nat) (h : i < g.partitions.length) :
    g.get_partition (i : Int) = .ok (g.partitions.getD i (-1)) := by
  unfold DynamicGraph.get_partition
  have h1 : ¬ ((i : Int) < 0 ∨ (g.partitions.length : Int) ≤ (i : Int)) := by omega
  rw [if_neg h1, Int.toNat_ofNat]

/-- The loop of `partition_graph` returns and writes `part[i]` as the tag of every
node `i`; the node data is untouched. -/
theorem MetisUtils.write_parts_spec (part : List Int) (g : DynamicGraph) :
    ∃ g1, DynamicGraph.fold_opt (MetisUtils.write_part part) (List.range g.node_count) g
        = some g1 ∧
      g1.node_data = g.node_data ∧
      ∀ i, i < g.node_count →
        i < g1.partitions.length ∧ g1.partitions.getD i (-1) = part.getD i 0 := by
  have h := DynamicGraph.fold_opt_range (MetisUtils.write_part part) g.node_count
    (fun k g1 => g1.node_data = g.node_data ∧
      ∀ i, i < k → i < g1.partitions.length ∧ g1.partitions.getD i (-1) = part.getD i 0)
    ?_ g ⟨rfl, fun i hi => absurd hi (Nat.not_lt_zero _)⟩
  · exact h
  · intro k g1 hk ⟨hd, hp⟩
    unfold MetisUtils.write_part
    rw [DynamicGraph.try_set_partition_eq]
    refine ⟨_, rfl, ?_, ?_⟩
    · dsimp only
      rw [DynamicGraph.grow_of_lt _ _ _ (by rw [hd]; exact hk), hd]
    · intro i hi
      dsimp only
      by_cases hik : i = k
      · subst hik
        refine ⟨by rw [List.length_set, DynamicGraph.grow_length]; omega, ?_⟩
        rw [getD_set_self _ _ _ _ (by rw [DynamicGraph.grow_length]; omega)]
      · obtain ⟨h1, h2⟩ := hp i (by omega)
        refine ⟨by rw [List.length_set, DynamicGraph.grow_length]; omega, ?_⟩
        rw [getD_set_other _ _ _ _ _ (fun h => hik h.symm), DynamicGraph.grow_getD, h2]

/-- C29, the claim at a concrete input: with an external routine that reports `METIS_ERROR`,
`partition_graph` on the triangle graph returns normally, and the partition tags,
`-1` for every node before the call, are `0` for every node after it. -/
theorem partition_graph_ignores_failure :
    (failing_metis 3 [0, 1, 2, 3] [1, 2, 0] 2 [0, 0, 0]).1 = METIS_ERROR ∧
    triangle_graph.get_partitions = [-1, -1, -1] ∧
    ∃ g1 b1, MetisUtils.partition_graph failing_metis triangle_graph {} 2 = some (g1, b1) ∧
      g1.get_partitions = [0, 0, 0] ∧ g1.get_partition 0 = .ok 0 := by
  refine ⟨by decide, by decide, _, _, rfl, by decide, rfl⟩

/-- C29 as amended: whatever status the external routine reports, `partition_graph`
returns normally; afterwards `node_count` and the node data are as before and
`get_partition(i)` is, for every node `i`, the entry `i` of the output buffer
`part` as the routine left it (the buffer holds `node_count` zeros before the
call). -/
theorem partition_graph_writes_buffer (metis : PartGraphKway) (g : DynamicGraph)
    (b : DynamicGraph.MetisBuffers) (nparts : Int) :
    ∃ g1, MetisUtils.partition_graph metis g b nparts = some (g1, g.get_metis_xadj b) ∧
      g1.node_count = g.node_count ∧ g1.node_data = g.node_data ∧
      ∀ i : Nat, i < g.node_count →
        g1.get_partition (i : Int) = .ok
          ((metis g.node_count (g.get_metis_xadj b).xadj (g.get_metis_xadj b).adjncy nparts
            (List.replicate g.node_count 0)).2.getD i 0) := by
  obtain ⟨g1, h1, hd, hp⟩ := MetisUtils.write_parts_spec
    (metis g.node_count (g.get_metis_xadj b).xadj (g.get_metis_xadj b).adjncy nparts
      (List.replicate g.node_count 0)).2 g
  refine ⟨g1, ?_, ?_, hd, ?_⟩
  · unfold MetisUtils.partition_graph
    dsimp only
    rw [h1]
  · unfold DynamicGraph.node_count
    rw [hd]
  · intro i hi
    obtain ⟨h2, h3⟩ := hp i hi
    rw [get_partition_natCast g1 i h2, h3]

theorem partition_graph_writes_buffer_witness :
    ∃ g1, MetisUtils.partition_graph round_robin_metis triangle_graph {} 2
        = some (g1, triangle_graph.get_metis_xadj {}) ∧
      g1.node_count = triangle_graph.node_count ∧ g1.node_data = triangle_graph.node_data ∧
      ∀ i : Nat, i < triangle_graph.node_count →
        g1.get_partition (i : Int) = .ok
          ((round_robin_metis triangle_graph.node_count (triangle_graph.get_metis_xadj {}).xadj
            (triangle_graph.get_metis_xadj {}).adjncy 2
            (List.replicate triangle_graph.node_count 0)).2.getD i 0) :=
  partition_graph_writes_buffer round_robin_metis triangle_graph {} 2

end PDC

/-! ## mpi_distributor.cpp: loops that establish a property per element -/

namespace PDC
namespace DynamicGraph

/-- A loop in which every iteration keeps the invariant `I`, extends the state
along the preorder `R` and establishes `Q x` for its element `x`, where `Q x`
survives every extension: the loop returns, and `Q x` holds at the end for every
element. -/
theorem fold_opt_establish {σ α : Type} (f : σ → α → Option σ) (I : σ → Prop)
    (R : σ → σ → Prop) (Q : α → σ → Prop)
    (hrefl : ∀ s, R s s) (htrans : ∀ a b c, R a b → R b c → R a c)
    (hmono : ∀ x s s1, R s s1 → Q x s → Q x s1) (l : List α)
    (step : ∀ s x, x ∈ l → I s → ∃ s1, f s x = some s1 ∧ I s1 ∧ R s s1 ∧ Q x s1)
    (s0 : σ) (h0 : I s0) :
    ∃ s1, fold_opt f l s0 = some s1 ∧ I s1 ∧ R s0 s1 ∧ ∀ x ∈ l, Q x s1 := by
  induction l generalizing s0 with
  | nil => exact ⟨s0, rfl, h0, hrefl s0, fun x hx => (by cases hx)⟩
  | cons x xs ih =>
    obtain ⟨s1, hs1, hi1, hr1, hq1⟩ := step s0 x (List.mem_cons_self _ _) h0
    obtain ⟨s2, hs2, hi2, hr2, hq2⟩ :=
      ih (fun s y hy hi => step s y (List.mem_cons_of_mem _ hy) hi) s1 hi1
    refine ⟨s2, by simp only [fold_opt, hs1]; exact hs2, hi2, htrans _ _ _ hr1 hr2, ?_⟩
    intro y hy
    rcases List.mem_cons.1 hy with h | h
    · subst h
      exact hmono _ _ _ hr2 hq1
    · exact hq2 y h

end DynamicGraph

namespace MPIDistributor

open DynamicGraph

theorem ext_refl (g : DynamicGraph) (np : List Int) (l : DynamicGraph) : Ext g np l l :=
  ⟨fun _ h => h, fun _ h => h, fun _ _ h => h⟩

theorem ext_trans (g : DynamicGraph) (np : List Int) (a b c : DynamicGraph)
    (h1 : Ext g np a b) (h2 : Ext g np b c) : Ext g np a c :=
  ⟨fun j h => h2.1 j (h1.1 j h), fun j h => h2.2.1 j (h1.2.1 j h),
    fun u e h => h2.2.2 u e (h1.2.2 u e h)⟩

theorem create_sized (n : Nat) : Sized n (create n) := by
  unfold create
  split
  · refine ⟨?_, ?_, ?_⟩ <;> simp only [resize_if_needed, grow_length] <;>
      simp only [List.length_nil] <;> omega
  · have : n = 0 := by omega
    subst this
    exact ⟨rfl, rfl, rfl⟩

/-- On a sized store `add_node` of a known id only overwrites the node data. -/
theorem sized_add_node (n : Nat) (l : DynamicGraph) (hs : Sized n l) (t : Nat) (ht : t < n)
    (d : NodeData) :
    l.try_add_node t d = some { l with node_data := l.node_data.set t d } := by
  obtain ⟨h1, h2, h3⟩ := hs
  rw [try_add_node_eq, grow_of_lt _ _ _ (by omega), grow_of_lt _ _ _ (by omega),
    grow_of_lt _ _ _ (by omega)]

/-- On a sized store `set_partition` of a known id only overwrites the tag. -/
theorem sized_set_partition (n : Nat) (l : DynamicGraph) (hs : Sized n l) (t : Nat)
    (ht : t < n) (p : Int) :
    l.try_set_partition t p = some { l with partitions := l.partitions.set t p } := by
  obtain ⟨h1, h2, h3⟩ := hs
  rw [try_set_partition_eq, grow_of_lt _ _ _ (by omega), grow_of_lt _ _ _ (by omega),
    grow_of_lt _ _ _ (by omega)]

/-- On a sized store `add_edge` between known ids only appends the edge. -/
theorem sized_add_edge (n : Nat) (l : DynamicGraph) (hs : Sized n l) (u : Nat) (hu : u < n)
    (e : Edge) (ht : e.target < n) (hw : e.weights ≠ []) :
    l.try_add_edge u e = some { l with adj := l.adj.set u (l.adj.getD u [] ++ [e]) } := by
  obtain ⟨h1, h2, h3⟩ := hs
  have hm : max u e.target < n := by omega
  rw [try_add_edge_eq _ _ _ hw, grow_of_lt _ _ _ (by omega), grow_of_lt _ _ _ (by omega),
    grow_of_lt _ _ _ (by omega)]

/-- One `add_edge` on the local subgraph. -/
theorem add_edge_step (g : DynamicGraph) (np : List Int) (n : Nat) (l : DynamicGraph)
    (hs : Sized n l) (u : Nat) (hu : u < n) (e : Edge) (ht : e.target < n)
    (hw : e.weights ≠ []) :
    ∃ l1, l.try_add_edge u e = some l1 ∧ Sized n l1 ∧ Ext g np l l1 ∧
      e ∈ l1.adj.getD u [] := by
  refine ⟨_, sized_add_edge n l hs u hu e ht hw, ?_, ?_, ?_⟩
  · obtain ⟨h1, h2, h3⟩ := hs
    exact ⟨h1, by simp only [List.length_set]; exact h2, h3⟩
  · refine ⟨fun j h => h, fun j h => h, ?_⟩
    intro v x hx
    dsimp only
    by_cases hv : u = v
    · subst hv
      rw [getD_set_self _ _ _ _ (by rw [hs.2.1]; exact hu)]
      exact List.mem_append_left _ hx
    · rw [getD_set_other _ _ _ _ _ hv]
      exact hx
  · dsimp only
    rw [getD_set_self _ _ _ _ (by rw [hs.2.1]; exact hu)]
    simp

/-- The calls `add_node(t, original data of t)` and `set_partition(t, p)` with the
id `p` the assignment gives `t`. -/
theorem add_tagged_node (g : DynamicGraph) (np : List Int) (n : Nat) (l : DynamicGraph)
    (hs : Sized n l) (t : Nat) (ht : t < n) (p : Int) (hp : np.getD t (-1) = p) :
    ∃ l1 l2, l.try_add_node t (g.node_data.getD t {}) = some l1 ∧
      l1.try_set_partition t p = some l2 ∧
      Sized n l2 ∧ Ext g np l l2 ∧ Tagged np t l2 ∧ Dat g t l2 := by
  have hs1 : Sized n { l with node_data := l.node_data.set t (g.node_data.getD t {}) } := by
    obtain ⟨h1, h2, h3⟩ := hs
    exact ⟨by simp only [List.length_set]; exact h1, h2, h3⟩
  refine ⟨_, _, sized_add_node n l hs t ht _, sized_set_partition n _ hs1 t ht p, ?_, ?_, ?_, ?_⟩
  · obtain ⟨h1, h2, h3⟩ := hs1
    exact ⟨h1, h2, by simp only [List.length_set]; exact h3⟩
  · refine ⟨?_, ?_, fun u e h => h⟩
    · intro j hj
      unfold Tagged at *
      dsimp only
      by_cases hjt : t = j
      · subst hjt
        rw [getD_set_self _ _ _ _ (by rw [hs.2.2]; exact ht), hp]
      · rw [getD_set_other _ _ _ _ _ hjt]
        exact hj
    · intro j hj
      unfold Dat at *
      dsimp only
      by_cases hjt : t = j
      · subst hjt
        rw [getD_set_self _ _ _ _ (by rw [hs.1]; exact ht)]
      · rw [getD_set_other _ _ _ _ _ hjt]
        exact hj
  · unfold Tagged
    dsimp only
    rw [getD_set_self _ _ _ _ (by rw [hs.2.2]; exact ht), hp]
  · unfold Dat
    dsimp only
    rw [getD_set_self _ _ _ _ (by rw [hs.1]; exact ht)]

/-- The statements that add a ghost node return and leave it tagged, with its data. -/
theorem add_ghost_step (g : DynamicGraph) (np : List Int) (n : Nat) (hg : g.node_count = n)
    (l : DynamicGraph) (hs : Sized n l) (t : Nat) (ht : t < n) :
    ∃ l1, add_ghost g np l t = some l1 ∧ Sized n l1 ∧ Ext g np l l1 ∧
      Tagged np t l1 ∧ Dat g t l1 := by
  obtain ⟨l1, l2, h1, h2, hrest⟩ := add_tagged_node g np n l hs t ht _ rfl
  refine ⟨l2, ?_, hrest⟩
  unfold add_ghost
  rw [get_node_data_natCast g t (by rw [← hg] at ht; exact ht)]
  simp only [h1, h2]

/-- The first loop of `gather_partition_info`, one index. -/
theorem gather_owned_step (g : DynamicGraph) (np : List Int) (rank : Int) (n : Nat)
    (hg : g.node_count = n) (l : DynamicGraph) (hs : Sized n l) (i : Nat) (hi : i < n) :
    ∃ l1, gather_owned g np rank l i = some l1 ∧ Sized n l1 ∧ Ext g np l l1 ∧
      (np.getD i (-1) = rank → Tagged np i l1 ∧ Dat g i l1) := by
  unfold gather_owned
  by_cases hown : np.getD i (-1) = rank
  · obtain ⟨l1, l2, h1, h2, h3, h4, h5⟩ := add_tagged_node g np n l hs i hi rank hown
    refine ⟨l2, ?_, h3, h4, fun _ => h5⟩
    rw [if_pos hown, get_node_data_natCast g i (by rw [← hg] at hi; exact hi)]
    simp only [h1, h2]
  · rw [if_neg hown]
    exact ⟨l, rfl, hs, ext_refl g np l, fun h => absurd h hown⟩

/-- The first loop of `gather_partition_info`: every owned node is in the local
subgraph with its tag and its data. -/
theorem gather_owned_loop (g : DynamicGraph) (np : List Int) (rank : Int) (n : Nat)
    (hg : g.node_count = n) (l : DynamicGraph) (hs : Sized n l) :
    ∃ l1, fold_opt (gather_owned g np rank) (List.range n) l = some l1 ∧ Sized n l1 ∧
      Ext g np l l1 ∧
      ∀ i, i < n → np.getD i (-1) = rank → Tagged np i l1 ∧ Dat g i l1 := by
  obtain ⟨l1, h1, h2, h3, h4⟩ := fold_opt_establish (gather_owned g np rank) (Sized n)
    (Ext g np) (fun i l1 => np.getD i (-1) = rank → Tagged np i l1 ∧ Dat g i l1)
    (ext_refl g np) (ext_trans g np)
    (fun i s s1 hr hq hown => ⟨hr.1 i (hq hown).1, hr.2.1 i (hq hown).2⟩)
    (List.range n)
    (fun s i hi hs => gather_owned_step g np rank n hg s hs i (List.mem_range.1 hi)) l hs
  exact ⟨l1, h1, h2, h3, fun i hi => h4 i (List.mem_range.2 hi)⟩

end MPIDistributor
end PDC

/-! ## mpi_distributor.cpp: the boundary-node index -/

namespace PDC
namespace MPIDistributor

open DynamicGraph

theorem bmem_nil (q : Int) (s : Nat) : ¬ BMem [] q s := by
  rintro ⟨nodes, h, _⟩
  cases h

theorem bmem_cons (k : Int) (nodes : List Nat) (rest : Boundary) (q : Int) (s : Nat) :
    BMem ((k, nodes) :: rest) q s ↔ (q = k ∧ s ∈ nodes) ∨ BMem rest q s := by
  unfold BMem
  constructor
  · rintro ⟨ns, h, hs⟩
    rcases List.mem_cons.1 h with h | h
    · simp only [Prod.mk.injEq] at h
      exact Or.inl ⟨h.1, h.2 ▸ hs⟩
    · exact Or.inr ⟨ns, h, hs⟩
  · rintro (⟨h1, h2⟩ | ⟨ns, h, hs⟩)
    · exact ⟨nodes, by rw [h1]; exact List.mem_cons_self _ _, h2⟩
    · exact ⟨ns, List.mem_cons_of_mem _ h, hs⟩

/-- What `boundary_nodes[p].push_back(t)` records: what was recorded, and `t` under `p`. -/
theorem bmem_push (p : Int) (t : Nat) (b : Boundary) (q : Int) (s : Nat) :
    BMem (boundary_push p t b) q s ↔ BMem b q s ∨ (q = p ∧ s = t) := by
  induction b with
  | nil =>
    simp only [boundary_push, bmem_cons, List.mem_singleton]
    constructor
    · rintro (h | h)
      · exact Or.inr h
      · exact absurd h (bmem_nil q s)
    · rintro (h | h)
      · exact absurd h (bmem_nil q s)
      · exact Or.inl h
  | cons entry rest ih =>
    obtain ⟨k, nodes⟩ := entry
    simp only [boundary_push]
    by_cases hk : k = p
    · rw [if_pos hk, bmem_cons, bmem_cons, List.mem_append, List.mem_singleton]
      subst hk
      tauto
    · rw [if_neg hk, bmem_cons, bmem_cons, ih]
      tauto

theorem push_keys (p : Int) (t : Nat) (b : Boundary) :
    (boundary_push p t b).map Prod.fst =
      if p ∈ b.map Prod.fst then b.map Prod.fst else b.map Prod.fst ++ [p] := by
  induction b with
  | nil => simp [boundary_push]
  | cons entry rest ih =>
    obtain ⟨k, nodes⟩ := entry
    simp only [boundary_push]
    by_cases hk : k = p
    · rw [if_pos hk]
      subst hk
      simp
    · rw [if_neg hk]
      simp only [List.map_cons, ih, List.mem_cons]
      have hk2 : ¬ p = k := fun h => hk h.symm
      by_cases hm : p ∈ rest.map Prod.fst
      · rw [if_pos hm, if_pos (Or.inr hm)]
      · rw [if_neg hm, if_neg (by tauto)]
        rfl

theorem push_keys_nodup (p : Int) (t : Nat) (b : Boundary) (h : (b.map Prod.fst).Nodup) :
    ((boundary_push p t b).map Prod.fst).Nodup := by
  rw [push_keys]
  split
  · exact h
  · rename_i hm
    rw [List.nodup_append]
    refine ⟨h, List.nodup_singleton p, ?_⟩
    intro a ha hb
    rw [List.mem_singleton] at hb
    subst hb
    exact hm ha

theorem push_lists_ne_nil (p : Int) (t : Nat) (b : Boundary)
    (h : ∀ entry ∈ b, entry.2 ≠ []) : ∀ entry ∈ boundary_push p t b, entry.2 ≠ [] := by
  induction b with
  | nil =>
    intro entry he
    simp only [boundary_push, List.mem_singleton] at he
    subst he
    simp
  | cons x rest ih =>
    obtain ⟨k, nodes⟩ := x
    intro entry he
    simp only [boundary_push] at he
    split at he
    · rcases List.mem_cons.1 he with h1 | h1
      · subst h1
        simp
      · exact h entry (List.mem_cons_of_mem _ h1)
    · rcases List.mem_cons.1 he with h1 | h1
      · subst h1
        exact h _ (List.mem_cons_self _ _)
      · exact ih (fun x hx => h x (List.mem_cons_of_mem _ hx)) entry h1

/-! ### `std::sort` and `std::unique` -/

theorem mem_unique_cons (t : Nat) : ∀ (l : List Nat) (x : Nat),
    t ∈ unique (x :: l) ↔ t = x ∨ t ∈ l := by
  intro l
  induction l with
  | nil => intro x; simp [unique]
  | cons y rest ih =>
    intro x
    simp only [unique]
    by_cases hxy : x = y
    · rw [if_pos hxy, ih y, List.mem_cons]
      subst hxy
      tauto
    · rw [if_neg hxy, List.mem_cons, ih y, List.mem_cons]

theorem mem_unique (t : Nat) (l : List Nat) : t ∈ unique l ↔ t ∈ l := by
  cases l with
  | nil => simp [unique]
  | cons x rest => rw [mem_unique_cons, List.mem_cons]

/-- On a sorted list `std::unique` leaves a strictly increasing list. -/
theorem unique_increasing : ∀ (l : List Nat) (x : Nat),
    (x :: l).Pairwise (fun a b => a ≤ b) → (unique (x :: l)).Pairwise (fun a b => a < b) := by
  intro l
  induction l with
  | nil => intro x _; simp [unique]
  | cons y rest ih =>
    intro x h
    rw [List.pairwise_cons] at h
    obtain ⟨hx, hrest⟩ := h
    have ih1 := ih y hrest
    simp only [unique]
    by_cases hxy : x = y
    · rw [if_pos hxy]
      exact ih1
    · rw [if_neg hxy, List.pairwise_cons]
      refine ⟨?_, ih1⟩
      intro z hz
      have hxy1 : x ≤ y := hx y (List.mem_cons_self _ _)
      rcases (mem_unique_cons z rest y).1 hz with h1 | h1
      · subst h1
        omega
      · have hyz : y ≤ z := (List.pairwise_cons.1 hrest).1 z h1
        omega

/-- The list `sort` then `unique` leaves: strictly increasing, with the elements of
the list it was given. -/
theorem sort_unique_list (l : List Nat) :
    (unique (l.insertionSort (fun x y => x ≤ y))).Pairwise (fun a b => a < b) ∧
    ∀ t, t ∈ unique (l.insertionSort (fun x y => x ≤ y)) ↔ t ∈ l := by
  have hperm := List.perm_insertionSort (fun x y : Nat => x ≤ y) l
  have hsorted := List.sorted_insertionSort (fun x y : Nat => x ≤ y) l
  refine ⟨?_, fun t => by rw [mem_unique, hperm.mem_iff]⟩
  cases hl : l.insertionSort (fun x y => x ≤ y) with
  | nil => simp [unique]
  | cons x rest =>
    rw [hl] at hsorted
    exact unique_increasing rest x hsorted

/-- The entries of the index after the sorting loop. -/
theorem mem_sort_unique (b : Boundary) (p : Int) (nodes : List Nat) :
    (p, nodes) ∈ sort_unique b ↔
      ∃ raw, (p, raw) ∈ b ∧ nodes = unique (raw.insertionSort (fun x y => x ≤ y)) := by
  unfold sort_unique
  rw [List.mem_map]
  constructor
  · rintro ⟨⟨k, raw⟩, hmem, heq⟩
    simp only [Prod.mk.injEq] at heq
    exact ⟨raw, heq.1 ▸ hmem, heq.2.symm⟩
  · rintro ⟨raw, hmem, heq⟩
    exact ⟨(p, raw), hmem, by rw [heq]⟩

theorem bmem_sort_unique (b : Boundary) (p : Int) (t : Nat) :
    BMem (sort_unique b) p t ↔ BMem b p t := by
  unfold BMem
  constructor
  · rintro ⟨nodes, hmem, ht⟩
    obtain ⟨raw, hraw, heq⟩ := (mem_sort_unique b p nodes).1 hmem
    exact ⟨raw, hraw, ((sort_unique_list raw).2 t).1 (heq ▸ ht)⟩
  · rintro ⟨raw, hraw, ht⟩
    exact ⟨_, (mem_sort_unique b p _).2 ⟨raw, hraw, rfl⟩, ((sort_unique_list raw).2 t).2 ht⟩

theorem sort_unique_keys (b : Boundary) :
    (sort_unique b).map Prod.fst = b.map Prod.fst := by
  unfold sort_unique
  rw [List.map_map]
  rfl

/-- With distinct keys, the list recorded under a key is determined by the key. -/
theorem boundary_entry_unique : ∀ (b : Boundary), (b.map Prod.fst).Nodup →
    ∀ (p : Int) (l1 l2 : List Nat), (p, l1) ∈ b → (p, l2) ∈ b → l1 = l2 := by
  intro b
  induction b with
  | nil => intro _ p l1 l2 h1; cases h1
  | cons entry rest ih =>
    obtain ⟨k, nodes⟩ := entry
    intro hnd p l1 l2 h1 h2
    simp only [List.map_cons, List.nodup_cons] at hnd
    have key : ∀ l, (p, l) ∈ rest → p ∈ rest.map Prod.fst :=
      fun l hl => List.mem_map.2 ⟨(p, l), hl, rfl⟩
    rcases List.mem_cons.1 h1 with e1 | e1 <;> rcases List.mem_cons.1 h2 with e2 | e2
    · simp only [Prod.mk.injEq] at e1 e2
      rw [e1.2, e2.2]
    · simp only [Prod.mk.injEq] at e1
      exact absurd (e1.1 ▸ key l2 e2) hnd.1
    · simp only [Prod.mk.injEq] at e2
      exact absurd (e2.1 ▸ key l1 e1) hnd.1
    · exact ih hnd.2 p l1 l2 e1 e2

end MPIDistributor
end PDC

/-! ## mpi_distributor.cpp: `gather_partition_info` and `exchange_boundary_data` -/

namespace PDC
namespace MPIDistributor

open DynamicGraph

/-- The loop body of `gather_partition_info` for one edge `e` of the owned node `u`. -/
theorem gather_edge_step (g : DynamicGraph) (np : List Int) (rank : Int) (my_nodes : List Nat)
    (n : Nat) (hg : g.node_count = n) (hmy : ∀ t ∈ my_nodes, np.getD t (-1) = rank)
    (u : Nat) (hu : u < n) (e : Edge) (ht : e.target < n) (hw : e.weights ≠ [])
    (l : DynamicGraph) (hs : Sized n l) (b : Boundary) :
    ∃ l1, gather_edge g np rank my_nodes u (l, b) e = some (l1,
        if np.getD e.target (-1) ≠ rank ∧ 0 ≤ np.getD e.target (-1) then
          boundary_push (np.getD e.target (-1)) e.target b else b) ∧
      Sized n l1 ∧ Ext g np l l1 ∧ e ∈ l1.adj.getD u [] ∧
      (np.getD e.target (-1) ≠ rank ∧ 0 ≤ np.getD e.target (-1) →
        Tagged np e.target l1 ∧ Dat g e.target l1) := by
  obtain ⟨l1, h1, hs1, hx1, hm1⟩ := add_edge_step g np n l hs u hu e ht hw
  unfold gather_edge
  simp only [h1]
  by_cases hc : np.getD e.target (-1) ≠ rank ∧ 0 ≤ np.getD e.target (-1)
  · rw [if_pos hc, if_pos hc]
    have hnot : e.target ∉ my_nodes := fun h => hc.1 (hmy _ h)
    rw [if_neg hnot]
    obtain ⟨l2, h2, hs2, hx2, ht2, hd2⟩ := add_ghost_step g np n hg l1 hs1 e.target ht
    simp only [h2]
    exact ⟨l2, rfl, hs2, ext_trans g np _ _ _ hx1 hx2, hx2.2.2 u e hm1, fun _ => ⟨ht2, hd2⟩⟩
  · rw [if_neg hc, if_neg hc]
    exact ⟨l1, rfl, hs1, hx1, hm1, fun h => absurd h hc⟩

/-- The second loop of `gather_partition_info`, for any property `BI` of the index
that every push of a crossing edge keeps: the loop returns, the local subgraph
keeps its size, every edge of an owned node is in it, and the far end of every
crossing edge is recorded in the index and is a tagged ghost node with its data. -/
theorem gather_edges_loop (g : DynamicGraph) (hwf : g.WellFormed) (np : List Int) (rank : Int)
    (n : Nat) (hg : g.node_count = n) (my_nodes : List Nat)
    (hmy : ∀ t ∈ my_nodes, t < n ∧ np.getD t (-1) = rank)
    (BI : Boundary → Prop)
    (hBI : ∀ b u e, u < n → np.getD u (-1) = rank → e ∈ g.adj.getD u [] →
      np.getD e.target (-1) ≠ rank ∧ 0 ≤ np.getD e.target (-1) → BI b →
      BI (boundary_push (np.getD e.target (-1)) e.target b))
    (l : DynamicGraph) (hs : Sized n l) (b : Boundary) (hb : BI b) :
    ∃ l1 b1, fold_opt (gather_node g np rank my_nodes) my_nodes (l, b) = some (l1, b1) ∧
      Sized n l1 ∧ BI b1 ∧ Ext g np l l1 ∧ (∀ p t, BMem b p t → BMem b1 p t) ∧
      ∀ u ∈ my_nodes, ∀ e ∈ g.adj.getD u [],
        e ∈ l1.adj.getD u [] ∧
        (np.getD e.target (-1) ≠ rank ∧ 0 ≤ np.getD e.target (-1) →
          BMem b1 (np.getD e.target (-1)) e.target ∧ Tagged np e.target l1 ∧
            Dat g e.target l1) := by
  let I : DynamicGraph × Boundary → Prop := fun st => Sized n st.1 ∧ BI st.2
  let R : DynamicGraph × Boundary → DynamicGraph × Boundary → Prop := fun st st1 =>
    Ext g np st.1 st1.1 ∧ ∀ p t, BMem st.2 p t → BMem st1.2 p t
  let Qe : Nat → Edge → DynamicGraph × Boundary → Prop := fun u e st =>
    e ∈ st.1.adj.getD u [] ∧
      (np.getD e.target (-1) ≠ rank ∧ 0 ≤ np.getD e.target (-1) →
        BMem st.2 (np.getD e.target (-1)) e.target ∧ Tagged np e.target st.1 ∧
          Dat g e.target st.1)
  have hrefl : ∀ s, R s s := fun s => ⟨ext_refl g np s.1, fun _ _ h => h⟩
  have htrans : ∀ a b c, R a b → R b c → R a c := fun a b c h1 h2 =>
    ⟨ext_trans g np _ _ _ h1.1 h2.1, fun p t h => h2.2 p t (h1.2 p t h)⟩
  have hmono : ∀ u e s s1, R s s1 → Qe u e s → Qe u e s1 := by
    intro u e s s1 hr hq
    exact ⟨hr.1.2.2 u e hq.1, fun hc =>
      ⟨hr.2 _ _ (hq.2 hc).1, hr.1.1 _ (hq.2 hc).2.1, hr.1.2.1 _ (hq.2 hc).2.2⟩⟩
  have hmy2 : ∀ t ∈ my_nodes, np.getD t (-1) = rank := fun t h => (hmy t h).2
  have inner : ∀ u, u ∈ my_nodes → ∀ st, I st →
      ∃ st1, gather_node g np rank my_nodes st u = some st1 ∧ I st1 ∧ R st st1 ∧
        ∀ e ∈ g.adj.getD u [], Qe u e st1 := by
    intro u hu st hi
    obtain ⟨hun, hur⟩ := hmy u hu
    unfold gather_node
    rw [get_edges_natCast g u (by rw [hwf.1, hg]; exact hun)]
    dsimp only
    refine fold_opt_establish (gather_edge g np rank my_nodes u) I R (Qe u) hrefl htrans
      (hmono u) (g.adj.getD u []) ?_ st hi
    intro s e he hsI
    obtain ⟨hte, hwe⟩ := hwf.edge_ok u e he
    rw [hg] at hte
    obtain ⟨l1, h1, hs1, hx1, hm1, hc1⟩ :=
      gather_edge_step g np rank my_nodes n hg hmy2 u hun e hte hwe s.1 hsI.1 s.2
    refine ⟨_, h1, ⟨hs1, ?_⟩, ⟨hx1, ?_⟩, ⟨hm1, ?_⟩⟩
    · dsimp only
      split
      · rename_i hc
        exact hBI s.2 u e hun hur he hc hsI.2
      · exact hsI.2
    · intro p t hpt
      dsimp only
      split
      · exact (bmem_push _ _ _ _ _).2 (Or.inl hpt)
      · exact hpt
    · intro hc
      dsimp only
      rw [if_pos hc]
      exact ⟨(bmem_push _ _ _ _ _).2 (Or.inr ⟨rfl, rfl⟩), hc1 hc⟩
  obtain ⟨st1, h1, hi1, hr1, hq1⟩ := fold_opt_establish (gather_node g np rank my_nodes) I R
    (fun u st => ∀ e ∈ g.adj.getD u [], Qe u e st) hrefl htrans
    (fun u s s1 hr hq e he => hmono u e s s1 hr (hq e he)) my_nodes
    (fun s u hu hsI => inner u hu s hsI) (l, b) ⟨hs, hb⟩
  exact ⟨st1.1, st1.2, h1, hi1.1, hi1.2, hr1.1, hr1.2, hq1⟩

theorem mem_my_nodes (np : List Int) (rank : Int) (t : Nat) :
    t ∈ (List.range np.length).filter (fun i => decide (np.getD i (-1) = rank)) ↔
      t < np.length ∧ np.getD t (-1) = rank := by
  rw [List.mem_filter, List.mem_range, decide_eq_true_eq]

/-- The method `gather_partition_info()`, for any property `BI` of the index that
every push of a crossing edge keeps. -/
theorem gather_spec (g : DynamicGraph) (hwf : g.WellFormed) (np : List Int) (rank : Int)
    (n : Nat) (hg : g.node_count = n) (hnp : np.length = n)
    (BI : Boundary → Prop)
    (hBI : ∀ b u e, u < n → np.getD u (-1) = rank → e ∈ g.adj.getD u [] →
      np.getD e.target (-1) ≠ rank ∧ 0 ≤ np.getD e.target (-1) → BI b →
      BI (boundary_push (np.getD e.target (-1)) e.target b))
    (d : MPIDistributor) (hd : d.node_partitions = np) (hb : BI d.boundary_nodes) :
    ∃ l b, gather_partition_info rank g d = some ⟨l, np, sort_unique b⟩ ∧
      Sized n l ∧ BI b ∧ (∀ p t, BMem d.boundary_nodes p t → BMem b p t) ∧
      ∀ u, u < n → np.getD u (-1) = rank →
        Tagged np u l ∧ Dat g u l ∧
        ∀ e ∈ g.adj.getD u [],
          e ∈ l.adj.getD u [] ∧
          (np.getD e.target (-1) ≠ rank ∧ 0 ≤ np.getD e.target (-1) →
            BMem b (np.getD e.target (-1)) e.target ∧ Tagged np e.target l ∧
              Dat g e.target l) := by
  obtain ⟨l1, h1, hs1, _, ho1⟩ :=
    gather_owned_loop g np rank n hg (create g.node_count) (hg ▸ create_sized g.node_count)
  obtain ⟨l2, b2, h2, hs2, hb2, hx2, hm2, hq2⟩ := gather_edges_loop g hwf np rank n hg
    ((List.range np.length).filter (fun i => decide (np.getD i (-1) = rank)))
    (fun t ht => by rw [mem_my_nodes, hnp] at ht; exact ht) BI hBI l1 hs1 d.boundary_nodes hb
  refine ⟨l2, b2, ?_, hs2, hb2, hm2, ?_⟩
  · rw [hnp] at h2
    unfold gather_partition_info
    simp only [hd, hnp, h1, h2]
  · intro u hu hur
    refine ⟨hx2.1 u (ho1 u hu hur).1, hx2.2.1 u (ho1 u hu hur).2, ?_⟩
    exact hq2 u (by rw [mem_my_nodes, hnp]; exact ⟨hu, hur⟩)

/-- The method `exchange_boundary_data()`: it returns, and the local subgraph keeps
its size, its edges and the tags and data that were right. -/
theorem exchange_spec (g : DynamicGraph) (hwf : g.WellFormed) (np : List Int) (rank : Int)
    (n : Nat) (hg : g.node_count = n) (l : DynamicGraph) (b : Boundary)
    (hs : Sized n l) (hb : BoundaryOk n b) :
    ∃ l1, exchange_boundary_data rank g ⟨l, np, b⟩ = some ⟨l1, np, b⟩ ∧
      Sized n l1 ∧ Ext g np l l1 := by
  have hadj : g.adj.length = n := by rw [hwf.1, hg]
  have edges_loop : ∀ (u : Nat), u < n → ∀ (f : DynamicGraph → Edge → Option DynamicGraph),
      (∀ s e, e ∈ g.adj.getD u [] → Sized n s →
        f s e = s.try_add_edge u e ∨ f s e = some s) →
      ∀ s, Sized n s → ∃ s1, fold_opt f (g.adj.getD u []) s = some s1 ∧ Sized n s1 ∧
        Ext g np s s1 := by
    intro u hu f hf s hsz
    have step : ∀ s2 e, e ∈ g.adj.getD u [] → Sized n s2 →
        ∃ s3, f s2 e = some s3 ∧ Sized n s3 ∧ Ext g np s2 s3 ∧ True := by
      intro s2 e he hs2
      obtain ⟨hte, hwe⟩ := hwf.edge_ok u e he
      rw [hg] at hte
      rcases hf s2 e he hs2 with h | h
      · obtain ⟨s3, h3, hs3, hx3, _⟩ := add_edge_step g np n s2 hs2 u hu e hte hwe
        exact ⟨s3, by rw [h, h3], hs3, hx3, trivial⟩
      · exact ⟨s2, h, hs2, ext_refl g np s2, trivial⟩
    obtain ⟨s1, h1, h2, h3, _⟩ := fold_opt_establish f (Sized n) (Ext g np)
      (fun _ _ => True) (ext_refl g np) (ext_trans g np) (fun _ _ _ _ _ => trivial)
      (g.adj.getD u []) step s hsz
    exact ⟨s1, h1, h2, h3⟩
  unfold exchange_boundary_data
  dsimp only
  by_cases hsmall : g.node_count ≤ 100
  · rw [if_pos hsmall, hg]
    obtain ⟨l1, h1, hs1, hx1, _⟩ := fold_opt_establish (exchange_node g np) (Sized n)
      (Ext g np) (fun _ _ => True) (ext_refl g np) (ext_trans g np)
      (fun _ _ _ _ _ => trivial) (List.range n) (by
        intro s i hi hsz
        have hin : i < n := List.mem_range.1 hi
        unfold exchange_node
        split
        · obtain ⟨s1, h1, h2, h3, _⟩ := add_ghost_step g np n hg s hsz i hin
          exact ⟨s1, h1, h2, h3, trivial⟩
        · exact ⟨s, rfl, hsz, ext_refl g np s, trivial⟩) l hs
    obtain ⟨l2, h2, hs2, hx2, _⟩ := fold_opt_establish (exchange_edges_of g) (Sized n)
      (Ext g np) (fun _ _ => True) (ext_refl g np) (ext_trans g np)
      (fun _ _ _ _ _ => trivial) (List.range n) (by
        intro s i hi hsz
        have hin : i < n := List.mem_range.1 hi
        unfold exchange_edges_of
        rw [get_edges_natCast g i (by rw [hadj]; exact hin)]
        dsimp only
        obtain ⟨s1, h1, h2, h3⟩ := edges_loop i hin (fun l1 edge => l1.try_add_edge i edge)
          (fun _ _ _ _ => Or.inl rfl) s hsz
        exact ⟨s1, h1, h2, h3, trivial⟩) l1 hs1
    simp only [h1, h2]
    exact ⟨l2, rfl, hs2, ext_trans g np _ _ _ hx1 hx2⟩
  · rw [if_neg hsmall]
    obtain ⟨l1, h1, hs1, hx1, _⟩ := fold_opt_establish (exchange_boundary_list g np rank)
      (Sized n) (Ext g np) (fun _ _ => True) (ext_refl g np) (ext_trans g np)
      (fun _ _ _ _ _ => trivial) b (by
        intro s entry hentry hsz
        unfold exchange_boundary_list
        obtain ⟨s1, h1, h2, h3, _⟩ := fold_opt_establish (exchange_boundary_node g np rank)
          (Sized n) (Ext g np) (fun _ _ => True) (ext_refl g np) (ext_trans g np)
          (fun _ _ _ _ _ => trivial) entry.2 (by
            intro s2 node hnode hsz2
            have hnn : node < n := hb entry.1 node ⟨entry.2, hentry, hnode⟩
            unfold exchange_boundary_node
            rw [get_edges_natCast g node (by rw [hadj]; exact hnn)]
            dsimp only
            obtain ⟨s3, h3, h4, h5⟩ := edges_loop node hnn
              (exchange_boundary_edge np rank node) (by
                intro s4 e he hs4
                obtain ⟨hte, _⟩ := hwf.edge_ok node e he
                rw [hg] at hte
                unfold exchange_boundary_edge
                rw [get_node_data_natCast s4 e.target (by rw [hs4.1]; exact hte)]
                dsimp only
                split
                · exact Or.inl rfl
                · exact Or.inr rfl) s2 hsz2
            exact ⟨s3, h3, h4, h5, trivial⟩) s hsz
        exact ⟨s1, h1, h2, h3, trivial⟩) l hs
    simp only [h1]
    exact ⟨l1, rfl, hs1, hx1⟩

end MPIDistributor
end PDC

/-! ## mpi_distributor.cpp: `partition_and_distribute` -/

namespace PDC
namespace MPIDistributor

open DynamicGraph

/-- The split returns when the divisor is not zero, and gives node `i` the id
`min(i / nodes_per_rank, min(size - 1, 3))`. -/
theorem reference_split_spec (n size : Nat) (hn : n = 0 ∨ min size 4 ≤ n)
    (np : List Int) (hnp : np.length = n) :
    ∃ np1, reference_split n size np = some np1 ∧ np1.length = n ∧
      ∀ i, i < n → np1.getD i (-1) = (split_value n size i : Int) := by
  unfold reference_split
  dsimp only
  refine fold_opt_range (split_node (n / max 1 (min size 4)) size) n
    (fun k np1 => np1.length = n ∧ ∀ i, i < k → np1.getD i (-1) = (split_value n size i : Int))
    ?_ np ⟨hnp, fun i hi => absurd hi (Nat.not_lt_zero _)⟩
  intro k np1 hk ⟨hl, hv⟩
  have hpos : 0 < n / max 1 (min size 4) := by
    apply Nat.div_pos
    · rcases hn with h | h
      · omega
      · omega
    · omega
  unfold split_node
  rw [if_neg (by omega)]
  refine ⟨_, rfl, by rw [List.length_set]; exact hl, ?_⟩
  intro i hi
  by_cases hik : i = k
  · subst hik
    rw [getD_set_self _ _ _ _ (by rw [hl]; exact hk)]
    rfl
  · rw [getD_set_other _ _ _ _ _ (fun h => hik h.symm)]
    exact hv i (by omega)

/-- The split divides by zero when the graph has nodes, but fewer than
`min(size, 4)`. -/
theorem reference_split_none (n size : Nat) (h0 : 0 < n) (hlt : n < min size 4)
    (np : List Int) : reference_split n size np = none := by
  unfold reference_split
  dsimp only
  have hz : n / max 1 (min size 4) = 0 := Nat.div_eq_of_lt (by omega)
  obtain ⟨m, rfl⟩ : ∃ m, n = m + 1 := ⟨n - 1, by omega⟩
  rw [hz, List.range_succ_eq_map]
  rfl

theorem distribute_none (rank size : Nat) (g : DynamicGraph) (d : MPIDistributor)
    (h0 : 0 < g.node_count) (hlt : g.node_count < min size 4) :
    partition_and_distribute rank size g d = none := by
  unfold partition_and_distribute
  rw [reference_split_none _ _ h0 hlt]

theorem split_value_lt (n size i : Nat) (hsize : 1 ≤ size) :
    split_value n size i < min size 4 := by
  unfold split_value
  have := Nat.min_le_right (i / (n / max 1 (min size 4))) (min (size - 1) 3)
  omega

theorem split_value_mono (n size i j : Nat) (hij : i ≤ j) :
    split_value n size i ≤ split_value n size j := by
  unfold split_value
  have h := Nat.div_le_div_right (c := n / max 1 (min size 4)) hij
  omega

/-- The loop that writes the assignment back onto the original graph returns and
changes the tags only. -/
theorem write_back_spec (np : List Int) (g : DynamicGraph)
    (hadj : g.adj.length = g.node_count) (hnp : np.length = g.node_count) :
    ∃ g1, fold_opt (write_back np) (List.range np.length) g = some g1 ∧
      g1.adj = g.adj ∧ g1.node_data = g.node_data ∧
      ∀ i, i < g.node_count →
        i < g1.partitions.length ∧ g1.partitions.getD i (-1) = np.getD i (-1) := by
  rw [hnp]
  have h := fold_opt_range (write_back np) g.node_count
    (fun k g1 => g1.adj = g.adj ∧ g1.node_data = g.node_data ∧
      ∀ i, i < k → i < g1.partitions.length ∧ g1.partitions.getD i (-1) = np.getD i (-1))
    ?_ g ⟨rfl, rfl, fun i hi => absurd hi (Nat.not_lt_zero _)⟩
  · exact h
  · intro k g1 hk ⟨ha, hd, hp⟩
    unfold write_back
    rw [try_set_partition_eq]
    refine ⟨_, rfl, ?_, ?_, ?_⟩
    · dsimp only
      rw [grow_of_lt _ _ _ (by rw [ha, hadj]; exact hk), ha]
    · dsimp only
      rw [grow_of_lt _ _ _ (by rw [hd]; exact hk), hd]
    · intro i hi
      dsimp only
      by_cases hik : i = k
      · subst hik
        refine ⟨by rw [List.length_set, grow_length]; omega, ?_⟩
        rw [getD_set_self _ _ _ _ (by rw [grow_length]; omega)]
      · obtain ⟨h1, h2⟩ := hp i (by omega)
        refine ⟨by rw [List.length_set, grow_length]; omega, ?_⟩
        rw [getD_set_other _ _ _ _ _ (fun h => hik h.symm), grow_getD, h2]

theorem boundary_ok_sort_unique (n : Nat) (b : Boundary) (h : BoundaryOk n b) :
    BoundaryOk n (sort_unique b) :=
  fun p t hpt => h p t ((bmem_sort_unique b p t).1 hpt)

/-- What `partition_and_distribute` leaves, for any property `BI` of the index that
every push of a crossing edge keeps and that bounds the recorded nodes. -/
theorem distribute_spec (rank size : Nat) (g : DynamicGraph) (hwf : g.WellFormed)
    (hn : g.node_count = 0 ∨ min size 4 ≤ g.node_count)
    (d : MPIDistributor) (hlen : d.node_partitions.length = g.node_count)
    (BI : List Int → Boundary → Prop)
    (hBI : ∀ np b u e, np.length = g.node_count → u < g.node_count →
      np.getD u (-1) = (rank : Int) → e ∈ g.adj.getD u [] →
      np.getD e.target (-1) ≠ (rank : Int) ∧ 0 ≤ np.getD e.target (-1) → BI np b →
      BI np (boundary_push (np.getD e.target (-1)) e.target b))
    (hb : ∀ np, BI np d.boundary_nodes)
    (hok : ∀ np b, np.length = g.node_count → BI np b → BoundaryOk g.node_count b) :
    ∃ g1 l np b, partition_and_distribute rank size g d = some (g1, ⟨l, np, sort_unique b⟩) ∧
      np.length = g.node_count ∧
      (∀ i, i < g.node_count → np.getD i (-1) = (split_value g.node_count size i : Int)) ∧
      g1.adj = g.adj ∧ g1.node_data = g.node_data ∧
      (∀ i, i < g.node_count →
        i < g1.partitions.length ∧ g1.partitions.getD i (-1) = np.getD i (-1)) ∧
      Sized g.node_count l ∧ BI np b ∧ (∀ p t, BMem d.boundary_nodes p t → BMem b p t) ∧
      ∀ u, u < g.node_count → np.getD u (-1) = (rank : Int) →
        Tagged np u l ∧ Dat g u l ∧
        ∀ e ∈ g.adj.getD u [],
          e ∈ l.adj.getD u [] ∧
          (np.getD e.target (-1) ≠ (rank : Int) →
            BMem b (np.getD e.target (-1)) e.target ∧ Tagged np e.target l ∧
              Dat g e.target l) := by
  obtain ⟨np, hsplit, hnpl, hnpv⟩ :=
    reference_split_spec g.node_count size hn d.node_partitions hlen
  obtain ⟨g1, hwb, hadj1, hdata1, htags1⟩ := write_back_spec np g hwf.1 hnpl
  have hcount1 : g1.node_count = g.node_count := by
    unfold node_count
    rw [hdata1]
  have hwf1 : g1.WellFormed := by
    unfold WellFormed
    rw [hadj1, hcount1]
    exact hwf
  obtain ⟨l1, b1, hgather, hs1, hb1, hm1, hq1⟩ := gather_spec g1 hwf1 np (rank : Int)
    g.node_count hcount1 hnpl (BI np)
    (fun b u e hu hur he hc hbi => hBI np b u e hnpl hu hur (hadj1 ▸ he) hc hbi)
    { d with node_partitions := np } rfl (hb np)
  obtain ⟨l2, hexch, hs2, hx2⟩ := exchange_spec g1 hwf1 np (rank : Int) g.node_count hcount1
    l1 (sort_unique b1) hs1 (boundary_ok_sort_unique _ _ (hok np b1 hnpl hb1))
  have hdat : ∀ j l, Dat g1 j l ↔ Dat g j l := by
    intro j l
    unfold Dat
    rw [hdata1]
  refine ⟨g1, l2, np, b1, ?_, hnpl, hnpv, hadj1, hdata1, htags1, hs2, hb1, hm1, ?_⟩
  · unfold partition_and_distribute
    simp only [hsplit, hwb, hgather, hexch]
  · intro u hu hur
    obtain ⟨ht, hd, he⟩ := hq1 u hu hur
    refine ⟨hx2.1 u ht, (hdat u l2).1 (hx2.2.1 u hd), ?_⟩
    intro e hmem
    obtain ⟨h1, h2⟩ := he e (hadj1 ▸ hmem)
    refine ⟨hx2.2.2 u e h1, ?_⟩
    intro hne
    have htn : e.target < g.node_count := (hwf.edge_ok u e hmem).1
    have hnonneg : 0 ≤ np.getD e.target (-1) := by
      rw [hnpv e.target htn]
      omega
    obtain ⟨h3, h4, h5⟩ := h2 ⟨hne, hnonneg⟩
    exact ⟨h3, hx2.1 _ h4, (hdat _ l2).1 (hx2.2.1 _ h5)⟩

end MPIDistributor
end PDC

namespace PDC
namespace MPIDistributor

open DynamicGraph

/-- The call returns only if the split does not divide by zero. -/
theorem distribute_returns (rank size : Nat) (g : DynamicGraph) (d : MPIDistributor)
    (r : DynamicGraph × MPIDistributor) (h : partition_and_distribute rank size g d = some r) :
    g.node_count = 0 ∨ min size 4 ≤ g.node_count := by
  by_contra hcon
  rw [distribute_none rank size g d (by omega) (by omega)] at h
  cases h

/-- What every returned state of `partition_and_distribute` satisfies. -/
theorem distribute_result (rank size : Nat) (g : DynamicGraph) (hwf : g.WellFormed)
    (d : MPIDistributor) (hlen : d.node_partitions.length = g.node_count)
    (BI : List Int → Boundary → Prop)
    (hBI : ∀ np b u e, np.length = g.node_count → u < g.node_count →
      np.getD u (-1) = (rank : Int) → e ∈ g.adj.getD u [] →
      np.getD e.target (-1) ≠ (rank : Int) ∧ 0 ≤ np.getD e.target (-1) → BI np b →
      BI np (boundary_push (np.getD e.target (-1)) e.target b))
    (hb : ∀ np, BI np d.boundary_nodes)
    (hok : ∀ np b, np.length = g.node_count → BI np b → BoundaryOk g.node_count b)
    (g1 : DynamicGraph) (d1 : MPIDistributor)
    (h : partition_and_distribute rank size g d = some (g1, d1)) :
    ∃ b, d1.boundary_nodes = sort_unique b ∧
      d1.node_partitions.length = g.node_count ∧
      (∀ i, i < g.node_count →
        d1.node_partitions.getD i (-1) = (split_value g.node_count size i : Int)) ∧
      g1.adj = g.adj ∧ g1.node_data = g.node_data ∧
      (∀ i, i < g.node_count →
        i < g1.partitions.length ∧
          g1.partitions.getD i (-1) = d1.node_partitions.getD i (-1)) ∧
      Sized g.node_count d1.local_partition ∧ BI d1.node_partitions b ∧
      (∀ p t, BMem d.boundary_nodes p t → BMem b p t) ∧
      ∀ u, u < g.node_count → d1.node_partitions.getD u (-1) = (rank : Int) →
        Tagged d1.node_partitions u d1.local_partition ∧ Dat g u d1.local_partition ∧
        ∀ e ∈ g.adj.getD u [],
          e ∈ d1.local_partition.adj.getD u [] ∧
          (d1.node_partitions.getD e.target (-1) ≠ (rank : Int) →
            BMem b (d1.node_partitions.getD e.target (-1)) e.target ∧
              Tagged d1.node_partitions e.target d1.local_partition ∧
              Dat g e.target d1.local_partition) := by
  have hn := distribute_returns rank size g d _ h
  obtain ⟨g2, l, np, b, heq, hrest⟩ := distribute_spec rank size g hwf hn d hlen BI hBI hb hok
  rw [h] at heq
  simp only [Option.some.injEq, Prod.mk.injEq] at heq
  obtain ⟨hg, hd⟩ := heq
  subst hg
  subst hd
  exact ⟨b, rfl, hrest⟩

theorem boundary_ok_push (n : Nat) (p : Int) (t : Nat) (ht : t < n) (b : Boundary)
    (h : BoundaryOk n b) : BoundaryOk n (boundary_push p t b) := by
  intro q s hqs
  rcases (bmem_push p t b q s).1 hqs with h1 | h1
  · exact h q s h1
  · rw [h1.2]
    exact ht

theorem sized_get_partition (n : Nat) (l : DynamicGraph) (hs : Sized n l) (np : List Int)
    (t : Nat) (ht : t < n) (htag : Tagged np t l) :
    l.get_partition (t : Int) = .ok (np.getD t (-1)) := by
  rw [get_partition_natCast l t (by rw [hs.2.2]; exact ht), htag]

end MPIDistributor

open MPIDistributor

/-- C23: on a graph with one node and two ranks the split gives node `0` no
partition id: `nodes_per_rank` is `1 / 2 = 0`, the first iteration divides by it,
and `partition_and_distribute` does not return, on rank 0 or on rank 1. -/
theorem split_assigns_no_id :
    (DynamicGraph.create 1).node_count = 1 ∧ 1 / max 1 (min 2 4) = 0 ∧
    reference_split 1 2 (MPIDistributor.new (DynamicGraph.create 1)).node_partitions = none ∧
    partition_and_distribute 0 2 (DynamicGraph.create 1)
      (MPIDistributor.new (DynamicGraph.create 1)) = none ∧
    partition_and_distribute 1 2 (DynamicGraph.create 1)
      (MPIDistributor.new (DynamicGraph.create 1)) = none := by
  decide

/-- C24: on every rank, for every graph that has nodes but fewer than
`min(size, 4)`, the divisor `nodes_per_rank` is zero and `partition_and_distribute`
does not return: the first iteration of the split divides by zero. -/
theorem partition_and_distribute_divides_by_zero (rank size : Nat) (g : DynamicGraph)
    (d : MPIDistributor) (h0 : 0 < g.node_count) (hlt : g.node_count < min size 4) :
    g.node_count / max 1 (min size 4) = 0 ∧
    partition_and_distribute rank size g d = none :=
  ⟨Nat.div_eq_of_lt (by omega), distribute_none rank size g d h0 hlt⟩

theorem partition_and_distribute_divides_by_zero_witness :
    0 < triangle_graph.node_count ∧ triangle_graph.node_count < min 4 4 ∧
    triangle_graph.node_count / max 1 (min 4 4) = 0 ∧
    partition_and_distribute 2 4 triangle_graph (MPIDistributor.new triangle_graph) = none :=
  ⟨by decide, by decide,
    partition_and_distribute_divides_by_zero 2 4 triangle_graph
      (MPIDistributor.new triangle_graph) (by decide) (by decide)⟩

/-- C25: for a graph satisfying the class invariant and a distributor constructed
on it (its index records only nodes of the graph), `partition_and_distribute`
returns on rank `rank` of `size` whenever the graph is empty or has at least
`min(size, 4)` nodes; and whenever it returns, every node `i` assigned to `rank`
has the tag `rank` in the local subgraph, has there the node data it has in the
original graph, and every edge that leaves `i` in the original graph is in the
local `get_edges(i)`. -/
theorem local_subgraph_keeps_owned (rank size : Nat) (g : DynamicGraph) (hwf : g.WellFormed)
    (d : MPIDistributor) (hlen : d.node_partitions.length = g.node_count)
    (hbok : BoundaryOk g.node_count d.boundary_nodes) :
    ((g.node_count = 0 ∨ min size 4 ≤ g.node_count) →
      ∃ r, partition_and_distribute rank size g d = some r) ∧
    ∀ g1 d1, partition_and_distribute rank size g d = some (g1, d1) →
      ∀ i : Nat, i < g.node_count → d1.node_partitions.getD i (-1) = (rank : Int) →
        g1.get_partition (i : Int) = .ok (rank : Int) ∧
        d1.get_local_partition.get_partition (i : Int) = .ok (rank : Int) ∧
        d1.get_local_partition.get_node_data (i : Int) = g.get_node_data (i : Int) ∧
        g1.get_node_data (i : Int) = g.get_node_data (i : Int) ∧
        g1.get_edges (i : Int) = g.get_edges (i : Int) ∧
        ∃ edges, d1.get_local_partition.get_edges (i : Int) = .ok edges ∧
          ∀ e ∈ g.adj.getD i [], e ∈ edges := by
  have hBI : ∀ (np : List Int) (b : Boundary) (u : Nat) (e : Edge),
      np.length = g.node_count → u < g.node_count →
      np.getD u (-1) = (rank : Int) → e ∈ g.adj.getD u [] →
      np.getD e.target (-1) ≠ (rank : Int) ∧ 0 ≤ np.getD e.target (-1) →
      BoundaryOk g.node_count b →
      BoundaryOk g.node_count (boundary_push (np.getD e.target (-1)) e.target b) :=
    fun np b u e _ _ _ he _ hb => boundary_ok_push _ _ _ (hwf.edge_ok u e he).1 b hb
  refine ⟨?_, ?_⟩
  · intro hn
    obtain ⟨g1, l, np, b, heq, _⟩ := distribute_spec rank size g hwf hn d hlen
      (fun _ b => BoundaryOk g.node_count b) hBI (fun _ => hbok) (fun _ _ _ h => h)
    exact ⟨_, heq⟩
  · intro g1 d1 h i hi hown
    obtain ⟨b, _, _, _, hadj, hdata, htags, hs, _, _, howned⟩ :=
      distribute_result rank size g hwf d hlen
        (fun _ b => BoundaryOk g.node_count b) hBI (fun _ => hbok) (fun _ _ _ h => h) g1 d1 h
    obtain ⟨htag, hdat, hedges⟩ := howned i hi hown
    have hi1 : i < g1.node_data.length := by rw [hdata]; exact hi
    refine ⟨?_, ?_, ?_, ?_, ?_, ?_⟩
    · rw [get_partition_natCast g1 i (htags i hi).1, (htags i hi).2, hown]
    · rw [get_local_partition, sized_get_partition _ _ hs _ i hi htag, hown]
    · rw [get_local_partition, DynamicGraph.get_node_data_natCast _ i (by rw [hs.1]; exact hi), hdat,
        DynamicGraph.get_node_data_natCast g i hi]
    · rw [DynamicGraph.get_node_data_natCast g1 i hi1, hdata, DynamicGraph.get_node_data_natCast g i hi]
    · rw [get_edges_natCast g1 i (by rw [hadj, hwf.1]; exact hi), hadj,
        get_edges_natCast g i (by rw [hwf.1]; exact hi)]
    · refine ⟨_, get_edges_natCast _ i (by rw [get_local_partition, hs.2.1]; exact hi), ?_⟩
      intro e he
      exact (hedges e he).1

theorem local_subgraph_keeps_owned_witness :
    ((cycle_graph.node_count = 0 ∨ min 2 4 ≤ cycle_graph.node_count) →
      ∃ r, partition_and_distribute 1 2 cycle_graph (MPIDistributor.new cycle_graph) = some r) ∧
    ∀ g1 d1, partition_and_distribute 1 2 cycle_graph (MPIDistributor.new cycle_graph)
        = some (g1, d1) →
      ∀ i : Nat, i < cycle_graph.node_count →
        d1.node_partitions.getD i (-1) = ((1 : Nat) : Int) →
        g1.get_partition (i : Int) = .ok ((1 : Nat) : Int) ∧
        d1.get_local_partition.get_partition (i : Int) = .ok ((1 : Nat) : Int) ∧
        d1.get_local_partition.get_node_data (i : Int) = cycle_graph.get_node_data (i : Int) ∧
        g1.get_node_data (i : Int) = cycle_graph.get_node_data (i : Int) ∧
        g1.get_edges (i : Int) = cycle_graph.get_edges (i : Int) ∧
        ∃ edges, d1.get_local_partition.get_edges (i : Int) = .ok edges ∧
          ∀ e ∈ cycle_graph.adj.getD i [], e ∈ edges :=
  local_subgraph_keeps_owned 1 2 cycle_graph (by decide) (MPIDistributor.new cycle_graph)
    (by decide) (fun p t h => absurd h (bmem_nil p t))

end PDC

namespace PDC

open MPIDistributor

/-- C26: for a graph satisfying the class invariant and a distributor constructed
on it whose index is still empty, `partition_and_distribute` returns on rank `rank`
of `size` whenever the graph is empty or has at least `min(size, 4)` nodes; and
whenever it returns, the keys of `get_boundary_nodes()` are distinct, no key is
`rank`, no list is empty, every list is strictly increasing, the list under `p`
holds exactly the nodes `t` assigned to `p` that are the target of an edge leaving
a node assigned to `rank`, every such target in another partition is recorded, and
it is tagged with its partition in the local subgraph. -/
theorem boundary_nodes_are_crossing_targets (rank size : Nat) (g : DynamicGraph)
    (hwf : g.WellFormed) (d : MPIDistributor)
    (hlen : d.node_partitions.length = g.node_count) (hfresh : d.boundary_nodes = []) :
    ((g.node_count = 0 ∨ min size 4 ≤ g.node_count) →
      ∃ r, partition_and_distribute rank size g d = some r) ∧
    ∀ g1 d1, partition_and_distribute rank size g d = some (g1, d1) →
      (d1.get_boundary_nodes.map Prod.fst).Nodup ∧
      (∀ p nodes, (p, nodes) ∈ d1.get_boundary_nodes →
        p ≠ (rank : Int) ∧ nodes ≠ [] ∧ nodes.Pairwise (fun a b => a < b) ∧
        ∀ t, t ∈ nodes ↔
          (d1.node_partitions.getD t (-1) = p ∧
            ∃ u, u < g.node_count ∧ d1.node_partitions.getD u (-1) = (rank : Int) ∧
              ∃ e ∈ g.adj.getD u [], e.target = t)) ∧
      ∀ u e, u < g.node_count → d1.node_partitions.getD u (-1) = (rank : Int) →
        e ∈ g.adj.getD u [] → d1.node_partitions.getD e.target (-1) ≠ (rank : Int) →
        (∃ nodes, (d1.node_partitions.getD e.target (-1), nodes) ∈ d1.get_boundary_nodes ∧
          e.target ∈ nodes) ∧
        d1.get_local_partition.get_partition (e.target : Int)
          = .ok (d1.node_partitions.getD e.target (-1)) := by
  let BI : List Int → Boundary → Prop := fun np b =>
    (∀ p t, BMem b p t → Crossing g np (rank : Int) p t) ∧
    (b.map Prod.fst).Nodup ∧ ∀ entry ∈ b, entry.2 ≠ []
  have hBI : ∀ (np : List Int) (b : Boundary) (u : Nat) (e : Edge),
      np.length = g.node_count → u < g.node_count →
      np.getD u (-1) = (rank : Int) → e ∈ g.adj.getD u [] →
      np.getD e.target (-1) ≠ (rank : Int) ∧ 0 ≤ np.getD e.target (-1) →
      BI np b → BI np (boundary_push (np.getD e.target (-1)) e.target b) := by
    intro np b u e hnpl hu hur he hc ⟨h1, h2, h3⟩
    refine ⟨?_, push_keys_nodup _ _ _ h2, push_lists_ne_nil _ _ _ h3⟩
    intro p t hpt
    rcases (bmem_push _ _ _ _ _).1 hpt with h | h
    · exact h1 p t h
    · obtain ⟨hp, ht⟩ := h
      subst hp
      subst ht
      exact ⟨rfl, hc.1, hc.2, u, by rw [hnpl]; exact hu, hur, e, he, rfl⟩
  have hb : ∀ np, BI np d.boundary_nodes := by
    intro np
    rw [hfresh]
    exact ⟨fun p t h => absurd h (bmem_nil p t), List.nodup_nil, fun e he => (by cases he)⟩
  have hok : ∀ np b, np.length = g.node_count → BI np b → BoundaryOk g.node_count b := by
    intro np b _ ⟨h1, _, _⟩ p t hpt
    obtain ⟨_, _, _, u, _, _, e, he, hte⟩ := h1 p t hpt
    rw [← hte]
    exact (hwf.edge_ok u e he).1
  refine ⟨?_, ?_⟩
  · intro hn
    obtain ⟨g1, l, np, b, heq, _⟩ := distribute_spec rank size g hwf hn d hlen BI hBI hb hok
    exact ⟨_, heq⟩
  · intro g1 d1 h
    obtain ⟨b, hbn, hnpl, hnpv, _, _, _, hs, ⟨hsound, hnodup, hne⟩, _, howned⟩ :=
      distribute_result rank size g hwf d hlen BI hBI hb hok g1 d1 h
    have hcomplete : ∀ u e, u < g.node_count → d1.node_partitions.getD u (-1) = (rank : Int) →
        e ∈ g.adj.getD u [] → d1.node_partitions.getD e.target (-1) ≠ (rank : Int) →
        BMem b (d1.node_partitions.getD e.target (-1)) e.target ∧
          Tagged d1.node_partitions e.target d1.local_partition :=
      fun u e hu hur he hne =>
        ⟨((howned u hu hur).2.2 e he).2 hne |>.1, ((howned u hu hur).2.2 e he).2 hne |>.2.1⟩
    rw [get_boundary_nodes, hbn]
    refine ⟨by rw [sort_unique_keys]; exact hnodup, ?_, ?_⟩
    · intro p nodes hmem
      obtain ⟨raw, hraw, heq⟩ := (mem_sort_unique b p nodes).1 hmem
      obtain ⟨hinc, hmemiff⟩ := sort_unique_list raw
      have hrawne : raw ≠ [] := hne (p, raw) hraw
      obtain ⟨t0, ht0⟩ := List.exists_mem_of_ne_nil raw hrawne
      have hc0 := hsound p t0 ⟨raw, hraw, ht0⟩
      refine ⟨hc0.2.1, ?_, heq ▸ hinc, ?_⟩
      · intro hnil
        rw [heq] at hnil
        have := (hmemiff t0).2 ht0
        rw [hnil] at this
        cases this
      · intro t
        rw [heq, hmemiff t]
        constructor
        · intro ht
          obtain ⟨h1, _, _, u, hu, hur, e, he, hte⟩ := hsound p t ⟨raw, hraw, ht⟩
          exact ⟨h1, u, by rw [← hnpl]; exact hu, hur, e, he, hte⟩
        · rintro ⟨h1, u, hu, hur, e, he, hte⟩
          have hne2 : d1.node_partitions.getD e.target (-1) ≠ (rank : Int) := by
            rw [hte, h1]
            exact hc0.2.1
          obtain ⟨raw2, hraw2, ht2⟩ := (hcomplete u e hu hur he hne2).1
          rw [hte, h1] at hraw2
          rw [hte] at ht2
          rw [boundary_entry_unique b hnodup p raw raw2 hraw hraw2]
          exact ht2
    · intro u e hu hur he hne2
      obtain ⟨hbm, htag⟩ := hcomplete u e hu hur he hne2
      refine ⟨?_, ?_⟩
      · obtain ⟨nodes, hn1, hn2⟩ := (bmem_sort_unique b _ _).2 hbm
        exact ⟨nodes, hn1, hn2⟩
      · rw [get_local_partition]
        exact sized_get_partition _ _ hs _ _ (hwf.edge_ok u e he).1 htag

theorem boundary_nodes_are_crossing_targets_witness :
    ((cycle_graph.node_count = 0 ∨ min 2 4 ≤ cycle_graph.node_count) →
      ∃ r, partition_and_distribute 0 2 cycle_graph (MPIDistributor.new cycle_graph) = some r) ∧
    ∀ g1 d1, partition_and_distribute 0 2 cycle_graph (MPIDistributor.new cycle_graph)
        = some (g1, d1) →
      (d1.get_boundary_nodes.map Prod.fst).Nodup ∧
      (∀ p nodes, (p, nodes) ∈ d1.get_boundary_nodes →
        p ≠ ((0 : Nat) : Int) ∧ nodes ≠ [] ∧ nodes.Pairwise (fun a b => a < b) ∧
        ∀ t, t ∈ nodes ↔
          (d1.node_partitions.getD t (-1) = p ∧
            ∃ u, u < cycle_graph.node_count ∧
              d1.node_partitions.getD u (-1) = ((0 : Nat) : Int) ∧
              ∃ e ∈ cycle_graph.adj.getD u [], e.target = t)) ∧
      ∀ u e, u < cycle_graph.node_count →
        d1.node_partitions.getD u (-1) = ((0 : Nat) : Int) →
        e ∈ cycle_graph.adj.getD u [] →
        d1.node_partitions.getD e.target (-1) ≠ ((0 : Nat) : Int) →
        (∃ nodes, (d1.node_partitions.getD e.target (-1), nodes) ∈ d1.get_boundary_nodes ∧
          e.target ∈ nodes) ∧
        d1.get_local_partition.get_partition (e.target : Int)
          = .ok (d1.node_partitions.getD e.target (-1)) :=
  boundary_nodes_are_crossing_targets 0 2 cycle_graph (by decide)
    (MPIDistributor.new cycle_graph) (by decide) rfl

/-- C27: on the 4-node graph of the driver with two ranks (at most 100 nodes), the
local subgraph of rank 0 has the 4 nodes of the graph, but `get_edges(0)` holds
each of the two edges of node 0 twice and `edge_count` is 12, not 8: the
small-graph branch adds every edge of the original graph although
`gather_partition_info` has already added the edges of the owned nodes. -/
theorem local_subgraph_duplicates_edges :
    cycle_graph.node_count ≤ 100 ∧ cycle_graph.node_count = 4 ∧
    cycle_graph.adj.getD 0 [] = [⟨1, [4]⟩, ⟨2, [2]⟩] ∧ cycle_graph.edge_count = 8 ∧
    (partition_and_distribute 0 2 cycle_graph (MPIDistributor.new cycle_graph)).map
        (fun r => (r.2.get_local_partition.node_count,
          r.2.get_local_partition.adj.getD 0 [], r.2.get_local_partition.edge_count))
      = some (4, [⟨1, [4]⟩, ⟨2, [2]⟩, ⟨1, [4]⟩, ⟨2, [2]⟩], 12) := by
  decide

/-- C28: for a graph satisfying the class invariant and a distributor constructed
on it, `partition_and_distribute` returns on rank `rank` of `size` whenever the
graph is empty or has at least `min(size, 4)` nodes; and whenever it returns, the
`node_count()` of the local subgraph is the `node_count()` of the original graph,
before and after the call: `0` for the empty graph, positive otherwise. -/
theorem local_node_count_is_original (rank size : Nat) (g : DynamicGraph) (hwf : g.WellFormed)
    (d : MPIDistributor) (hlen : d.node_partitions.length = g.node_count)
    (hbok : BoundaryOk g.node_count d.boundary_nodes) :
    ((g.node_count = 0 ∨ min size 4 ≤ g.node_count) →
      ∃ r, partition_and_distribute rank size g d = some r) ∧
    ∀ g1 d1, partition_and_distribute rank size g d = some (g1, d1) →
      d1.get_local_partition.node_count = g.node_count ∧
      g1.node_count = g.node_count ∧
      (g.node_count = 0 → d1.get_local_partition.node_count = 0) ∧
      (0 < g.node_count → 0 < d1.get_local_partition.node_count) := by
  have hBI : ∀ (np : List Int) (b : Boundary) (u : Nat) (e : Edge),
      np.length = g.node_count → u < g.node_count →
      np.getD u (-1) = (rank : Int) → e ∈ g.adj.getD u [] →
      np.getD e.target (-1) ≠ (rank : Int) ∧ 0 ≤ np.getD e.target (-1) →
      BoundaryOk g.node_count b →
      BoundaryOk g.node_count (boundary_push (np.getD e.target (-1)) e.target b) :=
    fun np b u e _ _ _ he _ hb => boundary_ok_push _ _ _ (hwf.edge_ok u e he).1 b hb
  refine ⟨?_, ?_⟩
  · intro hn
    obtain ⟨g1, l, np, b, heq, _⟩ := distribute_spec rank size g hwf hn d hlen
      (fun _ b => BoundaryOk g.node_count b) hBI (fun _ => hbok) (fun _ _ _ h => h)
    exact ⟨_, heq⟩
  · intro g1 d1 h
    obtain ⟨b, _, _, _, _, hdata, _, hs, _, _, _⟩ :=
      distribute_result rank size g hwf d hlen
        (fun _ b => BoundaryOk g.node_count b) hBI (fun _ => hbok) (fun _ _ _ h => h) g1 d1 h
    have h1 : d1.get_local_partition.node_count = g.node_count := hs.1
    have h2 : g1.node_count = g.node_count := by
      unfold DynamicGraph.node_count
      rw [hdata]
    exact ⟨h1, h2, fun h0 => by rw [h1, h0], fun h0 => by rw [h1]; exact h0⟩

theorem local_node_count_is_original_witness :
    ((triangle_graph.node_count = 0 ∨ min 3 4 ≤ triangle_graph.node_count) →
      ∃ r, partition_and_distribute 2 3 triangle_graph (MPIDistributor.new triangle_graph)
        = some r) ∧
    ∀ g1 d1, partition_and_distribute 2 3 triangle_graph (MPIDistributor.new triangle_graph)
        = some (g1, d1) →
      d1.get_local_partition.node_count = triangle_graph.node_count ∧
      g1.node_count = triangle_graph.node_count ∧
      (triangle_graph.node_count = 0 → d1.get_local_partition.node_count = 0) ∧
      (0 < triangle_graph.node_count → 0 < d1.get_local_partition.node_count) :=
  local_node_count_is_original 2 3 triangle_graph (by decide)
    (MPIDistributor.new triangle_graph) (by decide) (fun p t h => absurd h (bmem_nil p t))

/-- X3: for a graph satisfying the class invariant, at least one rank and a
distributor constructed on the graph, whenever `partition_and_distribute` returns
(it does when the graph is empty or has at least `min(size, 4)` nodes) the
assignment has one entry per node, every entry is in `[0, min(size, 4))`, the
entries are non-decreasing in the node id, and `get_partition(i)` of the original
graph is entry `i`. -/
theorem split_is_contiguous (rank size : Nat) (g : DynamicGraph) (hwf : g.WellFormed)
    (hsize : 1 ≤ size) (d : MPIDistributor) (hlen : d.node_partitions.length = g.node_count)
    (hbok : BoundaryOk g.node_count d.boundary_nodes) :
    ((g.node_count = 0 ∨ min size 4 ≤ g.node_count) →
      ∃ r, partition_and_distribute rank size g d = some r) ∧
    ∀ g1 d1, partition_and_distribute rank size g d = some (g1, d1) →
      d1.node_partitions.length = g.node_count ∧
      (∀ i : Nat, i < g.node_count →
        0 ≤ d1.node_partitions.getD i (-1) ∧
        d1.node_partitions.getD i (-1) < ((min size 4 : Nat) : Int) ∧
        g1.get_partition (i : Int) = .ok (d1.node_partitions.getD i (-1))) ∧
      ∀ i j : Nat, i ≤ j → j < g.node_count →
        d1.node_partitions.getD i (-1) ≤ d1.node_partitions.getD j (-1) := by
  have hBI : ∀ (np : List Int) (b : Boundary) (u : Nat) (e : Edge),
      np.length = g.node_count → u < g.node_count →
      np.getD u (-1) = (rank : Int) → e ∈ g.adj.getD u [] →
      np.getD e.target (-1) ≠ (rank : Int) ∧ 0 ≤ np.getD e.target (-1) →
      BoundaryOk g.node_count b →
      BoundaryOk g.node_count (boundary_push (np.getD e.target (-1)) e.target b) :=
    fun np b u e _ _ _ he _ hb => boundary_ok_push _ _ _ (hwf.edge_ok u e he).1 b hb
  refine ⟨?_, ?_⟩
  · intro hn
    obtain ⟨g1, l, np, b, heq, _⟩ := distribute_spec rank size g hwf hn d hlen
      (fun _ b => BoundaryOk g.node_count b) hBI (fun _ => hbok) (fun _ _ _ h => h)
    exact ⟨_, heq⟩
  · intro g1 d1 h
    obtain ⟨b, _, hnpl, hnpv, _, _, htags, _, _, _, _⟩ :=
      distribute_result rank size g hwf d hlen
        (fun _ b => BoundaryOk g.node_count b) hBI (fun _ => hbok) (fun _ _ _ h => h) g1 d1 h
    refine ⟨hnpl, ?_, ?_⟩
    · intro i hi
      have hlt := split_value_lt g.node_count size i hsize
      refine ⟨by rw [hnpv i hi]; omega, by rw [hnpv i hi]; omega, ?_⟩
      rw [get_partition_natCast g1 i (htags i hi).1, (htags i hi).2]
    · intro i j hij hj
      have hmono := split_value_mono g.node_count size i j hij
      rw [hnpv i (by omega), hnpv j hj]
      omega

theorem split_is_contiguous_witness :
    ((cycle_graph.node_count = 0 ∨ min 3 4 ≤ cycle_graph.node_count) →
      ∃ r, partition_and_distribute 1 3 cycle_graph (MPIDistributor.new cycle_graph) = some r) ∧
    ∀ g1 d1, partition_and_distribute 1 3 cycle_graph (MPIDistributor.new cycle_graph)
        = some (g1, d1) →
      d1.node_partitions.length = cycle_graph.node_count ∧
      (∀ i : Nat, i < cycle_graph.node_count →
        0 ≤ d1.node_partitions.getD i (-1) ∧
        d1.node_partitions.getD i (-1) < ((min 3 4 : Nat) : Int) ∧
        g1.get_partition (i : Int) = .ok (d1.node_partitions.getD i (-1))) ∧
      ∀ i j : Nat, i ≤ j → j < cycle_graph.node_count →
        d1.node_partitions.getD i (-1) ≤ d1.node_partitions.getD j (-1) :=
  split_is_contiguous 1 3 cycle_graph (by decide) (by decide)
    (MPIDistributor.new cycle_graph) (by decide) (fun p t h => absurd h (bmem_nil p t))

end PDC

/-! ## mpi_distributor.cpp: the edge lists of the local subgraph, small graphs -/

namespace PDC
namespace MPIDistributor

open DynamicGraph

theorem add_ghost_adj (g : DynamicGraph) (np : List Int) (n : Nat) (hg : g.node_count = n)
    (l : DynamicGraph) (hs : Sized n l) (t : Nat) (ht : t < n) :
    ∃ l1, add_ghost g np l t = some l1 ∧ Sized n l1 ∧ l1.adj = l.adj := by
  have hs1 : Sized n { l with node_data := l.node_data.set t (g.node_data.getD t {}) } := by
    obtain ⟨h1, h2, h3⟩ := hs
    exact ⟨by simp only [List.length_set]; exact h1, h2, h3⟩
  unfold add_ghost
  rw [get_node_data_natCast g t (by rw [← hg] at ht; exact ht)]
  simp only [sized_add_node n l hs t ht, sized_set_partition n _ hs1 t ht]
  refine ⟨_, rfl, ?_, rfl⟩
  obtain ⟨h1, h2, h3⟩ := hs1
  exact ⟨h1, h2, by simp only [List.length_set]; exact h3⟩

theorem gather_owned_adj (g : DynamicGraph) (np : List Int) (rank : Int) (n : Nat)
    (hg : g.node_count = n) (l : DynamicGraph) (hs : Sized n l) (i : Nat) (hi : i < n) :
    ∃ l1, gather_owned g np rank l i = some l1 ∧ Sized n l1 ∧ l1.adj = l.adj := by
  have hs1 : Sized n { l with node_data := l.node_data.set i (g.node_data.getD i {}) } := by
    obtain ⟨h1, h2, h3⟩ := hs
    exact ⟨by simp only [List.length_set]; exact h1, h2, h3⟩
  unfold gather_owned
  split
  · rw [get_node_data_natCast g i (by rw [← hg] at hi; exact hi)]
    simp only [sized_add_node n l hs i hi, sized_set_partition n _ hs1 i hi]
    refine ⟨_, rfl, ?_, rfl⟩
    obtain ⟨h1, h2, h3⟩ := hs1
    exact ⟨h1, h2, by simp only [List.length_set]; exact h3⟩
  · exact ⟨l, rfl, hs, rfl⟩

theorem sized_set_adj (n : Nat) (l : DynamicGraph) (hs : Sized n l) (u : Nat)
    (es : List Edge) : Sized n { l with adj := l.adj.set u es } := by
  obtain ⟨h1, h2, h3⟩ := hs
  exact ⟨h1, by simp only [List.length_set]; exact h2, h3⟩

theorem gather_edge_adj (g : DynamicGraph) (np : List Int) (rank : Int) (my_nodes : List Nat)
    (n : Nat) (hg : g.node_count = n) (u : Nat) (hu : u < n) (e : Edge) (ht : e.target < n)
    (hw : e.weights ≠ []) (st : DynamicGraph × Boundary) (hs : Sized n st.1) :
    ∃ st1, gather_edge g np rank my_nodes u st e = some st1 ∧ Sized n st1.1 ∧
      st1.1.adj = st.1.adj.set u (st.1.adj.getD u [] ++ [e]) := by
  have hs1 := sized_set_adj n st.1 hs u (st.1.adj.getD u [] ++ [e])
  unfold gather_edge
  simp only [sized_add_edge n st.1 hs u hu e ht hw]
  split
  · split
    · exact ⟨_, rfl, hs1, rfl⟩
    · obtain ⟨l2, h2, hs2, ha2⟩ := add_ghost_adj g np n hg _ hs1 e.target ht
      simp only [h2]
      exact ⟨_, rfl, hs2, ha2⟩
  · exact ⟨_, rfl, hs1, rfl⟩

/-- A loop over the edges `es` that appends each of them to the edge list of `u`
appends `es` to it and leaves the other edge lists alone. -/
theorem edge_append_loop {σ : Type} (proj : σ → DynamicGraph) (n u : Nat) (hu : u < n)
    (f : σ → Edge → Option σ) (es : List Edge)
    (hstep : ∀ s e, e ∈ es → Sized n (proj s) →
      ∃ s1, f s e = some s1 ∧ Sized n (proj s1) ∧
        (proj s1).adj = (proj s).adj.set u ((proj s).adj.getD u [] ++ [e]))
    (s0 : σ) (hs0 : Sized n (proj s0)) :
    ∃ s1, fold_opt f es s0 = some s1 ∧ Sized n (proj s1) ∧
      ∀ v, (proj s1).adj.getD v [] =
        if v = u then (proj s0).adj.getD u [] ++ es else (proj s0).adj.getD v [] := by
  obtain ⟨s1, h1, h2, h3⟩ := fold_opt_invariant f es
    (fun pre s => Sized n (proj s) ∧ ∀ v, (proj s).adj.getD v [] =
      if v = u then (proj s0).adj.getD u [] ++ pre else (proj s0).adj.getD v [])
    (by
      intro pre x suf s hl ⟨hsz, hadj⟩
      obtain ⟨s1, h1, h2, h3⟩ := hstep s x (by rw [hl]; simp) hsz
      refine ⟨s1, h1, h2, ?_⟩
      intro v
      rw [h3]
      by_cases hv : v = u
      · subst hv
        rw [if_pos rfl, getD_set_self _ _ _ _ (by rw [hsz.2.1]; exact hu), hadj, if_pos rfl,
          List.append_assoc]
      · rw [if_neg hv, getD_set_other _ _ _ _ _ (fun h => hv h.symm), hadj, if_neg hv])
    s0 ⟨hs0, fun v => by
      by_cases hv : v = u
      · subst hv
        rw [if_pos rfl, List.append_nil]
      · rw [if_neg hv]⟩
  exact ⟨s1, h1, h2, h3⟩

/-- A loop over distinct nodes `us` that appends, for each of them, its edges in
`g` to its edge list. -/
theorem node_append_loop {σ : Type} (proj : σ → DynamicGraph) (g : DynamicGraph) (n : Nat)
    (f : σ → Nat → Option σ) (us : List Nat) (hnd : us.Nodup)
    (hstep : ∀ s u, u ∈ us → Sized n (proj s) →
      ∃ s1, f s u = some s1 ∧ Sized n (proj s1) ∧
        ∀ v, (proj s1).adj.getD v [] =
          if v = u then (proj s).adj.getD u [] ++ g.adj.getD u []
          else (proj s).adj.getD v [])
    (s0 : σ) (hs0 : Sized n (proj s0)) :
    ∃ s1, fold_opt f us s0 = some s1 ∧ Sized n (proj s1) ∧
      ∀ v, (proj s1).adj.getD v [] =
        (proj s0).adj.getD v [] ++ if v ∈ us then g.adj.getD v [] else [] := by
  obtain ⟨s1, h1, h2, h3⟩ := fold_opt_invariant f us
    (fun pre s => Sized n (proj s) ∧ ∀ v, (proj s).adj.getD v [] =
      (proj s0).adj.getD v [] ++ if v ∈ pre then g.adj.getD v [] else [])
    (by
      intro pre x suf s hl ⟨hsz, hadj⟩
      obtain ⟨s1, h1, h2, h3⟩ := hstep s x (by rw [hl]; simp) hsz
      refine ⟨s1, h1, h2, ?_⟩
      have hx : x ∉ pre := by
        rw [hl] at hnd
        have := (List.nodup_append.1 hnd).2.2
        intro hmem
        exact this hmem (List.mem_cons_self _ _)
      intro v
      rw [h3]
      by_cases hv : v = x
      · subst hv
        rw [if_pos rfl, hadj, if_neg hx, if_pos (by simp), List.append_nil]
      · rw [if_neg hv, hadj]
        by_cases hvp : v ∈ pre
        · rw [if_pos hvp, if_pos (by simp [hvp])]
        · rw [if_neg hvp, if_neg (by simp [hvp, hv])])
    s0 ⟨hs0, fun v => by simp⟩
  exact ⟨s1, h1, h2, h3⟩

/-- A loop whose iterations leave the edge lists alone. -/
theorem adj_unchanged_loop (n : Nat) (f : DynamicGraph → Nat → Option DynamicGraph)
    (us : List Nat)
    (hstep : ∀ s u, u ∈ us → Sized n s → ∃ s1, f s u = some s1 ∧ Sized n s1 ∧ s1.adj = s.adj)
    (s0 : DynamicGraph) (hs0 : Sized n s0) :
    ∃ s1, fold_opt f us s0 = some s1 ∧ Sized n s1 ∧ s1.adj = s0.adj := by
  obtain ⟨s1, h1, h2, h3, _⟩ := fold_opt_establish f (Sized n) (fun s s1 => s1.adj = s.adj)
    (fun _ _ => True) (fun _ => rfl) (fun _ _ _ h1 h2 => Eq.trans h2 h1)
    (fun _ _ _ _ _ => trivial) us
    (fun s u hu hs => by
      obtain ⟨s1, h1, h2, h3⟩ := hstep s u hu hs
      exact ⟨s1, h1, h2, h3, trivial⟩) s0 hs0
  exact ⟨s1, h1, h2, h3⟩

/-- The edge lists `gather_partition_info()` builds: the edges of the owned nodes. -/
theorem gather_adj (g : DynamicGraph) (hwf : g.WellFormed) (np : List Int) (rank : Int)
    (n : Nat) (hg : g.node_count = n) (hnp : np.length = n)
    (d : MPIDistributor) (hd : d.node_partitions = np) :
    ∃ d1, gather_partition_info rank g d = some d1 ∧ d1.node_partitions = np ∧
      Sized n d1.local_partition ∧
      ∀ v, d1.local_partition.adj.getD v [] =
        if v < n ∧ np.getD v (-1) = rank then g.adj.getD v [] else [] := by
  obtain ⟨l1, h1, hs1, ha1⟩ := adj_unchanged_loop n (gather_owned g np rank) (List.range n)
    (fun s u hu hs => gather_owned_adj g np rank n hg s hs u (List.mem_range.1 hu))
    (create g.node_count) (hg ▸ create_sized g.node_count)
  obtain ⟨st2, h2, hs2, ha2⟩ := node_append_loop (fun st : DynamicGraph × Boundary => st.1) g n
    (gather_node g np rank ((List.range n).filter (fun i => decide (np.getD i (-1) = rank))))
    ((List.range n).filter (fun i => decide (np.getD i (-1) = rank)))
    ((List.nodup_range n).filter _)
    (by
      intro s u hu hs
      have hun : u < n := List.mem_range.1 (List.mem_filter.1 hu).1
      unfold gather_node
      rw [get_edges_natCast g u (by rw [hwf.1, hg]; exact hun)]
      dsimp only
      refine edge_append_loop (fun st : DynamicGraph × Boundary => st.1) n u hun _ _ ?_ s hs
      intro s2 e he hs2
      obtain ⟨hte, hwe⟩ := hwf.edge_ok u e he
      rw [hg] at hte
      exact gather_edge_adj g np rank _ n hg u hun e hte hwe s2 hs2)
    (l1, d.boundary_nodes) hs1
  refine ⟨⟨st2.1, np, sort_unique st2.2⟩, ?_, rfl, hs2, ?_⟩
  · unfold gather_partition_info
    simp only [hd, hnp, h1, h2]
  · intro v
    try dsimp only at ha2 ⊢
    rw [ha2 v, ha1, create_adj, List.nil_append]
    by_cases hc : v < n ∧ np.getD v (-1) = rank
    · rw [if_pos hc, if_pos]
      rw [List.mem_filter, List.mem_range, decide_eq_true_eq]
      exact hc
    · rw [if_neg hc, if_neg]
      rw [List.mem_filter, List.mem_range, decide_eq_true_eq]
      exact hc

/-- The small-graph branch of `exchange_boundary_data()` appends, for every node,
its edges in the original graph to its edge list in the local subgraph. -/
theorem exchange_adj (g : DynamicGraph) (hwf : g.WellFormed) (np : List Int) (rank : Int)
    (n : Nat) (hg : g.node_count = n) (hsmall : g.node_count ≤ 100)
    (l : DynamicGraph) (b : Boundary) (hs : Sized n l) :
    ∃ l1, exchange_boundary_data rank g ⟨l, np, b⟩ = some ⟨l1, np, b⟩ ∧ Sized n l1 ∧
      ∀ v, l1.adj.getD v [] = l.adj.getD v [] ++ if v < n then g.adj.getD v [] else [] := by
  obtain ⟨l1, h1, hs1, ha1⟩ := adj_unchanged_loop n (exchange_node g np) (List.range n)
    (by
      intro s u hu hsz
      unfold exchange_node
      split
      · exact add_ghost_adj g np n hg s hsz u (List.mem_range.1 hu)
      · exact ⟨s, rfl, hsz, rfl⟩) l hs
  obtain ⟨l2, h2, hs2, ha2⟩ := node_append_loop (fun s : DynamicGraph => s) g n
    (exchange_edges_of g) (List.range n) (List.nodup_range n)
    (by
      intro s u hu hsz
      have hun : u < n := List.mem_range.1 hu
      unfold exchange_edges_of
      rw [get_edges_natCast g u (by rw [hwf.1, hg]; exact hun)]
      dsimp only
      refine edge_append_loop (fun s : DynamicGraph => s) n u hun _ _ ?_ s hsz
      intro s2 e he hs2
      obtain ⟨hte, hwe⟩ := hwf.edge_ok u e he
      rw [hg] at hte
      exact ⟨_, sized_add_edge n s2 hs2 u hun e hte hwe, sized_set_adj n s2 hs2 u _, rfl⟩)
    l1 hs1
  refine ⟨l2, ?_, hs2, ?_⟩
  · unfold exchange_boundary_data
    dsimp only
    rw [if_pos hsmall, hg]
    simp only [h1, h2]
  · intro v
    rw [ha2 v, ha1]
    simp only [List.mem_range]

/-- The edge lists of the local subgraph after `partition_and_distribute`, for a
graph of at most 100 nodes. -/
theorem distribute_adj (rank size : Nat) (g : DynamicGraph) (hwf : g.WellFormed)
    (hsmall : g.node_count ≤ 100)
    (hn : g.node_count = 0 ∨ min size 4 ≤ g.node_count)
    (d : MPIDistributor) (hlen : d.node_partitions.length = g.node_count) :
    ∃ g1 d1, partition_and_distribute rank size g d = some (g1, d1) ∧
      Sized g.node_count d1.local_partition ∧
      ∀ v, v < g.node_count → d1.local_partition.adj.getD v [] =
        if d1.node_partitions.getD v (-1) = (rank : Int) then
          g.adj.getD v [] ++ g.adj.getD v []
        else g.adj.getD v [] := by
  obtain ⟨np, hsplit, hnpl, _⟩ :=
    reference_split_spec g.node_count size hn d.node_partitions hlen
  obtain ⟨g1, hwb, hadj1, hdata1, _⟩ := write_back_spec np g hwf.1 hnpl
  have hcount1 : g1.node_count = g.node_count := by
    unfold node_count
    rw [hdata1]
  have hwf1 : g1.WellFormed := by
    unfold WellFormed
    rw [hadj1, hcount1]
    exact hwf
  obtain ⟨d1, hgather, hd1, hs1, ha1⟩ := gather_adj g1 hwf1 np (rank : Int) g.node_count
    hcount1 hnpl { d with node_partitions := np } rfl
  obtain ⟨l1, np1, b1⟩ := d1
  dsimp only at hd1 hs1 ha1
  subst hd1
  obtain ⟨l2, hexch, hs2, ha2⟩ := exchange_adj g1 hwf1 np1 (rank : Int) g.node_count hcount1
    (by rw [hcount1]; exact hsmall) l1 b1 hs1
  refine ⟨g1, ⟨l2, np1, b1⟩, ?_, hs2, ?_⟩
  · unfold partition_and_distribute
    simp only [hsplit, hwb, hgather, hexch]
  · intro v hv
    dsimp only
    rw [ha2 v, ha1 v, if_pos hv, hadj1]
    by_cases hc : np1.getD v (-1) = (rank : Int)
    · rw [if_pos ⟨hv, hc⟩, if_pos hc]
    · rw [if_neg (fun h => hc h.2), if_neg hc, List.nil_append]

end MPIDistributor

open MPIDistributor

/-- X4: for a graph of at most 100 nodes satisfying the class invariant and a
distributor constructed on it, whenever `partition_and_distribute` returns on rank
`rank` (it does when the graph is empty or has at least `min(size, 4)` nodes) the
local `get_edges(v)` is, for every node `v`, the edge list of `v` in the original
graph, written twice if `v` is assigned to `rank` and once otherwise. -/
theorem small_graph_branch_doubles_owned_edges (rank size : Nat) (g : DynamicGraph)
    (hwf : g.WellFormed) (hsmall : g.node_count ≤ 100) (d : MPIDistributor)
    (hlen : d.node_partitions.length = g.node_count) :
    ((g.node_count = 0 ∨ min size 4 ≤ g.node_count) →
      ∃ r, partition_and_distribute rank size g d = some r) ∧
    ∀ g1 d1, partition_and_distribute rank size g d = some (g1, d1) →
      ∀ v : Nat, v < g.node_count →
        d1.get_local_partition.get_edges (v : Int) = .ok
          (if d1.node_partitions.getD v (-1) = (rank : Int) then
            g.adj.getD v [] ++ g.adj.getD v []
          else g.adj.getD v []) := by
  refine ⟨?_, ?_⟩
  · intro hn
    obtain ⟨g1, d1, heq, _⟩ := distribute_adj rank size g hwf hsmall hn d hlen
    exact ⟨_, heq⟩
  · intro g1 d1 h v hv
    have hn := distribute_returns rank size g d _ h
    obtain ⟨g2, d2, heq, hs, hadj⟩ := distribute_adj rank size g hwf hsmall hn d hlen
    rw [h] at heq
    simp only [Option.some.injEq, Prod.mk.injEq] at heq
    obtain ⟨hg, hd⟩ := heq
    subst hg
    subst hd
    rw [get_local_partition, get_edges_natCast _ v (by rw [hs.2.1]; exact hv), hadj v hv]

theorem small_graph_branch_doubles_owned_edges_witness :
    ((cycle_graph.node_count = 0 ∨ min 2 4 ≤ cycle_graph.node_count) →
      ∃ r, partition_and_distribute 0 2 cycle_graph (MPIDistributor.new cycle_graph) = some r) ∧
    ∀ g1 d1, partition_and_distribute 0 2 cycle_graph (MPIDistributor.new cycle_graph)
        = some (g1, d1) →
      ∀ v : Nat, v < cycle_graph.node_count →
        d1.get_local_partition.get_edges (v : Int) = .ok
          (if d1.node_partitions.getD v (-1) = ((0 : Nat) : Int) then
            cycle_graph.adj.getD v [] ++ cycle_graph.adj.getD v []
          else cycle_graph.adj.getD v []) :=
  small_graph_branch_doubles_owned_edges 0 2 cycle_graph (by decide) (by decide)
    (MPIDistributor.new cycle_graph) (by decide)

end PDC

/-! ## graph.hpp: what a solver may rely on -/

namespace PDC

/-- C35: in every store built by the constructor followed by calls of `add_node`,
`add_edge`, `remove_edge`, `set_partition` and `clear`, every stored edge has a
target below `node_count` and a non-empty weight vector: an array with one entry
per node has an entry at `edge.target`, and `edge.weights[0]` exists. -/
theorem stored_edges_in_range (n : Nat) (ops : List DynamicGraph.Op) (u : Nat) (e : Edge)
    (he : e ∈ (DynamicGraph.run n ops).adj.getD u []) :
    e.target < (DynamicGraph.run n ops).node_count ∧
    e.weights ≠ [] ∧
    (∃ w rest, e.weights = w :: rest ∧ e.weights.headD 0 = w) ∧
    (∀ arr : List (Option Int), arr.length = (DynamicGraph.run n ops).node_count →
      ∃ x, arr[e.target]? = some x) ∧
    (DynamicGraph.run n ops).get_edges (u : Int) = .ok ((DynamicGraph.run n ops).adj.getD u []) := by
  have hwf := (DynamicGraph.run_valid n ops).2
  obtain ⟨ht, hw⟩ := hwf.edge_ok u e he
  refine ⟨ht, hw, ?_, ?_, ?_⟩
  · cases hws : e.weights with
    | nil => exact absurd hws hw
    | cons w rest => exact ⟨w, rest, rfl, rfl⟩
  · intro arr harr
    exact ⟨arr[e.target], List.getElem?_eq_getElem (by rw [harr]; exact ht)⟩
  · apply get_edges_natCast
    by_contra hcon
    rw [getD_beyond _ _ _ (Nat.le_of_not_lt hcon)] at he
    cases he

theorem stored_edges_in_range_witness :
    (⟨2, [7]⟩ : Edge).target <
      (DynamicGraph.run 0 [.add_edge 0 1 [1], .add_edge 1 2 [7], .remove_edge 0 1]).node_count ∧
    (⟨2, [7]⟩ : Edge).weights ≠ [] ∧
    (∃ w rest, (⟨2, [7]⟩ : Edge).weights = w :: rest ∧ (⟨2, [7]⟩ : Edge).weights.headD 0 = w) ∧
    (∀ arr : List (Option Int),
      arr.length =
        (DynamicGraph.run 0 [.add_edge 0 1 [1], .add_edge 1 2 [7], .remove_edge 0 1]).node_count →
      ∃ x, arr[(⟨2, [7]⟩ : Edge).target]? = some x) ∧
    (DynamicGraph.run 0 [.add_edge 0 1 [1], .add_edge 1 2 [7], .remove_edge 0 1]).get_edges
        ((1 : Nat) : Int)
      = .ok ((DynamicGraph.run 0
          [.add_edge 0 1 [1], .add_edge 1 2 [7], .remove_edge 0 1]).adj.getD 1 []) :=
  stored_edges_in_range 0 [.add_edge 0 1 [1], .add_edge 1 2 [7], .remove_edge 0 1] 1 ⟨2, [7]⟩
    (by decide)

end PDC

/-! ## sosp_engine.hpp: what `update` leaves alone -/

namespace PDC
namespace SOSPEngine

/-- The cells `update_edge` may write: those of the target of the edge. -/
theorem update_edge_frame (u : Nat) (e : SOSPEngine) (edge : Edge) (v : Nat)
    (hv : edge.target ≠ v) :
    (update_edge u e edge).distances.getD v none = e.distances.getD v none ∧
    (update_edge u e edge).predecessors.getD v (-1) = e.predecessors.getD v (-1) := by
  unfold update_edge
  split
  · exact ⟨rfl, rfl⟩
  · dsimp only
    split
    · dsimp only
      rw [getD_set_other _ _ _ _ _ hv, getD_set_other _ _ _ _ _ hv]
      exact ⟨rfl, rfl⟩
    · exact ⟨rfl, rfl⟩

theorem update_edge_sizes (u : Nat) (e : SOSPEngine) (edge : Edge) :
    (update_edge u e edge).predecessors.length = e.predecessors.length ∧
    (update_edge u e edge).in_queue = e.in_queue := by
  unfold update_edge
  split
  · exact ⟨rfl, rfl⟩
  · dsimp only
    split
    · exact ⟨by simp, rfl⟩
    · exact ⟨rfl, rfl⟩

theorem update_fold_sizes (u : Nat) (edges : List Edge) (e : SOSPEngine) :
    (edges.foldl (update_edge u) e).predecessors.length = e.predecessors.length ∧
    (edges.foldl (update_edge u) e).in_queue = e.in_queue := by
  induction edges generalizing e with
  | nil => exact ⟨rfl, rfl⟩
  | cons x xs ih =>
    simp only [List.foldl_cons]
    obtain ⟨h1, h2⟩ := ih (update_edge u e x)
    obtain ⟨s1, s2⟩ := update_edge_sizes u e x
    exact ⟨by rw [h1, s1], by rw [h2, s2]⟩

theorem update_fold_frame (u : Nat) (edges : List Edge) (e : SOSPEngine) (v : Nat)
    (hv : ∀ edge ∈ edges, edge.target ≠ v) :
    (edges.foldl (update_edge u) e).distances.getD v none = e.distances.getD v none ∧
    (edges.foldl (update_edge u) e).predecessors.getD v (-1) = e.predecessors.getD v (-1) := by
  induction edges generalizing e with
  | nil => exact ⟨rfl, rfl⟩
  | cons x xs ih =>
    simp only [List.foldl_cons]
    obtain ⟨h1, h2⟩ := ih (update_edge u e x)
      (fun edge he => hv edge (List.mem_cons_of_mem _ he))
    obtain ⟨f1, f2⟩ := update_edge_frame u e x v (hv x (List.mem_cons_self _ _))
    exact ⟨by rw [h1, f1], by rw [h2, f2]⟩

/-- The flags `update` sets: a node is flagged only if it is listed. -/
theorem affected_true (changed : List Nat) (u : Nat) :
    ∀ init : List Bool, (changed.foldl (fun a c => a.set c true) init).getD u false = true →
      init.getD u false = true ∨ u ∈ changed := by
  induction changed with
  | nil => intro init h; exact Or.inl h
  | cons c cs ih =>
    intro init h
    simp only [List.foldl_cons] at h
    rcases ih _ h with h1 | h1
    · by_cases hcu : c = u
      · exact Or.inr (by rw [hcu]; exact List.mem_cons_self _ _)
      · rw [getD_set_other _ _ _ _ _ hcu] at h1
        exact Or.inl h1
    · exact Or.inr (List.mem_cons_of_mem _ h1)

theorem update_loop_sizes (g : DynamicGraph) (affected : List Bool) (us : List Nat) :
    ∀ e e1 : SOSPEngine, update_loop g affected us e = some e1 →
      e1.predecessors.length = e.predecessors.length ∧ e1.in_queue = e.in_queue := by
  induction us with
  | nil =>
    intro e e1 h
    simp only [update_loop, Option.some.injEq] at h
    subst h
    exact ⟨rfl, rfl⟩
  | cons u us ih =>
    intro e e1 h
    simp only [update_loop] at h
    split at h
    · split at h
      · cases h
      · obtain ⟨h1, h2⟩ := ih _ _ h
        obtain ⟨f1, f2⟩ := update_fold_sizes u ‹List Edge› e
        exact ⟨by rw [h1, f1], by rw [h2, f2]⟩
    · exact ih _ _ h

theorem update_loop_frame (g : DynamicGraph) (affected : List Bool) (v : Nat)
    (hv : ∀ u, affected.getD u false = true → ∀ edge ∈ g.adj.getD u [], edge.target ≠ v)
    (us : List Nat) :
    ∀ e e1 : SOSPEngine, update_loop g affected us e = some e1 →
      e1.distances.getD v none = e.distances.getD v none ∧
      e1.predecessors.getD v (-1) = e.predecessors.getD v (-1) := by
  induction us with
  | nil =>
    intro e e1 h
    simp only [update_loop, Option.some.injEq] at h
    subst h
    exact ⟨rfl, rfl⟩
  | cons u us ih =>
    intro e e1 h
    simp only [update_loop] at h
    by_cases ha : affected.getD u false = true
    · rw [if_pos ha] at h
      by_cases hu : u < g.adj.length
      · rw [get_edges_natCast g u hu] at h
        obtain ⟨h1, h2⟩ := ih _ _ h
        obtain ⟨f1, f2⟩ := update_fold_frame u (g.adj.getD u []) e v (hv u ha)
        exact ⟨by rw [h1, f1], by rw [h2, f2]⟩
      · have herr : g.get_edges (u : Int) = .error .out_of_range := by
          unfold DynamicGraph.get_edges
          rw [if_pos (by omega)]
        rw [herr] at h
        cases h
    · rw [if_neg ha] at h
      exact ih _ _ h

end SOSPEngine

/-- C32: `update(changed)` returns on a store whose `adj` has one entry per node;
whenever it returns, every node that is not the target of an edge leaving a node
listed in `changed` has the distance and the predecessor it had before, the two
arrays keep their lengths and the `in_queue` flags are untouched.  The graph is
read only: `update` has no access to it but `get_edges`. -/
theorem update_is_one_hop (g : DynamicGraph) (e : SOSPEngine) (changed : List Nat) :
    (g.adj.length = g.node_count → ∃ e1, SOSPEngine.update g e changed = some e1) ∧
    ∀ e1, SOSPEngine.update g e changed = some e1 →
      e1.distances.length = e.distances.length ∧
      e1.predecessors.length = e.predecessors.length ∧ e1.in_queue = e.in_queue ∧
      ∀ v : Nat, (∀ u ∈ changed, ∀ edge ∈ g.adj.getD u [], edge.target ≠ v) →
        e1.distances.getD v none = e.distances.getD v none ∧
        e1.predecessors.getD v (-1) = e.predecessors.getD v (-1) := by
  refine ⟨?_, ?_⟩
  · intro hadj
    obtain ⟨e1, h1, _⟩ := SOSPEngine.update_loop_le g
      (changed.foldl (fun a c => a.set c true) (List.replicate g.node_count false))
      (List.range g.node_count) e (fun u hu => by rw [hadj]; exact List.mem_range.1 hu)
    exact ⟨e1, h1⟩
  · intro e1 h
    have hflag : ∀ u, (changed.foldl (fun a c => a.set c true)
        (List.replicate g.node_count false)).getD u false = true → u ∈ changed := by
      intro u hu
      rcases SOSPEngine.affected_true changed u _ hu with h1 | h1
      · exfalso
        by_cases hun : u < g.node_count
        · simp [List.getD_eq_getElem?_getD, List.getElem?_replicate, hun] at h1
        · rw [getD_beyond _ _ _ (by simpa using hun)] at h1
          cases h1
      · exact h1
    obtain ⟨hs1, hs2⟩ := SOSPEngine.update_loop_sizes g _ _ e e1 h
    refine ⟨SOSPEngine.update_loop_length g _ _ e e1 h, hs1, hs2, ?_⟩
    intro v hv
    exact SOSPEngine.update_loop_frame g _ v (fun u hu => hv u (hflag u hu)) _ e e1 h

end PDC

namespace PDC

theorem update_is_one_hop_witness :
    (chain_graph_edited.adj.length = chain_graph_edited.node_count →
      ∃ e1, SOSPEngine.update chain_graph_edited chain_result [0] = some e1) ∧
    ∀ e1, SOSPEngine.update chain_graph_edited chain_result [0] = some e1 →
      e1.distances.length = chain_result.distances.length ∧
      e1.predecessors.length = chain_result.predecessors.length ∧
      e1.in_queue = chain_result.in_queue ∧
      ∀ v : Nat, (∀ u ∈ [0], ∀ edge ∈ chain_graph_edited.adj.getD u [], edge.target ≠ v) →
        e1.distances.getD v none = chain_result.distances.getD v none ∧
        e1.predecessors.getD v (-1) = chain_result.predecessors.getD v (-1) :=
  update_is_one_hop chain_graph_edited chain_result [0]

end PDC

/-! ## hybrid_engine.cpp: a second run on one engine -/

namespace PDC
namespace HybridEngine

theorem relax_edge_same (i1 i2 : HybridEngine) (u : Nat) (du : Int)
    (st1 st2 : HybridEngine × Bool) (edge : Edge)
    (h : SameRun i1 i2 st1.1 st2.1) (hf : st1.2 = st2.2) :
    SameRun i1 i2 (relax_edge u du st1 edge).1 (relax_edge u du st2 edge).1 ∧
    (relax_edge u du st1 edge).2 = (relax_edge u du st2 edge).2 := by
  obtain ⟨hd, hl, hp⟩ := h
  unfold relax_edge
  rw [hd]
  split
  · exact ⟨⟨hd, hl, hp⟩, hf⟩
  · split
    · exact ⟨⟨hd, hl, hp⟩, hf⟩
    · dsimp only
      split
      · refine ⟨⟨rfl, by simp only [List.length_set]; exact hl, ?_⟩, rfl⟩
        intro v
        dsimp only
        by_cases hv : edge.target = v
        · subst hv
          by_cases hin : edge.target < st2.1.predecessors.length
          · left
            rw [getD_set_self _ _ _ _ (by rw [hl]; exact hin), getD_set_self _ _ _ _ hin]
          · rw [List.set_eq_of_length_le (by omega), List.set_eq_of_length_le (by omega)]
            exact hp _
        · rw [getD_set_other _ _ _ _ _ hv, getD_set_other _ _ _ _ _ hv]
          exact hp v
      · exact ⟨⟨hd, hl, hp⟩, hf⟩

theorem edges_fold_same (i1 i2 : HybridEngine) (u : Nat) (du : Int) (edges : List Edge) :
    ∀ st1 st2 : HybridEngine × Bool, SameRun i1 i2 st1.1 st2.1 → st1.2 = st2.2 →
      SameRun i1 i2 (edges.foldl (relax_edge u du) st1).1 (edges.foldl (relax_edge u du) st2).1 ∧
      (edges.foldl (relax_edge u du) st1).2 = (edges.foldl (relax_edge u du) st2).2 := by
  induction edges with
  | nil => intro st1 st2 h hf; exact ⟨h, hf⟩
  | cons x xs ih =>
    intro st1 st2 h hf
    simp only [List.foldl_cons]
    obtain ⟨h1, h2⟩ := relax_edge_same i1 i2 u du st1 st2 x h hf
    exact ih _ _ h1 h2

theorem relax_node_same (g : DynamicGraph) (i1 i2 : HybridEngine) (u : Nat)
    (st1 st2 : HybridEngine × Bool) (h : SameRun i1 i2 st1.1 st2.1) (hf : st1.2 = st2.2) :
    SameRun i1 i2 (relax_node g st1 u).1 (relax_node g st2 u).1 ∧
    (relax_node g st1 u).2 = (relax_node g st2 u).2 := by
  unfold relax_node
  rw [h.1]
  split
  · exact ⟨h, hf⟩
  · split
    · exact ⟨h, hf⟩
    · exact edges_fold_same i1 i2 u _ _ st1 st2 h hf

theorem nodes_fold_same (g : DynamicGraph) (i1 i2 : HybridEngine) (us : List Nat) :
    ∀ st1 st2 : HybridEngine × Bool, SameRun i1 i2 st1.1 st2.1 → st1.2 = st2.2 →
      SameRun i1 i2 (us.foldl (relax_node g) st1).1 (us.foldl (relax_node g) st2).1 ∧
      (us.foldl (relax_node g) st1).2 = (us.foldl (relax_node g) st2).2 := by
  induction us with
  | nil => intro st1 st2 h hf; exact ⟨h, hf⟩
  | cons x xs ih =>
    intro st1 st2 h hf
    simp only [List.foldl_cons]
    obtain ⟨h1, h2⟩ := relax_node_same g i1 i2 x st1 st2 h hf
    exact ih _ _ h1 h2

theorem round_same (g : DynamicGraph) (i1 i2 e1 e2 : HybridEngine) (h : SameRun i1 i2 e1 e2) :
    SameRun i1 i2 (round g e1).1 (round g e2).1 ∧ (round g e1).2 = (round g e2).2 :=
  nodes_fold_same g i1 i2 _ (e1, false) (e2, false) h rfl

theorem rounds_same (g : DynamicGraph) (i1 i2 : HybridEngine) (K : Nat) :
    ∀ e1 e2 : HybridEngine, SameRun i1 i2 e1 e2 →
      SameRun i1 i2 (rounds g K e1) (rounds g K e2) := by
  induction K with
  | zero => intro e1 e2 h; exact (round_same g i1 i2 e1 e2 h).1
  | succ K ih =>
    intro e1 e2 h
    obtain ⟨h1, h2⟩ := round_same g i1 i2 e1 e2 h
    simp only [rounds]
    rw [h2]
    split
    · exact ih _ _ h1
    · exact h1

/-- A run from a valid source on two engines with arrays of the same lengths leaves
the same distances; a predecessor entry differs only where neither run wrote. -/
theorem compute_parallel_same (g : DynamicGraph) (e1 e2 : HybridEngine) (s : Nat)
    (hs : s < g.node_count)
    (hd : e1.atomic_distances.length = e2.atomic_distances.length)
    (hp : e1.predecessors.length = e2.predecessors.length) :
    SameRun e1 e2 (compute_parallel g e1 (s : Int)) (compute_parallel g e2 (s : Int)) := by
  rw [compute_parallel_eq g e1 s hs, compute_parallel_eq g e2 s hs]
  apply rounds_same
  refine ⟨?_, hp, fun v => Or.inr ⟨rfl, rfl⟩⟩
  dsimp only
  congr 1
  apply List.ext_getElem
  · simp only [List.length_map]
    exact hd
  · intro i h1 h2
    simp

theorem relax_edge_pred_length (u : Nat) (du : Int) (st : HybridEngine × Bool) (edge : Edge) :
    (relax_edge u du st edge).1.predecessors.length = st.1.predecessors.length := by
  unfold relax_edge
  split
  · rfl
  · split
    · rfl
    · dsimp only
      split <;> simp

theorem rounds_pred_length (g : DynamicGraph) (K : Nat) (e : HybridEngine) :
    (rounds g K e).predecessors.length = e.predecessors.length := by
  have hnode : ∀ (st : HybridEngine × Bool) (u : Nat),
      (relax_node g st u).1.predecessors.length = st.1.predecessors.length := by
    intro st u
    unfold relax_node
    split
    · rfl
    · split
      · rfl
      · exact foldl_preserves
          (fun s : HybridEngine × Bool => s.1.predecessors.length = st.1.predecessors.length)
          _ _ (fun s x _ hs => (relax_edge_pred_length _ _ s x).trans hs) st rfl
  have hround : ∀ e : HybridEngine, (round g e).1.predecessors.length = e.predecessors.length :=
    fun e => foldl_preserves
      (fun s : HybridEngine × Bool => s.1.predecessors.length = e.predecessors.length)
      _ _ (fun s x _ hs => (hnode s x).trans hs) (e, false) rfl
  induction K generalizing e with
  | zero => exact hround e
  | succ K ih =>
    simp only [rounds]
    split
    · rw [ih, hround]
    · exact hround e

theorem compute_parallel_lengths (g : DynamicGraph) (e : HybridEngine) (source : Int) :
    (compute_parallel g e source).atomic_distances.length = e.atomic_distances.length ∧
    (compute_parallel g e source).predecessors.length = e.predecessors.length := by
  unfold compute_parallel
  split
  · exact ⟨rfl, rfl⟩
  · dsimp only
    rw [rounds_length, rounds_pred_length]
    simp

end HybridEngine

/-- C33: on the chain `0 -> 1 -> 2`, `compute_parallel(0)` followed by
`compute_parallel(2)` on one engine leaves the predecessors `[-1, 0, 1]`, while
`compute_parallel(2)` on a fresh engine leaves `[-1, -1, -1]`: node 1, which node 2
does not reach, keeps the predecessor `0` of the earlier run, and so does the source
`2` itself, which keeps `1`.  The distances of the two engines are equal. -/
theorem second_run_keeps_predecessors :
    (HybridEngine.compute_parallel chain_graph
      (HybridEngine.compute_parallel chain_graph (HybridEngine.new chain_graph) 0) 2
      ).get_predecessors = [-1, 0, 1] ∧
    (HybridEngine.compute_parallel chain_graph (HybridEngine.new chain_graph) 2
      ).get_predecessors = [-1, -1, -1] ∧
    ¬ Reachable chain_graph 2 1 ∧
    (HybridEngine.compute_parallel chain_graph
      (HybridEngine.compute_parallel chain_graph (HybridEngine.new chain_graph) 0) 2
      ).get_distances = [none, none, some 0] ∧
    (HybridEngine.compute_parallel chain_graph (HybridEngine.new chain_graph) 2
      ).get_distances = [none, none, some 0] := by
  refine ⟨by decide, by decide, ?_, by decide, by decide⟩
  rintro ⟨d, hw⟩
  have key : ∀ v d, Walk chain_graph 2 v d → v = 2 := by
    intro v d h
    induction h with
    | nil => rfl
    | snoc e _ he ih =>
      subst ih
      simp [chain_graph] at he
  have := key 1 d hw
  omega

/-- X5: for every graph and every valid source `b`, whatever ran before on the
engine, `compute_parallel(b)` leaves the distances a freshly constructed engine
would hold, and every predecessor entry either equals the entry of the fresh engine
or is the entry the earlier run left, the fresh engine holding `-1` there. -/
theorem second_run_same_distances (g : DynamicGraph) (a : Int) (b : Nat)
    (hb : b < g.node_count) :
    (HybridEngine.compute_parallel g
        (HybridEngine.compute_parallel g (HybridEngine.new g) a) (b : Int)).get_distances
      = (HybridEngine.compute_parallel g (HybridEngine.new g) (b : Int)).get_distances ∧
    ∀ v : Nat,
      (HybridEngine.compute_parallel g
          (HybridEngine.compute_parallel g (HybridEngine.new g) a) (b : Int)
        ).get_predecessors.getD v (-1)
        = (HybridEngine.compute_parallel g (HybridEngine.new g) (b : Int)
          ).get_predecessors.getD v (-1) ∨
      ((HybridEngine.compute_parallel g
          (HybridEngine.compute_parallel g (HybridEngine.new g) a) (b : Int)
        ).get_predecessors.getD v (-1)
        = (HybridEngine.compute_parallel g (HybridEngine.new g) a
          ).get_predecessors.getD v (-1) ∧
        (HybridEngine.compute_parallel g (HybridEngine.new g) (b : Int)
          ).get_predecessors.getD v (-1) = -1) := by
  obtain ⟨hl1, hl2⟩ := HybridEngine.compute_parallel_lengths g (HybridEngine.new g) a
  obtain ⟨hd, _, hp⟩ := HybridEngine.compute_parallel_same g
    (HybridEngine.compute_parallel g (HybridEngine.new g) a) (HybridEngine.new g) b hb
    hl1 hl2
  refine ⟨hd, ?_⟩
  intro v
  rcases hp v with h | ⟨h1, h2⟩
  · exact Or.inl h
  · refine Or.inr ⟨h1, ?_⟩
    unfold HybridEngine.get_predecessors
    rw [h2]
    unfold HybridEngine.new
    dsimp only
    by_cases hv : v < g.node_count
    · simp [List.getD_eq_getElem?_getD, List.getElem?_replicate, hv]
    · rw [getD_beyond _ _ _ (by simpa using hv)]

theorem second_run_same_distances_witness :
    (HybridEngine.compute_parallel cycle_graph
        (HybridEngine.compute_parallel cycle_graph (HybridEngine.new cycle_graph) 0)
        ((3 : Nat) : Int)).get_distances
      = (HybridEngine.compute_parallel cycle_graph (HybridEngine.new cycle_graph)
          ((3 : Nat) : Int)).get_distances ∧
    ∀ v : Nat,
      (HybridEngine.compute_parallel cycle_graph
          (HybridEngine.compute_parallel cycle_graph (HybridEngine.new cycle_graph) 0)
          ((3 : Nat) : Int)).get_predecessors.getD v (-1)
        = (HybridEngine.compute_parallel cycle_graph (HybridEngine.new cycle_graph)
            ((3 : Nat) : Int)).get_predecessors.getD v (-1) ∨
      ((HybridEngine.compute_parallel cycle_graph
          (HybridEngine.compute_parallel cycle_graph (HybridEngine.new cycle_graph) 0)
          ((3 : Nat) : Int)).get_predecessors.getD v (-1)
        = (HybridEngine.compute_parallel cycle_graph (HybridEngine.new cycle_graph) 0
          ).get_predecessors.getD v (-1) ∧
        (HybridEngine.compute_parallel cycle_graph (HybridEngine.new cycle_graph)
          ((3 : Nat) : Int)).get_predecessors.getD v (-1) = -1) :=
  second_run_same_distances cycle_graph 0 3 (by decide)

end PDC

/-! ## hybrid_engine.cpp: the number of rounds -/

namespace PDC

theorem Dist.lt_of_le_of_lt {a b c : Option Int} (h1 : Dist.le a b) (h2 : Dist.lt b c = true) :
    Dist.lt a c = true := by
  cases a <;> cases b <;> cases c <;> simp_all [Dist.le, Dist.lt]
  omega

theorem Dist.lt_irrefl (a : Option Int) : Dist.lt a a = false := by
  cases a <;> simp [Dist.lt]

namespace HybridEngine

/-- Some cell of `e` is below the cell of `e0`. -/
theorem relax_edge_lowers (e0 : HybridEngine) (u : Nat) (du : Int) (st : HybridEngine × Bool)
    (edge : Edge)
    (hle : ∀ v, Dist.le (st.1.atomic_distances.getD v none) (e0.atomic_distances.getD v none))
    (hlow : st.2 = true → ∃ v, Dist.lt (st.1.atomic_distances.getD v none)
      (e0.atomic_distances.getD v none) = true) :
    (relax_edge u du st edge).2 = true →
      ∃ v, Dist.lt ((relax_edge u du st edge).1.atomic_distances.getD v none)
        (e0.atomic_distances.getD v none) = true := by
  unfold relax_edge
  split
  · exact hlow
  · rename_i hin
    split
    · exact hlow
    · dsimp only
      split
      · rename_i hlt
        intro _
        refine ⟨edge.target, ?_⟩
        dsimp only
        rw [getD_set_self _ _ _ _ (Nat.lt_of_not_le hin)]
        cases hc : st.1.atomic_distances.getD edge.target none with
        | none =>
          have := hle edge.target
          rw [hc] at this
          cases h0 : e0.atomic_distances.getD edge.target none with
          | none => rfl
          | some x => rw [h0] at this; simp [Dist.le, Dist.lt] at this
        | some y =>
          rw [hc] at hlt
          have := hle edge.target
          rw [hc] at this
          cases h0 : e0.atomic_distances.getD edge.target none with
          | none => rfl
          | some x =>
            rw [h0] at this
            simp only [Dist.le, Dist.lt, decide_eq_true_eq, decide_eq_false_iff_not] at this hlt ⊢
            omega
      · exact hlow

/-- The flag of a loop of relaxations is set only if a cell went down. -/
theorem fold_lowers {α : Type} (e0 : HybridEngine)
    (f : HybridEngine × Bool → α → HybridEngine × Bool) (l : List α)
    (hle : ∀ st x v, Dist.le ((f st x).1.atomic_distances.getD v none)
      (st.1.atomic_distances.getD v none))
    (hstep : ∀ st x,
      (∀ v, Dist.le (st.1.atomic_distances.getD v none) (e0.atomic_distances.getD v none)) →
      (st.2 = true → ∃ v, Dist.lt (st.1.atomic_distances.getD v none)
        (e0.atomic_distances.getD v none) = true) →
      (f st x).2 = true → ∃ v, Dist.lt ((f st x).1.atomic_distances.getD v none)
        (e0.atomic_distances.getD v none) = true)
    (st : HybridEngine × Bool)
    (h1 : ∀ v, Dist.le (st.1.atomic_distances.getD v none) (e0.atomic_distances.getD v none))
    (h2 : st.2 = true → ∃ v, Dist.lt (st.1.atomic_distances.getD v none)
      (e0.atomic_distances.getD v none) = true) :
    (∀ v, Dist.le ((l.foldl f st).1.atomic_distances.getD v none)
      (e0.atomic_distances.getD v none)) ∧
    ((l.foldl f st).2 = true → ∃ v, Dist.lt ((l.foldl f st).1.atomic_distances.getD v none)
      (e0.atomic_distances.getD v none) = true) :=
  foldl_preserves
    (fun s : HybridEngine × Bool =>
      (∀ v, Dist.le (s.1.atomic_distances.getD v none) (e0.atomic_distances.getD v none)) ∧
      (s.2 = true → ∃ v, Dist.lt (s.1.atomic_distances.getD v none)
        (e0.atomic_distances.getD v none) = true))
    f l (fun s x _ hs => ⟨fun v => Dist.le_trans (hle s x v) (hs.1 v), hstep s x hs.1 hs.2⟩)
    st ⟨h1, h2⟩

theorem relax_node_lowers (g : DynamicGraph) (e0 : HybridEngine) (st : HybridEngine × Bool)
    (u : Nat)
    (hle : ∀ v, Dist.le (st.1.atomic_distances.getD v none) (e0.atomic_distances.getD v none))
    (hlow : st.2 = true → ∃ v, Dist.lt (st.1.atomic_distances.getD v none)
      (e0.atomic_distances.getD v none) = true) :
    (relax_node g st u).2 = true →
      ∃ v, Dist.lt ((relax_node g st u).1.atomic_distances.getD v none)
        (e0.atomic_distances.getD v none) = true := by
  unfold relax_node
  split
  · exact hlow
  · split
    · exact hlow
    · rename_i du _ _ edges _
      exact (fold_lowers e0 (relax_edge u du) edges (fun s x v => relax_edge_le u du s x v)
        (fun s x h1 h2 => relax_edge_lowers e0 u du s x h1 h2) st hle hlow).2

/-- The flag `changed` of a round is set exactly when the round changed a distance. -/
theorem round_flag_iff (g : DynamicGraph) (e : HybridEngine) :
    (round g e).2 = false ↔ (round g e).1.atomic_distances = e.atomic_distances := by
  constructor
  · intro h
    rw [round_unchanged g e h]
  · intro h
    by_contra hne
    have htrue : (round g e).2 = true := by simpa using hne
    obtain ⟨v, hv⟩ := (fold_lowers e (relax_node g) (List.range g.node_count)
      (fun s x v => relax_node_le g s x v)
      (fun s x h1 h2 => relax_node_lowers g e s x h1 h2) (e, false)
      (fun v => Dist.le_refl _) (fun h => by cases h)).2 htrue
    have hv2 : Dist.lt ((round g e).1.atomic_distances.getD v none)
        (e.atomic_distances.getD v none) = true := hv
    rw [h, Dist.lt_irrefl] at hv2
    cases hv2

theorem after_rounds_succ (g : DynamicGraph) (k : Nat) :
    ∀ e : HybridEngine, after_rounds g (k + 1) e = (round g (after_rounds g k e)).1 := by
  induction k with
  | zero => intro e; rfl
  | succ k ih =>
    intro e
    rw [after_rounds, ih (round g e).1]
    rfl

/-- The loop with its counter: it runs `m` rounds, at least one and at most the
cap; all but the last set the flag, and the last one does not if the cap is not
reached. -/
theorem rounds_count_spec (g : DynamicGraph) (K : Nat) :
    ∀ (e : HybridEngine) (i : Nat), ∃ m, (rounds_count g K e i).2 = i + m ∧ 1 ≤ m ∧ m ≤ K + 1 ∧
      (rounds_count g K e i).1 = rounds g K e ∧
      (rounds_count g K e i).1 = after_rounds g m e ∧
      (∀ j, j + 1 < m → (round g (after_rounds g j e)).2 = true) ∧
      (m < K + 1 → (round g (after_rounds g (m - 1) e)).2 = false) := by
  induction K with
  | zero =>
    intro e i
    exact ⟨1, rfl, le_refl _, le_refl _, rfl, rfl, fun j hj => absurd hj (by omega),
      fun h => absurd h (by omega)⟩
  | succ K ih =>
    intro e i
    by_cases hflag : (round g e).2 = true
    · obtain ⟨m, h1, h2, h3, h4, h5, h6, h7⟩ := ih (round g e).1 (i + 1)
      have hrc : rounds_count g (K + 1) e i = rounds_count g K (round g e).1 (i + 1) := by
        simp only [rounds_count, hflag, if_true]
      have hr : rounds g (K + 1) e = rounds g K (round g e).1 := by
        simp only [rounds, hflag, if_true]
      refine ⟨m + 1, by rw [hrc, h1]; omega, by omega, by omega, by rw [hrc, hr, h4],
        by rw [hrc, h5]; rfl, ?_, ?_⟩
      · intro j hj
        cases j with
        | zero => exact hflag
        | succ j => exact h6 j (by omega)
      · intro hm
        have h8 := h7 (by omega)
        have hm1 : m + 1 - 1 = (m - 1) + 1 := by omega
        rw [hm1]
        exact h8
    · have hf : (round g e).2 = false := by simpa using hflag
      have hrc : rounds_count g (K + 1) e i = ((round g e).1, i + 1) := by
        simp only [rounds_count, hf, Bool.false_eq_true, if_false]
      have hr : rounds g (K + 1) e = (round g e).1 := by
        simp only [rounds, hf, Bool.false_eq_true, if_false]
      exact ⟨1, by rw [hrc], le_refl _, by omega, by rw [hrc, hr], by rw [hrc]; rfl,
        fun j hj => absurd hj (by omega), fun _ => hf⟩

end HybridEngine

/-- C31: for every graph, whatever the sign of its weights, and every valid source,
`compute_parallel(source)` runs at least one and at most `max(100, node_count - 1)`
rounds and leaves the engine those rounds produce; every round before the last
changed a distance, and if the loop stopped before the cap the last round changed
none: the loop stops after the first round without a change. -/
theorem compute_parallel_round_count (g : DynamicGraph) (e : HybridEngine) (s : Nat)
    (hs : s < g.node_count) :
    1 ≤ HybridEngine.iterations g e (s : Int) ∧
    HybridEngine.iterations g e (s : Int) ≤ max 100 (g.node_count - 1) ∧
    HybridEngine.compute_parallel g e (s : Int)
      = HybridEngine.after_rounds g (HybridEngine.iterations g e (s : Int)) (e.reset s) ∧
    (∀ j, j + 1 < HybridEngine.iterations g e (s : Int) →
      (HybridEngine.after_rounds g (j + 1) (e.reset s)).atomic_distances
        ≠ (HybridEngine.after_rounds g j (e.reset s)).atomic_distances) ∧
    (HybridEngine.iterations g e (s : Int) < max 100 (g.node_count - 1) →
      (HybridEngine.after_rounds g (HybridEngine.iterations g e (s : Int))
          (e.reset s)).atomic_distances
        = (HybridEngine.after_rounds g (HybridEngine.iterations g e (s : Int) - 1)
          (e.reset s)).atomic_distances) ∧
    (∀ j, (HybridEngine.after_rounds g (j + 1) (e.reset s)).atomic_distances
        = (HybridEngine.after_rounds g j (e.reset s)).atomic_distances →
      HybridEngine.iterations g e (s : Int) ≤ j + 1) := by
  obtain ⟨m, h1, h2, h3, h4, h5, h6, h7⟩ :=
    HybridEngine.rounds_count_spec g (max 100 (g.node_count - 1) - 1) (e.reset s) 0
  have hit : HybridEngine.iterations g e (s : Int) = m := by
    unfold HybridEngine.iterations
    have hv : ¬ ((s : Int) < 0 ∨ (g.node_count : Int) ≤ (s : Int)) := by omega
    rw [if_neg hv, Int.toNat_ofNat, h1]
    omega
  have hchanged : ∀ j, j + 1 < m →
      (HybridEngine.after_rounds g (j + 1) (e.reset s)).atomic_distances
        ≠ (HybridEngine.after_rounds g j (e.reset s)).atomic_distances := by
    intro j hj heq
    rw [HybridEngine.after_rounds_succ] at heq
    have := (HybridEngine.round_flag_iff g _).2 heq
    rw [h6 j hj] at this
    cases this
  rw [hit]
  refine ⟨h2, by omega, ?_, hchanged, ?_, ?_⟩
  · rw [HybridEngine.compute_parallel_eq g e s hs, ← h5, h4]
    rfl
  · intro hm
    have hf := h7 (by omega)
    have hfix := (HybridEngine.round_flag_iff g _).1 hf
    have hsucc := HybridEngine.after_rounds_succ g (m - 1) (e.reset s)
    have hm1 : m - 1 + 1 = m := by omega
    rw [hm1] at hsucc
    rw [hsucc]
    exact hfix
  · intro j hj
    by_contra hcon
    exact hchanged j (by omega) hj

theorem compute_parallel_round_count_witness :
    1 ≤ HybridEngine.iterations cycle_graph (HybridEngine.new cycle_graph) ((0 : Nat) : Int) ∧
    HybridEngine.iterations cycle_graph (HybridEngine.new cycle_graph) ((0 : Nat) : Int)
      ≤ max 100 (cycle_graph.node_count - 1) ∧
    HybridEngine.compute_parallel cycle_graph (HybridEngine.new cycle_graph) ((0 : Nat) : Int)
      = HybridEngine.after_rounds cycle_graph
          (HybridEngine.iterations cycle_graph (HybridEngine.new cycle_graph) ((0 : Nat) : Int))
          ((HybridEngine.new cycle_graph).reset 0) ∧
    (∀ j, j + 1 < HybridEngine.iterations cycle_graph (HybridEngine.new cycle_graph)
        ((0 : Nat) : Int) →
      (HybridEngine.after_rounds cycle_graph (j + 1)
          ((HybridEngine.new cycle_graph).reset 0)).atomic_distances
        ≠ (HybridEngine.after_rounds cycle_graph j
          ((HybridEngine.new cycle_graph).reset 0)).atomic_distances) ∧
    (HybridEngine.iterations cycle_graph (HybridEngine.new cycle_graph) ((0 : Nat) : Int)
        < max 100 (cycle_graph.node_count - 1) →
      (HybridEngine.after_rounds cycle_graph
          (HybridEngine.iterations cycle_graph (HybridEngine.new cycle_graph) ((0 : Nat) : Int))
          ((HybridEngine.new cycle_graph).reset 0)).atomic_distances
        = (HybridEngine.after_rounds cycle_graph
          (HybridEngine.iterations cycle_graph (HybridEngine.new cycle_graph)
            ((0 : Nat) : Int) - 1)
          ((HybridEngine.new cycle_graph).reset 0)).atomic_distances) ∧
    (∀ j, (HybridEngine.after_rounds cycle_graph (j + 1)
          ((HybridEngine.new cycle_graph).reset 0)).atomic_distances
        = (HybridEngine.after_rounds cycle_graph j
          ((HybridEngine.new cycle_graph).reset 0)).atomic_distances →
      HybridEngine.iterations cycle_graph (HybridEngine.new cycle_graph) ((0 : Nat) : Int)
        ≤ j + 1) :=
  compute_parallel_round_count cycle_graph (HybridEngine.new cycle_graph) 0 (by decide)

/-- The driver's graph from source 0: the loop stops after 2 rounds of the 100 it
may run. -/
theorem cycle_graph_iterations :
    HybridEngine.iterations cycle_graph (HybridEngine.new cycle_graph) 0 = 2 := by
  decide

end PDC

/-! ## hybrid_engine.cpp: the predecessor array -/

namespace PDC
namespace HybridEngine

theorem relax_edge_tree (g : DynamicGraph) (hwf : g.WellFormed) (hnn : g.NonNegWeights)
    (s u : Nat) (du : Int) (hdu0 : 0 ≤ du) (st : HybridEngine × Bool) (edge : Edge)
    (hedge : edge ∈ g.adj.getD u [])
    (hdu : Dist.le (st.1.atomic_distances.getD u none) (some du))
    (h : TreeInv g s st.1) :
    TreeInv g s (relax_edge u du st edge).1 := by
  obtain ⟨hl1, hl2, hpos, hsrc, hps, hall⟩ := h
  obtain ⟨ht, hw⟩ := hwf.edge_ok u edge hedge
  have hw0 := hnn.edge_nonneg u edge hedge
  have hle := relax_edge_le u du st edge
  unfold relax_edge at hle ⊢
  rw [if_neg (by omega)] at hle ⊢
  cases hws : edge.weights with
  | nil => exact absurd hws hw
  | cons w ws =>
    rw [hws] at hw0 hle
    simp only [List.headD_cons] at hw0
    dsimp only at hle ⊢
    by_cases hlt : Dist.lt (some (du + w)) (st.1.atomic_distances.getD edge.target none) = true
    · rw [if_pos hlt] at hle ⊢
      dsimp only at hle ⊢
      have hts : edge.target ≠ s := by
        intro heq
        rw [heq, hsrc] at hlt
        simp only [Dist.lt, decide_eq_true_eq] at hlt
        omega
      refine ⟨by rw [List.length_set]; exact hl1, by rw [List.length_set]; exact hl2,
        ?_, ?_, ?_, ?_⟩
      · intro v d hv
        by_cases hvt : edge.target = v
        · subst hvt
          rw [getD_set_self _ _ _ _ (by omega)] at hv
          cases hv
          omega
        · rw [getD_set_other _ _ _ _ _ hvt] at hv
          exact hpos v d hv
      · rw [getD_set_other _ _ _ _ _ hts]
        exact hsrc
      · rw [getD_set_other _ _ _ _ _ hts]
        exact hps
      · intro v hvs
        by_cases hvt : edge.target = v
        · right
          refine ⟨u, edge, du, ?_, hedge, hvt, ?_, Dist.le_trans (hle u) hdu⟩
          · rw [← hvt, getD_set_self _ _ _ _ (by omega)]
          · rw [← hvt, getD_set_self _ _ _ _ (by omega), hws]
            rfl
        · rw [getD_set_other _ _ _ _ _ hvt, getD_set_other _ _ _ _ _ hvt]
          rcases hall v hvs with h1 | ⟨p, e2, dp, h1, h2, h3, h4, h5⟩
          · exact Or.inl h1
          · exact Or.inr ⟨p, e2, dp, h1, h2, h3, h4, Dist.le_trans (hle p) h5⟩
    · rw [if_neg hlt]
      exact ⟨hl1, hl2, hpos, hsrc, hps, hall⟩

theorem relax_node_tree (g : DynamicGraph) (hwf : g.WellFormed) (hnn : g.NonNegWeights)
    (s : Nat) (st : HybridEngine × Bool) (u : Nat) (h : TreeInv g s st.1) :
    TreeInv g s (relax_node g st u).1 := by
  unfold relax_node
  split
  · exact h
  · rename_i du hdu
    by_cases hu : u < g.adj.length
    · rw [get_edges_natCast g u hu]
      dsimp only
      have hdu0 : 0 ≤ du := h.2.2.1 u du hdu
      have := foldl_preserves
        (fun s1 : HybridEngine × Bool => TreeInv g s s1.1 ∧
          Dist.le (s1.1.atomic_distances.getD u none) (some du))
        (relax_edge u du) (g.adj.getD u [])
        (fun s1 x hx hs1 => ⟨relax_edge_tree g hwf hnn s u du hdu0 s1 x hx hs1.2 hs1.1,
          Dist.le_trans (relax_edge_le u du s1 x u) hs1.2⟩)
        st ⟨h, by rw [hdu]; exact Dist.le_refl _⟩
      exact this.1
    · have herr : g.get_edges (u : Int) = .error .out_of_range := by
        unfold DynamicGraph.get_edges
        rw [if_pos (by omega)]
      rw [herr]
      exact h

theorem round_tree (g : DynamicGraph) (hwf : g.WellFormed) (hnn : g.NonNegWeights)
    (s : Nat) (e : HybridEngine) (h : TreeInv g s e) : TreeInv g s (round g e).1 :=
  foldl_preserves (fun s1 : HybridEngine × Bool => TreeInv g s s1.1) (relax_node g)
    (List.range g.node_count) (fun s1 x _ hs1 => relax_node_tree g hwf hnn s s1 x hs1)
    (e, false) h

theorem rounds_tree (g : DynamicGraph) (hwf : g.WellFormed) (hnn : g.NonNegWeights)
    (s : Nat) (K : Nat) (e : HybridEngine) (h : TreeInv g s e) :
    TreeInv g s (rounds g K e) := by
  induction K generalizing e with
  | zero => exact round_tree g hwf hnn s e h
  | succ K ih =>
    simp only [rounds]
    split
    · exact ih _ (round_tree g hwf hnn s e h)
    · exact round_tree g hwf hnn s e h

theorem fresh_tree (g : DynamicGraph) (s : Nat) (hs : s < g.node_count) :
    TreeInv g s { (new g) with atomic_distances :=
      ((new g).atomic_distances.map fun _ => (none : Option Int)).set s (some 0) } := by
  have hnone : ∀ v, v ≠ s →
      (((new g).atomic_distances.map fun _ => (none : Option Int)).set s
        (some 0)).getD v none = none := by
    intro v hv
    rw [getD_set_other _ _ _ _ _ (fun h => hv h.symm)]
    simp [List.getD_eq_getElem?_getD, List.getElem?_map]
  have hpred : ∀ v, (new g).predecessors.getD v (-1) = -1 := by
    intro v
    unfold new
    dsimp only
    by_cases hv : v < g.node_count
    · simp [List.getD_eq_getElem?_getD, List.getElem?_replicate, hv]
    · rw [getD_beyond _ _ _ (by simpa using hv)]
  refine ⟨by simp [new], by simp [new], ?_, ?_, hpred s, ?_⟩
  · intro v d hv
    obtain ⟨_, rfl⟩ := reset_getD _ _ _ _ hv
    exact le_refl _
  · dsimp only
    rw [getD_set_self _ _ _ _ (by simpa [new] using hs)]
  · intro v hv
    exact Or.inl ⟨hpred v, hnone v hv⟩

end HybridEngine

/-- The exact layer, one worker: for a graph satisfying the class invariant with
non-negative first weights and a source below `node_count`, after
`compute_parallel(source)` on a freshly constructed engine the predecessor array has one entry per node, the source
has predecessor `-1`, every node the source does not reach has predecessor `-1`,
and every other node `v` the source reaches has a predecessor `p`, a node of the
graph with an edge `p -> v` such that `distance[v] = distance[p] + w[0]`. -/
theorem predecessors_are_tight (g : DynamicGraph) (hwf : g.WellFormed)
    (hnn : g.NonNegWeights) (s : Nat) (hs : s < g.node_count) :
    (HybridEngine.compute_parallel g (HybridEngine.new g) (s : Int)).get_predecessors.length
      = g.node_count ∧
    (HybridEngine.compute_parallel g (HybridEngine.new g) (s : Int)).get_predecessors.getD s (-1)
      = -1 ∧
    ∀ v : Nat, v < g.node_count →
      (¬ Reachable g s v →
        (HybridEngine.compute_parallel g (HybridEngine.new g) (s : Int)
          ).get_predecessors.getD v (-1) = -1) ∧
      (Reachable g s v → v ≠ s →
        ∃ (p : Nat) (edge : Edge) (dp : Int), p < g.node_count ∧
          (HybridEngine.compute_parallel g (HybridEngine.new g) (s : Int)
            ).get_predecessors.getD v (-1) = (p : Int) ∧
          edge ∈ g.adj.getD p [] ∧ edge.target = v ∧
          (HybridEngine.compute_parallel g (HybridEngine.new g) (s : Int)
            ).get_distances.getD p none = some dp ∧
          (HybridEngine.compute_parallel g (HybridEngine.new g) (s : Int)
            ).get_distances.getD v none = some (dp + edge.weights.headD 0)) := by
  have htrue := fun v => HybridEngine.compute_parallel_true g (HybridEngine.new g) s hwf hnn hs
    (by simp [HybridEngine.new]) v
  have htree : HybridEngine.TreeInv g s
      (HybridEngine.compute_parallel g (HybridEngine.new g) (s : Int)) := by
    rw [HybridEngine.compute_parallel_eq g _ s hs]
    exact HybridEngine.rounds_tree g hwf hnn s _ _ (HybridEngine.fresh_tree g s hs)
  obtain ⟨_, hl2, _, _, hps, hall⟩ := htree
  refine ⟨hl2, hps, ?_⟩
  intro v _
  unfold HybridEngine.get_predecessors HybridEngine.get_distances
  refine ⟨?_, ?_⟩
  · intro hnr
    have hvs : v ≠ s := by
      intro h
      exact hnr ⟨0, h ▸ Walk.nil⟩
    rcases hall v hvs with h1 | ⟨p, edge, dp, _, h2, h3, h4, h5⟩
    · exact h1.1
    · exfalso
      obtain ⟨x, hx, _⟩ := (Dist.le_some_iff _ _).1 h5
      have hp := htrue p
      rw [hx] at hp
      exact hnr ⟨_, h3 ▸ Walk.snoc edge hp.1 h2⟩
  · intro hr hvs
    rcases hall v hvs with h1 | ⟨p, edge, dp, h1, h2, h3, h4, h5⟩
    · exfalso
      have hv := htrue v
      rw [h1.2] at hv
      exact hv hr
    · obtain ⟨x, hx, hxle⟩ := (Dist.le_some_iff _ _).1 h5
      have hp := htrue p
      rw [hx] at hp
      have hv := htrue v
      rw [h4] at hv
      have hwalk : Walk g s v (x + edge.weights.headD 0) := h3 ▸ Walk.snoc edge hp.1 h2
      have hmin := hv.2 _ hwalk
      have hxdp : x = dp := by omega
      have hpn : p < g.node_count := by
        by_contra hcon
        rw [getD_beyond _ _ _ (by rw [hwf.1]; omega)] at h2
        cases h2
      exact ⟨p, edge, dp, hpn, h1, h2, h3, by rw [hx, hxdp], h4⟩

theorem predecessors_are_tight_witness :
    (HybridEngine.compute_parallel cycle_graph (HybridEngine.new cycle_graph)
      ((0 : Nat) : Int)).get_predecessors.length = cycle_graph.node_count ∧
    (HybridEngine.compute_parallel cycle_graph (HybridEngine.new cycle_graph)
      ((0 : Nat) : Int)).get_predecessors.getD 0 (-1) = -1 ∧
    ∀ v : Nat, v < cycle_graph.node_count →
      (¬ Reachable cycle_graph 0 v →
        (HybridEngine.compute_parallel cycle_graph (HybridEngine.new cycle_graph)
          ((0 : Nat) : Int)).get_predecessors.getD v (-1) = -1) ∧
      (Reachable cycle_graph 0 v → v ≠ 0 →
        ∃ (p : Nat) (edge : Edge) (dp : Int), p < cycle_graph.node_count ∧
          (HybridEngine.compute_parallel cycle_graph (HybridEngine.new cycle_graph)
            ((0 : Nat) : Int)).get_predecessors.getD v (-1) = (p : Int) ∧
          edge ∈ cycle_graph.adj.getD p [] ∧ edge.target = v ∧
          (HybridEngine.compute_parallel cycle_graph (HybridEngine.new cycle_graph)
            ((0 : Nat) : Int)).get_distances.getD p none = some dp ∧
          (HybridEngine.compute_parallel cycle_graph (HybridEngine.new cycle_graph)
            ((0 : Nat) : Int)).get_distances.getD v none
              = some (dp + edge.weights.headD 0)) :=
  predecessors_are_tight cycle_graph (by decide) (by decide) 0 (by decide)

/-- The driver's graph from source 0: distances and predecessors. -/
theorem cycle_graph_tree :
    (HybridEngine.compute_parallel cycle_graph (HybridEngine.new cycle_graph) 0).get_distances
      = [some 0, some 4, some 2, some 3] ∧
    (HybridEngine.compute_parallel cycle_graph (HybridEngine.new cycle_graph) 0).get_predecessors
      = [-1, 0, 0, 2] := by
  decide

end PDC

/-! ## sosp2.hpp: the serial baseline -/

namespace PDC

/-- A loop in which every step keeps `I`, establishes `Q x` for its element and
keeps every `Q` already established. -/
theorem foldl_establish {σ α : Type} (f : σ → α → σ) (I : σ → Prop) (Q : α → σ → Prop)
    (l : List α)
    (hI : ∀ s x, x ∈ l → I s → I (f s x))
    (hQ : ∀ s x, x ∈ l → I s → Q x (f s x))
    (hmono : ∀ s x y, y ∈ l → I s → Q x s → Q x (f s y))
    (s0 : σ) (h0 : I s0) : I (l.foldl f s0) ∧ ∀ x ∈ l, Q x (l.foldl f s0) := by
  induction l generalizing s0 with
  | nil => exact ⟨h0, fun x hx => (by cases hx)⟩
  | cons y ys ih =>
    simp only [List.foldl_cons]
    have hI1 := hI s0 y (List.mem_cons_self _ _) h0
    obtain ⟨h1, h2⟩ := ih (fun s x hx => hI s x (List.mem_cons_of_mem _ hx))
      (fun s x hx => hQ s x (List.mem_cons_of_mem _ hx))
      (fun s x z hz => hmono s x z (List.mem_cons_of_mem _ hz)) (f s0 y) hI1
    refine ⟨h1, ?_⟩
    intro x hx
    rcases List.mem_cons.1 hx with heq | hx
    · rw [heq]
      have key : ∀ (zs : List α) (s : σ), (∀ z ∈ zs, z ∈ y :: ys) → I s → Q y s →
          Q y (zs.foldl f s) := by
        intro zs
        induction zs with
        | nil => intro s _ _ hq; exact hq
        | cons z zs ihz =>
          intro s hsub hs hq
          simp only [List.foldl_cons]
          exact ihz _ (fun w hw => hsub w (List.mem_cons_of_mem _ hw))
            (hI s z (hsub z (List.mem_cons_self _ _)) hs)
            (hmono s y z (hsub z (List.mem_cons_self _ _)) hs hq)
      exact key ys _ (fun z hz => List.mem_cons_of_mem _ hz) hI1
        (hQ s0 y (List.mem_cons_self _ _) h0)
    · exact h2 x hx

namespace SOSPEngine

theorem serial_edge_le (cur : Int) (st : List (Option Int) × Frontier) (edge : Edge) (v : Nat) :
    Dist.le ((serial_edge cur st edge).1.getD v none) (st.1.getD v none) := by
  unfold serial_edge
  dsimp only
  split
  · rename_i hlt
    by_cases hv : edge.target = v
    · subst hv
      by_cases hin : edge.target < st.1.length
      · simp only [getD_set_self _ _ _ _ hin]
        exact Dist.le_of_lt hlt
      · simp only [List.set_eq_of_length_le (Nat.le_of_not_lt hin)]
        exact Dist.le_refl _
    · simp only [getD_set_other _ _ _ _ _ hv]
      exact Dist.le_refl _
  · exact Dist.le_refl _

/-- One relaxation of an edge of the node `u` being expanded keeps the invariant
and the distance of `u`, does not raise the measure, and leaves the edge relaxed. -/
theorem serial_edge_step (g : DynamicGraph) (hwf : g.WellFormed) (hnn : g.NonNegWeights)
    (s u : Nat) (d : Int) (hwalk : Walk g s u d) (st : List (Option Int) × Frontier)
    (edge : Edge) (hedge : edge ∈ g.adj.getD u [])
    (h : SerialInv g s (some u) st.1 st.2) (hu : st.1.getD u none = some d) :
    SerialInv g s (some u) (serial_edge d st edge).1 (serial_edge d st edge).2 ∧
    (serial_edge d st edge).1.getD u none = some d ∧
    LexLe (serial_measure (serial_edge d st edge)) (serial_measure st) ∧
    Dist.le ((serial_edge d st edge).1.getD edge.target none)
      (some (d + edge.weights.headD 0)) := by
  obtain ⟨hlen, hq, hsound, hsrc, hpend⟩ := h
  obtain ⟨ht, _⟩ := hwf.edge_ok u edge hedge
  have hw0 := hnn.edge_nonneg u edge hedge
  have hle := serial_edge_le d st edge
  have hnew : Walk g s edge.target (d + edge.weights.headD 0) := Walk.snoc edge hwalk hedge
  unfold serial_edge at hle ⊢
  dsimp only at hle ⊢
  by_cases hlt : Dist.lt (some (d + edge.weights.headD 0)) (st.1.getD edge.target none) = true
  · rw [if_pos hlt] at hle ⊢
    dsimp only at hle ⊢
    have htu : edge.target ≠ u := by
      intro heq
      rw [heq, hu] at hlt
      simp only [Dist.lt, decide_eq_true_eq] at hlt
      omega
    have hself : (st.1.set edge.target (some (d + edge.weights.headD 0))).getD edge.target none
        = some (d + edge.weights.headD 0) := getD_set_self _ _ _ _ (by omega)
    refine ⟨⟨by rw [List.length_set]; exact hlen, ?_, ?_, ?_, ?_⟩, ?_, ?_, ?_⟩
    · intro p hp
      rcases (Frontier.mem_push _ _ _).1 hp with rfl | hp
      · refine ⟨ht, hnew, ?_⟩
        dsimp only
        rw [hself]
        exact Dist.le_refl _
      · obtain ⟨h1, h2, h3⟩ := hq p hp
        exact ⟨h1, h2, Dist.le_trans (hle p.2) h3⟩
    · intro v dv hv
      by_cases hvt : edge.target = v
      · subst hvt
        rw [hself] at hv
        cases hv
        exact hnew
      · rw [getD_set_other _ _ _ _ _ hvt] at hv
        exact hsound v dv hv
    · exact Dist.le_trans (hle s) hsrc
    · intro x dx hx hdx
      by_cases hxt : edge.target = x
      · subst hxt
        rw [hself] at hdx
        cases hdx
        exact Or.inl ((Frontier.mem_push _ _ _).2 (Or.inl rfl))
      · rw [getD_set_other _ _ _ _ _ hxt] at hdx
        rcases hpend x dx hx hdx with h1 | h1
        · exact Or.inl ((Frontier.mem_push _ _ _).2 (Or.inr h1))
        · exact Or.inr (fun e he => Dist.le_trans (hle e.target) (h1 e he))
    · rw [getD_set_other _ _ _ _ _ htu]
      exact hu
    · cases hold : st.1.getD edge.target none with
      | none =>
        left
        have := infCount_set_none st.1 edge.target (d + edge.weights.headD 0) hold (by omega)
        simp only [serial_measure]
        omega
      | some old =>
        right
        have h1 := infCount_set_some st.1 edge.target (d + edge.weights.headD 0) old hold
        have h2 := finSum_set_some st.1 edge.target (d + edge.weights.headD 0) old hold
        have h3 : 0 ≤ old := Walk.nonneg hnn (hsound _ _ hold)
        have h4 : 0 ≤ d := Walk.nonneg hnn hwalk
        rw [hold] at hlt
        simp only [Dist.lt, decide_eq_true_eq] at hlt
        simp only [serial_measure, Frontier.length_push]
        refine ⟨h1, ?_⟩
        omega
    · rw [hself]
      exact Dist.le_refl _
  · rw [if_neg hlt]
    refine ⟨⟨hlen, hq, hsound, hsrc, hpend⟩, hu, LexLe.refl _, ?_⟩
    simpa [Dist.le] using hlt

/-- Total correctness of the loop: from every state satisfying the invariant it
returns, in a state that satisfies the invariant with an empty queue. -/
theorem serial_loop_terminates (g : DynamicGraph) (hwf : g.WellFormed)
    (hnn : g.NonNegWeights) (s : Nat) :
    ∀ a b distances q, SerialInv g s none distances q →
      serial_measure (distances, q) = (a, b) →
      ∃ fuel result, serial_loop g fuel distances q = some result ∧
        SerialInv g s none result [] := by
  intro a
  induction a using Nat.strong_induction_on with
  | _ a iha =>
    intro b
    induction b using Nat.strong_induction_on with
    | _ b ihb =>
      intro distances q hI hm
      cases q with
      | nil => exact ⟨1, distances, rfl, hI⟩
      | cons p rest =>
        obtain ⟨d, u⟩ := p
        obtain ⟨hlen, hq, hsound, hsrc, hpend⟩ := hI
        obtain ⟨hun, hwalk, hkey⟩ := hq (d, u) (List.mem_cons_self _ _)
        have hu : u < g.adj.length := by rw [hwf.1]; exact hun
        simp only [serial_measure, List.length_cons, Prod.mk.injEq] at hm
        by_cases hstale : Dist.lt (distances.getD u none) (some d) = true
        · have hI2 : SerialInv g s none distances rest := by
            refine ⟨hlen, fun p hp => hq p (List.mem_cons_of_mem _ hp), hsound, hsrc, ?_⟩
            intro x dx hx hdx
            rcases hpend x dx hx hdx with h1 | h1
            · rcases List.mem_cons.1 h1 with h2 | h2
              · simp only [Prod.mk.injEq] at h2
                rw [← h2.2, hdx, h2.1, Dist.lt_irrefl] at hstale
                cases hstale
              · exact Or.inl h2
            · exact Or.inr h1
          obtain ⟨fuel, r, h, hr⟩ := ihb (b - 1) (by omega) _ rest hI2
            (by simp only [serial_measure, Prod.mk.injEq]; omega)
          exact ⟨fuel + 1, r, by simp only [serial_loop, hstale, if_true]; exact h, hr⟩
        · have hdu : distances.getD u none = some d := by
            obtain ⟨x, hx, hxle⟩ := (Dist.le_some_iff _ _).1 hkey
            rw [hx] at hstale ⊢
            simp only [Dist.lt, decide_eq_true_eq] at hstale
            have : x = d := by omega
            rw [this]
          have hI0 : SerialInv g s (some u) distances rest := by
            refine ⟨hlen, fun p hp => hq p (List.mem_cons_of_mem _ hp), hsound, hsrc, ?_⟩
            intro x dx hx hdx
            rcases hpend x dx (by simp) hdx with h1 | h1
            · rcases List.mem_cons.1 h1 with h2 | h2
              · simp only [Prod.mk.injEq] at h2
                exact absurd (by rw [h2.2]) hx
              · exact Or.inl h2
            · exact Or.inr h1
          have hfold := foldl_establish (serial_edge d)
            (fun st : List (Option Int) × Frontier => SerialInv g s (some u) st.1 st.2 ∧
              st.1.getD u none = some d ∧ LexLe (serial_measure st) (a, b - 1))
            (fun e st => Dist.le (st.1.getD e.target none) (some (d + e.weights.headD 0)))
            (g.adj.getD u [])
            (fun st e he hst =>
              have hstep := serial_edge_step g hwf hnn s u d hwalk st e he hst.1 hst.2.1
              ⟨hstep.1, hstep.2.1, LexLe.trans hstep.2.2.1 hst.2.2⟩)
            (fun st e he hst =>
              (serial_edge_step g hwf hnn s u d hwalk st e he hst.1 hst.2.1).2.2.2)
            (fun st e y _ _ hq => Dist.le_trans (serial_edge_le d st y e.target) hq)
            (distances, rest)
            ⟨hI0, hdu, by simp only [serial_measure, LexLe]; right; constructor <;> omega⟩
          obtain ⟨⟨hI2, hdu2, hlex⟩, hrel⟩ := hfold
          have hI3 : SerialInv g s none
              ((g.adj.getD u []).foldl (serial_edge d) (distances, rest)).1
              ((g.adj.getD u []).foldl (serial_edge d) (distances, rest)).2 := by
            obtain ⟨k1, k2, k3, k4, k5⟩ := hI2
            refine ⟨k1, k2, k3, k4, ?_⟩
            intro x dx _ hdx
            by_cases hxu : x = u
            · subst hxu
              rw [hdu2] at hdx
              cases hdx
              exact Or.inr hrel
            · exact k5 x dx (by simpa using hxu) hdx
          have hrec : ∃ fuel result, serial_loop g fuel
              ((g.adj.getD u []).foldl (serial_edge d) (distances, rest)).1
              ((g.adj.getD u []).foldl (serial_edge d) (distances, rest)).2 = some result ∧
              SerialInv g s none result [] := by
            rcases hlex with hlt | ⟨heq, hle⟩
            · exact iha _ hlt _ _ _ hI3 rfl
            · simp only at heq hle
              rcases Nat.lt_or_ge (serial_measure ((g.adj.getD u []).foldl (serial_edge d)
                (distances, rest))).2 b with hlt | hge
              · exact ihb _ hlt _ _ hI3 (Prod.ext heq rfl)
              · omega
          obtain ⟨fuel, r, h, hr⟩ := hrec
          refine ⟨fuel + 1, r, ?_, hr⟩
          simp only [serial_loop, hstale, get_edges_natCast g u hu]
          exact h

theorem serial_loop_fuel (g : DynamicGraph) :
    ∀ fuel distances q r, serial_loop g fuel distances q = some r →
      ∀ k, serial_loop g (fuel + k) distances q = some r := by
  intro fuel
  induction fuel with
  | zero => intro distances q r h; simp [serial_loop] at h
  | succ fuel ih =>
    intro distances q r h k
    have hk : fuel + 1 + k = (fuel + k) + 1 := by omega
    rw [hk]
    cases q with
    | nil => simpa [serial_loop] using h
    | cons p rest =>
      obtain ⟨d, u⟩ := p
      simp only [serial_loop] at h ⊢
      split
      · rename_i hst
        rw [if_pos hst] at h
        exact ih _ _ _ h k
      · rename_i hst
        rw [if_neg hst] at h
        split
        · rename_i err herr
          rw [herr] at h
          cases h
        · rename_i edges hok
          rw [hok] at h
          exact ih _ _ _ h k

/-- At an empty queue the invariant makes every distance a true distance. -/
theorem serial_inv_true (g : DynamicGraph) (s : Nat) (r : List (Option Int))
    (h : SerialInv g s none r []) (v : Nat) : IsTrueDistance g s v (r.getD v none) := by
  obtain ⟨_, _, hsound, hsrc, hpend⟩ := h
  have hbound : ∀ v d, Walk g s v d → Dist.le (r.getD v none) (some d) := by
    intro v d hw
    induction hw with
    | nil => exact hsrc
    | @snoc u d e _ he ih =>
      obtain ⟨x, hx, hxle⟩ := (Dist.le_some_iff _ _).1 ih
      rcases hpend u x (by simp) hx with h1 | h1
      · cases h1
      · refine Dist.le_trans (h1 e he) ?_
        simp only [Dist.le, Dist.lt, decide_eq_false_iff_not]
        omega
  cases hres : r.getD v none with
  | none =>
    rintro ⟨d, hw⟩
    have := hbound v d hw
    rw [hres] at this
    simp [Dist.le, Dist.lt] at this
  | some d =>
    refine ⟨hsound v d hres, ?_⟩
    intro d' hw
    have := hbound v d' hw
    rw [hres] at this
    simpa [Dist.le, Dist.lt] using this

theorem serial_init (g : DynamicGraph) (s : Nat) (hs : s < g.node_count) :
    SerialInv g s none ((List.replicate g.node_count (none : Option Int)).set s (some 0))
      [(0, s)] := by
  have hself : ((List.replicate g.node_count (none : Option Int)).set s (some 0)).getD s none
      = some 0 := getD_set_self _ _ _ _ (by simpa using hs)
  refine ⟨by simp, ?_, ?_, ?_, ?_⟩
  · intro p hp
    rw [List.mem_singleton] at hp
    subst hp
    refine ⟨hs, Walk.nil, ?_⟩
    dsimp only
    rw [hself]
    exact Dist.le_refl _
  · intro v d hv
    obtain ⟨rfl, rfl⟩ := init_getD _ _ _ _ hv
    exact Walk.nil
  · rw [hself]
    exact Dist.le_refl _
  · intro x dx _ hdx
    obtain ⟨rfl, rfl⟩ := init_getD _ _ _ _ hdx
    exact Or.inl (List.mem_singleton.2 rfl)

end SOSPEngine

/-- The exact layer: for a graph satisfying the class invariant with non-negative
first weights and a source below `node_count`, `compute_shortest_paths(source)` of
`sosp2.hpp` returns (for some bound on the iterations, and then for every larger
one, with the same vector); the vector has one entry per node, and the entry of
every node `v` is the least weight of a walk from the source to `v`, or the
sentinel when there is no walk. -/
theorem serial_baseline_shortest (g : DynamicGraph) (hwf : g.WellFormed)
    (hnn : g.NonNegWeights) (s : Nat) (hs : s < g.node_count) :
    ∃ fuel result, SOSPEngine.compute_shortest_paths g s fuel = some result ∧
      (∀ k, SOSPEngine.compute_shortest_paths g s (fuel + k) = some result) ∧
      (∀ fuel1 r1, SOSPEngine.compute_shortest_paths g s fuel1 = some r1 → r1 = result) ∧
      result.length = g.node_count ∧
      ∀ v, v < g.node_count → IsTrueDistance g s v (result.getD v none) := by
  obtain ⟨fuel, r, h, hr⟩ := SOSPEngine.serial_loop_terminates g hwf hnn s _ _ _ _
    (SOSPEngine.serial_init g s hs) rfl
  have hmore : ∀ k, SOSPEngine.compute_shortest_paths g s (fuel + k) = some r :=
    fun k => SOSPEngine.serial_loop_fuel g fuel _ _ r h k
  refine ⟨fuel, r, h, hmore, ?_, hr.1, fun v _ => SOSPEngine.serial_inv_true g s r hr v⟩
  intro fuel1 r1 h1
  have e1 := SOSPEngine.serial_loop_fuel g fuel1 _ _ r1 h1 fuel
  have e2 := hmore fuel1
  unfold SOSPEngine.compute_shortest_paths at e2
  rw [Nat.add_comm] at e1
  rw [e1] at e2
  exact Option.some.inj e2

theorem serial_baseline_shortest_witness :
    ∃ fuel result, SOSPEngine.compute_shortest_paths small_graph 0 fuel = some result ∧
      (∀ k, SOSPEngine.compute_shortest_paths small_graph 0 (fuel + k) = some result) ∧
      (∀ fuel1 r1, SOSPEngine.compute_shortest_paths small_graph 0 fuel1 = some r1 →
        r1 = result) ∧
      result.length = small_graph.node_count ∧
      ∀ v, v < small_graph.node_count → IsTrueDistance small_graph 0 v (result.getD v none) :=
  serial_baseline_shortest small_graph (by decide) (by decide) 0 (by decide)

/-- The serial baseline on the graph of `test_small_graph_shortest_path` and on the
graph of the drivers: node 4 of the first is at 5, where `SOSPEngine::compute` of
`sosp_engine.hpp` leaves 6. -/
theorem serial_baseline_examples :
    SOSPEngine.compute_shortest_paths small_graph 0 9
      = some [some 0, some 2, some 5, some 3, some 5, some 6] ∧
    SOSPEngine.compute_shortest_paths cycle_graph 0 9
      = some [some 0, some 4, some 2, some 3] := by
  decide

end PDC

/-! ## sosp_engine.hpp: `compute` expands every node at most once -/

namespace PDC

theorem Frontier.push_perm (k : Int × Nat) (q : Frontier) :
    (Frontier.push k q).Perm (k :: q) := by
  induction q with
  | nil => simp [Frontier.push]
  | cons x xs ih =>
    simp only [Frontier.push]
    split
    · exact List.Perm.refl _
    · exact (List.Perm.cons x ih).trans (List.Perm.swap k x xs)

theorem Frontier.push_nodup (k : Int × Nat) (q : Frontier) (hk : k.2 ∉ q.map Prod.snd)
    (h : (q.map Prod.snd).Nodup) : ((Frontier.push k q).map Prod.snd).Nodup := by
  have hp := (Frontier.push_perm k q).map Prod.snd
  rw [hp.nodup_iff, List.map_cons]
  exact List.nodup_cons.2 ⟨hk, h⟩

theorem Frontier.mem_push_snd (k : Int × Nat) (q : Frontier) (x : Nat) :
    x ∈ (Frontier.push k q).map Prod.snd ↔ x = k.2 ∨ x ∈ q.map Prod.snd := by
  have hp := (Frontier.push_perm k q).map Prod.snd
  rw [hp.mem_iff, List.map_cons, List.mem_cons]

namespace SOSPEngine

theorem remaining_degree_nil (g : DynamicGraph) (h : g.adj.length = g.node_count) :
    remaining_degree g (List.range g.node_count) [] = g.edge_count := by
  unfold remaining_degree DynamicGraph.edge_count
  have h1 : (List.range g.node_count).filter (fun x => decide (x ∉ ([] : List Nat))) =
      List.range g.node_count := by
    simp
  rw [h1, ← h]
  congr 1
  apply List.ext_getElem
  · simp
  · intro i h1 h2
    simp only [List.length_map, List.length_range] at h1
    simp [List.getD_eq_getElem?_getD, List.getElem?_eq_getElem h1]

theorem remaining_degree_cons (g : DynamicGraph) (x : Nat) (xs expanded : List Nat) :
    remaining_degree g (x :: xs) expanded =
      (if x ∉ expanded then (g.adj.getD x []).length else 0) +
        remaining_degree g xs expanded := by
  unfold remaining_degree
  by_cases hx : x ∉ expanded
  · rw [if_pos hx, List.filter_cons_of_pos (by simpa using hx), List.map_cons, List.sum_cons]
  · rw [if_neg hx, List.filter_cons_of_neg (by simpa using hx), Nat.zero_add]

theorem remaining_degree_other (g : DynamicGraph) (u : Nat) (expanded : List Nat) :
    ∀ l : List Nat, u ∉ l →
      remaining_degree g l (expanded ++ [u]) = remaining_degree g l expanded := by
  intro l
  induction l with
  | nil => intro _; rfl
  | cons x xs ih =>
    intro hu
    have hxu : x ≠ u := fun h => hu (h ▸ List.mem_cons_self _ _)
    have hxs : u ∉ xs := fun h => hu (List.mem_cons_of_mem _ h)
    rw [remaining_degree_cons, remaining_degree_cons, ih hxs]
    have hiff : x ∉ expanded ++ [u] ↔ x ∉ expanded := by
      simp [hxu]
    by_cases hx : x ∉ expanded
    · rw [if_pos hx, if_pos (hiff.2 hx)]
    · rw [if_neg hx, if_neg (fun h => hx (hiff.1 h))]

/-- Expanding a node takes its edges out of the count. -/
theorem remaining_degree_expand (g : DynamicGraph) (u : Nat) (expanded : List Nat)
    (hu : u ∉ expanded) :
    ∀ l : List Nat, l.Nodup → u ∈ l →
      remaining_degree g l (expanded ++ [u]) + (g.adj.getD u []).length =
        remaining_degree g l expanded := by
  intro l
  induction l with
  | nil => intro _ h; cases h
  | cons x xs ih =>
    intro hnd hmem
    obtain ⟨hx, hxs⟩ := List.nodup_cons.1 hnd
    rw [remaining_degree_cons, remaining_degree_cons]
    by_cases hxu : x = u
    · subst hxu
      rw [remaining_degree_other g x expanded xs hx, if_pos hu,
        if_neg (fun h => h (List.mem_append_right _ (List.mem_singleton_self _)))]
      omega
    · have hmem1 : u ∈ xs := by
        rcases List.mem_cons.1 hmem with h | h
        · exact absurd h.symm hxu
        · exact h
      have hiff : x ∉ expanded ++ [u] ↔ x ∉ expanded := by
        simp [hxu]
      have := ih hxs hmem1
      by_cases hxe : x ∉ expanded
      · rw [if_pos hxe, if_pos (hiff.2 hxe)]
        omega
      · rw [if_neg hxe, if_neg (fun h => hxe (hiff.1 h))]
        omega

theorem relax_edge_queue_length (u : Nat) (cur : Int) (st : SOSPEngine × Frontier)
    (edge : Edge) :
    st.2.length ≤ (relax_edge u cur st edge).2.length ∧
      (relax_edge u cur st edge).2.length ≤ st.2.length + 1 := by
  unfold relax_edge
  dsimp only
  split
  · split
    · dsimp only
      rw [Frontier.length_push]
      omega
    · dsimp only
      omega
  · omega

theorem fold_queue_length (u : Nat) (cur : Int) (edges : List Edge) :
    ∀ st : SOSPEngine × Frontier,
      st.2.length ≤ (edges.foldl (relax_edge u cur) st).2.length ∧
        (edges.foldl (relax_edge u cur) st).2.length ≤ st.2.length + edges.length := by
  induction edges with
  | nil => intro st; simp
  | cons x xs ih =>
    intro st
    simp only [List.foldl_cons, List.length_cons]
    have h1 := relax_edge_queue_length u cur st x
    have h2 := ih (relax_edge u cur st x)
    omega

/-- One edge of the node being expanded keeps the invariant; `m` is the key the
node was popped with. -/
theorem relax_edge_once (g : DynamicGraph) (m : Int) (expanded : List Nat) (u : Nat)
    (st : SOSPEngine × Frontier) (edge : Edge) (ht : edge.target < g.node_count)
    (hw : 0 ≤ edge.weights.headD 0) (h : OnceInv g m expanded st.1 st.2) :
    OnceInv g m expanded (relax_edge u m st edge).1 (relax_edge u m st edge).2 := by
  obtain ⟨hd, hf, hsort, hkey, hexp, hnd, hent, hen⟩ := h
  unfold relax_edge
  dsimp only
  by_cases hlt : Dist.lt (some (m + edge.weights.headD 0))
      (st.1.distances.getD edge.target none) = true
  · rw [if_pos hlt]
    have hte : edge.target ∉ expanded := by
      intro hx
      obtain ⟨x, hx1, hx2⟩ := (Dist.le_some_iff _ _).1 (hexp _ hx).2.1
      have := (Dist.lt_some_iff _ _).1 hlt x hx1
      omega
    have hle : ∀ v, Dist.le
        ((st.1.distances.set edge.target (some (m + edge.weights.headD 0))).getD v none)
        (st.1.distances.getD v none) := by
      intro v
      by_cases hv : edge.target = v
      · subst hv
        rw [getD_set_self _ _ _ _ (by rw [hd]; exact ht)]
        exact Dist.le_of_lt hlt
      · rw [getD_set_other _ _ _ _ _ hv]
        exact Dist.le_refl _
    by_cases hflag : st.1.in_queue.getD edge.target false = false
    · rw [if_pos hflag]
      dsimp only
      have htq : edge.target ∉ st.2.map Prod.snd := by
        intro hx
        obtain ⟨p, hp, hpe⟩ := List.mem_map.1 hx
        have := (hent p hp).2.1
        rw [hpe, hflag] at this
        cases this
      refine ⟨?_, ?_, Frontier.push_sorted _ _ hsort, ?_, ?_, ?_, ?_, hen⟩
      · rw [List.length_set]; exact hd
      · rw [List.length_set]; exact hf
      · intro p hp
        rcases (Frontier.mem_push _ _ _).1 hp with rfl | hp
        · dsimp only; omega
        · exact hkey p hp
      · intro x hx
        refine ⟨(hexp x hx).1, Dist.le_trans (hle x) (hexp x hx).2.1, ?_⟩
        intro hmem
        rcases (Frontier.mem_push_snd _ _ _).1 hmem with h1 | h1
        · have h2 : x = edge.target := h1
          rw [h2] at hx
          exact hte hx
        · exact (hexp x hx).2.2 h1
      · exact Frontier.push_nodup _ _ htq hnd
      · intro p hp
        rcases (Frontier.mem_push _ _ _).1 hp with rfl | hp
        · dsimp only
          refine ⟨ht, getD_set_self _ _ _ _ (by rw [hf]; exact ht), ?_⟩
          rw [getD_set_self _ _ _ _ (by rw [hd]; exact ht)]
          exact Dist.le_refl _
        · refine ⟨(hent p hp).1, ?_, Dist.le_trans (hle _) (hent p hp).2.2⟩
          by_cases hpt : edge.target = p.2
          · rw [hpt]
            exact getD_set_self _ _ _ _ (by rw [hf]; exact (hent p hp).1)
          · rw [getD_set_other _ _ _ _ _ hpt]
            exact (hent p hp).2.1
    · rw [if_neg hflag]
      dsimp only
      refine ⟨?_, hf, hsort, hkey, ?_, hnd, ?_, hen⟩
      · rw [List.length_set]; exact hd
      · intro x hx
        exact ⟨(hexp x hx).1, Dist.le_trans (hle x) (hexp x hx).2.1, (hexp x hx).2.2⟩
      · intro p hp
        exact ⟨(hent p hp).1, (hent p hp).2.1, Dist.le_trans (hle _) (hent p hp).2.2⟩
  · rw [if_neg hlt]
    exact ⟨hd, hf, hsort, hkey, hexp, hnd, hent, hen⟩

/-- Popping the head `(d, u)`: the node was not expanded before, and the invariant
holds for the rest with `d` as the last key, whether or not `u` is expanded now. -/
theorem once_pop (g : DynamicGraph) (m : Int) (expanded : List Nat) (e : SOSPEngine)
    (d : Int) (u : Nat) (rest : Frontier) (h : OnceInv g m expanded e ((d, u) :: rest)) :
    u < g.node_count ∧ u ∉ expanded ∧
      OnceInv g d expanded { e with in_queue := e.in_queue.set u false } rest ∧
      OnceInv g d (expanded ++ [u]) { e with in_queue := e.in_queue.set u false } rest := by
  obtain ⟨hd, hf, hsort, hkey, hexp, hnd, hent, hen⟩ := h
  obtain ⟨hhead, hsort1⟩ := List.pairwise_cons.1 hsort
  rw [List.map_cons] at hnd
  obtain ⟨hu1, hnd1⟩ := List.nodup_cons.1 hnd
  have hmd : m ≤ d := hkey (d, u) (List.mem_cons_self _ _)
  obtain ⟨hun, -, hdu⟩ := hent (d, u) (List.mem_cons_self _ _)
  dsimp only at hu1 hun hdu
  have hue : u ∉ expanded := by
    intro hx
    exact (hexp u hx).2.2 (by rw [List.map_cons]; exact List.mem_cons_self _ _)
  have hkey1 : ∀ p ∈ rest, d ≤ p.1 := by
    intro p hp
    have := hhead p hp
    simp only [Frontier.key_le, Bool.or_eq_true, Bool.and_eq_true, decide_eq_true_eq] at this
    omega
  have hent1 : ∀ p ∈ rest, p.2 < g.node_count ∧
      (e.in_queue.set u false).getD p.2 false = true ∧
      Dist.le (e.distances.getD p.2 none) (some p.1) := by
    intro p hp
    obtain ⟨h1, h2, h3⟩ := hent p (List.mem_cons_of_mem _ hp)
    refine ⟨h1, ?_, h3⟩
    have hne : u ≠ p.2 := by
      intro hx
      exact hu1 (hx ▸ List.mem_map_of_mem Prod.snd hp)
    rw [getD_set_other _ _ _ _ _ hne]
    exact h2
  have hexp1 : ∀ x ∈ expanded, x < g.node_count ∧
      Dist.le (e.distances.getD x none) (some d) ∧ x ∉ rest.map Prod.snd := by
    intro x hx
    obtain ⟨h1, h2, h3⟩ := hexp x hx
    refine ⟨h1, ?_, ?_⟩
    · obtain ⟨y, hy1, hy2⟩ := (Dist.le_some_iff _ _).1 h2
      exact (Dist.le_some_iff _ _).2 ⟨y, hy1, by omega⟩
    · intro hmem
      exact h3 (by rw [List.map_cons]; exact List.mem_cons_of_mem _ hmem)
  refine ⟨hun, hue, ⟨hd, ?_, hsort1, hkey1, hexp1, hnd1, hent1, hen⟩,
    ⟨hd, ?_, hsort1, hkey1, ?_, hnd1, hent1, ?_⟩⟩
  · dsimp only
    rw [List.length_set]; exact hf
  · dsimp only
    rw [List.length_set]; exact hf
  · intro x hx
    rcases List.mem_append.1 hx with hx | hx
    · exact hexp1 x hx
    · rw [List.mem_singleton] at hx
      subst hx
      exact ⟨hun, hdu, hu1⟩
  · rw [List.nodup_append]
    refine ⟨hen, List.nodup_singleton _, ?_⟩
    intro a ha hb
    rw [List.mem_singleton] at hb
    subst hb
    exact hue ha

/-- The record does not change what the loop computes. -/
theorem compute_loop_trace_erase (g : DynamicGraph) :
    ∀ fuel e q t,
      (compute_loop_trace g fuel e q t).map Prod.fst = compute_loop g fuel e q := by
  intro fuel
  induction fuel with
  | zero => intro e q t; rfl
  | succ fuel ih =>
    intro e q t
    cases q with
    | nil => rfl
    | cons p rest =>
      obtain ⟨d, u⟩ := p
      simp only [compute_loop_trace, compute_loop]
      split
      · exact ih _ _ _
      · cases hedges : g.get_edges (u : Int) with
        | error err => rfl
        | ok edges => exact ih _ _ _

/-- The loop returns within `frontier size + edges of nodes not yet expanded + 1`
iterations, without expanding a node twice and with at most `1 + edge_count`
pushes overall. -/
theorem compute_loop_trace_once (g : DynamicGraph) (hwf : g.WellFormed)
    (hnn : g.NonNegWeights) :
    ∀ fuel e q t m, OnceInv g m t.expanded e q →
      t.pushes + remaining_degree g (List.range g.node_count) t.expanded ≤
        1 + g.edge_count →
      q.length + remaining_degree g (List.range g.node_count) t.expanded < fuel →
      ∃ e' t', compute_loop_trace g fuel e q t = some (e', t') ∧ t'.expanded.Nodup ∧
        (∀ x ∈ t'.expanded, x < g.node_count) ∧ t'.pushes ≤ 1 + g.edge_count := by
  intro fuel
  induction fuel with
  | zero => intro e q t m _ _ h; omega
  | succ fuel ih =>
    intro e q t m hinv hpush hfuel
    cases q with
    | nil =>
      refine ⟨e, t, rfl, hinv.2.2.2.2.2.2.2, fun x hx => (hinv.2.2.2.2.1 x hx).1, ?_⟩
      omega
    | cons p rest =>
      obtain ⟨d, u⟩ := p
      obtain ⟨hun, hue, hstale, hexpand⟩ := once_pop g m t.expanded e d u rest hinv
      simp only [compute_loop_trace]
      simp only [List.length_cons] at hfuel
      split
      · exact ih _ rest t d hstale hpush (by omega)
      · have hu : u < g.adj.length := by rw [hwf.1]; exact hun
        rw [get_edges_natCast g u hu]
        dsimp only
        have hfold : OnceInv g d (t.expanded ++ [u])
            ((g.adj.getD u []).foldl (relax_edge u d)
              ({ e with in_queue := e.in_queue.set u false }, rest)).1
            ((g.adj.getD u []).foldl (relax_edge u d)
              ({ e with in_queue := e.in_queue.set u false }, rest)).2 := by
          refine foldl_preserves
            (fun st : SOSPEngine × Frontier => OnceInv g d (t.expanded ++ [u]) st.1 st.2)
            (relax_edge u d) (g.adj.getD u []) ?_ _ hexpand
          intro st edge hedge hst
          obtain ⟨es, hes, hmem⟩ := mem_getD_nil _ _ _ hedge
          exact relax_edge_once g d _ u st edge (hwf.2 es hes edge hmem).1
            (hnn es hes edge hmem) hst
        have hlen := fold_queue_length u d (g.adj.getD u [])
          ({ e with in_queue := e.in_queue.set u false }, rest)
        dsimp only at hlen
        have hrem := remaining_degree_expand g u t.expanded hue (List.range g.node_count)
          (List.nodup_range _) (List.mem_range.2 hun)
        refine ih _ _ _ d hfold ?_ ?_
        · dsimp only
          omega
        · dsimp only
          omega

end SOSPEngine

/-- C34. For a well-formed graph with non-negative first weights, an engine built
for it and a valid source, the single-worker run of `compute(source)` returns
within `edge_count + 2` iterations of its loop, the last of which finds the
frontier empty; no node is expanded twice, and at most `1 + edge_count` entries
are pushed onto the frontier. -/
theorem compute_expands_each_node_once (g : DynamicGraph) (hwf : g.WellFormed)
    (hnn : g.NonNegWeights) (e : SOSPEngine) (hq : e.in_queue.length = g.node_count)
    (s : Nat) (hs : s < g.node_count) :
    ∃ e' t, SOSPEngine.compute_trace g e s (g.edge_count + 2) = some (e', t) ∧
      (∀ k, SOSPEngine.compute g e s (g.edge_count + 2 + k) = some e') ∧
      t.expanded.Nodup ∧ (∀ x ∈ t.expanded, x < g.node_count) ∧
      t.pushes ≤ 1 + g.edge_count := by
  have hinit : SOSPEngine.OnceInv g 0 []
      { distances := (List.replicate g.node_count (none : Option Int)).set s (some 0),
        predecessors := List.replicate g.node_count (-1),
        in_queue := (e.in_queue.map fun _ => false).set s true } [(0, s)] := by
    refine ⟨by simp, by simp [hq], by simp, ?_, ?_, by simp, ?_, List.nodup_nil⟩
    · intro p hp
      rw [List.mem_singleton] at hp
      subst hp
      exact Int.le_refl _
    · intro x hx
      cases hx
    · intro p hp
      rw [List.mem_singleton] at hp
      subst hp
      dsimp only
      refine ⟨hs, getD_set_self _ _ _ _ (by simp [hq, hs]), ?_⟩
      rw [getD_set_self _ _ _ _ (by simp [hs])]
      exact Dist.le_refl _
  have hrem := SOSPEngine.remaining_degree_nil g hwf.1
  obtain ⟨e', t, hrun, hnd, hlt, hp⟩ := SOSPEngine.compute_loop_trace_once g hwf hnn
    (g.edge_count + 2) _ [(0, s)] { expanded := [], pushes := 1 } 0 hinit
    (by dsimp only; omega) (by simp only [List.length_singleton]; omega)
  refine ⟨e', t, hrun, ?_, hnd, hlt, hp⟩
  have hc : SOSPEngine.compute g e s (g.edge_count + 2) = some e' := by
    unfold SOSPEngine.compute
    dsimp only
    rw [← SOSPEngine.compute_loop_trace_erase g _ _ _ { expanded := [], pushes := 1 }, hrun]
    rfl
  intro k
  exact SOSPEngine.compute_loop_fuel g _ _ _ _ hc k

theorem compute_expands_each_node_once_witness :
    ∃ e' t, SOSPEngine.compute_trace small_graph (SOSPEngine.new small_graph) 0
        (small_graph.edge_count + 2) = some (e', t) ∧
      (∀ k, SOSPEngine.compute small_graph (SOSPEngine.new small_graph) 0
        (small_graph.edge_count + 2 + k) = some e') ∧
      t.expanded.Nodup ∧ (∀ x ∈ t.expanded, x < small_graph.node_count) ∧
      t.pushes ≤ 1 + small_graph.edge_count :=
  compute_expands_each_node_once small_graph (by decide) (by decide)
    (SOSPEngine.new small_graph) (by decide) 0 (by decide)

/-- The run on the graph of `test_small_graph_shortest_path` from node 0: five of
the six nodes are expanded, once each, and six entries are pushed. -/
theorem small_graph_trace :
    (SOSPEngine.compute_trace small_graph (SOSPEngine.new small_graph) 0 10).map
      (fun r => (r.2.expanded, r.2.pushes)) = some ([0, 1, 2, 4, 5], 6) := by
  decide

end PDC

/-! ## Binary64: sums below `2 ^ 53` are exact -/

namespace PDC
namespace Double

theorem of_int_small (x : Int) (h0 : 0 ≤ x) (h : x < 2 ^ 53) : of_int x = fin x := by
  have hn : x.natAbs < 2 ^ 53 := by omega
  unfold of_int round_nat
  rw [if_pos hn]
  have h2 : ¬ (2 ^ 1024 ≤ x.natAbs) := by
    have : (2 : Nat) ^ 53 ≤ 2 ^ 1024 := by
      set_option exponentiation.threshold 2000 in
      exact Nat.pow_le_pow_right (by norm_num) (by norm_num)
    set_option exponentiation.threshold 2000 in omega
  dsimp only
  rw [if_neg h2, if_pos h0]
  congr 1
  omega

theorem add_fin (x y : Int) (h0 : 0 ≤ x + y) (h : x + y < 2 ^ 53) :
    add (fin x) (fin y) = fin (x + y) := by
  show of_int (x + y) = fin (x + y)
  exact of_int_small _ h0 h

theorem max_large : (2 : Int) ^ 53 ≤ (((2 ^ 53 - 1) * 2 ^ 971 : Nat) : Int) := by
  have h1 : (2 : Nat) ^ 53 ≤ 2 ^ 971 := by
    set_option exponentiation.threshold 2000 in
    exact Nat.pow_le_pow_right (by norm_num) (by norm_num)
  have h2 : (2 : Nat) ^ 971 ≤ (2 ^ 53 - 1) * 2 ^ 971 := by
    set_option exponentiation.threshold 2000 in exact Nat.le_mul_of_pos_left _ (by norm_num)
  have h3 : (2 : Nat) ^ 53 ≤ (2 ^ 53 - 1) * 2 ^ 971 := le_trans h1 h2
  exact_mod_cast h3

/-- Against a value below `2 ^ 53` the comparison of the cells is the comparison of
the exact layer. -/
theorem lt_of_dist (x : Int) (b : Option Int) (h : x < 2 ^ 53) :
    lt (fin x) (of_dist b) = Dist.lt (some x) b := by
  cases b with
  | none =>
    have := max_large
    simp only [of_dist, DBL_MAX, lt, Dist.lt, decide_eq_true_eq]
    omega
  | some y => rfl

theorem of_dist_ne_max (y : Int) (h : y < 2 ^ 53) : of_dist (some y) ≠ DBL_MAX := by
  have := max_large
  simp only [of_dist, DBL_MAX, ne_eq, fin.injEq]
  omega

theorem getD_of_dist (l : List (Option Int)) (i : Nat) :
    (l.map of_dist).getD i DBL_MAX = of_dist (l.getD i none) := by
  simp [List.getD_eq_getElem?_getD, List.getElem?_map]
  cases l[i]? <;> rfl

theorem set_of_dist (l : List (Option Int)) (i : Nat) (a : Option Int) :
    (l.map of_dist).set i (of_dist a) = (l.set i a).map of_dist := by
  rw [List.map_set]

end Double
end PDC

/-! ## Stored distances stay below `node_count * W` -/

namespace PDC

theorem Hops.init (n : Nat) (W : Int) (s : Nat) (hs : s < n) :
    Hops n W ((List.replicate n (none : Option Int)).set s (some 0)) := by
  intro v D hv
  have hself : ((List.replicate n (none : Option Int)).set s (some 0)).getD s none = some 0 :=
    getD_set_self _ _ _ _ (by simpa using hs)
  have hvD : v = s ∧ D = 0 := by
    by_cases hsv : s = v
    · subst hsv
      rw [hself] at hv
      exact ⟨rfl, (Option.some.inj hv).symm⟩
    · rw [getD_set_other _ _ _ _ _ hsv] at hv
      simp [List.getD_eq_getElem?_getD, List.getElem?_replicate] at hv
      split at hv <;> cases hv
  obtain ⟨rfl, rfl⟩ := hvD
  refine ⟨le_refl _, [(v, 0)], by simp, ?_, by simp⟩
  intro p hp
  rw [List.mem_singleton] at hp
  subst hp
  dsimp only
  rw [hself]
  exact ⟨hs, Dist.le_refl _, le_refl _⟩

/-- A finite entry is at most `(n - 1) * W`. -/
theorem Hops.bound {n : Nat} {W : Int} {d : List (Option Int)} (h : Hops n W d)
    (hW : 0 ≤ W) (v : Nat) (D : Int) (hv : d.getD v none = some D) :
    0 ≤ D ∧ D + W ≤ (n : Int) * W := by
  obtain ⟨h0, tr, hnd, hall, hb⟩ := h v D hv
  refine ⟨h0, le_trans hb ?_⟩
  have hlen : (tr.map Prod.fst).length ≤ n := by
    apply nodup_length_le _ _ hnd
    intro x hx
    obtain ⟨p, hp, rfl⟩ := List.mem_map.1 hx
    exact (hall p hp).1
  rw [List.length_map] at hlen
  have : (tr.length : Int) ≤ (n : Int) := by exact_mod_cast hlen
  exact Int.mul_le_mul_of_nonneg_right this hW

/-- One improvement of the entry of `t` through an edge of weight `w` leaving `u`
keeps the trails. -/
theorem Hops.relax {n : Nat} {W : Int} {d : List (Option Int)} (h : Hops n W d)
    (u t : Nat) (du w : Int) (hw0 : 0 ≤ w) (hw : w ≤ W) (hu : d.getD u none = some du)
    (ht : t < n) (htl : t < d.length)
    (hlt : Dist.lt (some (du + w)) (d.getD t none) = true) :
    Hops n W (d.set t (some (du + w))) ∧ (d.set t (some (du + w))).getD u none = some du := by
  have hle : ∀ x, Dist.le ((d.set t (some (du + w))).getD x none) (d.getD x none) := by
    intro x
    by_cases hx : t = x
    · subst hx
      rw [getD_set_self _ _ _ _ htl]
      exact Dist.le_of_lt hlt
    · rw [getD_set_other _ _ _ _ _ hx]
      exact Dist.le_refl _
  have htu : t ≠ u := by
    intro htu
    rw [htu, hu] at hlt
    simp only [Dist.lt, decide_eq_true_eq] at hlt
    omega
  refine ⟨?_, by rw [getD_set_other _ _ _ _ _ htu]; exact hu⟩
  intro v D hv
  by_cases hvt : t = v
  · subst hvt
    rw [getD_set_self _ _ _ _ htl] at hv
    have hD : D = du + w := (Option.some.inj hv).symm
    subst hD
    obtain ⟨h0, tr, hnd, hall, hb⟩ := h u du hu
    refine ⟨by omega, tr ++ [(t, du + w)], ?_, ?_, ?_⟩
    · rw [List.map_append, List.nodup_append]
      refine ⟨hnd, by simp, ?_⟩
      intro a ha hb2
      simp only [List.map_cons, List.map_nil, List.mem_singleton] at hb2
      subst hb2
      obtain ⟨p, hp, hpa⟩ := List.mem_map.1 ha
      obtain ⟨_, h2, h3⟩ := hall p hp
      rw [hpa] at h2
      obtain ⟨y, hy1, hy2⟩ := (Dist.le_some_iff _ _).1 h2
      have := (Dist.lt_some_iff _ _).1 hlt y hy1
      omega
    · intro p hp
      rcases List.mem_append.1 hp with hp | hp
      · obtain ⟨h1, h2, h3⟩ := hall p hp
        exact ⟨h1, Dist.le_trans (hle _) h2, by omega⟩
      · rw [List.mem_singleton] at hp
        subst hp
        dsimp only
        rw [getD_set_self _ _ _ _ htl]
        exact ⟨ht, Dist.le_refl _, le_refl _⟩
    · rw [List.length_append, List.length_singleton]
      push_cast
      have : (du + w) + W ≤ (du + W) + W := by omega
      calc du + w + W ≤ (du + W) + W := this
        _ ≤ (tr.length : Int) * W + W := by omega
        _ = ((tr.length : Int) + 1) * W := by ring
  · rw [getD_set_other _ _ _ _ _ hvt] at hv
    obtain ⟨h0, tr, hnd, hall, hb⟩ := h v D hv
    refine ⟨h0, tr, hnd, ?_, hb⟩
    intro p hp
    obtain ⟨h1, h2, h3⟩ := hall p hp
    exact ⟨h1, Dist.le_trans (hle _) h2, h3⟩

/-! ## hybrid_engine.cpp: the binary64 run follows the exact one -/

namespace HybridEngine

/-- One edge: while the sums stay below `2 ^ 53` the two layers take the same
branch and write the same value. -/
theorem relax_edge_to64 (n : Nat) (W : Int) (hsmall : (n : Int) * W < 2 ^ 53) (u : Nat)
    (du : Int) (st : HybridEngine × Bool) (edge : Edge) (ht : edge.target < n)
    (hw0 : 0 ≤ edge.weights.headD 0) (hw : edge.weights.headD 0 ≤ W)
    (hlen : st.1.atomic_distances.length = n) (hH : Hops n W st.1.atomic_distances)
    (hu : st.1.atomic_distances.getD u none = some du) :
    Binary64.HybridEngine.relax_edge u (Double.fin du) (st.1.to64, st.2) edge
      = ((relax_edge u du st edge).1.to64, (relax_edge u du st edge).2) ∧
    (relax_edge u du st edge).1.atomic_distances.length = n ∧
    Hops n W (relax_edge u du st edge).1.atomic_distances ∧
    (relax_edge u du st edge).1.atomic_distances.getD u none = some du := by
  have hW : 0 ≤ W := le_trans hw0 hw
  obtain ⟨hdu0, hdub⟩ := hH.bound hW u du hu
  unfold relax_edge Binary64.HybridEngine.relax_edge
  have hl64 : (st.1.to64).atomic_distances.length = n := by
    simp [to64, hlen]
  have hc1 : ¬ (st.1.atomic_distances.length ≤ edge.target) := by omega
  have hc2 : ¬ ((st.1.to64, st.2).1.atomic_distances.length ≤ edge.target) := by
    dsimp only; omega
  rw [if_neg hc1, if_neg hc2]
  cases hws : edge.weights with
  | nil => exact ⟨rfl, hlen, hH, hu⟩
  | cons w ws =>
    rw [hws] at hw0 hw
    simp only [List.headD_cons] at hw0 hw
    dsimp only
    have hsum0 : 0 ≤ du + w := by omega
    have hsum : du + w < 2 ^ 53 := by omega
    have hadd : Double.add (Double.fin du) (Double.of_int w) = Double.fin (du + w) := by
      rw [Double.of_int_small w hw0 (by omega)]
      exact Double.add_fin du w hsum0 hsum
    have hcell : (st.1.to64).atomic_distances.getD edge.target Double.DBL_MAX
        = Double.of_dist (st.1.atomic_distances.getD edge.target none) :=
      Double.getD_of_dist _ _
    rw [hadd, hcell, Double.lt_of_dist _ _ hsum]
    by_cases hlt : Dist.lt (some (du + w)) (st.1.atomic_distances.getD edge.target none) = true
    · rw [if_pos hlt, if_pos hlt]
      obtain ⟨h1, h2⟩ := hH.relax u edge.target du w hw0 hw hu ht (by omega) hlt
      refine ⟨?_, by dsimp only; rw [List.length_set]; exact hlen, h1, h2⟩
      simp only [to64, Prod.mk.injEq, and_true, Binary64.HybridEngine.mk.injEq]
      exact Double.set_of_dist _ _ (some (du + w))
    · rw [if_neg hlt, if_neg hlt]
      exact ⟨rfl, hlen, hH, hu⟩

theorem edges_fold_to64 (n : Nat) (W : Int) (hsmall : (n : Int) * W < 2 ^ 53) (u : Nat)
    (du : Int) (edges : List Edge)
    (hedges : ∀ edge ∈ edges, edge.target < n ∧ 0 ≤ edge.weights.headD 0 ∧
      edge.weights.headD 0 ≤ W) :
    ∀ st : HybridEngine × Bool, st.1.atomic_distances.length = n →
      Hops n W st.1.atomic_distances → st.1.atomic_distances.getD u none = some du →
      edges.foldl (Binary64.HybridEngine.relax_edge u (Double.fin du)) (st.1.to64, st.2)
        = ((edges.foldl (relax_edge u du) st).1.to64, (edges.foldl (relax_edge u du) st).2) ∧
      (edges.foldl (relax_edge u du) st).1.atomic_distances.length = n ∧
      Hops n W (edges.foldl (relax_edge u du) st).1.atomic_distances := by
  induction edges with
  | nil => intro st hlen hH _; exact ⟨rfl, hlen, hH⟩
  | cons edge rest ih =>
    intro st hlen hH hu
    obtain ⟨h1, h2, h3⟩ := hedges edge (List.mem_cons_self _ _)
    obtain ⟨e1, e2, e3, e4⟩ := relax_edge_to64 n W hsmall u du st edge h1 h2 h3 hlen hH hu
    simp only [List.foldl_cons]
    rw [e1]
    exact ih (fun x hx => hedges x (List.mem_cons_of_mem _ hx)) _ e2 e3 e4

theorem relax_node_to64 (g : DynamicGraph) (hwf : g.WellFormed) (hnn : g.NonNegWeights)
    (W : Int) (hW : g.WeightsBelow W) (hW0 : 0 ≤ W)
    (hsmall : (g.node_count : Int) * W < 2 ^ 53)
    (st : HybridEngine × Bool) (u : Nat) (hlen : st.1.atomic_distances.length = g.node_count)
    (hH : Hops g.node_count W st.1.atomic_distances) :
    Binary64.HybridEngine.relax_node g (st.1.to64, st.2) u
      = ((relax_node g st u).1.to64, (relax_node g st u).2) ∧
    (relax_node g st u).1.atomic_distances.length = g.node_count ∧
    Hops g.node_count W (relax_node g st u).1.atomic_distances := by
  unfold relax_node Binary64.HybridEngine.relax_node
  dsimp only
  have hcell : (st.1.to64).atomic_distances.getD u Double.DBL_MAX
      = Double.of_dist (st.1.atomic_distances.getD u none) := Double.getD_of_dist _ _
  rw [hcell]
  cases hdu : st.1.atomic_distances.getD u none with
  | none =>
    dsimp only
    have hmax : Double.of_dist none = Double.DBL_MAX := rfl
    rw [if_pos hmax]
    exact ⟨rfl, hlen, hH⟩
  | some du =>
    dsimp only
    obtain ⟨hdu0, hdub⟩ := hH.bound hW0 u du hdu
    rw [if_neg (Double.of_dist_ne_max du (by omega))]
    cases hedges : g.get_edges (u : Int) with
    | error err => exact ⟨rfl, hlen, hH⟩
    | ok edges =>
      dsimp only
      have hmem : ∀ edge ∈ edges, edge.target < g.node_count ∧ 0 ≤ edge.weights.headD 0 ∧
          edge.weights.headD 0 ≤ W := by
        intro edge hedge
        have hu : u < g.adj.length := by
          by_contra hcon
          unfold DynamicGraph.get_edges at hedges
          rw [if_pos (Or.inr (by omega))] at hedges
          cases hedges
        rw [get_edges_natCast g u hu] at hedges
        cases hedges
        obtain ⟨es, hes, hin⟩ := mem_getD_nil _ _ _ hedge
        exact ⟨(hwf.2 es hes edge hin).1, hnn es hes edge hin, hW es hes edge hin⟩
      exact edges_fold_to64 g.node_count W hsmall u du edges hmem st hlen hH hdu

theorem nodes_fold_to64 (g : DynamicGraph) (hwf : g.WellFormed) (hnn : g.NonNegWeights)
    (W : Int) (hW : g.WeightsBelow W) (hW0 : 0 ≤ W)
    (hsmall : (g.node_count : Int) * W < 2 ^ 53) (nodes : List Nat) :
    ∀ st : HybridEngine × Bool, st.1.atomic_distances.length = g.node_count →
      Hops g.node_count W st.1.atomic_distances →
      nodes.foldl (Binary64.HybridEngine.relax_node g) (st.1.to64, st.2)
        = ((nodes.foldl (relax_node g) st).1.to64, (nodes.foldl (relax_node g) st).2) ∧
      (nodes.foldl (relax_node g) st).1.atomic_distances.length = g.node_count ∧
      Hops g.node_count W (nodes.foldl (relax_node g) st).1.atomic_distances := by
  induction nodes with
  | nil => intro st hlen hH; exact ⟨rfl, hlen, hH⟩
  | cons u rest ih =>
    intro st hlen hH
    obtain ⟨e1, e2, e3⟩ := relax_node_to64 g hwf hnn W hW hW0 hsmall st u hlen hH
    simp only [List.foldl_cons]
    rw [e1]
    exact ih _ e2 e3

theorem round_to64 (g : DynamicGraph) (hwf : g.WellFormed) (hnn : g.NonNegWeights)
    (W : Int) (hW : g.WeightsBelow W) (hW0 : 0 ≤ W)
    (hsmall : (g.node_count : Int) * W < 2 ^ 53) (e : HybridEngine)
    (hlen : e.atomic_distances.length = g.node_count)
    (hH : Hops g.node_count W e.atomic_distances) :
    Binary64.HybridEngine.round g e.to64 = ((round g e).1.to64, (round g e).2) ∧
    (round g e).1.atomic_distances.length = g.node_count ∧
    Hops g.node_count W (round g e).1.atomic_distances :=
  nodes_fold_to64 g hwf hnn W hW hW0 hsmall (List.range g.node_count) (e, false) hlen hH

theorem rounds_to64 (g : DynamicGraph) (hwf : g.WellFormed) (hnn : g.NonNegWeights)
    (W : Int) (hW : g.WeightsBelow W) (hW0 : 0 ≤ W)
    (hsmall : (g.node_count : Int) * W < 2 ^ 53) :
    ∀ k (e : HybridEngine), e.atomic_distances.length = g.node_count →
      Hops g.node_count W e.atomic_distances →
      Binary64.HybridEngine.rounds g k e.to64 = (rounds g k e).to64 := by
  intro k
  induction k with
  | zero =>
    intro e hlen hH
    obtain ⟨e1, _, _⟩ := round_to64 g hwf hnn W hW hW0 hsmall e hlen hH
    simp only [rounds, Binary64.HybridEngine.rounds, e1]
  | succ k ih =>
    intro e hlen hH
    obtain ⟨e1, e2, e3⟩ := round_to64 g hwf hnn W hW hW0 hsmall e hlen hH
    simp only [rounds, Binary64.HybridEngine.rounds, e1]
    split
    · exact ih _ e2 e3
    · rfl

/-- While `node_count * W` is below `2 ^ 53`, the run on `double` cells is the run
of the exact layer, cell by cell. -/
theorem compute_parallel_to64 (g : DynamicGraph) (hwf : g.WellFormed)
    (hnn : g.NonNegWeights) (W : Int) (hW : g.WeightsBelow W) (hW0 : 0 ≤ W)
    (hsmall : (g.node_count : Int) * W < 2 ^ 53) (e : Binary64.HybridEngine)
    (hlen : e.atomic_distances.length = g.node_count) (s : Nat) (hs : s < g.node_count) :
    Binary64.HybridEngine.compute_parallel g e (s : Int)
      = (compute_parallel g
          { atomic_distances := List.replicate g.node_count (none : Option Int),
            predecessors := e.predecessors } (s : Int)).to64 := by
  rw [compute_parallel_eq g _ s hs]
  unfold Binary64.HybridEngine.compute_parallel
  have h1 : ¬ ((s : Int) < 0 ∨ (g.node_count : Int) ≤ (s : Int)) := by omega
  rw [if_neg h1, Int.toNat_ofNat]
  dsimp only
  have hreset : (List.map (fun _ => (none : Option Int))
      (List.replicate g.node_count (none : Option Int)))
      = List.replicate g.node_count (none : Option Int) := by simp
  rw [hreset]
  have hstart : ({ e with atomic_distances :=
        (e.atomic_distances.map fun _ => Double.DBL_MAX).set s (Double.fin 0) }
        : Binary64.HybridEngine)
      = to64 { atomic_distances :=
                 (List.replicate g.node_count (none : Option Int)).set s (some 0),
               predecessors := e.predecessors } := by
    simp only [to64]
    congr 1
    rw [← Double.set_of_dist]
    congr 1
    apply List.ext_getElem
    · simp [hlen]
    · intro i h1 h2
      simp [Double.of_dist]
  rw [hstart]
  exact rounds_to64 g hwf hnn W hW hW0 hsmall _ _ (by simp) (Hops.init _ _ _ hs)

end HybridEngine
end PDC

/-! ## sosp2.hpp: the binary64 run follows the exact one -/

namespace PDC

theorem Frontier.key_le_to64 (a b : Int × Nat) :
    Binary64.Frontier.key_le (Double.fin a.1, a.2) (Double.fin b.1, b.2)
      = Frontier.key_le a b := by
  rw [Bool.eq_iff_iff]
  simp only [Binary64.Frontier.key_le, Binary64.Frontier.pair_lt, Frontier.key_le, Double.lt,
    Bool.not_eq_true', Bool.or_eq_false_iff, Bool.and_eq_false_iff, Bool.or_eq_true,
    Bool.and_eq_true, decide_eq_true_eq, decide_eq_false_iff_not, Bool.not_eq_true,
    Bool.not_eq_false']
  omega

theorem Frontier.push_to64 (k : Int × Nat) (q : Frontier) :
    Binary64.Frontier.push (Double.fin k.1, k.2) q.to64 = (Frontier.push k q).to64 := by
  induction q with
  | nil => rfl
  | cons x xs ih =>
    show Binary64.Frontier.push (Double.fin k.1, k.2) ((Double.fin x.1, x.2) :: Frontier.to64 xs)
      = (Frontier.push k (x :: xs)).to64
    simp only [Binary64.Frontier.push, Frontier.push, Frontier.key_le_to64]
    split
    · rfl
    · rw [ih]
      rfl

namespace SOSPEngine

/-- One edge: while the sums stay below `2 ^ 53` the two layers take the same
branch, write the same value and push the same entry. -/
theorem serial_edge_to64 (n : Nat) (W : Int) (hsmall : (n : Int) * W < 2 ^ 53) (u : Nat)
    (du : Int) (st : List (Option Int) × Frontier) (edge : Edge) (ht : edge.target < n)
    (hw0 : 0 ≤ edge.weights.headD 0) (hw : edge.weights.headD 0 ≤ W)
    (hlen : st.1.length = n) (hH : Hops n W st.1) (hu : st.1.getD u none = some du)
    (hq : ∀ p ∈ st.2, Dist.le (st.1.getD p.2 none) (some p.1)) :
    Binary64.SOSPEngine.serial_edge (Double.fin du) (st.1.map Double.of_dist, st.2.to64) edge
      = ((serial_edge du st edge).1.map Double.of_dist, (serial_edge du st edge).2.to64) ∧
    (serial_edge du st edge).1.length = n ∧ Hops n W (serial_edge du st edge).1 ∧
    (serial_edge du st edge).1.getD u none = some du ∧
    (∀ p ∈ (serial_edge du st edge).2,
      Dist.le ((serial_edge du st edge).1.getD p.2 none) (some p.1)) := by
  have hW : 0 ≤ W := le_trans hw0 hw
  obtain ⟨hdu0, hdub⟩ := hH.bound hW u du hu
  have hle := serial_edge_le du st edge
  unfold serial_edge at hle ⊢
  unfold Binary64.SOSPEngine.serial_edge
  dsimp only at hle ⊢
  have hsum0 : 0 ≤ du + edge.weights.headD 0 := by omega
  have hsum : du + edge.weights.headD 0 < 2 ^ 53 := by omega
  have hadd : Double.add (Double.fin du) (Double.of_int (edge.weights.headD 0))
      = Double.fin (du + edge.weights.headD 0) := by
    rw [Double.of_int_small _ hw0 (by omega)]
    exact Double.add_fin du _ hsum0 hsum
  rw [hadd, Double.getD_of_dist, Double.lt_of_dist _ _ hsum]
  by_cases hlt : Dist.lt (some (du + edge.weights.headD 0)) (st.1.getD edge.target none) = true
  · rw [if_pos hlt] at hle
    rw [if_pos hlt, if_pos hlt]
    dsimp only at hle ⊢
    obtain ⟨h1, h2⟩ := hH.relax u edge.target du _ hw0 hw hu ht (by omega) hlt
    refine ⟨?_, by rw [List.length_set]; exact hlen, h1, h2, ?_⟩
    · rw [Prod.mk.injEq]
      exact ⟨Double.set_of_dist _ _ (some (du + edge.weights.headD 0)),
        Frontier.push_to64 (du + edge.weights.headD 0, edge.target) st.2⟩
    · intro p hp
      rcases (Frontier.mem_push _ _ _).1 hp with rfl | hp
      · dsimp only
        rw [getD_set_self _ _ _ _ (by omega)]
        exact Dist.le_refl _
      · exact Dist.le_trans (hle _) (hq p hp)
  · rw [if_neg hlt, if_neg hlt]
    exact ⟨rfl, hlen, hH, hu, hq⟩

theorem serial_fold_to64 (n : Nat) (W : Int) (hsmall : (n : Int) * W < 2 ^ 53) (u : Nat)
    (du : Int) (edges : List Edge)
    (hedges : ∀ edge ∈ edges, edge.target < n ∧ 0 ≤ edge.weights.headD 0 ∧
      edge.weights.headD 0 ≤ W) :
    ∀ st : List (Option Int) × Frontier, st.1.length = n → Hops n W st.1 →
      st.1.getD u none = some du →
      (∀ p ∈ st.2, Dist.le (st.1.getD p.2 none) (some p.1)) →
      edges.foldl (Binary64.SOSPEngine.serial_edge (Double.fin du))
          (st.1.map Double.of_dist, st.2.to64)
        = ((edges.foldl (serial_edge du) st).1.map Double.of_dist,
            (edges.foldl (serial_edge du) st).2.to64) ∧
      (edges.foldl (serial_edge du) st).1.length = n ∧
      Hops n W (edges.foldl (serial_edge du) st).1 ∧
      (∀ p ∈ (edges.foldl (serial_edge du) st).2,
        Dist.le ((edges.foldl (serial_edge du) st).1.getD p.2 none) (some p.1)) := by
  induction edges with
  | nil => intro st hlen hH _ hq; exact ⟨rfl, hlen, hH, hq⟩
  | cons edge rest ih =>
    intro st hlen hH hu hq
    obtain ⟨h1, h2, h3⟩ := hedges edge (List.mem_cons_self _ _)
    obtain ⟨e1, e2, e3, e4, e5⟩ :=
      serial_edge_to64 n W hsmall u du st edge h1 h2 h3 hlen hH hu hq
    simp only [List.foldl_cons]
    rw [e1]
    exact ih (fun x hx => hedges x (List.mem_cons_of_mem _ hx)) _ e2 e3 e4 e5

theorem serial_loop_to64 (g : DynamicGraph) (hwf : g.WellFormed) (hnn : g.NonNegWeights)
    (W : Int) (hW : g.WeightsBelow W)
    (hsmall : (g.node_count : Int) * W < 2 ^ 53) :
    ∀ fuel (distances : List (Option Int)) (q : Frontier),
      distances.length = g.node_count → Hops g.node_count W distances →
      (∀ p ∈ q, Dist.le (distances.getD p.2 none) (some p.1)) →
      Binary64.SOSPEngine.serial_loop g fuel (distances.map Double.of_dist) q.to64
        = (serial_loop g fuel distances q).map (List.map Double.of_dist) := by
  intro fuel
  induction fuel with
  | zero => intro distances q _ _ _; rfl
  | succ fuel ih =>
    intro distances q hlen hH hq
    cases q with
    | nil => rfl
    | cons p rest =>
      obtain ⟨dk, u⟩ := p
      have hrest : ∀ p ∈ rest, Dist.le (distances.getD p.2 none) (some p.1) :=
        fun p hp => hq p (List.mem_cons_of_mem _ hp)
      obtain ⟨y, hy, hyle⟩ := (Dist.le_some_iff _ _).1 (hq (dk, u) (List.mem_cons_self _ _))
      dsimp only at hy hyle
      show Binary64.SOSPEngine.serial_loop g (fuel + 1) (distances.map Double.of_dist)
        ((Double.fin dk, u) :: Frontier.to64 rest) = _
      simp only [serial_loop, Binary64.SOSPEngine.serial_loop]
      rw [Double.getD_of_dist, hy]
      have hcmp : Double.lt (Double.of_dist (some y)) (Double.fin dk)
          = Dist.lt (some y) (some dk) := rfl
      rw [hcmp]
      by_cases hstale : Dist.lt (some y) (some dk) = true
      · rw [if_pos hstale, if_pos hstale]
        exact ih _ _ hlen hH hrest
      · rw [if_neg hstale, if_neg hstale]
        have hyd : y = dk := by
          simp only [Dist.lt, decide_eq_true_eq] at hstale
          omega
        subst hyd
        cases hedges : g.get_edges (u : Int) with
        | error err => rfl
        | ok edges =>
          dsimp only
          have hmem : ∀ edge ∈ edges, edge.target < g.node_count ∧
              0 ≤ edge.weights.headD 0 ∧ edge.weights.headD 0 ≤ W := by
            intro edge hedge
            have hu : u < g.adj.length := by
              by_contra hcon
              unfold DynamicGraph.get_edges at hedges
              rw [if_pos (Or.inr (by omega))] at hedges
              cases hedges
            rw [get_edges_natCast g u hu] at hedges
            cases hedges
            obtain ⟨es, hes, hin⟩ := mem_getD_nil _ _ _ hedge
            exact ⟨(hwf.2 es hes edge hin).1, hnn es hes edge hin, hW es hes edge hin⟩
          obtain ⟨e1, e2, e3, e4⟩ := serial_fold_to64 g.node_count W hsmall u y edges hmem
            (distances, rest) hlen hH hy hrest
          rw [e1]
          exact ih _ _ e2 e3 e4

/-- While `node_count * W` is below `2 ^ 53`, `compute_shortest_paths` on `double`
values returns what the exact layer returns, entry by entry, for every bound on
the iterations. -/
theorem compute_shortest_paths_to64 (g : DynamicGraph) (hwf : g.WellFormed)
    (hnn : g.NonNegWeights) (W : Int) (hW : g.WeightsBelow W)
    (hsmall : (g.node_count : Int) * W < 2 ^ 53) (s : Nat) (hs : s < g.node_count)
    (fuel : Nat) :
    Binary64.SOSPEngine.compute_shortest_paths g s fuel
      = (compute_shortest_paths g s fuel).map (List.map Double.of_dist) := by
  unfold compute_shortest_paths Binary64.SOSPEngine.compute_shortest_paths
  have hstart : (List.replicate g.node_count Double.DBL_MAX).set s (Double.fin 0)
      = ((List.replicate g.node_count (none : Option Int)).set s (some 0)).map
          Double.of_dist := by
    rw [← Double.set_of_dist]
    congr 1
    simp [Double.of_dist]
  rw [hstart]
  refine serial_loop_to64 g hwf hnn W hW hsmall fuel _ [(0, s)] (by simp)
    (Hops.init _ _ _ hs) ?_
  intro p hp
  rw [List.mem_singleton] at hp
  subst hp
  dsimp only
  rw [getD_set_self _ _ _ _ (by simpa using hs)]
  exact Dist.le_refl _

end SOSPEngine
end PDC

/-! ## Rounded sums: where the solvers leave the true distances -/

namespace PDC

theorem rounding_graph_walks : ∀ v d, Walk rounding_graph 0 v d →
    (v = 0 ∧ d = 0) ∨ (v = 1 ∧ d = 9007199254740992) ∨ (v = 2 ∧ d = 9007199254740993) := by
  intro v d h
  induction h with
  | nil => exact Or.inl ⟨rfl, rfl⟩
  | @snoc u d e _ he ih =>
    rcases ih with ⟨rfl, rfl⟩ | ⟨rfl, rfl⟩ | ⟨rfl, rfl⟩
    · simp [rounding_graph] at he
      subst he
      exact Or.inr (Or.inl ⟨rfl, rfl⟩)
    · simp [rounding_graph] at he
      subst he
      exact Or.inr (Or.inr ⟨rfl, rfl⟩)
    · simp [rounding_graph] at he

theorem rounding_graph_shortest : IsShortest rounding_graph 0 2 9007199254740993 := by
  refine ⟨?_, ?_⟩
  · have h1 : Walk rounding_graph 0 1 (0 + 9007199254740992) :=
      Walk.snoc (⟨1, [9007199254740992]⟩ : Edge) Walk.nil (by simp [rounding_graph])
    exact Walk.snoc (⟨2, [1]⟩ : Edge) h1 (by simp [rounding_graph])
  · intro d' hw
    rcases rounding_graph_walks 2 d' hw with ⟨h, _⟩ | ⟨h, _⟩ | ⟨_, h⟩
    · omega
    · omega
    · omega

theorem rounding_graph_not_true (x : Double) (hx : x = Double.fin 9007199254740992) :
    ¬ IsTrueDouble rounding_graph 0 2 x := by
  subst hx
  rintro (⟨d, hd, hx⟩ | ⟨hr, _⟩)
  · have h1 := hd.2 _ rounding_graph_shortest.1
    have h2 := rounding_graph_shortest.2 _ hd.1
    have h3 : (9007199254740992 : Int) = d := Double.fin.inj hx
    omega
  · exact hr ⟨_, rounding_graph_shortest.1⟩

theorem overflow_graph_reachable : Reachable overflow_graph 0 2 := by
  have h1 : Walk overflow_graph 0 1 (0 + ((2 ^ 1023 : Nat) : Int)) :=
    Walk.snoc (⟨1, [((2 ^ 1023 : Nat) : Int)]⟩ : Edge) Walk.nil
      (List.mem_singleton.2 rfl)
  exact ⟨_, Walk.snoc (⟨2, [((2 ^ 1023 : Nat) : Int)]⟩ : Edge) h1 (List.mem_singleton.2 rfl)⟩

theorem is_true_double_of_dist (g : DynamicGraph) (s v : Nat) (a : Option Int)
    (h : IsTrueDistance g s v a) : IsTrueDouble g s v (Double.of_dist a) := by
  cases a with
  | none => exact Or.inr ⟨h, rfl⟩
  | some d => exact Or.inl ⟨d, h, rfl⟩

/-- C2, as the code behaves on `double` cells: on the chain `0 -> 1 -> 2` with the
weights `2 ^ 53` and `1`, both of them `double` values, `compute_parallel(0)` leaves
`2 ^ 53` in the cell of node 2, whose shortest distance is `2 ^ 53 + 1`; with two
weights `2 ^ 1023` the sum is an infinity, which is not below the sentinel
`DBL_MAX`, and node 2 keeps the sentinel although node 0 reaches it. -/
theorem compute_parallel_rounds_sum :
    rounding_graph.WellFormed ∧ rounding_graph.NonNegWeights ∧
    (Binary64.HybridEngine.compute_parallel rounding_graph
      (Binary64.HybridEngine.new rounding_graph) 0).get_distances
      = [Double.fin 0, Double.fin 9007199254740992, Double.fin 9007199254740992] ∧
    IsShortest rounding_graph 0 2 9007199254740993 ∧
    ¬ IsTrueDouble rounding_graph 0 2
      ((Binary64.HybridEngine.compute_parallel rounding_graph
        (Binary64.HybridEngine.new rounding_graph) 0).get_distances.getD 2 Double.DBL_MAX) ∧
    overflow_graph.WellFormed ∧ overflow_graph.NonNegWeights ∧
    (Binary64.HybridEngine.compute_parallel overflow_graph
      (Binary64.HybridEngine.new overflow_graph) 0).get_distances.getD 2 Double.DBL_MAX
      = Double.DBL_MAX ∧
    Reachable overflow_graph 0 2 := by
  have hrun : (Binary64.HybridEngine.compute_parallel rounding_graph
      (Binary64.HybridEngine.new rounding_graph) 0).get_distances
      = [Double.fin 0, Double.fin 9007199254740992, Double.fin 9007199254740992] := by
    set_option maxRecDepth 100000 in set_option exponentiation.threshold 2000 in decide
  refine ⟨by decide, by decide, hrun, rounding_graph_shortest, ?_, by decide, by decide, ?_,
    overflow_graph_reachable⟩
  · apply rounding_graph_not_true
    rw [hrun]
    rfl
  · set_option maxRecDepth 100000 in set_option exponentiation.threshold 2000 in decide

/-- C2, amended: for a graph satisfying the class invariant whose first weights are
integers between `0` and `W` with `node_count * W < 2 ^ 53`, a source below
`node_count` and an engine built for the current node count, `get_distances()`
after `compute_parallel(source)`, each round run by one worker in node order on
`double` cells, has one entry per node, and the entry of every node `v` is the
least weight of a walk from the source to `v`, or `DBL_MAX` when there is no walk;
the cap on the rounds does not prevent it. -/
theorem compute_parallel_exact_sums (g : DynamicGraph) (hwf : g.WellFormed)
    (hnn : g.NonNegWeights) (W : Int) (hW : g.WeightsBelow W)
    (hsmall : (g.node_count : Int) * W < 2 ^ 53) (e : Binary64.HybridEngine)
    (hlen : e.atomic_distances.length = g.node_count) (s : Nat) (hs : s < g.node_count) :
    (Binary64.HybridEngine.compute_parallel g e (s : Int)).get_distances.length
      = g.node_count ∧
    ∀ v, v < g.node_count →
      IsTrueDouble g s v
        ((Binary64.HybridEngine.compute_parallel g e (s : Int)).get_distances.getD v
          Double.DBL_MAX) := by
  have hW1 : g.WeightsBelow (max W 0) :=
    fun es hes edge hedge => le_trans (hW es hes edge hedge) (le_max_left _ _)
  have hsmall1 : (g.node_count : Int) * max W 0 < 2 ^ 53 := by
    rcases le_total W 0 with h | h
    · rw [max_eq_right h]
      norm_num
    · rw [max_eq_left h]
      exact hsmall
  rw [HybridEngine.compute_parallel_to64 g hwf hnn (max W 0) hW1 (le_max_right _ _) hsmall1
    e hlen s hs]
  have hlen0 : (List.replicate g.node_count (none : Option Int)).length = g.node_count := by
    simp
  refine ⟨?_, ?_⟩
  · show (List.map Double.of_dist _).length = _
    rw [List.length_map, HybridEngine.compute_parallel_eq g _ s hs, HybridEngine.rounds_length]
    simp
  · intro v _
    show IsTrueDouble g s v ((List.map Double.of_dist _).getD v Double.DBL_MAX)
    rw [Double.getD_of_dist]
    exact is_true_double_of_dist g s v _
      (HybridEngine.compute_parallel_true g _ s hwf hnn hs hlen0 v)

theorem compute_parallel_exact_sums_witness :
    (Binary64.HybridEngine.compute_parallel cycle_graph
      (Binary64.HybridEngine.new cycle_graph) ((0 : Nat) : Int)).get_distances.length
      = cycle_graph.node_count ∧
    ∀ v, v < cycle_graph.node_count →
      IsTrueDouble cycle_graph 0 v
        ((Binary64.HybridEngine.compute_parallel cycle_graph
          (Binary64.HybridEngine.new cycle_graph) ((0 : Nat) : Int)).get_distances.getD v
          Double.DBL_MAX) :=
  compute_parallel_exact_sums cycle_graph cycle_graph_well_formed cycle_graph_non_neg 5
    (by decide) (by decide) (Binary64.HybridEngine.new cycle_graph) (by decide) 0 (by decide)

/-- Scenario 1 of the specification on `double` cells: the 4-cycle of
`main_hybrid.cpp` gets the distances `[0, 4, 2, 3]`. -/
theorem compute_parallel_cycle_graph :
    (Binary64.HybridEngine.compute_parallel cycle_graph
      (Binary64.HybridEngine.new cycle_graph) 0).get_distances
      = [Double.fin 0, Double.fin 4, Double.fin 2, Double.fin 3] := by
  set_option maxRecDepth 100000 in set_option exponentiation.threshold 2000 in decide

/-- C37, as the code behaves on `double` values: on the chain `0 -> 1 -> 2` with the
weights `2 ^ 53` and `1`, `compute_shortest_paths(0)` returns `2 ^ 53` for node 2,
whose shortest distance is `2 ^ 53 + 1`; with two weights `2 ^ 1023` the sum is an
infinity, which is not below `DBL_MAX`, and node 2 keeps the sentinel although
node 0 reaches it. -/
theorem serial_baseline_rounds_sum :
    rounding_graph.WellFormed ∧ rounding_graph.NonNegWeights ∧
    Binary64.SOSPEngine.compute_shortest_paths rounding_graph 0 4
      = some [Double.fin 0, Double.fin 9007199254740992, Double.fin 9007199254740992] ∧
    IsShortest rounding_graph 0 2 9007199254740993 ∧
    ¬ IsTrueDouble rounding_graph 0 2 (Double.fin 9007199254740992) ∧
    overflow_graph.WellFormed ∧ overflow_graph.NonNegWeights ∧
    (Binary64.SOSPEngine.compute_shortest_paths overflow_graph 0 3).map
      (fun r => r.getD 2 Double.DBL_MAX) = some Double.DBL_MAX ∧
    Reachable overflow_graph 0 2 := by
  refine ⟨by decide, by decide, ?_, rounding_graph_shortest,
    rounding_graph_not_true _ rfl, by decide, by decide, ?_, overflow_graph_reachable⟩
  · set_option maxRecDepth 100000 in set_option exponentiation.threshold 2000 in decide
  · set_option maxRecDepth 100000 in set_option exponentiation.threshold 2000 in decide

/-- C37, amended: for a graph satisfying the class invariant whose first weights
are integers between `0` and `W` with `node_count * W < 2 ^ 53`, and a source below
`node_count`, `compute_shortest_paths(source)` of `sosp2.hpp` on `double` values
returns (for some bound on the iterations, and then for every larger one, with the
same vector); the vector has one entry per node, and the entry of every node `v`
is the least weight of a walk from the source to `v`, or `DBL_MAX` when there is
no walk. -/
theorem serial_baseline_exact_sums (g : DynamicGraph) (hwf : g.WellFormed)
    (hnn : g.NonNegWeights) (W : Int) (hW : g.WeightsBelow W)
    (hsmall : (g.node_count : Int) * W < 2 ^ 53) (s : Nat) (hs : s < g.node_count) :
    ∃ fuel result, Binary64.SOSPEngine.compute_shortest_paths g s fuel = some result ∧
      (∀ k, Binary64.SOSPEngine.compute_shortest_paths g s (fuel + k) = some result) ∧
      (∀ fuel1 r1, Binary64.SOSPEngine.compute_shortest_paths g s fuel1 = some r1 →
        r1 = result) ∧
      result.length = g.node_count ∧
      ∀ v, v < g.node_count → IsTrueDouble g s v (result.getD v Double.DBL_MAX) := by
  have hsim := SOSPEngine.compute_shortest_paths_to64 g hwf hnn W hW hsmall s hs
  obtain ⟨fuel, r, h, hr⟩ := SOSPEngine.serial_loop_terminates g hwf hnn s _ _ _ _
    (SOSPEngine.serial_init g s hs) rfl
  have hmore : ∀ k, SOSPEngine.compute_shortest_paths g s (fuel + k) = some r :=
    fun k => SOSPEngine.serial_loop_fuel g fuel _ _ r h k
  have h0 : SOSPEngine.compute_shortest_paths g s fuel = some r := h
  refine ⟨fuel, r.map Double.of_dist, ?_, ?_, ?_, ?_, ?_⟩
  · rw [hsim, h0]
    rfl
  · intro k
    rw [hsim, hmore k]
    rfl
  · intro fuel1 r1 h1
    rw [hsim] at h1
    cases hex : SOSPEngine.compute_shortest_paths g s fuel1 with
    | none => rw [hex] at h1; cases h1
    | some r2 =>
      rw [hex] at h1
      have e1 := SOSPEngine.serial_loop_fuel g fuel1 _ _ r2 hex fuel
      have e2 := hmore fuel1
      unfold SOSPEngine.compute_shortest_paths at e2
      rw [Nat.add_comm] at e1
      rw [e1] at e2
      have hr2 : r2 = r := Option.some.inj e2
      subst hr2
      exact (Option.some.inj h1).symm
  · rw [List.length_map]
    exact hr.1
  · intro v _
    rw [Double.getD_of_dist]
    exact is_true_double_of_dist g s v _ (SOSPEngine.serial_inv_true g s r hr v)

theorem serial_baseline_exact_sums_witness :
    ∃ fuel result, Binary64.SOSPEngine.compute_shortest_paths small_graph 0 fuel
        = some result ∧
      (∀ k, Binary64.SOSPEngine.compute_shortest_paths small_graph 0 (fuel + k)
        = some result) ∧
      (∀ fuel1 r1, Binary64.SOSPEngine.compute_shortest_paths small_graph 0 fuel1 = some r1 →
        r1 = result) ∧
      result.length = small_graph.node_count ∧
      ∀ v, v < small_graph.node_count →
        IsTrueDouble small_graph 0 v (result.getD v Double.DBL_MAX) :=
  serial_baseline_exact_sums small_graph (by decide) (by decide) 10 (by decide) (by decide)
    0 (by decide)

/-- The graph of `test_small_graph_shortest_path` and the 4-cycle of
`main_serial.cpp` on `double` values. -/
theorem serial_baseline_double_examples :
    Binary64.SOSPEngine.compute_shortest_paths small_graph 0 9
      = some [Double.fin 0, Double.fin 2, Double.fin 5, Double.fin 3, Double.fin 5,
          Double.fin 6] ∧
    Binary64.SOSPEngine.compute_shortest_paths cycle_graph 0 9
      = some [Double.fin 0, Double.fin 4, Double.fin 2, Double.fin 3] := by
  refine ⟨?_, ?_⟩
  · set_option maxRecDepth 100000 in set_option exponentiation.threshold 2000 in decide
  · set_option maxRecDepth 100000 in set_option exponentiation.threshold 2000 in decide

end PDC

/-! ## hybrid_engine.cpp: the team of workers and the run of one worker -/

namespace PDC
namespace Binary64
namespace HybridEngine

theorem run_schedule_append (g : DynamicGraph) (a b : List Nat) :
    ∀ st, run_schedule g (a ++ b) st = run_schedule g b (run_schedule g a st) := by
  induction a with
  | nil => intro st; rfl
  | cons i rest ih =>
    intro st
    simp only [List.cons_append, run_schedule]
    split
    · exact ih _
    · exact ih _

theorem Steps.stay (g : DynamicGraph) (a : HybridEngine × Worker) : Steps g a a := ⟨0, rfl⟩

theorem Steps.chain {g : DynamicGraph} {a b c : HybridEngine × Worker} (h1 : Steps g a b)
    (h2 : Steps g b c) : Steps g a c := by
  obtain ⟨k1, e1⟩ := h1
  obtain ⟨k2, e2⟩ := h2
  refine ⟨k1 + k2, ?_⟩
  rw [List.replicate_add, run_schedule_append, e1, e2]

theorem Steps.one (g : DynamicGraph) (e : HybridEngine) (w : Worker) :
    Steps g (e, w) (step g e w) := by
  refine ⟨1, ?_⟩
  simp [run_schedule]

/-- One edge takes the worker one to three steps, and leaves what `relax_edge`
leaves. -/
theorem steps_edge (g : DynamicGraph) (e : HybridEngine) (nodes : List Nat) (ch : Bool)
    (u : Nat) (du : Double) (edge : Edge) (edges : List Edge) :
    Steps g (e, { nodes := nodes, pc := Pc.next_edge u du (edge :: edges), changed := ch })
      ((relax_edge u du (e, ch) edge).1,
        { nodes := nodes, pc := Pc.next_edge u du edges,
          changed := (relax_edge u du (e, ch) edge).2 }) := by
  unfold relax_edge
  dsimp only
  by_cases hr : e.atomic_distances.length ≤ edge.target
  · rw [if_pos hr]
    have h1 := Steps.one g e
      { nodes := nodes, pc := Pc.next_edge u du (edge :: edges), changed := ch }
    simp only [step, if_pos hr] at h1
    exact h1
  · rw [if_neg hr]
    cases hws : edge.weights with
    | nil =>
      have h1 := Steps.one g e
        { nodes := nodes, pc := Pc.next_edge u du (edge :: edges), changed := ch }
      simp only [step, if_neg hr, hws] at h1
      exact h1
    | cons wt ws =>
      dsimp only
      have h1 := Steps.one g e
        { nodes := nodes, pc := Pc.next_edge u du (edge :: edges), changed := ch }
      simp only [step, if_neg hr, hws] at h1
      refine h1.chain ?_
      by_cases hlt : Double.lt (Double.add du (Double.of_int wt))
          (e.atomic_distances.getD edge.target Double.DBL_MAX) = true
      · rw [if_pos hlt]
        have h2 := Steps.one g e
          { nodes := nodes,
            pc := Pc.cas u du edge.target (Double.add du (Double.of_int wt))
              (e.atomic_distances.getD edge.target Double.DBL_MAX) edges,
            changed := ch }
        simp only [step, if_pos hlt, if_true] at h2
        refine h2.chain ?_
        have h3 := Steps.one g
          { e with atomic_distances :=
              e.atomic_distances.set edge.target (Double.add du (Double.of_int wt)) }
          { nodes := nodes, pc := Pc.write_pred u du edge.target edges, changed := ch }
        simp only [step] at h3
        exact h3
      · rw [if_neg hlt]
        have h2 := Steps.one g e
          { nodes := nodes,
            pc := Pc.cas u du edge.target (Double.add du (Double.of_int wt))
              (e.atomic_distances.getD edge.target Double.DBL_MAX) edges,
            changed := ch }
        simp only [step, if_neg hlt] at h2
        exact h2

theorem steps_edges (g : DynamicGraph) (nodes : List Nat) (u : Nat) (du : Double)
    (edges : List Edge) :
    ∀ (e : HybridEngine) (ch : Bool),
      Steps g (e, { nodes := nodes, pc := Pc.next_edge u du edges, changed := ch })
        ((edges.foldl (relax_edge u du) (e, ch)).1,
          { nodes := nodes, pc := Pc.next_node,
            changed := (edges.foldl (relax_edge u du) (e, ch)).2 }) := by
  induction edges with
  | nil =>
    intro e ch
    have h1 := Steps.one g e { nodes := nodes, pc := Pc.next_edge u du [], changed := ch }
    simp only [step] at h1
    exact h1
  | cons edge rest ih =>
    intro e ch
    simp only [List.foldl_cons]
    exact (steps_edge g e nodes ch u du edge rest).chain (ih _ _)

/-- One iteration of the `for`: the worker leaves what `relax_node` leaves. -/
theorem steps_node (g : DynamicGraph) (e : HybridEngine) (ch : Bool) (u : Nat)
    (rest : List Nat) :
    Steps g (e, { nodes := u :: rest, pc := Pc.next_node, changed := ch })
      ((relax_node g (e, ch) u).1,
        { nodes := rest, pc := Pc.next_node, changed := (relax_node g (e, ch) u).2 }) := by
  unfold relax_node
  dsimp only
  have h1 := Steps.one g e { nodes := u :: rest, pc := Pc.next_node, changed := ch }
  by_cases hmax : e.atomic_distances.getD u Double.DBL_MAX = Double.DBL_MAX
  · rw [if_pos hmax]
    simp only [step, if_pos hmax] at h1
    exact h1
  · rw [if_neg hmax]
    cases hedges : g.get_edges (u : Int) with
    | error err =>
      simp only [step, if_neg hmax, hedges] at h1
      exact h1
    | ok edges =>
      simp only [step, if_neg hmax, hedges] at h1
      exact h1.chain (steps_edges g rest u _ edges e ch)

theorem steps_nodes (g : DynamicGraph) (nodes : List Nat) :
    ∀ (e : HybridEngine) (ch : Bool),
      Steps g (e, { nodes := nodes, pc := Pc.next_node, changed := ch })
        ((nodes.foldl (relax_node g) (e, ch)).1,
          { nodes := [], pc := Pc.next_node,
            changed := (nodes.foldl (relax_node g) (e, ch)).2 }) := by
  induction nodes with
  | nil => intro e ch; exact Steps.stay g _
  | cons u rest ih =>
    intro e ch
    simp only [List.foldl_cons]
    exact (steps_node g e ch u rest).chain (ih _ _)

/-- A team of one worker that runs all the iterations in order leaves what `round`
leaves. -/
theorem round_team_one_worker (g : DynamicGraph) (e : HybridEngine) :
    ∃ k, round_team g [List.range g.node_count] (List.replicate k 0) e
      = some (round g e) := by
  obtain ⟨k, hk⟩ := steps_nodes g (List.range g.node_count) e false
  refine ⟨k, ?_⟩
  unfold round_team
  dsimp only at hk ⊢
  simp only [List.map_cons, List.map_nil]
  rw [hk]
  simp [Worker.finished, round]

theorem rounds_team_one_worker (g : DynamicGraph) :
    ∀ k e, ∃ schedules, rounds_team g [List.range g.node_count] k schedules e
      = some (rounds g k e) := by
  intro k
  induction k with
  | zero =>
    intro e
    obtain ⟨n, hn⟩ := round_team_one_worker g e
    refine ⟨[List.replicate n 0], ?_⟩
    simp only [rounds_team, rounds, hn, Option.map_some']
  | succ k ih =>
    intro e
    obtain ⟨n, hn⟩ := round_team_one_worker g e
    by_cases hch : (round g e).2 = true
    · obtain ⟨rest, hrest⟩ := ih (round g e).1
      refine ⟨List.replicate n 0 :: rest, ?_⟩
      simp only [rounds_team, rounds, hn, if_pos hch]
      exact hrest
    · refine ⟨[List.replicate n 0], ?_⟩
      simp only [rounds_team, rounds, hn, if_neg hch]

/-- The run of one worker is one of the runs of the team: with a single worker
that holds all the iterations, `compute_parallel_team` returns what
`compute_parallel` returns. -/
theorem compute_parallel_team_one_worker (g : DynamicGraph) (e : HybridEngine)
    (source : Int) :
    ∃ schedules, compute_parallel_team g [List.range g.node_count] schedules e source
      = some (compute_parallel g e source) := by
  unfold compute_parallel_team compute_parallel
  by_cases h : source < 0 ∨ (g.node_count : Int) ≤ source
  · exact ⟨[], by rw [if_pos h, if_pos h]⟩
  · obtain ⟨schedules, hs⟩ := rounds_team_one_worker g (max 100 (g.node_count - 1) - 1)
      { e with atomic_distances :=
          (e.atomic_distances.map fun _ => Double.DBL_MAX).set source.toNat (Double.fin 0) }
    exact ⟨schedules, by rw [if_neg h, if_neg h]; exact hs⟩

end HybridEngine
end Binary64

theorem race_graph_reachable : Reachable race_graph 0 3 :=
  ⟨_, Walk.snoc (⟨3, [5]⟩ : Edge) Walk.nil (by simp [race_graph])⟩

/-- C36, as the code behaves with two workers: on four nodes with the edges
`0 -> 2` (1), `0 -> 3` (5) and `2 -> 3` (1), worker 0 running the iterations 0 and 1
and worker 1 the iterations 2 and 3, there is a schedule of `compute_parallel(0)` on
a fresh engine that ends with distance 2 and predecessor 0 for node 3: worker 0
wins the compare-and-swap with 5, worker 1 then lowers the cell to 2 and writes
predecessor 2, and worker 0 enters its critical section afterwards and writes 0.
No edge `0 -> 3` gives `distance[3] == distance[0] + w[0]`.  One worker alone
leaves predecessor 2. -/
theorem predecessor_write_races :
    race_graph.WellFormed ∧ race_graph.NonNegWeights ∧ Reachable race_graph 0 3 ∧
    (Binary64.HybridEngine.compute_parallel_team race_graph [[0, 1], [2, 3]]
        [race_schedule, calm_schedule] (Binary64.HybridEngine.new race_graph) 0).map
      (fun e => (e.get_distances, e.get_predecessors))
      = some ([Double.fin 0, Double.DBL_MAX, Double.fin 1, Double.fin 2], [-1, -1, 0, 0]) ∧
    (∀ edge ∈ race_graph.adj.getD 0 [], edge.target = 3 →
      Double.add (Double.fin 0) (Double.of_int (edge.weights.headD 0)) = Double.fin 5) ∧
    (Binary64.HybridEngine.compute_parallel_team race_graph [[0, 1], [2, 3]]
        [calm_schedule, calm_schedule] (Binary64.HybridEngine.new race_graph) 0).map
      (fun e => (e.get_distances, e.get_predecessors))
      = some ([Double.fin 0, Double.DBL_MAX, Double.fin 1, Double.fin 2], [-1, -1, 0, 2]) ∧
    (Binary64.HybridEngine.compute_parallel race_graph
      (Binary64.HybridEngine.new race_graph) 0).get_predecessors = [-1, -1, 0, 2] := by
  refine ⟨by decide, by decide, race_graph_reachable, ?_, ?_, ?_, ?_⟩
  · set_option maxRecDepth 100000 in set_option exponentiation.threshold 2000 in decide
  · set_option maxRecDepth 100000 in set_option exponentiation.threshold 2000 in decide
  · set_option maxRecDepth 100000 in set_option exponentiation.threshold 2000 in decide
  · set_option maxRecDepth 100000 in set_option exponentiation.threshold 2000 in decide

end PDC

/-! ## hybrid_engine.cpp: the predecessors one worker leaves -/

namespace PDC

/-- With one worker and sums below `2 ^ 53`: for a graph satisfying the class
invariant whose first weights are integers between `0` and `W` with
`node_count * W < 2 ^ 53`, after `compute_parallel(source)` on a freshly constructed
engine, each round run by one worker in node order on `double` cells, the source
and every node it does not reach have predecessor `-1`, and every other node `v` it
reaches has a predecessor `p` with an edge `p -> v` such that
`distance[v] = distance[p] + w[0]`. -/
theorem one_worker_predecessors_are_tight (g : DynamicGraph) (hwf : g.WellFormed)
    (hnn : g.NonNegWeights) (W : Int) (hW : g.WeightsBelow W)
    (hsmall : (g.node_count : Int) * W < 2 ^ 53) (s : Nat) (hs : s < g.node_count) :
    (Binary64.HybridEngine.compute_parallel g (Binary64.HybridEngine.new g)
      (s : Int)).get_predecessors.length = g.node_count ∧
    (Binary64.HybridEngine.compute_parallel g (Binary64.HybridEngine.new g)
      (s : Int)).get_predecessors.getD s (-1) = -1 ∧
    ∀ v : Nat, v < g.node_count →
      (¬ Reachable g s v →
        (Binary64.HybridEngine.compute_parallel g (Binary64.HybridEngine.new g)
          (s : Int)).get_predecessors.getD v (-1) = -1) ∧
      (Reachable g s v → v ≠ s →
        ∃ (p : Nat) (edge : Edge) (dp : Int), p < g.node_count ∧
          (Binary64.HybridEngine.compute_parallel g (Binary64.HybridEngine.new g)
            (s : Int)).get_predecessors.getD v (-1) = (p : Int) ∧
          edge ∈ g.adj.getD p [] ∧ edge.target = v ∧
          (Binary64.HybridEngine.compute_parallel g (Binary64.HybridEngine.new g)
            (s : Int)).get_distances.getD p Double.DBL_MAX = Double.fin dp ∧
          (Binary64.HybridEngine.compute_parallel g (Binary64.HybridEngine.new g)
            (s : Int)).get_distances.getD v Double.DBL_MAX
            = Double.fin (dp + edge.weights.headD 0)) := by
  have hW1 : g.WeightsBelow (max W 0) :=
    fun es hes edge hedge => le_trans (hW es hes edge hedge) (le_max_left _ _)
  have hsmall1 : (g.node_count : Int) * max W 0 < 2 ^ 53 := by
    rcases le_total W 0 with h | h
    · rw [max_eq_right h]
      norm_num
    · rw [max_eq_left h]
      exact hsmall
  have hsim := HybridEngine.compute_parallel_to64 g hwf hnn (max W 0) hW1 (le_max_right _ _)
    hsmall1 (Binary64.HybridEngine.new g) (by simp [Binary64.HybridEngine.new]) s hs
  have hnew : ({ atomic_distances := List.replicate g.node_count (none : Option Int),
                 predecessors := (Binary64.HybridEngine.new g).predecessors } : HybridEngine)
      = HybridEngine.new g := rfl
  rw [hnew] at hsim
  rw [hsim]
  obtain ⟨h1, h2, h3⟩ := predecessors_are_tight g hwf hnn s hs
  refine ⟨h1, h2, ?_⟩
  intro v hv
  obtain ⟨h4, h5⟩ := h3 v hv
  refine ⟨h4, ?_⟩
  intro hr hvs
  obtain ⟨p, edge, dp, hp, hpred, hedge, htarget, hdp, hdv⟩ := h5 hr hvs
  refine ⟨p, edge, dp, hp, hpred, hedge, htarget, ?_, ?_⟩
  · show (List.map Double.of_dist _).getD p Double.DBL_MAX = _
    rw [Double.getD_of_dist]
    unfold HybridEngine.get_distances at hdp
    rw [hdp]
    rfl
  · show (List.map Double.of_dist _).getD v Double.DBL_MAX = _
    rw [Double.getD_of_dist]
    unfold HybridEngine.get_distances at hdv
    rw [hdv]
    rfl

theorem one_worker_predecessors_are_tight_witness :
    (Binary64.HybridEngine.compute_parallel race_graph (Binary64.HybridEngine.new race_graph)
      ((0 : Nat) : Int)).get_predecessors.length = race_graph.node_count ∧
    (Binary64.HybridEngine.compute_parallel race_graph (Binary64.HybridEngine.new race_graph)
      ((0 : Nat) : Int)).get_predecessors.getD 0 (-1) = -1 ∧
    ∀ v : Nat, v < race_graph.node_count →
      (¬ Reachable race_graph 0 v →
        (Binary64.HybridEngine.compute_parallel race_graph
          (Binary64.HybridEngine.new race_graph)
          ((0 : Nat) : Int)).get_predecessors.getD v (-1) = -1) ∧
      (Reachable race_graph 0 v → v ≠ 0 →
        ∃ (p : Nat) (edge : Edge) (dp : Int), p < race_graph.node_count ∧
          (Binary64.HybridEngine.compute_parallel race_graph
            (Binary64.HybridEngine.new race_graph)
            ((0 : Nat) : Int)).get_predecessors.getD v (-1) = (p : Int) ∧
          edge ∈ race_graph.adj.getD p [] ∧ edge.target = v ∧
          (Binary64.HybridEngine.compute_parallel race_graph
            (Binary64.HybridEngine.new race_graph)
            ((0 : Nat) : Int)).get_distances.getD p Double.DBL_MAX = Double.fin dp ∧
          (Binary64.HybridEngine.compute_parallel race_graph
            (Binary64.HybridEngine.new race_graph)
            ((0 : Nat) : Int)).get_distances.getD v Double.DBL_MAX
            = Double.fin (dp + edge.weights.headD 0)) :=
  one_worker_predecessors_are_tight race_graph (by decide) (by decide) 5 (by decide)
    (by decide) 0 (by decide)

end PDC
